import Mathlib

/-!
# Chess core: board, move generation, notation, search

A shallow embedding of the chess core (`core/Types.h`, `core/Piece`, `core/Move`,
`core/Position`, `core/Board`, `core/MoveGenerator`, `core/MoveValidator`,
`ai/Evaluator`, `ai/Engine`) together with theorems about it.

Conventions of the embedding:
* `Square` is `uint8_t` in the source; here a square is a `Nat`, and `makeSquare` reduces
  its `int` result modulo 256 as the conversion to `uint8_t` does.
* `int` locals used for files, ranks and counters are `Int`; the two move counters are
  never reduced modulo 2^32 (signed overflow of `halfmoveClock_++` is undefined in the
  source), the search scores are (see `ai/Engine`).
* `std::array<Piece, 64>` is a function `Nat → Piece`; only the cells `0..63` are
  cells of the board.
* `std::vector<Move>` is a `List Move`, `push_back` appends at the end.
* `std::string` is a `List Char`.
-/

namespace Chess

/-! ## core/Types.h -/

inductive PieceType where
  | None | Pawn | Knight | Bishop | Rook | Queen | King
  deriving DecidableEq, Repr

inductive Color where
  | White | Black | None
  deriving DecidableEq, Repr

def BOARD_SIZE : Int := 8

def NUM_SQUARES : Nat := 64

/-- The function `makeSquare(file, rank)`: `rank * BOARD_SIZE + file`, converted to `uint8_t`. -/
def makeSquare (file rank : Int) : Nat := ((rank * BOARD_SIZE + file) % 256).toNat

/-- The function `getFile(sq)`: `sq % BOARD_SIZE`. -/
def getFile (sq : Nat) : Int := ((sq % 8 : Nat) : Int)

/-- The function `getRank(sq)`: `sq / BOARD_SIZE`. -/
def getRank (sq : Nat) : Int := ((sq / 8 : Nat) : Int)

/-- The function `oppositeColor(c)`. -/
def oppositeColor (c : Color) : Color :=
  if c = Color.White then Color.Black else Color.White

/-! ## core/Piece -/

structure Piece where
  type : PieceType
  color : Color
  deriving DecidableEq, Repr

namespace Piece

/-- The default constructor `Piece()`: the tombstone of an empty cell. -/
def empty : Piece := ⟨PieceType.None, Color.None⟩

def isNone (p : Piece) : Bool := decide (p.type = PieceType.None)

def isWhite (p : Piece) : Bool := decide (p.color = Color.White)

def isBlack (p : Piece) : Bool := decide (p.color = Color.Black)

/-- The method `Piece::toChar`: upper case for White, the letter plus 32 otherwise. -/
def toChar (p : Piece) : Char :=
  if p.type = PieceType.None then '.'
  else
    let c : Char :=
      match p.type with
      | PieceType.Pawn => 'P'
      | PieceType.Knight => 'N'
      | PieceType.Bishop => 'B'
      | PieceType.Rook => 'R'
      | PieceType.Queen => 'Q'
      | PieceType.King => 'K'
      | PieceType.None => '.'
    if p.color = Color.White then c else Char.ofNat (c.toNat + 32)

/-- The method `Piece::value`. -/
def value (p : Piece) : Int :=
  match p.type with
  | PieceType.Pawn => 100
  | PieceType.Knight => 320
  | PieceType.Bishop => 330
  | PieceType.Rook => 500
  | PieceType.Queen => 900
  | PieceType.King => 20000
  | PieceType.None => 0

end Piece

/-! ## core/Move -/

inductive MoveFlag where
  | Normal | Capture | EnPassant | Castling | Promotion | DoublePawnPush
  deriving DecidableEq, Repr

/-- The class `Move`; the fields carry the names of its private members where `from`
is reserved. -/
structure Move where
  from_ : Nat
  to_ : Nat
  flag : MoveFlag := MoveFlag.Normal
  promotion : PieceType := PieceType.None
  deriving DecidableEq, Repr

namespace Move

/-- The default constructor `Move()`. -/
def default : Move := ⟨0, 0, MoveFlag.Normal, PieceType.None⟩

def isCapture (m : Move) : Bool :=
  decide (m.flag = MoveFlag.Capture) || decide (m.flag = MoveFlag.EnPassant)

def isPromotion (m : Move) : Bool := decide (m.flag = MoveFlag.Promotion)

def isCastling (m : Move) : Bool := decide (m.flag = MoveFlag.Castling)

def isEnPassant (m : Move) : Bool := decide (m.flag = MoveFlag.EnPassant)

def isValid (m : Move) : Bool := decide (m.from_ ≠ m.to_)

end Move

/-! ## core/Position -/

structure PositionState where
  enPassantSquare : Nat
  whiteCanCastleKingside : Bool
  whiteCanCastleQueenside : Bool
  blackCanCastleKingside : Bool
  blackCanCastleQueenside : Bool
  halfmoveClock : Int
  fullmoveNumber : Int
  deriving DecidableEq, Repr

structure Position where
  sideToMove : Color
  enPassantSquare : Nat
  whiteCanCastleKingside : Bool
  whiteCanCastleQueenside : Bool
  blackCanCastleKingside : Bool
  blackCanCastleQueenside : Bool
  halfmoveClock : Int
  fullmoveNumber : Int
  deriving DecidableEq, Repr

namespace Position

/-- The constructor `Position()`. -/
def initial : Position :=
  { sideToMove := Color.White, enPassantSquare := 255,
    whiteCanCastleKingside := true, whiteCanCastleQueenside := true,
    blackCanCastleKingside := true, blackCanCastleQueenside := true,
    halfmoveClock := 0, fullmoveNumber := 1 }

def canCastleKingside (p : Position) (c : Color) : Bool :=
  if c = Color.White then p.whiteCanCastleKingside else p.blackCanCastleKingside

def canCastleQueenside (p : Position) (c : Color) : Bool :=
  if c = Color.White then p.whiteCanCastleQueenside else p.blackCanCastleQueenside

def setCastlingRights (p : Position) (c : Color) (kingside queenside : Bool) : Position :=
  if c = Color.White then
    { p with whiteCanCastleKingside := kingside, whiteCanCastleQueenside := queenside }
  else
    { p with blackCanCastleKingside := kingside, blackCanCastleQueenside := queenside }

def setSideToMove (p : Position) (c : Color) : Position := { p with sideToMove := c }

def setEnPassantSquare (p : Position) (sq : Nat) : Position := { p with enPassantSquare := sq }

/-- The method `Position::getState`: the snapshot has no side-to-move field. -/
def getState (p : Position) : PositionState :=
  { enPassantSquare := p.enPassantSquare,
    whiteCanCastleKingside := p.whiteCanCastleKingside,
    whiteCanCastleQueenside := p.whiteCanCastleQueenside,
    blackCanCastleKingside := p.blackCanCastleKingside,
    blackCanCastleQueenside := p.blackCanCastleQueenside,
    halfmoveClock := p.halfmoveClock,
    fullmoveNumber := p.fullmoveNumber }

/-- The method `Position::setState`: assigns the seven snapshot fields, `sideToMove_`
is left as it is. -/
def setState (p : Position) (s : PositionState) : Position :=
  { p with
    enPassantSquare := s.enPassantSquare,
    whiteCanCastleKingside := s.whiteCanCastleKingside,
    whiteCanCastleQueenside := s.whiteCanCastleQueenside,
    blackCanCastleKingside := s.blackCanCastleKingside,
    blackCanCastleQueenside := s.blackCanCastleQueenside,
    halfmoveClock := s.halfmoveClock,
    fullmoveNumber := s.fullmoveNumber }

/-- The four castling rights of a position: White king-side, White queen-side, Black
king-side, Black queen-side. -/
def rights (p : Position) : Bool × Bool × Bool × Bool :=
  (p.whiteCanCastleKingside, p.whiteCanCastleQueenside, p.blackCanCastleKingside,
    p.blackCanCastleQueenside)

end Position

/-- Reduction of an integer to the range of a 32-bit `int` (two's complement): the
value an `int` holds after an arithmetic operation. -/
def wrap32 (v : Int) : Int := (v + 2147483648) % 4294967296 - 2147483648

/-! ## core/Board -/

structure UndoInfo where
  capturedPiece : Piece
  state : PositionState
  deriving DecidableEq, Repr

/-- The class `Board`. The undo stack `history_` is a list whose head is `back()`. -/
structure Board where
  squares : Nat → Piece
  position : Position
  history : List UndoInfo

namespace Board

/-- The constructor `Board()`: every cell is `Piece()`, the position is `Position()`. -/
def empty : Board :=
  { squares := fun _ => Piece.empty, position := Position.initial, history := [] }

def pieceAt (b : Board) (sq : Nat) : Piece := b.squares sq

def setPiece (b : Board) (sq : Nat) (p : Piece) : Board :=
  { b with squares := fun s => if s = sq then p else b.squares s }

def removePiece (b : Board) (sq : Nat) : Board := b.setPiece sq Piece.empty

/-- The loop `for (auto& sq : squares_) sq = Piece();`. -/
def clearSquares (b : Board) : Board := { b with squares := fun _ => Piece.empty }

/-- The method `Board::setupInitialPosition`. -/
def setupInitialPosition (b : Board) : Board :=
  let b := b.clearSquares
  let b := b.setPiece (makeSquare 0 0) ⟨PieceType.Rook, Color.White⟩
  let b := b.setPiece (makeSquare 1 0) ⟨PieceType.Knight, Color.White⟩
  let b := b.setPiece (makeSquare 2 0) ⟨PieceType.Bishop, Color.White⟩
  let b := b.setPiece (makeSquare 3 0) ⟨PieceType.Queen, Color.White⟩
  let b := b.setPiece (makeSquare 4 0) ⟨PieceType.King, Color.White⟩
  let b := b.setPiece (makeSquare 5 0) ⟨PieceType.Bishop, Color.White⟩
  let b := b.setPiece (makeSquare 6 0) ⟨PieceType.Knight, Color.White⟩
  let b := b.setPiece (makeSquare 7 0) ⟨PieceType.Rook, Color.White⟩
  let b := (List.range 8).foldl
    (fun b file => b.setPiece (makeSquare file 1) ⟨PieceType.Pawn, Color.White⟩) b
  let b := (List.range 8).foldl
    (fun b file => b.setPiece (makeSquare file 6) ⟨PieceType.Pawn, Color.Black⟩) b
  let b := b.setPiece (makeSquare 0 7) ⟨PieceType.Rook, Color.Black⟩
  let b := b.setPiece (makeSquare 1 7) ⟨PieceType.Knight, Color.Black⟩
  let b := b.setPiece (makeSquare 2 7) ⟨PieceType.Bishop, Color.Black⟩
  let b := b.setPiece (makeSquare 3 7) ⟨PieceType.Queen, Color.Black⟩
  let b := b.setPiece (makeSquare 4 7) ⟨PieceType.King, Color.Black⟩
  let b := b.setPiece (makeSquare 5 7) ⟨PieceType.Bishop, Color.Black⟩
  let b := b.setPiece (makeSquare 6 7) ⟨PieceType.Knight, Color.Black⟩
  let b := b.setPiece (makeSquare 7 7) ⟨PieceType.Rook, Color.Black⟩
  { b with position := Position.initial }

/-- The method `Board::findKing`: the first square in `0..63` with a king of the colour,
`255` when there is none. -/
def findKing (b : Board) (color : Color) : Nat :=
  ((List.range NUM_SQUARES).find?
    (fun sq => decide ((b.pieceAt sq).type = PieceType.King) &&
      decide ((b.pieceAt sq).color = color))).getD 255

/-- The predicate `file >= 0 && file < 8 && rank >= 0 && rank < 8`. -/
def onBoard (file rank : Int) : Bool :=
  decide (0 ≤ file) && decide (file < 8) && decide (0 ≤ rank) && decide (rank < 8)

def knightMoves : List (Int × Int) :=
  [(-2, -1), (-2, 1), (-1, -2), (-1, 2), (1, -2), (1, 2), (2, -1), (2, 1)]

def kingMoves : List (Int × Int) :=
  [(-1, -1), (-1, 0), (-1, 1), (0, -1), (0, 1), (1, -1), (1, 0), (1, 1)]

def diagDirs : List (Int × Int) := [(1, 1), (1, -1), (-1, 1), (-1, -1)]

def straightDirs : List (Int × Int) := [(0, 1), (0, -1), (1, 0), (-1, 0)]

/-- One `while` loop of `isSquareAttacked`: walks from `(file, rank)` in direction
`(df, dr)` while on the board; the first occupied cell decides (`return true` when it
is a slider of kind `t1` or `t2` of colour `byColor`, `break` otherwise). A ray holds
at most 8 cells of the board, so 8 iterations are all the loop can make; running out
of them is leaving the board. -/
def attackRay (b : Board) (byColor : Color) (t1 t2 : PieceType) (df dr : Int) :
    Nat → Int → Int → Bool
  | 0, _, _ => false
  | fuel + 1, file, rank =>
    if onBoard file rank then
      let piece := b.pieceAt (makeSquare file rank)
      if !piece.isNone then
        decide (piece.color = byColor) &&
          (decide (piece.type = t1) || decide (piece.type = t2))
      else attackRay b byColor t1 t2 df dr fuel (file + df) (rank + dr)
    else false

/-- The leaper loops of `isSquareAttacked` (knight and king): some offset lands on the
board on a piece of the given type and colour. -/
def attackLeap (b : Board) (byColor : Color) (t : PieceType) (offsets : List (Int × Int))
    (targetFile targetRank : Int) : Bool :=
  offsets.any fun mv =>
    let newFile := targetFile + mv.1
    let newRank := targetRank + mv.2
    onBoard newFile newRank &&
      (decide ((b.pieceAt (makeSquare newFile newRank)).type = t) &&
        decide ((b.pieceAt (makeSquare newFile newRank)).color = byColor))

/-- The pawn block of `isSquareAttacked`. -/
def attackPawn (b : Board) (byColor : Color) (targetFile targetRank : Int) : Bool :=
  let pawnDir : Int := if byColor = Color.White then 1 else -1
  let pawnRank := targetRank - pawnDir
  if 0 ≤ pawnRank ∧ pawnRank < 8 then
    (decide (targetFile > 0) &&
      (decide ((b.pieceAt (makeSquare (targetFile - 1) pawnRank)).type = PieceType.Pawn) &&
        decide ((b.pieceAt (makeSquare (targetFile - 1) pawnRank)).color = byColor))) ||
    (decide (targetFile < 7) &&
      (decide ((b.pieceAt (makeSquare (targetFile + 1) pawnRank)).type = PieceType.Pawn) &&
        decide ((b.pieceAt (makeSquare (targetFile + 1) pawnRank)).color = byColor)))
  else false

/-- The method `Board::isSquareAttacked`. -/
def isSquareAttacked (b : Board) (sq : Nat) (byColor : Color) : Bool :=
  let targetFile := getFile sq
  let targetRank := getRank sq
  attackPawn b byColor targetFile targetRank ||
  attackLeap b byColor PieceType.Knight knightMoves targetFile targetRank ||
  diagDirs.any (fun dir =>
    attackRay b byColor PieceType.Bishop PieceType.Queen dir.1 dir.2 8
      (targetFile + dir.1) (targetRank + dir.2)) ||
  straightDirs.any (fun dir =>
    attackRay b byColor PieceType.Rook PieceType.Queen dir.1 dir.2 8
      (targetFile + dir.1) (targetRank + dir.2)) ||
  attackLeap b byColor PieceType.King kingMoves targetFile targetRank

/-- The method `Board::isCheck`. -/
def isCheck (b : Board) (color : Color) : Bool :=
  let kingSq := b.findKing color
  if kingSq = 255 then false else b.isSquareAttacked kingSq (oppositeColor color)

/-- The castling block shared by `makeMove`: the rook goes from the corner to the
square next to the king (`rookFromFile`, `rookToFile` are 7, 5 or 0, 3). -/
def moveRook (b : Board) (rookFromFile rookToFile rank : Int) : Board :=
  let rookFrom := makeSquare rookFromFile rank
  let rookTo := makeSquare rookToFile rank
  let b := b.setPiece rookTo (b.pieceAt rookFrom)
  b.removePiece rookFrom

/-- The castling-rights block of `Board::makeMove`, on the position. -/
def updateCastlingRights (pos : Position) (movingPiece : Piece) (move : Move) : Position :=
  let pos :=
    if movingPiece.type = PieceType.King then
      pos.setCastlingRights movingPiece.color false false
    else pos
  if movingPiece.type = PieceType.Rook then
    if move.from_ = makeSquare 0 0 then
      pos.setCastlingRights Color.White (pos.canCastleKingside Color.White) false
    else if move.from_ = makeSquare 7 0 then
      pos.setCastlingRights Color.White false (pos.canCastleQueenside Color.White)
    else if move.from_ = makeSquare 0 7 then
      pos.setCastlingRights Color.Black (pos.canCastleKingside Color.Black) false
    else if move.from_ = makeSquare 7 7 then
      pos.setCastlingRights Color.Black false (pos.canCastleQueenside Color.Black)
    else pos
  else pos

/-- Block of `makeMove`: `history_.push_back({pieceAt(move.to()), position_.getState()})`. -/
def pushUndo (b : Board) (move : Move) : Board :=
  { b with history := ⟨b.pieceAt move.to_, b.position.getState⟩ :: b.history }

/-- Block of `makeMove`: the halfmove clock; `halfmoveClock()++` is an increment of an
`int`. -/
def updateHalfmoveClock (b : Board) (movingPiece : Piece) (move : Move) : Board :=
  if movingPiece.type = PieceType.Pawn ∨ move.isCapture = true then
    { b with position := { b.position with halfmoveClock := 0 } }
  else
    { b with position :=
        { b.position with halfmoveClock := wrap32 (b.position.halfmoveClock + 1) } }

/-- Block of `makeMove`: castling relocates the rook. -/
def castleRook (b : Board) (move : Move) : Board :=
  if move.isCastling then
    let rank := getRank move.from_
    if getFile move.to_ = 6 then b.moveRook 7 5 rank else b.moveRook 0 3 rank
  else b

/-- Block of `makeMove`: promotion replaces the arriving piece. -/
def promotePawn (b : Board) (move : Move) (movingPiece : Piece) : Board :=
  if move.isPromotion then b.setPiece move.to_ ⟨move.promotion, movingPiece.color⟩ else b

/-- Block of `makeMove`: en passant removes the cell on the destination's file and the
origin's rank. -/
def removeEnPassantPawn (b : Board) (move : Move) : Board :=
  if move.isEnPassant then
    let captureRank := getRank move.from_
    let captureSq := makeSquare (getFile move.to_) captureRank
    b.removePiece captureSq
  else b

/-- Block of `makeMove`: the en-passant target. -/
def updateEnPassant (b : Board) (movingPiece : Piece) (move : Move) : Board :=
  let b := { b with position := b.position.setEnPassantSquare 255 }
  if movingPiece.type = PieceType.Pawn then
    let rankDiff : Int := ((getRank move.to_ - getRank move.from_).natAbs : Int)
    if rankDiff = 2 then
      let epRank := (getRank move.from_ + getRank move.to_) / 2
      { b with position :=
          b.position.setEnPassantSquare (makeSquare (getFile move.from_) epRank) }
    else b
  else b

/-- Block of `makeMove`: the castling rights. -/
def updateCastling (b : Board) (movingPiece : Piece) (move : Move) : Board :=
  { b with position := updateCastlingRights b.position movingPiece move }

/-- Block of `makeMove`: the side to move and the fullmove number;
`fullmoveNumber()++` is an increment of an `int`. -/
def switchSide (b : Board) : Board :=
  let nextSide := oppositeColor b.position.sideToMove
  let pos :=
    if nextSide = Color.White then
      { b.position with fullmoveNumber := wrap32 (b.position.fullmoveNumber + 1) }
    else b.position
  { b with position := pos.setSideToMove nextSide }

/-- The method `Board::makeMove`. -/
def makeMove (b : Board) (move : Move) : Board :=
  let b := b.pushUndo move
  let movingPiece := b.pieceAt move.from_
  let b := b.updateHalfmoveClock movingPiece move
  let b := b.setPiece move.to_ movingPiece
  let b := b.removePiece move.from_
  let b := b.castleRook move
  let b := b.promotePawn move movingPiece
  let b := b.removeEnPassantPawn move
  let b := b.updateEnPassant movingPiece move
  let b := b.updateCastling movingPiece move
  b.switchSide

/-- Block of `unmakeMove`: castling puts the rook back on its corner. -/
def uncastleRook (b : Board) (move : Move) : Board :=
  if move.isCastling then
    let rank := getRank move.from_
    if getFile move.to_ = 6 then b.moveRook 5 7 rank else b.moveRook 3 0 rank
  else b

/-- Block of `unmakeMove`: a promotion leaves a pawn on the origin. -/
def unpromotePawn (b : Board) (move : Move) (movingPiece : Piece) : Board :=
  if move.isPromotion then b.setPiece move.from_ ⟨PieceType.Pawn, movingPiece.color⟩ else b

/-- Block of `unmakeMove`: en passant puts a pawn of the other colour back and empties
the destination. -/
def restoreEnPassantPawn (b : Board) (move : Move) (movingPiece : Piece) : Board :=
  if move.isEnPassant then
    let captureRank := getRank move.from_
    let captureSq := makeSquare (getFile move.to_) captureRank
    let opponentColor := oppositeColor movingPiece.color
    let b := b.setPiece captureSq ⟨PieceType.Pawn, opponentColor⟩
    b.removePiece move.to_
  else b

/-- The method `Board::unmakeMove`. -/
def unmakeMove (b : Board) (move : Move) : Board :=
  match b.history with
  | [] => b
  | undo :: rest =>
    let b := { b with history := rest }
    let b := { b with position := b.position.setState undo.state }
    let movingPiece := b.pieceAt move.to_
    let b := b.setPiece move.from_ movingPiece
    let b := b.setPiece move.to_ undo.capturedPiece
    let b := b.uncastleRook move
    let b := b.unpromotePawn move movingPiece
    b.restoreEnPassantPawn move movingPiece

/-- The method `Board::isDraw`. -/
def isDraw (b : Board) : Bool := decide (b.position.halfmoveClock ≥ 100)

/-- The method `Board::isCheckmate`: the body is `return false;`. -/
def isCheckmate (_b : Board) (_color : Color) : Bool := false

/-- The method `Board::isStalemate`: the body is `return false;`. -/
def isStalemate (_b : Board) (_color : Color) : Bool := false

end Board

/-! ## Attack, as the specification words it -/

/-- The cell `src` lies `k >= 1` steps from `sq` in the direction `(df, dr)` and every
cell strictly between them on that line is empty. -/
def Board.ClearLine (b : Board) (src sq : Nat) (df dr : Int) : Prop :=
  ∃ k : Nat, k < 8 ∧ 1 ≤ k ∧
    getFile src = getFile sq + k * df ∧ getRank src = getRank sq + k * dr ∧
    ∀ j : Nat, j < k → 1 ≤ j →
      (b.pieceAt (makeSquare (getFile sq + j * df) (getRank sq + j * dr))).isNone = true

/-- The definition of attack the generator and the check test are measured against:
the cell `src` holds a piece of colour `c` that is a pawn one rank behind `sq` (seen
in the direction the pawns of `c` advance) on an adjacent file, or a knight a
knight-leap away, or a bishop or queen on a diagonal of `sq` with the cells between
empty, or a rook or queen on the file or rank of `sq` with the cells between empty,
or a king on an adjacent cell. -/
def Board.Attacks (b : Board) (c : Color) (src sq : Nat) : Prop :=
  (b.pieceAt src).color = c ∧
  (((b.pieceAt src).type = PieceType.Pawn ∧
      getRank src = getRank sq - (if c = Color.White then 1 else -1) ∧
      (getFile src = getFile sq - 1 ∨ getFile src = getFile sq + 1)) ∨
    ((b.pieceAt src).type = PieceType.Knight ∧
      ((|getFile src - getFile sq| = 1 ∧ |getRank src - getRank sq| = 2) ∨
        (|getFile src - getFile sq| = 2 ∧ |getRank src - getRank sq| = 1))) ∨
    (((b.pieceAt src).type = PieceType.Bishop ∨ (b.pieceAt src).type = PieceType.Queen) ∧
      ∃ d ∈ Board.diagDirs, b.ClearLine src sq d.1 d.2) ∨
    (((b.pieceAt src).type = PieceType.Rook ∨ (b.pieceAt src).type = PieceType.Queen) ∧
      ∃ d ∈ Board.straightDirs, b.ClearLine src sq d.1 d.2) ∨
    ((b.pieceAt src).type = PieceType.King ∧
      |getFile src - getFile sq| ≤ 1 ∧ |getRank src - getRank sq| ≤ 1 ∧
      (getFile src ≠ getFile sq ∨ getRank src ≠ getRank sq)))

/-- The square `sq` is attacked by colour `c`: some cell `0..63` holds an attacker. -/
def Board.AttackedBy (b : Board) (sq : Nat) (c : Color) : Prop :=
  ∃ src, src < 64 ∧ b.Attacks c src sq

instance (b : Board) (src sq : Nat) (df dr : Int) : Decidable (b.ClearLine src sq df dr) := by
  unfold Board.ClearLine; infer_instance

instance (b : Board) (c : Color) (src sq : Nat) : Decidable (b.Attacks c src sq) := by
  unfold Board.Attacks; infer_instance

instance (b : Board) (sq : Nat) (c : Color) : Decidable (b.AttackedBy sq c) := by
  unfold Board.AttackedBy; infer_instance

/-- A direction of the sliding loops: each step is -1, 0 or 1 and not both are 0. -/
def Board.IsStep (d : Int × Int) : Prop :=
  (d.1 = -1 ∨ d.1 = 0 ∨ d.1 = 1) ∧ (d.2 = -1 ∨ d.2 = 0 ∨ d.2 = 1) ∧ (d.1 ≠ 0 ∨ d.2 ≠ 0)

/-! ## core/MoveGenerator -/

namespace MoveGenerator

/-- The method `MoveGenerator::isSquareValid`. -/
def isSquareValid (file rank : Int) : Bool :=
  decide (file ≥ 0) && decide (file < 8) && decide (rank ≥ 0) && decide (rank < 8)

/-- The method `MoveGenerator::addMoveIfValid`, as the moves it appends. -/
def addMoveIfValid (board : Board) (src dst : Nat) (color : Color) : List Move :=
  let target := board.pieceAt dst
  if target.isNone then [⟨src, dst, MoveFlag.Normal, PieceType.None⟩]
  else if target.color ≠ color then [⟨src, dst, MoveFlag.Capture, PieceType.None⟩]
  else []

/-- The four promotion moves pushed for a promoting pawn move. -/
def promotionMoves (src toSq : Nat) : List Move :=
  [⟨src, toSq, MoveFlag.Promotion, PieceType.Queen⟩,
   ⟨src, toSq, MoveFlag.Promotion, PieceType.Rook⟩,
   ⟨src, toSq, MoveFlag.Promotion, PieceType.Bishop⟩,
   ⟨src, toSq, MoveFlag.Promotion, PieceType.Knight⟩]

/-- The forward-move block of `generatePawnMoves`. -/
def pawnPushes (board : Board) (src : Nat) (color : Color) : List Move :=
  let file := getFile src
  let rank := getRank src
  let direction : Int := if color = Color.White then 1 else -1
  let startRank : Int := if color = Color.White then 1 else 6
  let promotionRank : Int := if color = Color.White then 7 else 0
  let newRank := rank + direction
  if newRank ≥ 0 ∧ newRank < 8 then
    let toSq := makeSquare file newRank
    if (board.pieceAt toSq).isNone then
      (if newRank = promotionRank then promotionMoves src toSq
        else [⟨src, toSq, MoveFlag.Normal, PieceType.None⟩]) ++
      (if rank = startRank then
        let doubleSq := makeSquare file (rank + 2 * direction)
        if (board.pieceAt doubleSq).isNone then
          [⟨src, doubleSq, MoveFlag.DoublePawnPush, PieceType.None⟩]
        else []
      else [])
    else []
  else []

/-- One iteration (`df` is -1 or 1) of the capture loop of `generatePawnMoves`. -/
def pawnCapturesDir (board : Board) (src : Nat) (color : Color) (df : Int) : List Move :=
  let file := getFile src
  let rank := getRank src
  let direction : Int := if color = Color.White then 1 else -1
  let promotionRank : Int := if color = Color.White then 7 else 0
  let newRank := rank + direction
  let newFile := file + df
  if newFile ≥ 0 ∧ newFile < 8 ∧ newRank ≥ 0 ∧ newRank < 8 then
    let toSq := makeSquare newFile newRank
    let target := board.pieceAt toSq
    (if !target.isNone ∧ target.color ≠ color then
      (if newRank = promotionRank then promotionMoves src toSq
        else [⟨src, toSq, MoveFlag.Capture, PieceType.None⟩])
    else []) ++
    (if toSq = board.position.enPassantSquare then
      [⟨src, toSq, MoveFlag.EnPassant, PieceType.None⟩]
    else [])
  else []

/-- The method `MoveGenerator::generatePawnMoves`, as the moves it appends. -/
def generatePawnMoves (board : Board) (src : Nat) (color : Color) : List Move :=
  pawnPushes board src color ++
    ([-1, 1] : List Int).flatMap (fun df => pawnCapturesDir board src color df)

/-- The method `MoveGenerator::generateKnightMoves`, as the moves it appends. -/
def generateKnightMoves (board : Board) (src : Nat) (color : Color) : List Move :=
  let file := getFile src
  let rank := getRank src
  Board.knightMoves.flatMap fun mv =>
    let newFile := file + mv.1
    let newRank := rank + mv.2
    if isSquareValid newFile newRank then
      addMoveIfValid board src (makeSquare newFile newRank) color
    else []

/-- One `while` loop of the slider generators: the moves along one direction, from
`(newFile, newRank)` on. A ray holds at most 8 cells of the board, so 8 iterations
are all the loop can make. -/
def slideRay (board : Board) (src : Nat) (color : Color) (df dr : Int) :
    Nat → Int → Int → List Move
  | 0, _, _ => []
  | fuel + 1, newFile, newRank =>
    if isSquareValid newFile newRank then
      let toSq := makeSquare newFile newRank
      let target := board.pieceAt toSq
      if target.isNone then
        ⟨src, toSq, MoveFlag.Normal, PieceType.None⟩ ::
          slideRay board src color df dr fuel (newFile + df) (newRank + dr)
      else if target.color ≠ color then [⟨src, toSq, MoveFlag.Capture, PieceType.None⟩]
      else []
    else []

/-- The common body of `generateBishopMoves` and `generateRookMoves`. -/
def slideMoves (board : Board) (src : Nat) (color : Color)
    (directions : List (Int × Int)) : List Move :=
  let file := getFile src
  let rank := getRank src
  directions.flatMap fun dir =>
    slideRay board src color dir.1 dir.2 8 (file + dir.1) (rank + dir.2)

/-- The method `MoveGenerator::generateBishopMoves`. -/
def generateBishopMoves (board : Board) (src : Nat) (color : Color) : List Move :=
  slideMoves board src color Board.diagDirs

/-- The method `MoveGenerator::generateRookMoves`. -/
def generateRookMoves (board : Board) (src : Nat) (color : Color) : List Move :=
  slideMoves board src color Board.straightDirs

/-- The method `MoveGenerator::generateQueenMoves`. -/
def generateQueenMoves (board : Board) (src : Nat) (color : Color) : List Move :=
  generateBishopMoves board src color ++ generateRookMoves board src color

/-- The king-side castling block of `generateKingMoves`. -/
def castleKingside (board : Board) (src : Nat) (color : Color) : List Move :=
  let file := getFile src
  let rank := getRank src
  if board.position.canCastleKingside color then
    let f1 := makeSquare (file + 1) rank
    let g1 := makeSquare (file + 2) rank
    if (board.pieceAt f1).isNone && (board.pieceAt g1).isNone &&
        !board.isSquareAttacked f1 (oppositeColor color) &&
        !board.isSquareAttacked g1 (oppositeColor color) then
      [⟨src, g1, MoveFlag.Castling, PieceType.None⟩]
    else []
  else []

/-- The queen-side castling block of `generateKingMoves`. -/
def castleQueenside (board : Board) (src : Nat) (color : Color) : List Move :=
  let file := getFile src
  let rank := getRank src
  if board.position.canCastleQueenside color then
    let d1 := makeSquare (file - 1) rank
    let c1 := makeSquare (file - 2) rank
    let b1 := makeSquare (file - 3) rank
    if (board.pieceAt d1).isNone && (board.pieceAt c1).isNone &&
        (board.pieceAt b1).isNone &&
        !board.isSquareAttacked d1 (oppositeColor color) &&
        !board.isSquareAttacked c1 (oppositeColor color) then
      [⟨src, c1, MoveFlag.Castling, PieceType.None⟩]
    else []
  else []

/-- The method `MoveGenerator::generateKingMoves`, as the moves it appends. -/
def generateKingMoves (board : Board) (src : Nat) (color : Color) : List Move :=
  let file := getFile src
  let rank := getRank src
  (Board.kingMoves.flatMap fun dir =>
    let newFile := file + dir.1
    let newRank := rank + dir.2
    if isSquareValid newFile newRank then
      addMoveIfValid board src (makeSquare newFile newRank) color
    else []) ++
  (if !board.isCheck color then
    castleKingside board src color ++ castleQueenside board src color
  else [])

/-- The body of the square loop of `generatePseudoLegalMoves`: the moves appended for
square `sq`. -/
def movesFrom (board : Board) (color : Color) (sq : Nat) : List Move :=
  let piece := board.pieceAt sq
  if piece.isNone ∨ piece.color ≠ color then []
  else
    match piece.type with
    | PieceType.Pawn => generatePawnMoves board sq color
    | PieceType.Knight => generateKnightMoves board sq color
    | PieceType.Bishop => generateBishopMoves board sq color
    | PieceType.Rook => generateRookMoves board sq color
    | PieceType.Queen => generateQueenMoves board sq color
    | PieceType.King => generateKingMoves board sq color
    | PieceType.None => []

/-- The method `MoveGenerator::generatePseudoLegalMoves`. -/
def generatePseudoLegalMoves (board : Board) (color : Color) : List Move :=
  (List.range NUM_SQUARES).flatMap (movesFrom board color)

end MoveGenerator

/-! ## core/MoveValidator -/

namespace MoveValidator

/-- The method `MoveValidator::leavesKingInCheck`: the move is made on a copy of the
board and `isCheck(color)` is asked of the copy. -/
def leavesKingInCheck (board : Board) (move : Move) (color : Color) : Bool :=
  let tempBoard := board
  let tempBoard := tempBoard.makeMove move
  tempBoard.isCheck color

/-- The method `MoveValidator::isLegal`. -/
def isLegal (board : Board) (move : Move) (color : Color) : Bool :=
  if move.from_ ≥ NUM_SQUARES ∨ move.to_ ≥ NUM_SQUARES then false
  else
    let piece := board.pieceAt move.from_
    if piece.isNone ∨ piece.color ≠ color then false
    else !leavesKingInCheck board move color

end MoveValidator

namespace MoveGenerator

/-- The method `MoveGenerator::generateLegalMoves`. -/
def generateLegalMoves (board : Board) (color : Color) : List Move :=
  (generatePseudoLegalMoves board color).filter
    (fun move => !MoveValidator.leavesKingInCheck board move color)

/-- The method `MoveGenerator::generateCaptures`. -/
def generateCaptures (board : Board) (color : Color) : List Move :=
  (generateLegalMoves board color).filter (fun move => move.isCapture)

end MoveGenerator

/-! ## Exchange format (FEN): library routines

The routines of the C++ library the notation code calls, written out: formatted
output of an `int`, `std::stoi`, and extraction of a whitespace-delimited token from
a `std::istringstream`. -/

def INT_MAX : Int := 2147483647

def INT_MIN : Int := -2147483648

/-- The decimal digit character of `d < 10`. -/
def digitChar (d : Nat) : Char := Char.ofNat (48 + d)

/-- The decimal digits of `n`, most significant first (`fuel` bounds the number of
digits; `n + 1` is always enough). -/
def decDigits : Nat → Nat → List Char
  | 0, _ => []
  | fuel + 1, n =>
    if n < 10 then [digitChar n] else decDigits fuel (n / 10) ++ [digitChar (n % 10)]

/-- The output `os << n` of a non-negative number. -/
def natToString (n : Nat) : List Char := decDigits (n + 1) n

/-- The output `os << i` of an `int`. -/
def intToString (i : Int) : List Char :=
  if i < 0 then '-' :: natToString i.natAbs else natToString i.natAbs

/-- The predicate `std::isspace` in the C locale. -/
def isSpace (c : Char) : Bool :=
  c = ' ' || c = '\t' || c = '\n' || c = '\r' || c.toNat = 11 || c.toNat = 12

/-- The value of a run of decimal digits, as `std::stoi` accumulates it. -/
def digitsValue (ds : List Char) : Int :=
  ds.foldl (fun acc c => acc * 10 + ((c.toNat : Int) - 48)) 0

/-- The optional sign `std::stoi` accepts before the digits: whether it is a minus,
and the characters after it. -/
def splitSign (s : List Char) : Bool × List Char :=
  match s with
  | '-' :: t => (true, t)
  | '+' :: t => (false, t)
  | _ => (false, s)

/-- The function `std::stoi(str)`: leading white space, an optional sign, then decimal
digits up to the first other character. `none` stands for the exceptions it throws
(`invalid_argument` without a digit, `out_of_range` outside `int`). -/
def stoi (str : List Char) : Option Int :=
  let s := str.dropWhile isSpace
  let signed := splitSign s
  let ds := signed.2.takeWhile Char.isDigit
  if ds.isEmpty then none
  else
    let n : Int := digitsValue ds
    let v := if signed.1 then -n else n
    if INT_MIN ≤ v ∧ v ≤ INT_MAX then some v else none

/-- The state of a `std::istringstream`: the characters not yet read and the fail bit. -/
structure IStream where
  rest : List Char
  fail : Bool

namespace IStream

/-- The constructor `std::istringstream ss(str)`. -/
def ofString (str : List Char) : IStream := ⟨str, false⟩

/-- The extraction `ss >> token`: skips white space, then takes the characters up to
the next white space. At the end of the input the fail bit is set and `token` keeps
its value; a failed stream stays failed. -/
def readToken (ss : IStream) (token : List Char) : IStream × List Char :=
  if ss.fail then (ss, token)
  else
    let r := ss.rest.dropWhile isSpace
    if r.isEmpty then (⟨[], true⟩, token)
    else (⟨r.dropWhile (fun c => !isSpace c), false⟩, r.takeWhile (fun c => !isSpace c))

end IStream

/-- A token of the exchange format: not empty and free of white space. -/
def IsToken (t : List Char) : Prop := t ≠ [] ∧ ∀ c ∈ t, isSpace c = false

/-! ## core/Types.h: square notation -/

/-- The function `squareToString(sq)`. -/
def squareToString (sq : Nat) : List Char :=
  [Char.ofNat (97 + (getFile sq).toNat), Char.ofNat (49 + (getRank sq).toNat)]

/-- The function `stringToSquare(str)`. -/
def stringToSquare (str : List Char) : Nat :=
  match str with
  | [c0, c1] =>
    let file : Int := (c0.toNat : Int) - 97
    let rank : Int := (c1.toNat : Int) - 49
    if file < 0 ∨ file ≥ 8 ∨ rank < 0 ∨ rank ≥ 8 then 255 else makeSquare file rank
  | _ => 255

/-! ## core/Position: notation -/

namespace Position

/-- The method `Position::toFEN`. -/
def toFEN (p : Position) : List Char :=
  let castling : List Char :=
    (if p.whiteCanCastleKingside then ['K'] else []) ++
    (if p.whiteCanCastleQueenside then ['Q'] else []) ++
    (if p.blackCanCastleKingside then ['k'] else []) ++
    (if p.blackCanCastleQueenside then ['q'] else [])
  (if p.sideToMove = Color.White then ['w'] else ['b']) ++ [' '] ++
  (if castling.isEmpty then ['-'] else castling) ++ [' '] ++
  (if p.enPassantSquare ≠ 255 then squareToString p.enPassantSquare else ['-']) ++ [' '] ++
  intToString p.halfmoveClock ++ [' '] ++ intToString p.fullmoveNumber

/-- The method `Position::setFromFEN`; `none` when `std::stoi` throws. -/
def setFromFEN (p : Position) (fen : List Char) : Option Position :=
  let ss := IStream.ofString fen
  let (ss, token) := ss.readToken []
  let (ss, token) := ss.readToken token
  let p := { p with sideToMove := if token = ['w'] then Color.White else Color.Black }
  let (ss, token) := ss.readToken token
  let p := { p with
    whiteCanCastleKingside := token.contains 'K',
    whiteCanCastleQueenside := token.contains 'Q',
    blackCanCastleKingside := token.contains 'k',
    blackCanCastleQueenside := token.contains 'q' }
  let (ss, token) := ss.readToken token
  let p := { p with
    enPassantSquare := if token ≠ ['-'] then stringToSquare token else 255 }
  let (ss, token) := ss.readToken token
  let p? : Option Position :=
    if !ss.fail then (stoi token).map (fun v => { p with halfmoveClock := v }) else some p
  p?.bind fun p =>
    let (ss, token) := ss.readToken token
    if !ss.fail then (stoi token).map (fun v => { p with fullmoveNumber := v }) else some p

end Position

/-! ## core/Board: notation -/

namespace Board

/-- The function `std::tolower` on the letters `A..Z` (C locale). -/
def toLower (c : Char) : Char :=
  if 'A' ≤ c ∧ c ≤ 'Z' then Char.ofNat (c.toNat + 32) else c

/-- The body of the character loop of `Board::setFromFEN`; the state is the board
with the `int` locals `rank` and `file`. -/
def parseBoardChar (st : Board × Int × Int) (c : Char) : Board × Int × Int :=
  let (b, rank, file) := st
  if c = '/' then (b, rank - 1, 0)
  else if '1' ≤ c ∧ c ≤ '8' then (b, rank, file + ((c.toNat : Int) - 48))
  else
    let color := if 'A' ≤ c ∧ c ≤ 'Z' then Color.White else Color.Black
    let type : PieceType :=
      if toLower c = 'p' then PieceType.Pawn
      else if toLower c = 'n' then PieceType.Knight
      else if toLower c = 'b' then PieceType.Bishop
      else if toLower c = 'r' then PieceType.Rook
      else if toLower c = 'q' then PieceType.Queen
      else if toLower c = 'k' then PieceType.King
      else PieceType.None
    let b := if type ≠ PieceType.None then b.setPiece (makeSquare file rank) ⟨type, color⟩ else b
    (b, rank, file + 1)

/-- The method `Board::setFromFEN`; `none` when `std::stoi` throws in
`Position::setFromFEN`. -/
def setFromFEN (b : Board) (fen : List Char) : Option Board :=
  let b := b.clearSquares
  let ss := IStream.ofString fen
  let (_, boardPart) := ss.readToken []
  let (b, _, _) := boardPart.foldl parseBoardChar (b, 7, 0)
  (b.position.setFromFEN fen).map fun p => { b with position := p }

/-- The file loop of `Board::toFEN` for one rank: the characters written for the
remaining `files`, with `emptyCount` empty cells pending. -/
def rankChars (b : Board) (rank : Int) : List Int → Int → List Char
  | [], emptyCount => if emptyCount > 0 then intToString emptyCount else []
  | file :: files, emptyCount =>
    let piece := b.pieceAt (makeSquare file rank)
    if piece.isNone then rankChars b rank files (emptyCount + 1)
    else
      (if emptyCount > 0 then intToString emptyCount else []) ++ [piece.toChar] ++
        rankChars b rank files 0

/-- The rank loop of `Board::toFEN`: the board part. -/
def boardChars (b : Board) : List Char :=
  ([7, 6, 5, 4, 3, 2, 1, 0] : List Int).flatMap fun rank =>
    rankChars b rank [0, 1, 2, 3, 4, 5, 6, 7] 0 ++ (if rank > 0 then ['/'] else [])

/-- The method `Board::toFEN`. -/
def toFEN (b : Board) : List Char :=
  boardChars b ++ [' '] ++ b.position.toFEN

end Board

/-- The cells `0..63` are `Piece()` or pieces of type Pawn..King and colour White or
Black. -/
def Board.CellsProper (b : Board) : Prop :=
  ∀ sq, sq < 64 → b.pieceAt sq = Piece.empty ∨
    ((b.pieceAt sq).type ≠ PieceType.None ∧
      ((b.pieceAt sq).color = Color.White ∨ (b.pieceAt sq).color = Color.Black))

/-- The boards of the round-trip property: proper cells, side to move White or Black,
en-passant target 255 or a square below 64, and both counters non-negative values of
an `int`. -/
def Board.Representable (b : Board) : Prop :=
  b.CellsProper ∧
  (b.position.sideToMove = Color.White ∨ b.position.sideToMove = Color.Black) ∧
  (b.position.enPassantSquare = 255 ∨ b.position.enPassantSquare < 64) ∧
  (0 ≤ b.position.halfmoveClock ∧ b.position.halfmoveClock ≤ INT_MAX) ∧
  (0 ≤ b.position.fullmoveNumber ∧ b.position.fullmoveNumber ≤ INT_MAX)

instance (b : Board) : Decidable b.Representable := by
  unfold Board.Representable Board.CellsProper; infer_instance

/-! ## ai/Evaluator -/

namespace AI

namespace Evaluator

def PAWN_TABLE : List Int :=
  [0, 0, 0, 0, 0, 0, 0, 0,
   50, 50, 50, 50, 50, 50, 50, 50,
   10, 10, 20, 30, 30, 20, 10, 10,
   5, 5, 10, 25, 25, 10, 5, 5,
   0, 0, 0, 20, 20, 0, 0, 0,
   5, -5, -10, 0, 0, -10, -5, 5,
   5, 10, 10, -20, -20, 10, 10, 5,
   0, 0, 0, 0, 0, 0, 0, 0]

def KNIGHT_TABLE : List Int :=
  [-50, -40, -30, -30, -30, -30, -40, -50,
   -40, -20, 0, 0, 0, 0, -20, -40,
   -30, 0, 10, 15, 15, 10, 0, -30,
   -30, 5, 15, 20, 20, 15, 5, -30,
   -30, 0, 15, 20, 20, 15, 0, -30,
   -30, 5, 10, 15, 15, 10, 5, -30,
   -40, -20, 0, 5, 5, 0, -20, -40,
   -50, -40, -30, -30, -30, -30, -40, -50]

def BISHOP_TABLE : List Int :=
  [-20, -10, -10, -10, -10, -10, -10, -20,
   -10, 0, 0, 0, 0, 0, 0, -10,
   -10, 0, 5, 10, 10, 5, 0, -10,
   -10, 5, 5, 10, 10, 5, 5, -10,
   -10, 0, 10, 10, 10, 10, 0, -10,
   -10, 10, 10, 10, 10, 10, 10, -10,
   -10, 5, 0, 0, 0, 0, 5, -10,
   -20, -10, -10, -10, -10, -10, -10, -20]

def ROOK_TABLE : List Int :=
  [0, 0, 0, 0, 0, 0, 0, 0,
   5, 10, 10, 10, 10, 10, 10, 5,
   -5, 0, 0, 0, 0, 0, 0, -5,
   -5, 0, 0, 0, 0, 0, 0, -5,
   -5, 0, 0, 0, 0, 0, 0, -5,
   -5, 0, 0, 0, 0, 0, 0, -5,
   -5, 0, 0, 0, 0, 0, 0, -5,
   0, 0, 0, 5, 5, 0, 0, 0]

def QUEEN_TABLE : List Int :=
  [-20, -10, -10, -5, -5, -10, -10, -20,
   -10, 0, 0, 0, 0, 0, 0, -10,
   -10, 0, 5, 5, 5, 5, 0, -10,
   -5, 0, 5, 5, 5, 5, 0, -5,
   0, 0, 5, 5, 5, 5, 0, -5,
   -10, 5, 5, 5, 5, 5, 0, -10,
   -10, 0, 5, 0, 0, 0, 0, -10,
   -20, -10, -10, -5, -5, -10, -10, -20]

def KING_MIDDLE_GAME_TABLE : List Int :=
  [-30, -40, -40, -50, -50, -40, -40, -30,
   -30, -40, -40, -50, -50, -40, -40, -30,
   -30, -40, -40, -50, -50, -40, -40, -30,
   -30, -40, -40, -50, -50, -40, -40, -30,
   -20, -30, -30, -40, -40, -30, -30, -20,
   -10, -20, -20, -20, -20, -20, -20, -10,
   20, 20, 0, 0, 0, 0, 20, 20,
   20, 30, 10, 0, 0, 10, 30, 20]

def KING_END_GAME_TABLE : List Int :=
  [-50, -40, -30, -20, -20, -30, -40, -50,
   -30, -20, -10, 0, 0, -10, -20, -30,
   -30, -10, 20, 30, 30, 20, -10, -30,
   -30, -10, 30, 40, 40, 30, -10, -30,
   -30, -10, 30, 40, 40, 30, -10, -30,
   -30, -10, 20, 30, 30, 20, -10, -30,
   -30, -30, 0, 0, 0, 0, -30, -30,
   -50, -30, -30, -30, -30, -30, -30, -50]

/-- The method `Evaluator::isEndgame`. -/
def isEndgame (board : Board) : Bool :=
  let totalMaterial : Int := (List.range NUM_SQUARES).foldl (fun total sq =>
    let piece := board.pieceAt sq
    if !piece.isNone ∧ piece.type ≠ PieceType.King ∧ piece.type ≠ PieceType.Pawn then
      total + piece.value
    else total) 0
  decide (totalMaterial < 2600)

/-- The method `Evaluator::evaluateMaterial`. -/
def evaluateMaterial (board : Board) : Int :=
  (List.range NUM_SQUARES).foldl (fun score sq =>
    let piece := board.pieceAt sq
    if piece.isNone then score
    else
      let value := piece.value
      score + (if piece.isWhite then value else -value)) 0

/-- The method `Evaluator::getPieceSquareValue`. -/
def getPieceSquareValue (board : Board) (piece : Piece) (sq : Nat) : Int :=
  let index : Nat := if piece.isBlack then makeSquare (getFile sq) (7 - getRank sq) else sq
  match piece.type with
  | PieceType.Pawn => PAWN_TABLE.getD index 0
  | PieceType.Knight => KNIGHT_TABLE.getD index 0
  | PieceType.Bishop => BISHOP_TABLE.getD index 0
  | PieceType.Rook => ROOK_TABLE.getD index 0
  | PieceType.Queen => QUEEN_TABLE.getD index 0
  | PieceType.King =>
    if isEndgame board then KING_END_GAME_TABLE.getD index 0
    else KING_MIDDLE_GAME_TABLE.getD index 0
  | PieceType.None => 0

/-- The method `Evaluator::evaluatePosition`. -/
def evaluatePosition (board : Board) : Int :=
  (List.range NUM_SQUARES).foldl (fun score sq =>
    let piece := board.pieceAt sq
    if piece.isNone then score
    else
      let psqValue := getPieceSquareValue board piece sq
      score + (if piece.isWhite then psqValue else -psqValue)) 0

/-- The method `Evaluator::evaluateMobility`. -/
def evaluateMobility (board : Board) : Int :=
  let whiteMobility : Int := (MoveGenerator.generateLegalMoves board Color.White).length
  let blackMobility : Int := (MoveGenerator.generateLegalMoves board Color.Black).length
  (whiteMobility - blackMobility) * 10

/-- The method `Evaluator::evaluateKingSafety`. -/
def evaluateKingSafety (board : Board) : Int :=
  let whiteKing := board.findKing Color.White
  let blackKing := board.findKing Color.Black
  let score : Int := 0
  let score :=
    if whiteKing ≠ 255 ∧ !isEndgame board then
      let file := getFile whiteKing
      let rank := getRank whiteKing
      ([-1, 0, 1] : List Int).foldl (fun score df =>
        let checkFile := file + df
        if checkFile ≥ 0 ∧ checkFile < 8 ∧ rank < 7 then
          let piece := board.pieceAt (makeSquare checkFile (rank + 1))
          if piece.type = PieceType.Pawn ∧ piece.isWhite then score + 10 else score
        else score) score
    else score
  if blackKing ≠ 255 ∧ !isEndgame board then
    let file := getFile blackKing
    let rank := getRank blackKing
    ([-1, 0, 1] : List Int).foldl (fun score df =>
      let checkFile := file + df
      if checkFile ≥ 0 ∧ checkFile < 8 ∧ rank > 0 then
        let piece := board.pieceAt (makeSquare checkFile (rank - 1))
        if piece.type = PieceType.Pawn ∧ piece.isBlack then score - 10 else score
      else score) score
  else score

/-- The files `0..7` (and the ranks `0..7`) of the `int` loops. -/
def eight : List Int := [0, 1, 2, 3, 4, 5, 6, 7]

/-- The first loop of `evaluatePawnStructure` (doubled pawns). -/
def doubledPawns (board : Board) : Int :=
  eight.foldl (fun score file =>
    let counts : Int × Int := eight.foldl (fun cnt rank =>
      let piece := board.pieceAt (makeSquare file rank)
      if piece.type = PieceType.Pawn then
        if piece.isWhite then (cnt.1 + 1, cnt.2) else (cnt.1, cnt.2 + 1)
      else cnt) (0, 0)
    let whitePawns := counts.1
    let blackPawns := counts.2
    let score := if whitePawns > 1 then score - 20 * (whitePawns - 1) else score
    if blackPawns > 1 then score + 20 * (blackPawns - 1) else score) 0

/-- The flags `hasWhitePawn, hasBlackPawn, hasAdjacentWhite, hasAdjacentBlack` of the
second loop of `evaluatePawnStructure`. -/
structure PawnFlags where
  hasWhitePawn : Bool := false
  hasBlackPawn : Bool := false
  hasAdjacentWhite : Bool := false
  hasAdjacentBlack : Bool := false

/-- The second loop of `evaluatePawnStructure` (isolated pawns), continuing from
`score`. -/
def isolatedPawns (board : Board) (score : Int) : Int :=
  eight.foldl (fun score file =>
    let flags : PawnFlags := eight.foldl (fun fl rank =>
      let piece := board.pieceAt (makeSquare file rank)
      let fl : PawnFlags :=
        if piece.type = PieceType.Pawn then
          if piece.isWhite then { fl with hasWhitePawn := true }
          else { fl with hasBlackPawn := true }
        else fl
      ([-1, 1] : List Int).foldl (fun fl df =>
        let adjFile := file + df
        if adjFile ≥ 0 ∧ adjFile < 8 then
          let adjPiece := board.pieceAt (makeSquare adjFile rank)
          if adjPiece.type = PieceType.Pawn then
            if adjPiece.isWhite then { fl with hasAdjacentWhite := true }
            else { fl with hasAdjacentBlack := true }
          else fl
        else fl) fl) {}
    let score := if flags.hasWhitePawn ∧ !flags.hasAdjacentWhite then score - 15 else score
    if flags.hasBlackPawn ∧ !flags.hasAdjacentBlack then score + 15 else score) score

/-- The method `Evaluator::evaluatePawnStructure`. -/
def evaluatePawnStructure (board : Board) : Int :=
  isolatedPawns board (doubledPawns board)

/-- The method `Evaluator::evaluate`. -/
def evaluate (board : Board) : Int :=
  let score : Int := 0
  let score := score + evaluateMaterial board
  let score := score + evaluatePosition board
  let score := score + evaluateMobility board
  let score := score + evaluateKingSafety board
  let score := score + evaluatePawnStructure board
  score

end Evaluator

end AI

/-! ## ai/Engine

The search mutates the engine's board in place; in the embedding every search routine
takes the board and returns it with its result. Scores are `int`: negation and the
root adjustments are taken in 32-bit two's complement (`neg32`, `add32`). The log
file, the progress callback and the elapsed time are outside the embedding. The stop
flag is only ever raised from another thread; the routines read it as a value that
does not change during the call. -/

namespace AI

/-- Unary minus on `int`. -/
def neg32 (v : Int) : Int := wrap32 (-v)

/-- Addition on `int`. -/
def add32 (a b : Int) : Int := wrap32 (a + b)

/-- Subtraction on `int`. -/
def sub32 (a b : Int) : Int := wrap32 (a - b)

structure SearchResult where
  bestMove : Move
  score : Int
  depth : Int
  nodesSearched : Int
  deriving DecidableEq, Repr

/-- The class `Engine`: the board it refers to, `maxDepth_`, `shouldStop_`, and the
`thread_local` vector `recentPositions` of `checkPositionRepetition` (oldest first). -/
structure Engine where
  board : Board
  maxDepth : Int
  shouldStop : Bool
  recentPositions : List (List Char)

namespace Engine

/-- The constructor `Engine(board)`. -/
def create (board : Board) : Engine :=
  { board := board, maxDepth := 5, shouldStop := false, recentPositions := [] }

/-- The method `Engine::scoreMoveForOrdering`. -/
def scoreMoveForOrdering (board : Board) (move : Move) (_color : Color) : Int :=
  let score : Int := 0
  let score :=
    if move.isCapture then
      let victim := board.pieceAt move.to_
      let attacker := board.pieceAt move.from_
      victim.value * 10 - attacker.value
    else score
  let score := if move.isPromotion then score + 8000 else score
  let toFile := getFile move.to_
  let toRank := getRank move.to_
  let centerDist := (if toFile > 3 then toFile - 3 else 3 - toFile) +
    (if toRank > 3 then toRank - 3 else 3 - toRank)
  score + (14 - centerDist) * 10

/-- Insertion of a move into a list sorted by descending score, ahead of the first
move that does not score higher. -/
def insertByScore (score : Move → Int) (m : Move) : List Move → List Move
  | [] => [m]
  | x :: xs => if score m ≥ score x then m :: x :: xs else x :: insertByScore score m xs

/-- The method `Engine::orderMoves`: `std::sort` with the comparator
`score(a) > score(b)`. `std::sort` leaves the order of moves with equal scores open;
the embedding keeps them in their order of generation, as the insertion sort that GNU
libstdc++ applies to ranges of at most 16 elements does. On longer lists with equal
scores the order in the compiled program depends on the library. -/
def orderMoves (board : Board) (moves : List Move) (color : Color) : List Move :=
  moves.foldr (insertByScore (fun m => scoreMoveForOrdering board m color)) []

/-- The capture loop of `Engine::quiescence`; `recurse` is the nested call
`quiescence(·, ·, ·, nodesSearched, depth + 1)` on the current board. The result is
the value returned, the board and the node counter. -/
def quiescenceLoop (recurse : Int → Int → Color → Board → Int → Int × Board × Int)
    (stop : Bool) (beta : Int) (color : Color) :
    List Move → Int → Board → Int → Int × Board × Int
  | [], alpha, board, nodes => (alpha, board, nodes)
  | capture :: rest, alpha, board, nodes =>
    if stop then (alpha, board, nodes)
    else
      let board := board.makeMove capture
      let (r, board, nodes) := recurse (neg32 beta) (neg32 alpha) (oppositeColor color) board nodes
      let score := neg32 r
      let board := board.unmakeMove capture
      if score ≥ beta then (beta, board, nodes)
      else
        quiescenceLoop recurse stop beta color rest (if score > alpha then score else alpha)
          board nodes

/-- The method `Engine::quiescence`, by the number `remaining` of levels left below
`MAX_QUIESCENCE_DEPTH` (`remaining = 0` is the branch `depth >= MAX_QUIESCENCE_DEPTH`). -/
def quiescenceFrom (stop : Bool) :
    Nat → Int → Int → Color → Board → Int → Int × Board × Int
  | 0, _, _, color, board, nodes =>
    let nodes := nodes + 1
    if stop then (0, board, nodes)
    else
      let standPat := Evaluator.evaluate board
      (if color = Color.Black then neg32 standPat else standPat, board, nodes)
  | remaining + 1, alpha, beta, color, board, nodes =>
    let nodes := nodes + 1
    if stop then (0, board, nodes)
    else
      let standPat := Evaluator.evaluate board
      let standPat := if color = Color.Black then neg32 standPat else standPat
      if standPat ≥ beta then (beta, board, nodes)
      else
        let alpha := if alpha < standPat then standPat else alpha
        let captures := MoveGenerator.generateCaptures board color
        let captures := orderMoves board captures color
        quiescenceLoop (quiescenceFrom stop remaining) stop beta color captures alpha board nodes

def MAX_QUIESCENCE_DEPTH : Nat := 3

/-- The method `Engine::quiescence(alpha, beta, color, nodesSearched, depth)`. -/
def quiescence (stop : Bool) (alpha beta : Int) (color : Color) (board : Board) (nodes : Int)
    (depth : Nat) : Int × Board × Int :=
  quiescenceFrom stop (MAX_QUIESCENCE_DEPTH - depth) alpha beta color board nodes

/-- The move loop of `Engine::alphaBeta`; `recurse` is the nested call
`alphaBeta(depth - 1, ·, ·, ·, nodesSearched)` on the current board. -/
def alphaBetaLoop (recurse : Int → Int → Color → Board → Int → Int × Board × Int)
    (stop : Bool) (beta : Int) (color : Color) :
    List Move → Int → Int → Board → Int → Int × Board × Int
  | [], _, maxScore, board, nodes => (maxScore, board, nodes)
  | move :: rest, alpha, maxScore, board, nodes =>
    if stop then (maxScore, board, nodes)
    else
      let board := board.makeMove move
      let (r, board, nodes) := recurse (neg32 beta) (neg32 alpha) (oppositeColor color) board nodes
      let score := neg32 r
      let board := board.unmakeMove move
      if stop then (maxScore, board, nodes)
      else
        let maxScore := if score > maxScore then score else maxScore
        let alpha := if score > alpha then score else alpha
        if alpha ≥ beta then (maxScore, board, nodes)
        else alphaBetaLoop recurse stop beta color rest alpha maxScore board nodes

/-- The method `Engine::alphaBeta(depth, alpha, beta, color, nodesSearched)` for
`depth >= 0`. -/
def alphaBeta (stop : Bool) :
    Nat → Int → Int → Color → Board → Int → Int × Board × Int
  | 0, alpha, beta, color, board, nodes =>
    let nodes := nodes + 1
    if stop then (0, board, nodes)
    else quiescence stop alpha beta color board nodes 0
  | depth + 1, alpha, beta, color, board, nodes =>
    let nodes := nodes + 1
    if stop then (0, board, nodes)
    else
      let moves := MoveGenerator.generateLegalMoves board color
      if moves.isEmpty then
        if board.isCheck color then (INT_MIN + 1, board, nodes) else (0, board, nodes)
      else
        let moves := orderMoves board moves color
        alphaBetaLoop (alphaBeta stop depth) stop beta color moves alpha INT_MIN board nodes

/-- The method `Engine::checkPositionRepetition`: the penalty and the new contents of
`recentPositions`. -/
def checkPositionRepetition (recentPositions : List (List Char)) (fen : List Char) :
    Int × List (List Char) :=
  let positionOnly := fen.takeWhile (fun c => c ≠ ' ')
  let count := recentPositions.countP (fun pos => pos = positionOnly)
  if count ≥ 2 then (500, recentPositions)
  else
    let recent := recentPositions ++ [positionOnly]
    (0, if recent.length > 10 then recent.drop 1 else recent)

/-- The method `Engine::isKingOnlyEndgame`. -/
def isKingOnlyEndgame (board : Board) (color : Color) : Bool :=
  let opponentColor := oppositeColor color
  let scan : Option Int := (List.range NUM_SQUARES).foldl (fun acc sq =>
    match acc with
    | none => none
    | some pieceCount =>
      let piece := board.pieceAt sq
      if !piece.isNone ∧ piece.color = opponentColor then
        if piece.type = PieceType.King then some (pieceCount + 1) else none
      else some pieceCount) (some 0)
  match scan with
  | none => false
  | some pieceCount => decide (pieceCount = 1)

/-- The method `Engine::evaluateEndgameMate`. -/
def evaluateEndgameMate (board : Board) (color : Color) : Int :=
  if !isKingOnlyEndgame board color then 0
  else
    let opponentColor := oppositeColor color
    let opponentKing := board.findKing opponentColor
    let myKing := board.findKing color
    if opponentKing = 255 ∨ myKing = 255 then 0
    else
      let opponentFile := getFile opponentKing
      let opponentRank := getRank opponentKing
      let myFile := getFile myKing
      let myRank := getRank myKing
      let fileDiff := if opponentFile > myFile then opponentFile - myFile else myFile - opponentFile
      let rankDiff := if opponentRank > myRank then opponentRank - myRank else myRank - opponentRank
      let distance := fileDiff + rankDiff
      let bonus := (14 - distance) * 20
      if board.isSquareAttacked opponentKing color then bonus + 100 else bonus

/-- The running state of the root loops of `findBestMove`. -/
structure RootState where
  board : Board
  recentPositions : List (List Char)
  bestMove : Move
  bestScore : Int
  nodesSearched : Int

/-- The sequential root loop of `Engine::findBestMove`. -/
def sequentialLoop (stop : Bool) (maxDepth : Int) (color : Color) :
    List Move → RootState → RootState
  | [], st => st
  | move :: rest, st =>
    if stop then st
    else
      let board := st.board.makeMove move
      let (r, board, localNodes) :=
        alphaBeta stop (maxDepth - 1).toNat INT_MIN INT_MAX (oppositeColor color) board 0
      let score := neg32 r
      let nodesSearched := st.nodesSearched + localNodes
      let fenAfter := board.toFEN
      let (repetitionPenalty, recent) := checkPositionRepetition st.recentPositions fenAfter
      let score := if repetitionPenalty > 0 then sub32 score repetitionPenalty else score
      let endgameBonus := evaluateEndgameMate board color
      let score := if endgameBonus ≠ 0 then add32 score endgameBonus else score
      let board := board.unmakeMove move
      if stop then
        { st with board := board, recentPositions := recent, nodesSearched := nodesSearched }
      else if score > st.bestScore then
        sequentialLoop stop maxDepth color rest
          { board := board, recentPositions := recent, bestMove := move, bestScore := score,
            nodesSearched := nodesSearched }
      else
        sequentialLoop stop maxDepth color rest
          { st with board := board, recentPositions := recent, nodesSearched := nodesSearched }

/-- One task of the parallel root search: the move's score and node count, computed
on a board rebuilt from the exchange-format string; `none` when rebuilding throws. -/
def parallelTask (searchDepth : Int) (color : Color) (fenBefore : List Char) (move : Move) :
    Option (Int × Int) :=
  (Board.setFromFEN Board.empty fenBefore).map fun boardCopy =>
    let boardCopy := boardCopy.makeMove move
    let (r, _, localNodes) :=
      alphaBeta false (searchDepth - 1).toNat INT_MIN INT_MAX (oppositeColor color) boardCopy 0
    (neg32 r, localNodes)

/-- The collecting loop of the parallel root search. -/
def parallelLoop (searchDepth : Int) (color : Color) (fenBefore : List Char) :
    List Move → RootState → Option RootState
  | [], st => some st
  | move :: rest, st =>
    (parallelTask searchDepth color fenBefore move).bind fun res =>
      let score := res.1
      let st := { st with nodesSearched := st.nodesSearched + res.2 }
      if score > st.bestScore then
        parallelLoop searchDepth color fenBefore rest
          { st with bestMove := move, bestScore := score }
      else parallelLoop searchDepth color fenBefore rest st

/-- The method `Engine::findBestMove(color, maxDepth)` for runs in which `stop()` is
not called: the result and the engine afterwards. `none` stands for an exception out
of a parallel task. For `maxDepth <= 0` the source recursion does not reach depth 0;
the embedding is meant for `maxDepth >= 1` and for the early return. -/
def findBestMove (e : Engine) (color : Color) (maxDepth : Int) :
    Option (SearchResult × Engine) :=
  let e := { e with maxDepth := maxDepth, shouldStop := false }
  let moves := MoveGenerator.generateLegalMoves e.board color
  if moves.isEmpty then some (⟨Move.default, 0, 0, 0⟩, e)
  else
    let moves := orderMoves e.board moves color
    let st0 : RootState :=
      { board := e.board, recentPositions := e.recentPositions,
        bestMove := moves.headD Move.default, bestScore := INT_MIN, nodesSearched := 0 }
    let useParallel := decide (moves.length ≥ 4) && decide (e.maxDepth ≥ 3)
    let st? : Option RootState :=
      if useParallel then parallelLoop e.maxDepth color e.board.toFEN moves st0
      else some (sequentialLoop e.shouldStop e.maxDepth color moves st0)
    st?.map fun st =>
      (⟨st.bestMove, st.bestScore, e.maxDepth, st.nodesSearched⟩,
        { e with board := st.board, recentPositions := st.recentPositions })

/-- The inline method `Engine::setDifficulty`. -/
def setDifficulty (e : Engine) (depth : Int) : Engine := { e with maxDepth := depth }

/-- The inline method `Engine::getDifficulty`. -/
def getDifficulty (e : Engine) : Int := e.maxDepth

/-- The `for` loop of `Engine::findBestMoveWithTimeLimit`, which reads `maxDepth_`
anew at every test of `depth <= maxDepth_`. `now k` is the k-th reading this method
takes of `high_resolution_clock::now()`, in ticks of the clock, `ticksPerMs` the
number of ticks in a millisecond, `reads` the number of readings taken so far; the
two readings inside `findBestMove` only feed `timeSpent` and are not counted.
`lastResult` is `none` while the local `SearchResult lastResult;` has not been
assigned. `fuel` bounds the number of iterations; the result is `none` when it runs
out or when `findBestMove` throws. -/
def timeLimitLoop (now : Nat → Int) (ticksPerMs deadline : Int) (color : Color) :
    Nat → Int → Nat → Engine → Option SearchResult → Option (Option SearchResult × Engine)
  | 0, _, _, _, _ => none
  | fuel + 1, depth, reads, e, lastResult =>
    if depth ≤ e.maxDepth then
      let currentTime := now reads
      if currentTime ≥ deadline then some (lastResult, e)
      else
        let remainingTime := wrap32 ((deadline - currentTime).tdiv ticksPerMs)
        if remainingTime < 100 then some (lastResult, e)
        else
          (findBestMove e color depth).bind fun found =>
            let currentTime := now (reads + 1)
            if currentTime ≥ deadline then
              some (some found.1, { found.2 with shouldStop := true })
            else
              timeLimitLoop now ticksPerMs deadline color fuel (depth + 1) (reads + 2)
                found.2 (some found.1)
    else some (lastResult, e)

/-- The method `Engine::findBestMoveWithTimeLimit(color, timeMs)`: the result returned
(`none` inside when `lastResult` was never assigned) and the engine afterwards. -/
def findBestMoveWithTimeLimit (fuel : Nat) (now : Nat → Int) (ticksPerMs : Int) (e : Engine)
    (color : Color) (timeMs : Int) : Option (Option SearchResult × Engine) :=
  let e := { e with shouldStop := false }
  let startTime := now 0
  let deadline := startTime + timeMs * ticksPerMs
  (timeLimitLoop now ticksPerMs deadline color fuel 1 1 e none).map fun out =>
    (out.1, { out.2 with shouldStop := false })

/-- The reduction of both root loops of `Engine::findBestMove` over the moves and their
scores in order, `if (score > bestScore) { bestScore = score; bestMove = move; }`,
from the running best move and score. -/
def rootReduce : List (Move × Int) → Move × Int → Move × Int
  | [], best => best
  | (move, score) :: rest, best =>
    if score > best.2 then rootReduce rest (move, score) else rootReduce rest best

/-- The body of the sequential root loop of `findBestMove` for one move, up to
`unmakeMove`: the score of the move, the board, the recent positions and the nodes of
the call. -/
def sequentialStep (maxDepth : Int) (color : Color) (move : Move) (board : Board)
    (recentPositions : List (List Char)) : Int × Board × List (List Char) × Int :=
  let board := board.makeMove move
  let (r, board, localNodes) :=
    alphaBeta false (maxDepth - 1).toNat INT_MIN INT_MAX (oppositeColor color) board 0
  let score := neg32 r
  let fenAfter := board.toFEN
  let (repetitionPenalty, recent) := checkPositionRepetition recentPositions fenAfter
  let score := if repetitionPenalty > 0 then sub32 score repetitionPenalty else score
  let endgameBonus := evaluateEndgameMate board color
  let score := if endgameBonus ≠ 0 then add32 score endgameBonus else score
  (score, board.unmakeMove move, recent, localNodes)

/-- The moves of the sequential root loop with the scores it gives them, in order. -/
def sequentialResults (maxDepth : Int) (color : Color) :
    List Move → Board → List (List Char) → List (Move × Int)
  | [], _, _ => []
  | move :: rest, board, recentPositions =>
    let step := sequentialStep maxDepth color move board recentPositions
    (move, step.1) :: sequentialResults maxDepth color rest step.2.1 step.2.2.1

end Engine

/-- Plain negamax to `depth` over `generateLegalMoves`, without a window, the
reference `alphaBeta` is compared with: a position without legal moves scores
`INT_MIN + 1` in check and 0 otherwise, a leaf at depth 0 is scored by `quiescence`
with the full window, and every other position scores the largest negated (`int`)
score of its successors. -/
def negamax : Nat → Color → Board → Int
  | 0, color, board => (Engine.quiescence false INT_MIN INT_MAX color board 0 0).1
  | depth + 1, color, board =>
    let moves := MoveGenerator.generateLegalMoves board color
    if moves.isEmpty then
      if board.isCheck color then INT_MIN + 1 else 0
    else
      (moves.map fun move =>
        neg32 (negamax depth (oppositeColor color) (board.makeMove move))).foldl max INT_MIN

end AI

/-! ## Move sequences and concrete positions used in the theorems -/

/-- Consecutive `makeMove` calls, first move first. -/
def Board.makeMoves (b : Board) : List Move → Board
  | [] => b
  | m :: ms => (b.makeMove m).makeMoves ms

/-- Every move of the sequence, at the time it is made, moves a piece that is not a
pawn and carries neither the flag `Capture` nor `EnPassant`. -/
def Board.quietMoves (b : Board) : List Move → Bool
  | [] => true
  | m :: ms =>
    decide ((b.pieceAt m.from_).type ≠ PieceType.Pawn) && !m.isCapture &&
      (b.makeMove m).quietMoves ms

/-- The back rank of a colour: rank index 0 for White, 7 for Black. -/
def homeRank (c : Color) : Int := if c = Color.White then 0 else 7

/-- A fresh board after `setupInitialPosition()`. -/
def startBoard : Board := Board.setupInitialPosition Board.empty

/-- The move e2-e4 of the starting position, as the generator emits it. -/
def e2e4 : Move := ⟨12, 28, MoveFlag.DoublePawnPush, PieceType.None⟩

/-- The knights go out and back: g1-f3, g8-f6, f3-g1, f6-g8. -/
def knightRound : List Move :=
  [⟨6, 21, MoveFlag.Normal, PieceType.None⟩, ⟨62, 45, MoveFlag.Normal, PieceType.None⟩,
   ⟨21, 6, MoveFlag.Normal, PieceType.None⟩, ⟨45, 62, MoveFlag.Normal, PieceType.None⟩]

/-- One hundred halfmoves: the knight round 25 times. -/
def hundredKnightMoves : List Move := (List.replicate 25 knightRound).flatten

/-- A position without castling rights, White to move. -/
def noCastling : Position :=
  { sideToMove := Color.White, enPassantSquare := 255,
    whiteCanCastleKingside := false, whiteCanCastleQueenside := false,
    blackCanCastleKingside := false, blackCanCastleQueenside := false,
    halfmoveClock := 0, fullmoveNumber := 1 }

/-- The position `7k/8/8/8/8/8/8/K7 w - - 0 1`: the two kings in opposite corners. -/
def kingsOnly : Board :=
  { squares := fun s =>
      if s = 0 then ⟨PieceType.King, Color.White⟩
      else if s = 63 then ⟨PieceType.King, Color.Black⟩ else Piece.empty,
    position := noCastling,
    history := [] }

/-- The position `4k3/1b6/8/8/8/8/8/4K2R b K - 0 1`: Black to move can take the rook
on h1 with the bishop from b7. -/
def rookEnPrise : Board :=
  { squares := fun s =>
      if s = 4 then ⟨PieceType.King, Color.White⟩
      else if s = 7 then ⟨PieceType.Rook, Color.White⟩
      else if s = 60 then ⟨PieceType.King, Color.Black⟩
      else if s = 49 then ⟨PieceType.Bishop, Color.Black⟩ else Piece.empty,
    position := { noCastling with sideToMove := Color.Black, whiteCanCastleKingside := true },
    history := [] }

/-- The capture b7xh1 in `rookEnPrise`. -/
def bishopTakesRook : Move := ⟨49, 7, MoveFlag.Capture, PieceType.None⟩

/-- The position `r3k2r/8/8/8/8/8/8/R3K2R w KQkq - 0 1`: kings and rooks on their
home squares, all four castling rights. -/
def castleReady : Board :=
  { squares := fun s =>
      if s = 4 then ⟨PieceType.King, Color.White⟩
      else if s = 0 ∨ s = 7 then ⟨PieceType.Rook, Color.White⟩
      else if s = 60 then ⟨PieceType.King, Color.Black⟩
      else if s = 56 ∨ s = 63 then ⟨PieceType.Rook, Color.Black⟩ else Piece.empty,
    position := Position.initial,
    history := [] }

/-- A lone white pawn on a5. -/
def lonePawn : Board :=
  { squares := fun s => if s = 32 then ⟨PieceType.Pawn, Color.White⟩ else Piece.empty,
    position := noCastling,
    history := [] }

/-- The position `4k3/8/8/3pP3/8/8/8/4K3 w - d6 0 2`: Black has just played d7-d5 next
to the white pawn on e5. -/
def enPassantReady : Board :=
  { squares := fun s =>
      if s = 4 then ⟨PieceType.King, Color.White⟩
      else if s = 36 then ⟨PieceType.Pawn, Color.White⟩
      else if s = 35 then ⟨PieceType.Pawn, Color.Black⟩
      else if s = 60 then ⟨PieceType.King, Color.Black⟩ else Piece.empty,
    position := { noCastling with enPassantSquare := 43, fullmoveNumber := 2 },
    history := [] }

/-- The capture e5xd6 en passant in `enPassantReady`. -/
def takesEnPassant : Move := ⟨36, 43, MoveFlag.EnPassant, PieceType.None⟩

/-- A move a5-b5 (along the rank) carrying the flag `EnPassant`. -/
def sidewaysEnPassant : Move := ⟨32, 33, MoveFlag.EnPassant, PieceType.None⟩

/-- The twenty moves of White at the start, in the order of generation. -/
def startMoves : List Move :=
  [⟨1, 16, MoveFlag.Normal, PieceType.None⟩, ⟨1, 18, MoveFlag.Normal, PieceType.None⟩,
   ⟨6, 21, MoveFlag.Normal, PieceType.None⟩, ⟨6, 23, MoveFlag.Normal, PieceType.None⟩,
   ⟨8, 16, MoveFlag.Normal, PieceType.None⟩, ⟨8, 24, MoveFlag.DoublePawnPush, PieceType.None⟩,
   ⟨9, 17, MoveFlag.Normal, PieceType.None⟩, ⟨9, 25, MoveFlag.DoublePawnPush, PieceType.None⟩,
   ⟨10, 18, MoveFlag.Normal, PieceType.None⟩, ⟨10, 26, MoveFlag.DoublePawnPush, PieceType.None⟩,
   ⟨11, 19, MoveFlag.Normal, PieceType.None⟩, ⟨11, 27, MoveFlag.DoublePawnPush, PieceType.None⟩,
   ⟨12, 20, MoveFlag.Normal, PieceType.None⟩, ⟨12, 28, MoveFlag.DoublePawnPush, PieceType.None⟩,
   ⟨13, 21, MoveFlag.Normal, PieceType.None⟩, ⟨13, 29, MoveFlag.DoublePawnPush, PieceType.None⟩,
   ⟨14, 22, MoveFlag.Normal, PieceType.None⟩, ⟨14, 30, MoveFlag.DoublePawnPush, PieceType.None⟩,
   ⟨15, 23, MoveFlag.Normal, PieceType.None⟩, ⟨15, 31, MoveFlag.DoublePawnPush, PieceType.None⟩]

/-- The position `7k/6Q1/5K2/8/8/8/8/8 b - - 0 1`: Black is checkmated. -/
def queenMate : Board :=
  { squares := fun s =>
      if s = 63 then ⟨PieceType.King, Color.Black⟩
      else if s = 54 then ⟨PieceType.Queen, Color.White⟩
      else if s = 45 then ⟨PieceType.King, Color.White⟩ else Piece.empty,
    position := { noCastling with sideToMove := Color.Black },
    history := [] }

/-- The position `7k/5K2/6Q1/8/8/8/8/8 b - - 0 1`: Black is stalemated. -/
def queenStalemate : Board :=
  { squares := fun s =>
      if s = 63 then ⟨PieceType.King, Color.Black⟩
      else if s = 53 then ⟨PieceType.King, Color.White⟩
      else if s = 46 then ⟨PieceType.Queen, Color.White⟩ else Piece.empty,
    position := { noCastling with sideToMove := Color.Black },
    history := [] }

/-- A move e2-e5 with the flag `Normal`: no pawn moves so. -/
def pawnLeap : Move := ⟨12, 36, MoveFlag.Normal, PieceType.None⟩

/-- A string whose halfmove field is not a number. -/
def fenBadClock : List Char := "8/8/8/8/8/8/8/8 w - - x 1".data

/-- A string with nine pawns in its first rank. -/
def fenNinePawns : List Char := "ppppppppp/8/8/8/8/8/8/8 w - - 0 1".data

/-- A clock that stands still: every reading is 0. -/
def stillClock : Nat → Int := fun _ => 0

/-- Three moves with the scores 5, 7 and 7. -/
def scoredMoves : List (Move × Int) := [(e2e4, 5), (takesEnPassant, 7), (bishopTakesRook, 7)]

/-- The starting position after 1. e2-e4. -/
def afterE4 : Board := startBoard.makeMove e2e4

/-- The move d2-e3 with the flag `EnPassant`. -/
def ownEnPassant : Move := ⟨11, 20, MoveFlag.EnPassant, PieceType.None⟩

/-- The position `4k3/8/8/8/8/8/8/RK6 w K - 0 1`: the white king stands on b1 while the
king-side right is set. -/
def kingOffHome : Board :=
  { squares := fun s =>
      if s = 1 then ⟨PieceType.King, Color.White⟩
      else if s = 0 then ⟨PieceType.Rook, Color.White⟩
      else if s = 60 then ⟨PieceType.King, Color.Black⟩ else Piece.empty,
    position := { noCastling with whiteCanCastleKingside := true },
    history := [] }

/-- The castling move the generator offers in `kingOffHome`: b1 to d1. -/
def castleFromB1 : Move := ⟨1, 3, MoveFlag.Castling, PieceType.None⟩

/-- The position `castleReady` with the cell f1 holding `Piece(None, White)`: empty, but
not the empty piece `Piece()`. -/
def tintedF1 : Board :=
  { castleReady with
    squares := fun s => if s = 5 then ⟨PieceType.None, Color.White⟩ else castleReady.squares s }

/-- King-side castling of White from e1. -/
def castleShort : Move := ⟨4, 6, MoveFlag.Castling, PieceType.None⟩

open MoveGenerator AI
open AI.Engine

/-- The exchange-format string of the starting position. -/
def initialFEN : List Char := "rnbqkbnr/pppppppp/8/8/8/8/PPPPPPPP/RNBQKBNR w KQkq - 0 1".data

/-- The position `r3k3/1P6/8/8/8/8/8/4K3 w - - 0 1`: the white pawn on b7 can take the
rook on a8 and promote. -/
def promotionCapture : Board :=
  { squares := fun s =>
      if s = 4 then ⟨PieceType.King, Color.White⟩
      else if s = 49 then ⟨PieceType.Pawn, Color.White⟩
      else if s = 56 then ⟨PieceType.Rook, Color.Black⟩
      else if s = 60 then ⟨PieceType.King, Color.Black⟩ else Piece.empty,
    position := noCastling,
    history := [] }

/-- The move b7xa8 promoting to a queen, as the generator emits it. -/
def takesAndPromotes : Move := ⟨49, 56, MoveFlag.Promotion, PieceType.Queen⟩

/-- The position `4k3/8/8/8/8/8/4p3/4K3 w - - 0 1`: the white king can take the pawn on
e2 or step aside. -/
def kingTakesPawn : Board :=
  { squares := fun s =>
      if s = 4 then ⟨PieceType.King, Color.White⟩
      else if s = 12 then ⟨PieceType.Pawn, Color.Black⟩
      else if s = 60 then ⟨PieceType.King, Color.Black⟩ else Piece.empty,
    position := noCastling,
    history := [] }

/-- The capture Ke1xe2. -/
def kingTakes : Move := ⟨4, 12, MoveFlag.Capture, PieceType.None⟩

/-- The quiet move Ke1-d2. -/
def kingSteps : Move := ⟨4, 11, MoveFlag.Normal, PieceType.None⟩

/-- The board-only part of an exchange-format string: the text before the first
space. -/
def boardPart (fen : List Char) : List Char := fen.takeWhile (fun c => c ≠ ' ')

/-- A sequence of calls of `checkPositionRepetition`, from the given contents of
`recentPositions`: the values returned, in call order, and the contents afterwards. -/
def repetitionCalls : List (List Char) → List (List Char) → List Int × List (List Char)
  | recent, [] => ([], recent)
  | recent, fen :: rest =>
    let out := checkPositionRepetition recent fen
    let later := repetitionCalls out.2 rest
    (out.1 :: later.1, later.2)

/-- The last `n` entries of a list. -/
def lastEntries (n : Nat) (l : List (List Char)) : List (List Char) := l.drop (l.length - n)

/-- The board-only parts of the calls that returned 0, in call order. -/
def recordedParts (fens : List (List Char)) (returned : List Int) : List (List Char) :=
  ((fens.zip returned).filter (fun x => decide (x.2 = 0))).map (fun x => boardPart x.1)

/-- Three calls with the starting position. -/
def threeCalls : List (List Char) := [initialFEN, initialFEN, initialFEN]

namespace AI.Evaluator

/-- The number of pawns of colour `c` on a file. -/
def pawnsOnFile (board : Board) (c : Color) (file : Int) : Int :=
  (eight.countP fun rank => decide (board.pieceAt (makeSquare file rank) = ⟨PieceType.Pawn, c⟩) :
    Nat)

/-- Some file next to `file` holds a pawn of colour `c`. -/
def pawnNextTo (board : Board) (c : Color) (file : Int) : Bool :=
  ([file - 1, file + 1] : List Int).any fun adj =>
    decide (0 ≤ adj ∧ adj < 8) && decide (pawnsOnFile board c adj > 0)

/-- The doubled-pawn part of the pawn-structure term as the specification words it:
per file, `-20 * (w - 1)` when the file holds `w > 1` White pawns and `+20 * (k - 1)`
when it holds `k > 1` Black pawns. -/
def doubledTerm (board : Board) : Int :=
  (eight.map fun file =>
    (if pawnsOnFile board Color.White file > 1 then
      -20 * (pawnsOnFile board Color.White file - 1) else 0) +
    (if pawnsOnFile board Color.Black file > 1 then
      20 * (pawnsOnFile board Color.Black file - 1) else 0)).sum

/-- The isolated-pawn part counted per pawn: minus 15 for each White pawn with no
White pawn on an adjacent file, plus 15 for each such Black pawn. -/
def isolatedPerPawn (board : Board) : Int :=
  (eight.map fun file =>
    (if pawnNextTo board Color.White file then 0 else -15 * pawnsOnFile board Color.White file) +
    (if pawnNextTo board Color.Black file then 0 else 15 * pawnsOnFile board Color.Black file)).sum

/-- The isolated-pawn part counted per file: minus 15 for each file that holds a White
pawn and has no White pawn on an adjacent file, plus 15 for each such file of Black. -/
def isolatedPerFile (board : Board) : Int :=
  (eight.map fun file =>
    (if pawnsOnFile board Color.White file > 0 ∧ pawnNextTo board Color.White file = false
      then -15 else 0) +
    (if pawnsOnFile board Color.Black file > 0 ∧ pawnNextTo board Color.Black file = false
      then 15 else 0)).sum

end AI.Evaluator

/-- The position `4k3/8/8/8/8/P7/P7/4K3 w - - 0 1`: two White pawns on the a-file. -/
def doubledOnA : Board :=
  { squares := fun s =>
      if s = 4 then ⟨PieceType.King, Color.White⟩
      else if s = 8 then ⟨PieceType.Pawn, Color.White⟩
      else if s = 16 then ⟨PieceType.Pawn, Color.White⟩
      else if s = 60 then ⟨PieceType.King, Color.Black⟩ else Piece.empty,
    position := noCastling,
    history := [] }

namespace AI.Evaluator

/-- The cell `(file, rank)` holds a pawn that `isWhite()` tells to be White (`w` true)
or not (`w` false). -/
def pawnAt (board : Board) (w : Bool) (file rank : Int) : Bool :=
  decide ((board.pieceAt (makeSquare file rank)).type = PieceType.Pawn) &&
    decide ((board.pieceAt (makeSquare file rank)).isWhite = w)

end AI.Evaluator

namespace AI.Engine

/-- The capture loop of `Engine::quiescence` when the nested call may fail to return
(`none`). -/
def quiescenceLoopFuel
    (recurse : Int → Int → Color → Board → Int → Option (Int × Board × Int))
    (stop : Bool) (beta : Int) (color : Color) :
    List Move → Int → Board → Int → Option (Int × Board × Int)
  | [], alpha, board, nodes => some (alpha, board, nodes)
  | capture :: rest, alpha, board, nodes =>
    if stop then some (alpha, board, nodes)
    else
      let board := board.makeMove capture
      (recurse (neg32 beta) (neg32 alpha) (oppositeColor color) board nodes).bind fun out =>
        let score := neg32 out.1
        let board := out.2.1.unmakeMove capture
        let nodes := out.2.2
        if score ≥ beta then some (beta, board, nodes)
        else
          quiescenceLoopFuel recurse stop beta color rest
            (if score > alpha then score else alpha) board nodes

/-- The method `Engine::quiescence(alpha, beta, color, nodesSearched, depth)` with its
`int depth` and the recursion as written, run with an allowance of `fuel` nested
calls: `none` when the allowance is used up. -/
def quiescenceFuel (stop : Bool) :
    Nat → Int → Int → Color → Board → Int → Int → Option (Int × Board × Int)
  | 0, _, _, _, _, _, _ => none
  | fuel + 1, alpha, beta, color, board, nodes, depth =>
    let nodes := nodes + 1
    if stop then some (0, board, nodes)
    else if depth ≥ 3 then
      let standPat := Evaluator.evaluate board
      some (if color = Color.Black then neg32 standPat else standPat, board, nodes)
    else
      let standPat := Evaluator.evaluate board
      let standPat := if color = Color.Black then neg32 standPat else standPat
      if standPat ≥ beta then some (beta, board, nodes)
      else
        let alpha := if alpha < standPat then standPat else alpha
        let captures := MoveGenerator.generateCaptures board color
        let captures := orderMoves board captures color
        quiescenceLoopFuel
          (fun a b c bd n => quiescenceFuel stop fuel a b c bd n (depth + 1))
          stop beta color captures alpha board nodes

/-- The move loop of `Engine::alphaBeta` when the nested call may fail to return. -/
def alphaBetaLoopFuel
    (recurse : Int → Int → Color → Board → Int → Option (Int × Board × Int))
    (stop : Bool) (beta : Int) (color : Color) :
    List Move → Int → Int → Board → Int → Option (Int × Board × Int)
  | [], _, maxScore, board, nodes => some (maxScore, board, nodes)
  | move :: rest, alpha, maxScore, board, nodes =>
    if stop then some (maxScore, board, nodes)
    else
      let board := board.makeMove move
      (recurse (neg32 beta) (neg32 alpha) (oppositeColor color) board nodes).bind fun out =>
        let score := neg32 out.1
        let board := out.2.1.unmakeMove move
        let nodes := out.2.2
        if stop then some (maxScore, board, nodes)
        else
          let maxScore := if score > maxScore then score else maxScore
          let alpha := if score > alpha then score else alpha
          if alpha ≥ beta then some (maxScore, board, nodes)
          else alphaBetaLoopFuel recurse stop beta color rest alpha maxScore board nodes

/-- The method `Engine::alphaBeta(depth, alpha, beta, color, nodesSearched)` with its
`int depth` and the recursion as written (`depth == 0` delegates to `quiescence`,
every other depth recurses with `depth - 1`), run with an allowance of `fuel` nested
search calls, the outermost included: `none` when the allowance is used up. -/
def alphaBetaFuel (stop : Bool) :
    Nat → Int → Int → Int → Color → Board → Int → Option (Int × Board × Int)
  | 0, _, _, _, _, _, _ => none
  | fuel + 1, depth, alpha, beta, color, board, nodes =>
    let nodes := nodes + 1
    if stop then some (0, board, nodes)
    else if depth = 0 then quiescenceFuel stop fuel alpha beta color board nodes 0
    else
      let moves := MoveGenerator.generateLegalMoves board color
      if moves.isEmpty then
        if board.isCheck color then some (INT_MIN + 1, board, nodes) else some (0, board, nodes)
      else
        let moves := orderMoves board moves color
        alphaBetaLoopFuel (alphaBetaFuel stop fuel (depth - 1)) stop beta color moves alpha
          INT_MIN board nodes

end AI.Engine

namespace AI.Engine

/-- Each move of the list made and taken back in turn, as the move loop of `alphaBeta`
does to the board. -/
def replayMoves (moves : List Move) (board : Board) : Board :=
  moves.foldl (fun b m => (b.makeMove m).unmakeMove m) board

/-- The body of the sequential root loop of `findBestMove(Black, 2)` for one move, with
the outcome of `alphaBeta(1, INT_MIN, INT_MAX, White, ...)` written out: `INT_MIN + 1`
or 0 on the unchanged board when White has no legal move, and otherwise `INT_MIN`
after every reply was made and taken back. The result is the score of the move, the
board after `unmakeMove` and the recent positions. -/
def blackStepDepthTwo (move : Move) (board : Board) (recentPositions : List (List Char)) :
    Int × Board × List (List Char) :=
  let board := board.makeMove move
  let replies := MoveGenerator.generateLegalMoves board Color.White
  let r : Int :=
    if replies.isEmpty then (if board.isCheck Color.White then INT_MIN + 1 else 0)
    else INT_MIN
  let board :=
    if replies.isEmpty then board else replayMoves (orderMoves board replies Color.White) board
  let score := neg32 r
  let fenAfter := board.toFEN
  let (repetitionPenalty, recent) := checkPositionRepetition recentPositions fenAfter
  let score := if repetitionPenalty > 0 then sub32 score repetitionPenalty else score
  let endgameBonus := evaluateEndgameMate board Color.Black
  let score := if endgameBonus ≠ 0 then add32 score endgameBonus else score
  (score, board.unmakeMove move, recent)

/-- The moves of the sequential root loop of `findBestMove(Black, 2)` with their
scores, by `blackStepDepthTwo`. -/
def blackResultsDepthTwo : List Move → Board → List (List Char) → List (Move × Int)
  | [], _, _ => []
  | move :: rest, board, recentPositions =>
    let step := blackStepDepthTwo move board recentPositions
    (move, step.1) :: blackResultsDepthTwo rest step.2.1 step.2.2

end AI.Engine

/-- The position `8/8/8/8/8/1k6/8/K6r`, rook on h8: `7r/8/8/8/8/1k6/8/K7 b - - 0 1`.
Black mates with Rh8-h1. -/
def rookMate : Board :=
  { squares := fun s =>
      if s = 0 then ⟨PieceType.King, Color.White⟩
      else if s = 17 then ⟨PieceType.King, Color.Black⟩
      else if s = 63 then ⟨PieceType.Rook, Color.Black⟩ else Piece.empty,
    position := { noCastling with sideToMove := Color.Black },
    history := [] }

/-- The mating move Rh8-h1. -/
def rookMates : Move := ⟨63, 7, MoveFlag.Normal, PieceType.None⟩

/-- The check Rh8-a8, answered by Ka1-b1. -/
def rookChecks : Move := ⟨63, 56, MoveFlag.Normal, PieceType.None⟩

/-- The other colour; `None` stays `None`. -/
def Color.swap : Color → Color
  | Color.White => Color.Black
  | Color.Black => Color.White
  | Color.None => Color.None

/-- The piece of the other colour. -/
def Piece.swapColor (p : Piece) : Piece := ⟨p.type, p.color.swap⟩

/-- The square on the same file and on rank `7 - rank`. -/
def mirrorSquare (sq : Nat) : Nat := makeSquare (getFile sq) (7 - getRank sq)

/-- The move between the mirrored squares. -/
def Move.mirror (m : Move) : Move :=
  ⟨mirrorSquare m.from_, mirrorSquare m.to_, m.flag, m.promotion⟩

/-- The mirror image of a board: the cell `(file, rank)` holds the colour-swapped piece
of the cell `(file, 7 - rank)`, the castling rights are exchanged between the colours
and the en-passant target is reflected. -/
def Board.mirror (b : Board) : Board :=
  { squares := fun s =>
      if s < 64 then (b.pieceAt (mirrorSquare s)).swapColor else b.pieceAt s,
    position :=
      { sideToMove := b.position.sideToMove,
        enPassantSquare :=
          if b.position.enPassantSquare < 64 then mirrorSquare b.position.enPassantSquare
          else b.position.enPassantSquare,
        whiteCanCastleKingside := b.position.blackCanCastleKingside,
        whiteCanCastleQueenside := b.position.blackCanCastleQueenside,
        blackCanCastleKingside := b.position.whiteCanCastleKingside,
        blackCanCastleQueenside := b.position.whiteCanCastleQueenside,
        halfmoveClock := b.position.halfmoveClock,
        fullmoveNumber := b.position.fullmoveNumber },
    history := b.history }

/-- The cells of `a` are the mirror image of the cells of `b`. -/
def Board.MirrorCells (a b : Board) : Prop :=
  ∀ f r : Int, isSquareValid f r = true →
    a.pieceAt (makeSquare f (7 - r)) = (b.pieceAt (makeSquare f r)).swapColor

/-- The castling rights of `a` are those of `b` with the colours exchanged, and the
en-passant target of `a` is the reflected target of `b`. -/
def Board.MirrorPosition (a b : Board) : Prop :=
  (∀ c : Color, c = Color.White ∨ c = Color.Black →
    a.position.canCastleKingside c.swap = b.position.canCastleKingside c ∧
    a.position.canCastleQueenside c.swap = b.position.canCastleQueenside c) ∧
  ∀ f r : Int, isSquareValid f r = true →
    (makeSquare f (7 - r) = a.position.enPassantSquare ↔
      makeSquare f r = b.position.enPassantSquare)

/-- At most one cell `0..63` holds a king of colour `c`. -/
def Board.OneKing (b : Board) (c : Color) : Prop :=
  ∀ s1 s2 : Nat, s1 < 64 → s2 < 64 →
    ((b.pieceAt s1).type = PieceType.King ∧ (b.pieceAt s1).color = c) →
    ((b.pieceAt s2).type = PieceType.King ∧ (b.pieceAt s2).color = c) → s1 = s2

/-- A colour that holds a castling right has its kings on the e-file. -/
def Board.CastlingFromFileE (b : Board) : Prop :=
  ∀ c : Color, (b.position.canCastleKingside c = true ∨
      b.position.canCastleQueenside c = true) →
    ∀ sq : Nat, sq < 64 → (b.pieceAt sq).type = PieceType.King → (b.pieceAt sq).color = c →
      getFile sq = 4

/-- The boards of the symmetry property: proper cells (`Piece()` or a piece of type
Pawn..King and colour White or Black) and castling rights only for a king on the
e-file. -/
def Board.WellFormed (b : Board) : Prop :=
  b.CellsProper ∧ b.CastlingFromFileE

/-- An offset or direction with its rank component negated. -/
def flipRank (d : Int × Int) : Int × Int := (d.1, -d.2)

namespace AI.Evaluator

/-- The body of the loop over `df` in the White-king block of `evaluateKingSafety`. -/
def shieldStepWhite (board : Board) (king : Nat) (score df : Int) : Int :=
  let file := getFile king
  let rank := getRank king
  let checkFile := file + df
  if checkFile ≥ 0 ∧ checkFile < 8 ∧ rank < 7 then
    let piece := board.pieceAt (makeSquare checkFile (rank + 1))
    if piece.type = PieceType.Pawn ∧ piece.isWhite then score + 10 else score
  else score

/-- The body of the loop over `df` in the Black-king block of `evaluateKingSafety`. -/
def shieldStepBlack (board : Board) (king : Nat) (score df : Int) : Int :=
  let file := getFile king
  let rank := getRank king
  let checkFile := file + df
  if checkFile ≥ 0 ∧ checkFile < 8 ∧ rank > 0 then
    let piece := board.pieceAt (makeSquare checkFile (rank - 1))
    if piece.type = PieceType.Pawn ∧ piece.isBlack then score - 10 else score
  else score

end AI.Evaluator

/-- The position `4k3/8/8/8/8/P7/P7/4K2R w K - 0 1`: White may castle king-side, and
has two pawns on the a-file. -/
def kingsideRight : Board :=
  { squares := fun s =>
      if s = 4 then ⟨PieceType.King, Color.White⟩
      else if s = 7 then ⟨PieceType.Rook, Color.White⟩
      else if s = 8 then ⟨PieceType.Pawn, Color.White⟩
      else if s = 16 then ⟨PieceType.Pawn, Color.White⟩
      else if s = 60 then ⟨PieceType.King, Color.Black⟩ else Piece.empty,
    position := { noCastling with whiteCanCastleKingside := true },
    history := [] }

/-- The position `4k3/8/8/8/6K1/P7/8/8 w K - 0 1`: White holds the king-side castling
right with the king on g4. -/
def strayRight : Board :=
  { squares := fun s =>
      if s = 30 then ⟨PieceType.King, Color.White⟩
      else if s = 16 then ⟨PieceType.Pawn, Color.White⟩
      else if s = 60 then ⟨PieceType.King, Color.Black⟩ else Piece.empty,
    position := { noCastling with whiteCanCastleKingside := true },
    history := [] }

/-- The starting position with the halfmove clock at `INT_MAX`
(`rnbqkbnr/pppppppp/8/8/8/8/PPPPPPPP/RNBQKBNR w KQkq - 2147483647 1`). -/
def clockAtMax : Board :=
  { startBoard with
    position := { startBoard.position with halfmoveClock := 2147483647 } }

/-- The starting position with Black to move and the fullmove number at `INT_MAX`
(`rnbqkbnr/pppppppp/8/8/8/8/PPPPPPPP/RNBQKBNR b KQkq - 0 2147483647`). -/
def fullmoveAtMax : Board :=
  { startBoard with
    position :=
      { startBoard.position with sideToMove := Color.Black, fullmoveNumber := 2147483647 } }

/-- The knight move g1-f3. -/
def knightOut : Move := ⟨6, 21, MoveFlag.Normal, PieceType.None⟩

/-- The knight move g8-f6. -/
def knightReply : Move := ⟨62, 45, MoveFlag.Normal, PieceType.None⟩

/-- The starting position with a king of colour `None` on d4, set with
`setPiece(27, Piece(PieceType::King, Color::None))`. -/
def colourlessKing : Board :=
  { startBoard with
    squares := fun s => if s = 27 then ⟨PieceType.King, Color.None⟩ else startBoard.squares s }

/-- The step d4-d5 of the king of colour `None`. -/
def colourlessKingStep : Move := ⟨27, 35, MoveFlag.Normal, PieceType.None⟩

/-- The position `rookEnPrise` with a rook of colour `None` on h1, set with
`setPiece(7, Piece(PieceType::Rook, Color::None))`. -/
def colourlessRook : Board :=
  { rookEnPrise with
    squares := fun s => if s = 7 then ⟨PieceType.Rook, Color.None⟩ else rookEnPrise.squares s }

end Chess

namespace Chess
open MoveGenerator AI

/-! ## Theorems -/

/-! ### Projections of the board-update blocks -/

namespace Board

@[simp] theorem setPiece_position (b : Board) (sq : Nat) (p : Piece) :
    (b.setPiece sq p).position = b.position := rfl

@[simp] theorem setPiece_history (b : Board) (sq : Nat) (p : Piece) :
    (b.setPiece sq p).history = b.history := rfl

@[simp] theorem removePiece_position (b : Board) (sq : Nat) :
    (b.removePiece sq).position = b.position := rfl

@[simp] theorem removePiece_history (b : Board) (sq : Nat) :
    (b.removePiece sq).history = b.history := rfl

theorem pieceAt_setPiece (b : Board) (sq : Nat) (p : Piece) (s : Nat) :
    (b.setPiece sq p).pieceAt s = if s = sq then p else b.pieceAt s := rfl

theorem pieceAt_removePiece (b : Board) (sq : Nat) (s : Nat) :
    (b.removePiece sq).pieceAt s = if s = sq then Piece.empty else b.pieceAt s := rfl

@[simp] theorem moveRook_position (b : Board) (x y r : Int) :
    (b.moveRook x y r).position = b.position := rfl

@[simp] theorem moveRook_history (b : Board) (x y r : Int) :
    (b.moveRook x y r).history = b.history := rfl

@[simp] theorem pushUndo_squares (b : Board) (m : Move) : (b.pushUndo m).squares = b.squares := rfl

@[simp] theorem pushUndo_position (b : Board) (m : Move) :
    (b.pushUndo m).position = b.position := rfl

@[simp] theorem updateHalfmoveClock_squares (b : Board) (p : Piece) (m : Move) :
    (b.updateHalfmoveClock p m).squares = b.squares := by
  unfold updateHalfmoveClock; split <;> rfl

@[simp] theorem updateHalfmoveClock_history (b : Board) (p : Piece) (m : Move) :
    (b.updateHalfmoveClock p m).history = b.history := by
  unfold updateHalfmoveClock; split <;> rfl

@[simp] theorem castleRook_position (b : Board) (m : Move) :
    (b.castleRook m).position = b.position := by
  unfold castleRook; split_ifs <;> rfl

@[simp] theorem castleRook_history (b : Board) (m : Move) :
    (b.castleRook m).history = b.history := by
  unfold castleRook; split_ifs <;> rfl

@[simp] theorem promotePawn_position (b : Board) (m : Move) (p : Piece) :
    (b.promotePawn m p).position = b.position := by
  unfold promotePawn; split_ifs <;> rfl

@[simp] theorem promotePawn_history (b : Board) (m : Move) (p : Piece) :
    (b.promotePawn m p).history = b.history := by
  unfold promotePawn; split_ifs <;> rfl

@[simp] theorem removeEnPassantPawn_position (b : Board) (m : Move) :
    (b.removeEnPassantPawn m).position = b.position := by
  unfold removeEnPassantPawn; split_ifs <;> rfl

@[simp] theorem removeEnPassantPawn_history (b : Board) (m : Move) :
    (b.removeEnPassantPawn m).history = b.history := by
  unfold removeEnPassantPawn; split_ifs <;> rfl

@[simp] theorem updateEnPassant_squares (b : Board) (p : Piece) (m : Move) :
    (b.updateEnPassant p m).squares = b.squares := by
  simp only [updateEnPassant]; split_ifs <;> rfl

@[simp] theorem updateEnPassant_history (b : Board) (p : Piece) (m : Move) :
    (b.updateEnPassant p m).history = b.history := by
  simp only [updateEnPassant]; split_ifs <;> rfl

@[simp] theorem updateCastling_squares (b : Board) (p : Piece) (m : Move) :
    (b.updateCastling p m).squares = b.squares := rfl

@[simp] theorem updateCastling_history (b : Board) (p : Piece) (m : Move) :
    (b.updateCastling p m).history = b.history := rfl

@[simp] theorem switchSide_squares (b : Board) : b.switchSide.squares = b.squares := rfl

@[simp] theorem switchSide_history (b : Board) : b.switchSide.history = b.history := rfl

theorem setPiece_squares_congr {b b' : Board} (h : b.squares = b'.squares) (sq : Nat)
    (p : Piece) : (b.setPiece sq p).squares = (b'.setPiece sq p).squares := by
  simp only [setPiece, h]

theorem removePiece_squares_congr {b b' : Board} (h : b.squares = b'.squares) (sq : Nat) :
    (b.removePiece sq).squares = (b'.removePiece sq).squares :=
  setPiece_squares_congr h sq _

theorem moveRook_squares_congr {b b' : Board} (h : b.squares = b'.squares) (x y r : Int) :
    (b.moveRook x y r).squares = (b'.moveRook x y r).squares := by
  simp only [moveRook, removePiece, setPiece, pieceAt, h]

theorem castleRook_squares_congr {b b' : Board} (h : b.squares = b'.squares) (m : Move) :
    (b.castleRook m).squares = (b'.castleRook m).squares := by
  unfold castleRook
  split_ifs
  · exact moveRook_squares_congr h _ _ _
  · exact moveRook_squares_congr h _ _ _
  · exact h

theorem promotePawn_squares_congr {b b' : Board} (h : b.squares = b'.squares) (m : Move)
    (p : Piece) : (b.promotePawn m p).squares = (b'.promotePawn m p).squares := by
  unfold promotePawn
  split_ifs
  · exact setPiece_squares_congr h _ _
  · exact h

theorem removeEnPassantPawn_squares_congr {b b' : Board} (h : b.squares = b'.squares)
    (m : Move) : (b.removeEnPassantPawn m).squares = (b'.removeEnPassantPawn m).squares := by
  unfold removeEnPassantPawn
  split_ifs
  · exact removePiece_squares_congr h _
  · exact h

/-- The cells after `makeMove`, as the relocation blocks applied to the cells before. -/
theorem makeMove_squares (b : Board) (m : Move) :
    (b.makeMove m).squares =
      (((((b.setPiece m.to_ (b.pieceAt m.from_)).removePiece m.from_).castleRook m).promotePawn m
        (b.pieceAt m.from_)).removeEnPassantPawn m).squares := by
  simp only [makeMove, switchSide_squares, updateCastling_squares, updateEnPassant_squares]
  apply removeEnPassantPawn_squares_congr
  apply promotePawn_squares_congr
  apply castleRook_squares_congr
  apply removePiece_squares_congr
  apply setPiece_squares_congr
  simp

theorem makeMove_squares_congr {b b' : Board} (h : b.squares = b'.squares) (m : Move) :
    (b.makeMove m).squares = (b'.makeMove m).squares := by
  have hp : b.pieceAt m.from_ = b'.pieceAt m.from_ := by simp only [pieceAt, h]
  rw [makeMove_squares, makeMove_squares, hp]
  apply removeEnPassantPawn_squares_congr
  apply promotePawn_squares_congr
  apply castleRook_squares_congr
  apply removePiece_squares_congr
  exact setPiece_squares_congr h _ _

theorem makeMove_history (b : Board) (m : Move) :
    (b.makeMove m).history = ⟨b.pieceAt m.to_, b.position.getState⟩ :: b.history := by
  simp [makeMove, pushUndo]

end Board

/-! ### Queries read the cells and the position only -/

theorem attackRay_congr {b b' : Board} (h : b.squares = b'.squares) (c : Color)
    (t1 t2 : PieceType) (df dr : Int) (fuel : Nat) (f r : Int) :
    Board.attackRay b c t1 t2 df dr fuel f r = Board.attackRay b' c t1 t2 df dr fuel f r := by
  induction fuel generalizing f r with
  | zero => rfl
  | succ n ih => simp only [Board.attackRay, Board.pieceAt, h, ih]

theorem isSquareAttacked_congr {b b' : Board} (h : b.squares = b'.squares) (sq : Nat)
    (c : Color) : b.isSquareAttacked sq c = b'.isSquareAttacked sq c := by
  simp only [Board.isSquareAttacked, Board.attackPawn, Board.attackLeap, Board.pieceAt, h,
    attackRay_congr h]

theorem findKing_congr {b b' : Board} (h : b.squares = b'.squares) (c : Color) :
    b.findKing c = b'.findKing c := by
  simp only [Board.findKing, Board.pieceAt, h]

theorem isCheck_congr {b b' : Board} (h : b.squares = b'.squares) (c : Color) :
    b.isCheck c = b'.isCheck c := by
  simp only [Board.isCheck, findKing_congr h, isSquareAttacked_congr h]

theorem slideRay_congr {b b' : Board} (h : b.squares = b'.squares) (src : Nat) (c : Color)
    (df dr : Int) (fuel : Nat) (f r : Int) :
    slideRay b src c df dr fuel f r = slideRay b' src c df dr fuel f r := by
  induction fuel generalizing f r with
  | zero => rfl
  | succ n ih => simp only [slideRay, Board.pieceAt, h, ih]

theorem movesFrom_congr {b b' : Board} (h : b.squares = b'.squares)
    (hp : b.position = b'.position) (c : Color) (sq : Nat) :
    movesFrom b c sq = movesFrom b' c sq := by
  simp only [movesFrom, generatePawnMoves, pawnPushes, pawnCapturesDir, generateKnightMoves,
    generateBishopMoves, generateRookMoves, generateQueenMoves, generateKingMoves, slideMoves,
    castleKingside, castleQueenside, addMoveIfValid, Board.pieceAt, h, hp,
    slideRay_congr h, isCheck_congr h, isSquareAttacked_congr h]

theorem generateLegalMoves_congr {b b' : Board} (h : b.squares = b'.squares)
    (hp : b.position = b'.position) (c : Color) :
    generateLegalMoves b c = generateLegalMoves b' c := by
  have hm : movesFrom b c = movesFrom b' c := funext (movesFrom_congr h hp c)
  simp only [generateLegalMoves, generatePseudoLegalMoves, MoveValidator.leavesKingInCheck,
    hm, isCheck_congr (Board.makeMove_squares_congr h _)]

/-! ### The ray walks never need more than 8 iterations -/

theorem attackRay_off_board (b : Board) (c : Color) (t1 t2 : PieceType) (df dr : Int)
    (fuel : Nat) (f r : Int) (h : Board.onBoard f r = false) :
    Board.attackRay b c t1 t2 df dr fuel f r = false := by
  cases fuel with
  | zero => rfl
  | succ n => simp [Board.attackRay, h]

theorem attackRay_fuel_of_exit (b : Board) (c : Color) (t1 t2 : PieceType) (df dr : Int) :
    ∀ (n m : Nat) (f r : Int), Board.onBoard (f + n * df) (r + n * dr) = false →
      Board.attackRay b c t1 t2 df dr (n + m) f r = Board.attackRay b c t1 t2 df dr n f r := by
  intro n
  induction n with
  | zero =>
    intro m f r h
    simp only [Nat.cast_zero, zero_mul, add_zero] at h
    rw [attackRay_off_board _ _ _ _ _ _ _ _ _ h, attackRay_off_board _ _ _ _ _ _ _ _ _ h]
  | succ n ih =>
    intro m f r h
    have h' : Board.onBoard (f + df + n * df) (r + dr + n * dr) = false := by
      have e1 : f + df + n * df = f + ((n + 1 : Nat) : Int) * df := by push_cast; ring
      have e2 : r + dr + n * dr = r + ((n + 1 : Nat) : Int) * dr := by push_cast; ring
      rw [e1, e2]; exact h
    have e : n + 1 + m = (n + m) + 1 := by omega
    rw [e]
    simp only [Board.attackRay, ih m _ _ h']

/-- The `while` loops of `isSquareAttacked` leave the board within 8 iterations: more
iterations than 8 never change the result of a ray walk in one of the eight
directions. -/
theorem attackRay_fuel (b : Board) (c : Color) (t1 t2 : PieceType) (df dr : Int)
    (hne : df ≠ 0 ∨ dr ≠ 0) (m : Nat) (f r : Int) :
    Board.attackRay b c t1 t2 df dr (8 + m) f r = Board.attackRay b c t1 t2 df dr 8 f r := by
  by_cases hon : Board.onBoard f r = true
  · apply attackRay_fuel_of_exit
    simp only [Board.onBoard, Bool.and_eq_true, decide_eq_true_eq] at hon
    simp only [Board.onBoard, Bool.and_eq_false_iff, decide_eq_false_iff_not]
    push_cast
    omega
  · simp only [Bool.not_eq_true] at hon
    rw [attackRay_off_board _ _ _ _ _ _ _ _ _ hon, attackRay_off_board _ _ _ _ _ _ _ _ _ hon]

theorem slideRay_off_board (b : Board) (src : Nat) (c : Color) (df dr : Int)
    (fuel : Nat) (f r : Int) (h : isSquareValid f r = false) :
    slideRay b src c df dr fuel f r = [] := by
  cases fuel with
  | zero => rfl
  | succ n => simp [slideRay, h]

theorem slideRay_fuel_of_exit (b : Board) (src : Nat) (c : Color) (df dr : Int) :
    ∀ (n m : Nat) (f r : Int), isSquareValid (f + n * df) (r + n * dr) = false →
      slideRay b src c df dr (n + m) f r = slideRay b src c df dr n f r := by
  intro n
  induction n with
  | zero =>
    intro m f r h
    simp only [Nat.cast_zero, zero_mul, add_zero] at h
    rw [slideRay_off_board _ _ _ _ _ _ _ _ h, slideRay_off_board _ _ _ _ _ _ _ _ h]
  | succ n ih =>
    intro m f r h
    have h' : isSquareValid (f + df + n * df) (r + dr + n * dr) = false := by
      have e1 : f + df + n * df = f + ((n + 1 : Nat) : Int) * df := by push_cast; ring
      have e2 : r + dr + n * dr = r + ((n + 1 : Nat) : Int) * dr := by push_cast; ring
      rw [e1, e2]; exact h
    have e : n + 1 + m = (n + m) + 1 := by omega
    rw [e]
    simp only [slideRay, ih m _ _ h']

/-- The `while` loops of the slider generators leave the board within 8 iterations. -/
theorem slideRay_fuel (b : Board) (src : Nat) (c : Color) (df dr : Int)
    (hne : df ≠ 0 ∨ dr ≠ 0) (m : Nat) (f r : Int) :
    slideRay b src c df dr (8 + m) f r = slideRay b src c df dr 8 f r := by
  by_cases hon : isSquareValid f r = true
  · apply slideRay_fuel_of_exit
    simp only [isSquareValid, Bool.and_eq_true, decide_eq_true_eq] at hon
    simp only [isSquareValid, Bool.and_eq_false_iff, decide_eq_false_iff_not]
    push_cast
    omega
  · simp only [Bool.not_eq_true] at hon
    rw [slideRay_off_board _ _ _ _ _ _ _ _ hon, slideRay_off_board _ _ _ _ _ _ _ _ hon]

/-! ### The side to move through `makeMove` and `unmakeMove` -/

namespace Board

theorem switchSide_sideToMove (b : Board) :
    b.switchSide.position.sideToMove = oppositeColor b.position.sideToMove := by
  simp only [switchSide, Position.setSideToMove]

theorem updateCastlingRights_sideToMove (pos : Position) (p : Piece) (m : Move) :
    (updateCastlingRights pos p m).sideToMove = pos.sideToMove := by
  simp only [updateCastlingRights, Position.setCastlingRights]
  split_ifs <;> rfl

theorem updateEnPassant_sideToMove (b : Board) (p : Piece) (m : Move) :
    (b.updateEnPassant p m).position.sideToMove = b.position.sideToMove := by
  simp only [updateEnPassant, Position.setEnPassantSquare]
  split_ifs <;> rfl

theorem updateHalfmoveClock_sideToMove (b : Board) (p : Piece) (m : Move) :
    (b.updateHalfmoveClock p m).position.sideToMove = b.position.sideToMove := by
  simp only [updateHalfmoveClock]
  split_ifs <;> rfl

/-- The side to move after `makeMove`, read off the code. -/
theorem makeMove_sideToMove (b : Board) (m : Move) :
    (b.makeMove m).position.sideToMove = oppositeColor b.position.sideToMove := by
  simp only [makeMove, switchSide_sideToMove, updateCastling, updateCastlingRights_sideToMove,
    updateEnPassant_sideToMove, removeEnPassantPawn_position, promotePawn_position,
    castleRook_position, removePiece_position, setPiece_position,
    updateHalfmoveClock_sideToMove, pushUndo_position]

theorem uncastleRook_position (b : Board) (m : Move) :
    (b.uncastleRook m).position = b.position := by
  unfold uncastleRook; split_ifs <;> rfl

theorem unpromotePawn_position (b : Board) (m : Move) (p : Piece) :
    (b.unpromotePawn m p).position = b.position := by
  unfold unpromotePawn; split_ifs <;> rfl

theorem restoreEnPassantPawn_position (b : Board) (m : Move) (p : Piece) :
    (b.restoreEnPassantPawn m p).position = b.position := by
  unfold restoreEnPassantPawn; split_ifs <;> rfl

/-- `unmakeMove` keeps the side to move it finds. -/
theorem unmakeMove_sideToMove (b : Board) (m : Move) :
    (b.unmakeMove m).position.sideToMove = b.position.sideToMove := by
  unfold unmakeMove
  split
  · rfl
  · simp only [restoreEnPassantPawn_position, unpromotePawn_position, uncastleRook_position,
      setPiece_position, Position.setState]

end Board

/-! ### Claims about moves, legality and the search -/

/-- C2 (defect shown at the starting position). The move e2-e4 is among the legal moves
of the side to move; making and unmaking it leaves the exchange-format string with
side to move `b` where it was `w`: `unmakeMove` restores the snapshot, and the
snapshot has no side-to-move field. On every board and for every move the pair leaves
the opposite side to move. -/
theorem makeMove_unmakeMove_side_not_restored :
    (e2e4 ∈ generateLegalMoves startBoard startBoard.position.sideToMove ∧
      startBoard.toFEN = "rnbqkbnr/pppppppp/8/8/8/8/PPPPPPPP/RNBQKBNR w KQkq - 0 1".data ∧
      ((startBoard.makeMove e2e4).unmakeMove e2e4).toFEN =
        "rnbqkbnr/pppppppp/8/8/8/8/PPPPPPPP/RNBQKBNR b KQkq - 0 1".data) ∧
    ∀ (b : Board) (m : Move), ((b.makeMove m).unmakeMove m).position.sideToMove =
      oppositeColor b.position.sideToMove := by
  refine ⟨by decide, fun b m => ?_⟩
  rw [Board.unmakeMove_sideToMove, Board.makeMove_sideToMove]

set_option maxRecDepth 1000000 in
/-- C3 (defect shown with the two kings in opposite corners). White has three legal
moves, the search at depth 1 takes the sequential path, and when it returns the
board's side to move is Black where it was White: each root `makeMove` flips the side
and `unmakeMove` does not flip it back. -/
theorem findBestMove_side_not_restored :
    (generateLegalMoves kingsOnly Color.White).length = 3 ∧
    kingsOnly.position.sideToMove = Color.White ∧
    (Engine.findBestMove (Engine.create kingsOnly) Color.White 1).map
      (fun r => (r.2.board.position.sideToMove, r.2.board.history.length)) =
      some (Color.Black, 0) := by
  decide

/-- C4. Every move returned by `generateLegalMoves(c)` leads, by `makeMove`, to a board
on which `isCheck(c)` is false. -/
theorem legal_move_leaves_no_check (b : Board) (c : Color) (m : Move)
    (hm : m ∈ generateLegalMoves b c) : (b.makeMove m).isCheck c = false := by
  simp only [generateLegalMoves, List.mem_filter, MoveValidator.leavesKingInCheck,
    Bool.not_eq_true'] at hm
  exact hm.2

/-- Witness of C4: e2-e4 at the starting position. -/
theorem legal_move_leaves_no_check_witness :
    e2e4 ∈ generateLegalMoves startBoard Color.White ∧
    (startBoard.makeMove e2e4).isCheck Color.White = false :=
  ⟨by decide, legal_move_leaves_no_check startBoard Color.White e2e4 (by decide)⟩

theorem setupInitialPosition_eq (b0 : Board) :
    b0.setupInitialPosition =
      { Board.setupInitialPosition Board.empty with history := b0.history } := rfl

theorem setupInitialPosition_squares (b0 : Board) :
    b0.setupInitialPosition.squares = startBoard.squares := by
  rw [setupInitialPosition_eq]; rfl

theorem setupInitialPosition_position (b0 : Board) :
    b0.setupInitialPosition.position = startBoard.position := by
  rw [setupInitialPosition_eq]; rfl

theorem startBoard_legal_moves : generateLegalMoves startBoard Color.White = startMoves := by
  decide

/-- C5. On any board after `setupInitialPosition()`, `generateLegalMoves(White)` returns
the twenty moves `startMoves`: 8 single pawn pushes (flag `Normal`), 8 double pawn
pushes (flag `DoublePawnPush`) and 4 knight moves; every move goes to an empty cell,
none moves the king and none carries the flag `Castling`, `Capture` or `EnPassant`. -/
theorem initial_position_has_twenty_moves (b0 : Board) :
    let b := b0.setupInitialPosition
    let ms := generateLegalMoves b Color.White
    ms = startMoves ∧
    ms.length = 20 ∧
    (ms.filter fun m => decide ((b.pieceAt m.from_).type = PieceType.Pawn) &&
      decide (m.flag = MoveFlag.Normal)).length = 8 ∧
    (ms.filter fun m => decide ((b.pieceAt m.from_).type = PieceType.Pawn) &&
      decide (m.flag = MoveFlag.DoublePawnPush)).length = 8 ∧
    (ms.filter fun m => decide ((b.pieceAt m.from_).type = PieceType.Knight) &&
      decide (m.flag = MoveFlag.Normal)).length = 4 ∧
    ∀ m ∈ ms, (b.pieceAt m.from_).type ≠ PieceType.King ∧ m.flag ≠ MoveFlag.Castling ∧
      m.isCapture = false ∧ (b.pieceAt m.to_).isNone = true := by
  simp only [generateLegalMoves_congr (setupInitialPosition_squares b0)
    (setupInitialPosition_position b0), Board.pieceAt, setupInitialPosition_squares b0,
    startBoard_legal_moves]
  decide

/-- C7 (defect shown). In `4k3/1b6/8/8/8/8/8/4K2R b K - 0 1` Black's legal capture
b7xh1 removes the white rook from its corner; on the resulting board White's
king-side right is still set, h1 holds a black bishop, and `generateLegalMoves(White)`
contains the castling move e1-g1. -/
theorem castling_offered_after_rook_captured :
    bishopTakesRook ∈ generateLegalMoves rookEnPrise Color.Black ∧
    (rookEnPrise.makeMove bishopTakesRook).position.canCastleKingside Color.White = true ∧
    (rookEnPrise.makeMove bishopTakesRook).pieceAt 7 = ⟨PieceType.Bishop, Color.Black⟩ ∧
    (⟨4, 6, MoveFlag.Castling, PieceType.None⟩ : Move) ∈
      generateLegalMoves (rookEnPrise.makeMove bishopTakesRook) Color.White := by
  decide

/-! ### Position fields after `makeMove` -/

namespace Board

theorem updateCastlingRights_enPassantSquare (pos : Position) (p : Piece) (m : Move) :
    (updateCastlingRights pos p m).enPassantSquare = pos.enPassantSquare := by
  simp only [updateCastlingRights, Position.setCastlingRights]
  split_ifs <;> rfl

theorem updateCastlingRights_halfmoveClock (pos : Position) (p : Piece) (m : Move) :
    (updateCastlingRights pos p m).halfmoveClock = pos.halfmoveClock := by
  simp only [updateCastlingRights, Position.setCastlingRights]
  split_ifs <;> rfl

theorem switchSide_enPassantSquare (b : Board) :
    b.switchSide.position.enPassantSquare = b.position.enPassantSquare := by
  simp only [switchSide, Position.setSideToMove]
  split_ifs <;> rfl

theorem switchSide_halfmoveClock (b : Board) :
    b.switchSide.position.halfmoveClock = b.position.halfmoveClock := by
  simp only [switchSide, Position.setSideToMove]
  split_ifs <;> rfl

theorem updateEnPassant_halfmoveClock (b : Board) (p : Piece) (m : Move) :
    (b.updateEnPassant p m).position.halfmoveClock = b.position.halfmoveClock := by
  simp only [updateEnPassant, Position.setEnPassantSquare]
  split_ifs <;> rfl

/-- The en-passant target after `makeMove`, read off the code. -/
theorem makeMove_enPassantSquare (b : Board) (m : Move) :
    (b.makeMove m).position.enPassantSquare =
      if (b.pieceAt m.from_).type = PieceType.Pawn ∧
          ((getRank m.to_ - getRank m.from_).natAbs : Int) = 2 then
        makeSquare (getFile m.from_) ((getRank m.from_ + getRank m.to_) / 2)
      else 255 := by
  simp only [makeMove, switchSide_enPassantSquare, updateCastling,
    updateCastlingRights_enPassantSquare, updateEnPassant, Position.setEnPassantSquare]
  have hp : (b.pushUndo m).pieceAt m.from_ = b.pieceAt m.from_ := rfl
  rw [hp]
  split_ifs <;> simp_all

/-- The halfmove clock after `makeMove`, read off the code. -/
theorem makeMove_halfmoveClock (b : Board) (m : Move) :
    (b.makeMove m).position.halfmoveClock =
      if (b.pieceAt m.from_).type = PieceType.Pawn ∨ m.isCapture = true then 0
      else wrap32 (b.position.halfmoveClock + 1) := by
  simp only [makeMove, switchSide_halfmoveClock, updateCastling,
    updateCastlingRights_halfmoveClock, updateEnPassant_halfmoveClock, removeEnPassantPawn_position,
    promotePawn_position, castleRook_position, removePiece_position, setPiece_position]
  have hp : (b.pushUndo m).pieceAt m.from_ = b.pieceAt m.from_ := rfl
  rw [hp]
  simp only [updateHalfmoveClock]
  split_ifs <;> rfl

end Board

theorem makeSquare_natCast (f r : Nat) (h : r * 8 + f < 256) :
    makeSquare (f : Int) (r : Int) = r * 8 + f := by
  unfold makeSquare BOARD_SIZE
  have h1 : ((r : Int) * 8 + (f : Int)) % 256 = ((r * 8 + f : Nat) : Int) := by
    rw [Int.emod_eq_of_lt] <;> push_cast <;> omega
  rw [h1, Int.toNat_ofNat]

/-- C8. After `makeMove(m)`: when the piece on the origin is a pawn and origin and
destination are two ranks apart, the en-passant target is a square on the origin's
file whose rank is midway between the two ranks (twice its rank is their sum); in
every other case it is 255, whatever the target was before. Squares range over
`uint8_t`. -/
theorem makeMove_enPassant_target (b : Board) (m : Move) (hf : m.from_ < 256)
    (ht : m.to_ < 256) :
    let ep := (b.makeMove m).position.enPassantSquare
    let twoRanks := getRank m.to_ - getRank m.from_ = 2 ∨ getRank m.from_ - getRank m.to_ = 2
    ((b.pieceAt m.from_).type = PieceType.Pawn ∧ twoRanks →
      getFile ep = getFile m.from_ ∧ 2 * getRank ep = getRank m.from_ + getRank m.to_ ∧
        ep ≠ 255) ∧
    (¬((b.pieceAt m.from_).type = PieceType.Pawn ∧ twoRanks) → ep = 255) := by
  simp only [Board.makeMove_enPassantSquare]
  constructor
  · rintro ⟨hp, h2⟩
    have h : ((getRank m.to_ - getRank m.from_).natAbs : Int) = 2 := by omega
    rw [if_pos ⟨hp, h⟩]
    simp only [getRank, getFile] at h2 ⊢
    have hm : ((m.from_ / 8 : Nat) : Int) + ((m.to_ / 8 : Nat) : Int) =
        ((m.from_ / 8 + m.to_ / 8 : Nat) : Int) := by push_cast; rfl
    have hd : ((m.from_ / 8 + m.to_ / 8 : Nat) : Int) / 2 =
        (((m.from_ / 8 + m.to_ / 8) / 2 : Nat) : Int) := by push_cast; rfl
    rw [hm, hd, makeSquare_natCast _ _ (by omega)]
    omega
  · intro hn
    rw [if_neg]
    rintro ⟨hp, h⟩
    exact hn ⟨hp, by omega⟩

/-- Witness of C8: e2-e4 at the starting position. -/
theorem makeMove_enPassant_target_witness :
    (e2e4.from_ < 256 ∧ e2e4.to_ < 256) ∧
    (let ep := (startBoard.makeMove e2e4).position.enPassantSquare
     let twoRanks :=
       getRank e2e4.to_ - getRank e2e4.from_ = 2 ∨ getRank e2e4.from_ - getRank e2e4.to_ = 2
     ((startBoard.pieceAt e2e4.from_).type = PieceType.Pawn ∧ twoRanks →
       getFile ep = getFile e2e4.from_ ∧
         2 * getRank ep = getRank e2e4.from_ + getRank e2e4.to_ ∧ ep ≠ 255) ∧
     (¬((startBoard.pieceAt e2e4.from_).type = PieceType.Pawn ∧ twoRanks) → ep = 255)) :=
  ⟨⟨by decide, by decide⟩, makeMove_enPassant_target startBoard e2e4 (by decide) (by decide)⟩

/-- The cell on the file of `t` and the rank of `f`, for squares of the board. -/
theorem makeSquare_file_rank (t f : Nat) (hf : f < 64) :
    makeSquare (getFile t) (getRank f) = f / 8 * 8 + t % 8 := by
  unfold getFile getRank
  rw [makeSquare_natCast _ _ (by omega)]

/-- The cells after an en-passant `makeMove`, read off the code. -/
theorem Board.makeMove_enPassant_pieceAt (b : Board) (m : Move)
    (hflag : m.flag = MoveFlag.EnPassant) (s : Nat) :
    (b.makeMove m).pieceAt s =
      if s = makeSquare (getFile m.to_) (getRank m.from_) then Piece.empty
      else if s = m.from_ then Piece.empty
      else if s = m.to_ then b.pieceAt m.from_
      else b.pieceAt s := by
  have h1 : m.isCastling = false := by simp [Move.isCastling, hflag]
  have h2 : m.isPromotion = false := by simp [Move.isPromotion, hflag]
  have h3 : m.isEnPassant = true := by simp [Move.isEnPassant, hflag]
  simp only [Board.pieceAt, Board.makeMove_squares, Board.removeEnPassantPawn, Board.promotePawn,
    Board.castleRook, h1, h2, h3, Board.removePiece, Board.setPiece]
  simp

/-- C9 (counterexample). With a lone white pawn on a5 and the move a5-b5 carrying the
flag `EnPassant` (origin and destination below 64), after `makeMove` the destination
b5 is empty and does not hold the pawn that was on a5. -/
theorem makeMove_enPassant_same_rank_loses_piece :
    sidewaysEnPassant.flag = MoveFlag.EnPassant ∧ sidewaysEnPassant.from_ < 64 ∧
    sidewaysEnPassant.to_ < 64 ∧
    lonePawn.pieceAt sidewaysEnPassant.from_ = ⟨PieceType.Pawn, Color.White⟩ ∧
    (lonePawn.makeMove sidewaysEnPassant).pieceAt sidewaysEnPassant.to_ = Piece.empty ∧
    (lonePawn.makeMove sidewaysEnPassant).pieceAt sidewaysEnPassant.to_ ≠
      lonePawn.pieceAt sidewaysEnPassant.from_ := by
  decide

/-- C9 (amended). For a move with flag `EnPassant` between squares below 64 on
different ranks, after `makeMove` the destination holds the piece that was on the
origin, the origin is empty, the cell on the destination's file and the origin's rank
(a square below 64) is empty, and every other cell is unchanged. -/
theorem makeMove_enPassant_cells (b : Board) (m : Move)
    (hflag : m.flag = MoveFlag.EnPassant) (hf : m.from_ < 64) (_ht : m.to_ < 64)
    (hr : getRank m.from_ ≠ getRank m.to_) :
    let captureSq := makeSquare (getFile m.to_) (getRank m.from_)
    (b.makeMove m).pieceAt m.to_ = b.pieceAt m.from_ ∧
    (b.makeMove m).pieceAt m.from_ = Piece.empty ∧
    (b.makeMove m).pieceAt captureSq = Piece.empty ∧
    captureSq < 64 ∧ getFile captureSq = getFile m.to_ ∧ getRank captureSq = getRank m.from_ ∧
    ∀ sq, sq ≠ m.to_ → sq ≠ m.from_ → sq ≠ captureSq →
      (b.makeMove m).pieceAt sq = b.pieceAt sq := by
  have hc := makeSquare_file_rank m.to_ m.from_ hf
  have hr' : m.from_ / 8 ≠ m.to_ / 8 := by
    intro h; apply hr; simp only [getRank, h]
  simp only [Board.makeMove_enPassant_pieceAt b m hflag, hc]
  refine ⟨?_, ?_, ?_, ?_, ?_, ?_, ?_⟩
  · rw [if_neg (by omega), if_neg (by omega)]; simp
  · split_ifs <;> rfl
  · simp
  · omega
  · simp only [getFile]; omega
  · simp only [getRank]; omega
  · intro sq h1 h2 h3
    rw [if_neg h3, if_neg h2, if_neg h1]

/-- Witness of C9 (amended): the white pawn on e5 takes the black pawn on d5 en passant,
landing on d6. -/
theorem makeMove_enPassant_cells_witness :
    (takesEnPassant ∈ generateLegalMoves enPassantReady Color.White ∧
      getRank takesEnPassant.from_ ≠ getRank takesEnPassant.to_) ∧
    (let captureSq := makeSquare (getFile takesEnPassant.to_) (getRank takesEnPassant.from_)
     (enPassantReady.makeMove takesEnPassant).pieceAt takesEnPassant.to_ =
       enPassantReady.pieceAt takesEnPassant.from_ ∧
     (enPassantReady.makeMove takesEnPassant).pieceAt takesEnPassant.from_ = Piece.empty ∧
     (enPassantReady.makeMove takesEnPassant).pieceAt captureSq = Piece.empty ∧
     captureSq < 64 ∧ getFile captureSq = getFile takesEnPassant.to_ ∧
     getRank captureSq = getRank takesEnPassant.from_ ∧
     ∀ sq, sq ≠ takesEnPassant.to_ → sq ≠ takesEnPassant.from_ → sq ≠ captureSq →
       (enPassantReady.makeMove takesEnPassant).pieceAt sq = enPassantReady.pieceAt sq) :=
  ⟨⟨by decide, by decide⟩,
    makeMove_enPassant_cells enPassantReady takesEnPassant rfl (by decide) (by decide)
      (by decide)⟩

/-! ### Fifty-move rule -/

/-- An `int` value is its own reduction. -/
theorem wrap32_of_int (v : Int) (h1 : INT_MIN ≤ v) (h2 : v ≤ INT_MAX) : wrap32 v = v := by
  unfold wrap32
  unfold INT_MIN at h1
  unfold INT_MAX at h2
  omega

theorem Board.makeMoves_halfmoveClock (b : Board) (ms : List Move)
    (hq : b.quietMoves ms = true) (hlo : INT_MIN ≤ b.position.halfmoveClock)
    (hhi : b.position.halfmoveClock + ms.length ≤ INT_MAX) :
    (b.makeMoves ms).position.halfmoveClock = b.position.halfmoveClock + ms.length := by
  induction ms generalizing b with
  | nil => simp [Board.makeMoves]
  | cons m ms ih =>
    simp only [Board.quietMoves, Bool.and_eq_true, decide_eq_true_eq, Bool.not_eq_true'] at hq
    obtain ⟨⟨hp, hc⟩, hrest⟩ := hq
    simp only [List.length_cons] at hhi
    push_cast at hhi
    have hstep : (b.makeMove m).position.halfmoveClock = b.position.halfmoveClock + 1 := by
      rw [Board.makeMove_halfmoveClock, if_neg (by simp [hp, hc])]
      exact wrap32_of_int _ (by omega) (by omega)
    rw [Board.makeMoves, ih _ hrest (by rw [hstep]; omega) (by rw [hstep]; omega), hstep]
    simp only [List.length_cons]
    push_cast
    ring

/-- C10 (counterexample). With the halfmove clock at 2147483647 the knight move g1-f3,
which moves no pawn and captures nothing, leaves the clock at -2147483648:
`halfmoveClock()++` on an `int` does not add 1 there. -/
theorem halfmoveClock_increment_overflows :
    (clockAtMax.pieceAt knightOut.from_).type = PieceType.Knight ∧
    knightOut.flag = MoveFlag.Normal ∧
    clockAtMax.position.halfmoveClock = 2147483647 ∧
    (clockAtMax.makeMove knightOut).position.halfmoveClock = -2147483648 ∧
    (clockAtMax.makeMove knightOut).position.halfmoveClock ≠
      clockAtMax.position.halfmoveClock + 1 := by
  decide

/-- C10 (amended). (1) `makeMove` sets the halfmove clock to 0 when the moving piece is
a pawn or the flag is `Capture` or `EnPassant`, and otherwise increments it as an `int`
(`halfmoveClock()++`), which adds 1 when the clock is an `int` below 2147483647.
(2) `isDraw()` is true exactly when the clock is at least 100. (3) From a board with
clock 0, after the moves `ms`, at most 2147483647 and none of which moves a pawn or
carries a capture flag, `isDraw()` is true exactly when `ms` has at least 100 moves. -/
theorem fifty_move_rule (b : Board) (m : Move) (b0 : Board) (ms : List Move)
    (h0 : b0.position.halfmoveClock = 0) (hq : b0.quietMoves ms = true)
    (hlen : (ms.length : Int) ≤ INT_MAX) :
    ((b.makeMove m).position.halfmoveClock =
      if (b.pieceAt m.from_).type = PieceType.Pawn ∨ m.flag = MoveFlag.Capture ∨
          m.flag = MoveFlag.EnPassant then 0
      else wrap32 (b.position.halfmoveClock + 1)) ∧
    (INT_MIN ≤ b.position.halfmoveClock ∧ b.position.halfmoveClock < INT_MAX →
      (b.makeMove m).position.halfmoveClock =
        if (b.pieceAt m.from_).type = PieceType.Pawn ∨ m.flag = MoveFlag.Capture ∨
            m.flag = MoveFlag.EnPassant then 0
        else b.position.halfmoveClock + 1) ∧
    (b.isDraw = true ↔ b.position.halfmoveClock ≥ 100) ∧
    ((b0.makeMoves ms).isDraw = true ↔ ms.length ≥ 100) := by
  refine ⟨?_, ?_, ?_, ?_⟩
  · rw [Board.makeMove_halfmoveClock]
    simp only [Move.isCapture, Bool.or_eq_true, decide_eq_true_eq]
  · intro hb
    rw [Board.makeMove_halfmoveClock, wrap32_of_int _ (by omega) (by omega)]
    simp only [Move.isCapture, Bool.or_eq_true, decide_eq_true_eq]
  · simp [Board.isDraw]
  · have hlo : INT_MIN ≤ b0.position.halfmoveClock := by rw [h0]; decide
    have hhi : b0.position.halfmoveClock + ms.length ≤ INT_MAX := by rw [h0]; omega
    simp only [Board.isDraw, decide_eq_true_eq, Board.makeMoves_halfmoveClock b0 ms hq hlo hhi,
      h0]
    omega

set_option maxRecDepth 100000 in
/-- Witness of C10: one hundred knight moves from the starting position. -/
theorem fifty_move_rule_witness :
    (startBoard.position.halfmoveClock = 0 ∧
      startBoard.quietMoves hundredKnightMoves = true ∧
      (hundredKnightMoves.length : Int) ≤ INT_MAX ∧ hundredKnightMoves.length = 100) ∧
    (((startBoard.makeMove e2e4).position.halfmoveClock =
      if (startBoard.pieceAt e2e4.from_).type = PieceType.Pawn ∨
          e2e4.flag = MoveFlag.Capture ∨ e2e4.flag = MoveFlag.EnPassant then 0
      else wrap32 (startBoard.position.halfmoveClock + 1)) ∧
    (INT_MIN ≤ startBoard.position.halfmoveClock ∧
        startBoard.position.halfmoveClock < INT_MAX →
      (startBoard.makeMove e2e4).position.halfmoveClock =
        if (startBoard.pieceAt e2e4.from_).type = PieceType.Pawn ∨
            e2e4.flag = MoveFlag.Capture ∨ e2e4.flag = MoveFlag.EnPassant then 0
        else startBoard.position.halfmoveClock + 1) ∧
    (startBoard.isDraw = true ↔ startBoard.position.halfmoveClock ≥ 100) ∧
    ((startBoard.makeMoves hundredKnightMoves).isDraw = true ↔
      hundredKnightMoves.length ≥ 100)) :=
  ⟨⟨by decide, by decide, by decide, by decide⟩,
    fifty_move_rule startBoard e2e4 startBoard hundredKnightMoves (by decide) (by decide)
      (by decide)⟩

/-! ### Castling -/

/-- What `findKing` returns, for a square of the board. -/
theorem findKing_eq_iff (b : Board) (c : Color) (k : Nat) (hk : k < 64) :
    b.findKing c = k ↔
      ((b.pieceAt k).type = PieceType.King ∧ (b.pieceAt k).color = c) ∧
      ∀ j, j < k → ¬((b.pieceAt j).type = PieceType.King ∧ (b.pieceAt j).color = c) := by
  unfold Board.findKing NUM_SQUARES
  cases h : (List.range 64).find? (fun sq =>
      decide ((b.pieceAt sq).type = PieceType.King) && decide ((b.pieceAt sq).color = c)) with
  | none =>
    rw [List.find?_range_eq_none] at h
    have hk' := h k hk
    simp only [Option.getD_none]
    constructor
    · intro h255; omega
    · rintro ⟨⟨h1, h2⟩, _⟩
      simp [h1, h2] at hk'
  | some i =>
    rw [List.find?_range_eq_some] at h
    obtain ⟨hi, _, hlow⟩ := h
    simp only [Bool.and_eq_true, decide_eq_true_eq] at hi
    simp only [Option.getD_some]
    constructor
    · rintro rfl
      refine ⟨hi, fun j hj => ?_⟩
      have := hlow j hj
      rintro ⟨h1, h2⟩
      simp [h1, h2] at this
    · rintro ⟨hpk, hlowk⟩
      rcases Nat.lt_trichotomy i k with hlt | heq | hgt
      · exact absurd hi (hlowk i hlt)
      · exact heq
      · have := hlow k hgt
        simp [hpk.1, hpk.2] at this

/-- The cells after a castling `makeMove`. -/
theorem Board.makeMove_castling_squares (b : Board) (m : Move)
    (hflag : m.flag = MoveFlag.Castling) :
    (b.makeMove m).squares =
      (if getFile m.to_ = 6 then
        ((b.setPiece m.to_ (b.pieceAt m.from_)).removePiece m.from_).moveRook 7 5 (getRank m.from_)
      else
        ((b.setPiece m.to_ (b.pieceAt m.from_)).removePiece m.from_).moveRook 0 3
          (getRank m.from_)).squares := by
  have h1 : m.isCastling = true := by simp [Move.isCastling, hflag]
  have h2 : m.isPromotion = false := by simp [Move.isPromotion, hflag]
  have h3 : m.isEnPassant = false := by simp [Move.isEnPassant, hflag]
  simp only [Board.makeMove_squares, Board.removeEnPassantPawn, Board.promotePawn,
    Board.castleRook, h1, h2, h3]
  simp

/-! ### Attacks on a square of a rank, after changes confined to that rank -/

theorem makeSquare_onBoard (f r : Int) (h : Board.onBoard f r = true) :
    (makeSquare f r : Int) = r * 8 + f ∧ ((makeSquare f r / 8 : Nat) : Int) = r := by
  simp only [Board.onBoard, Bool.and_eq_true, decide_eq_true_eq] at h
  obtain ⟨⟨⟨h1, h2⟩, h3⟩, h4⟩ := h
  obtain ⟨fn, rfl⟩ := Int.eq_ofNat_of_zero_le h1
  obtain ⟨rn, rfl⟩ := Int.eq_ofNat_of_zero_le h3
  rw [makeSquare_natCast fn rn (by omega)]
  constructor
  · push_cast; ring
  · congr 1; omega

theorem pieceAt_agree {b b' : Board} {r0 : Nat} (h : ∀ s, s / 8 ≠ r0 → b'.pieceAt s = b.pieceAt s) (f r : Int)
    (hon : Board.onBoard f r = true) (hr : r ≠ (r0 : Int)) :
    b'.pieceAt (makeSquare f r) = b.pieceAt (makeSquare f r) := by
  apply h
  intro heq
  apply hr
  rw [← (makeSquare_onBoard f r hon).2, heq]

theorem attackRay_agree {b b' : Board} {r0 : Nat} (h : ∀ s, s / 8 ≠ r0 → b'.pieceAt s = b.pieceAt s) (c : Color)
    (t1 t2 : PieceType) (df dr : Int) (hdr : dr = 1 ∨ dr = -1) :
    ∀ (fuel : Nat) (f r : Int), 0 < (r - r0) * dr →
      Board.attackRay b' c t1 t2 df dr fuel f r = Board.attackRay b c t1 t2 df dr fuel f r := by
  intro fuel
  induction fuel with
  | zero => intros; rfl
  | succ n ih =>
    intro f r hpos
    have hne : r ≠ (r0 : Int) := by
      intro heq; rw [heq] at hpos; simp at hpos
    have hnext : 0 < (r + dr - r0) * dr := by
      rcases hdr with rfl | rfl <;> omega
    unfold Board.attackRay
    by_cases hon : Board.onBoard f r = true
    · simp only [hon, if_true, pieceAt_agree h f r hon hne, ih _ _ hnext]
    · simp [hon]

theorem attackPawn_agree {b b' : Board} {r0 : Nat} (h : ∀ s, s / 8 ≠ r0 → b'.pieceAt s = b.pieceAt s) (c : Color)
    (f : Int) (hf0 : 0 ≤ f) (hf8 : f < 8) :
    b'.attackPawn c f r0 = b.attackPawn c f r0 := by
  unfold Board.attackPawn
  simp only
  split_ifs with hc hr
  · have e1 : (decide (f > 0) && (decide ((b'.pieceAt (makeSquare (f - 1) (r0 - 1))).type
          = PieceType.Pawn) && decide ((b'.pieceAt (makeSquare (f - 1) (r0 - 1))).color = c))) =
        (decide (f > 0) && (decide ((b.pieceAt (makeSquare (f - 1) (r0 - 1))).type
          = PieceType.Pawn) && decide ((b.pieceAt (makeSquare (f - 1) (r0 - 1))).color = c))) := by
      by_cases hf : f > 0
      · rw [pieceAt_agree h (f - 1) (r0 - 1)
          (by simp only [Board.onBoard, Bool.and_eq_true, decide_eq_true_eq]; omega) (by omega)]
      · simp [hf]
    have e2 : (decide (f < 7) && (decide ((b'.pieceAt (makeSquare (f + 1) (r0 - 1))).type
          = PieceType.Pawn) && decide ((b'.pieceAt (makeSquare (f + 1) (r0 - 1))).color = c))) =
        (decide (f < 7) && (decide ((b.pieceAt (makeSquare (f + 1) (r0 - 1))).type
          = PieceType.Pawn) && decide ((b.pieceAt (makeSquare (f + 1) (r0 - 1))).color = c))) := by
      by_cases hf : f < 7
      · rw [pieceAt_agree h (f + 1) (r0 - 1)
          (by simp only [Board.onBoard, Bool.and_eq_true, decide_eq_true_eq]; omega) (by omega)]
      · simp [hf]
    rw [e1, e2]
  · rfl
  · have e1 : (decide (f > 0) && (decide ((b'.pieceAt (makeSquare (f - 1) (r0 - -1))).type
          = PieceType.Pawn) && decide ((b'.pieceAt (makeSquare (f - 1) (r0 - -1))).color = c))) =
        (decide (f > 0) && (decide ((b.pieceAt (makeSquare (f - 1) (r0 - -1))).type
          = PieceType.Pawn) && decide ((b.pieceAt (makeSquare (f - 1) (r0 - -1))).color = c))) := by
      by_cases hf : f > 0
      · rw [pieceAt_agree h (f - 1) (r0 - -1)
          (by simp only [Board.onBoard, Bool.and_eq_true, decide_eq_true_eq]; omega) (by omega)]
      · simp [hf]
    have e2 : (decide (f < 7) && (decide ((b'.pieceAt (makeSquare (f + 1) (r0 - -1))).type
          = PieceType.Pawn) && decide ((b'.pieceAt (makeSquare (f + 1) (r0 - -1))).color = c))) =
        (decide (f < 7) && (decide ((b.pieceAt (makeSquare (f + 1) (r0 - -1))).type
          = PieceType.Pawn) && decide ((b.pieceAt (makeSquare (f + 1) (r0 - -1))).color = c))) := by
      by_cases hf : f < 7
      · rw [pieceAt_agree h (f + 1) (r0 - -1)
          (by simp only [Board.onBoard, Bool.and_eq_true, decide_eq_true_eq]; omega) (by omega)]
      · simp [hf]
    rw [e1, e2]
  · rfl

/-- The leaper test agrees on two boards when every landing cell on the board carries
the same answer on both. -/
theorem attackLeap_agree {b b' : Board} (c : Color) (t : PieceType) (f r : Int) :
    ∀ offsets : List (Int × Int),
      (∀ mv ∈ offsets, Board.onBoard (f + mv.1) (r + mv.2) = true →
        (decide ((b'.pieceAt (makeSquare (f + mv.1) (r + mv.2))).type = t) &&
          decide ((b'.pieceAt (makeSquare (f + mv.1) (r + mv.2))).color = c)) =
        (decide ((b.pieceAt (makeSquare (f + mv.1) (r + mv.2))).type = t) &&
          decide ((b.pieceAt (makeSquare (f + mv.1) (r + mv.2))).color = c))) →
      b'.attackLeap c t offsets f r = b.attackLeap c t offsets f r := by
  intro offsets
  induction offsets with
  | nil => intro _; rfl
  | cons mv rest ih =>
    intro hall
    have hrest := ih (fun x hx => hall x (List.mem_cons_of_mem _ hx))
    unfold Board.attackLeap at hrest ⊢
    simp only [List.any_cons, hrest]
    congr 1
    by_cases hon : Board.onBoard (f + mv.1) (r + mv.2) = true
    · simp only [hon, Bool.true_and, hall mv (List.mem_cons_self _ _) hon]
    · simp [hon]

/-- Attack detection on a square of rank `r0` gives the same answer on two boards that
agree off that rank, provided the two walks along the rank and the king test on the
two neighbours on the rank give the same answers. -/
theorem isSquareAttacked_agree {b b' : Board} (r0 f0 : Nat) (hf0 : f0 < 8) (c : Color)
    (h : ∀ s, s / 8 ≠ r0 → b'.pieceAt s = b.pieceAt s)
    (hright : b'.attackRay c PieceType.Rook PieceType.Queen 1 0 8 ((f0 : Int) + 1) r0 =
      b.attackRay c PieceType.Rook PieceType.Queen 1 0 8 ((f0 : Int) + 1) r0)
    (hleft : b'.attackRay c PieceType.Rook PieceType.Queen (-1) 0 8 ((f0 : Int) + -1) r0 =
      b.attackRay c PieceType.Rook PieceType.Queen (-1) 0 8 ((f0 : Int) + -1) r0)
    (hking : ∀ df : Int, df = -1 ∨ df = 1 → Board.onBoard (f0 + df) r0 = true →
      (decide ((b'.pieceAt (makeSquare (f0 + df) r0)).type = PieceType.King) &&
        decide ((b'.pieceAt (makeSquare (f0 + df) r0)).color = c)) =
      (decide ((b.pieceAt (makeSquare (f0 + df) r0)).type = PieceType.King) &&
        decide ((b.pieceAt (makeSquare (f0 + df) r0)).color = c))) :
    b'.isSquareAttacked (r0 * 8 + f0) c = b.isSquareAttacked (r0 * 8 + f0) c := by
  have hfile : getFile (r0 * 8 + f0) = (f0 : Int) := by
    unfold getFile; congr 1; omega
  have hrank : getRank (r0 * 8 + f0) = (r0 : Int) := by
    unfold getRank; congr 1; omega
  have e1 := attackPawn_agree h c (f0 : Int) (by omega) (by omega)
  have e2 : b'.attackLeap c PieceType.Knight Board.knightMoves f0 r0 =
      b.attackLeap c PieceType.Knight Board.knightMoves f0 r0 := by
    apply attackLeap_agree
    intro mv hmv hon
    have hne : (r0 : Int) + mv.2 ≠ r0 := by
      simp only [Board.knightMoves, List.mem_cons, List.mem_singleton, List.not_mem_nil,
        or_false] at hmv
      rcases hmv with rfl | rfl | rfl | rfl | rfl | rfl | rfl | rfl <;> simp
    rw [pieceAt_agree h _ _ hon hne]
  have e5 : b'.attackLeap c PieceType.King Board.kingMoves f0 r0 =
      b.attackLeap c PieceType.King Board.kingMoves f0 r0 := by
    apply attackLeap_agree
    intro mv hmv hon
    simp only [Board.kingMoves, List.mem_cons, List.mem_singleton, List.not_mem_nil,
      or_false] at hmv
    rcases hmv with rfl | rfl | rfl | rfl | rfl | rfl | rfl | rfl
    · rw [pieceAt_agree h _ _ hon (by simp)]
    · have := hking (-1) (Or.inl rfl) (by simpa using hon)
      simpa using this
    · rw [pieceAt_agree h _ _ hon (by simp)]
    · rw [pieceAt_agree h _ _ hon (by simp)]
    · rw [pieceAt_agree h _ _ hon (by simp)]
    · rw [pieceAt_agree h _ _ hon (by simp)]
    · have := hking 1 (Or.inr rfl) (by simpa using hon)
      simpa using this
    · rw [pieceAt_agree h _ _ hon (by simp)]
  have ray : ∀ (t1 t2 : PieceType) (df dr : Int), dr = 1 ∨ dr = -1 →
      b'.attackRay c t1 t2 df dr 8 ((f0 : Int) + df) ((r0 : Int) + dr) =
        b.attackRay c t1 t2 df dr 8 ((f0 : Int) + df) ((r0 : Int) + dr) := by
    intro t1 t2 df dr hdr
    apply attackRay_agree h c t1 t2 df dr hdr
    rcases hdr with rfl | rfl <;> omega
  have up := ray PieceType.Rook PieceType.Queen 0 1 (Or.inl rfl)
  have down := ray PieceType.Rook PieceType.Queen 0 (-1) (Or.inr rfl)
  simp only [add_zero] at up down
  unfold Board.isSquareAttacked
  simp only [hfile, hrank, e1, e2, e5, Board.diagDirs, Board.straightDirs, List.any_cons,
    List.any_nil, ray _ _ _ _ (Or.inl rfl), ray _ _ _ _ (Or.inr rfl), add_zero, hright, hleft,
    up, down]

theorem whiteKingside_pieceAt (b : Board) (s : Nat) :
    (b.makeMove ⟨4, 6, MoveFlag.Castling, PieceType.None⟩).pieceAt s =
      if s = 7 then Piece.empty else if s = 5 then b.pieceAt 7
        else if s = 4 then Piece.empty else if s = 6 then b.pieceAt 4
        else b.pieceAt s := by
  unfold Board.pieceAt
  rw [Board.makeMove_castling_squares _ _ rfl]
  simp [getFile, getRank, Board.moveRook, Board.removePiece, Board.setPiece, Board.pieceAt,
    makeSquare, BOARD_SIZE]

/-- After White castles king-side, g1 is attacked by Black exactly when it was before. -/
theorem whiteKingside_attack_eq (b : Board)
    (hk : b.pieceAt 4 = ⟨PieceType.King, Color.White⟩)
    (hr : b.pieceAt 7 = ⟨PieceType.Rook, Color.White⟩)
    (h5 : (b.pieceAt 5).type = PieceType.None) :
    (b.makeMove ⟨4, 6, MoveFlag.Castling, PieceType.None⟩).isSquareAttacked 6
      Color.Black = b.isSquareAttacked 6 Color.Black := by
  have hp := whiteKingside_pieceAt b
  generalize b.makeMove ⟨4, 6, MoveFlag.Castling, PieceType.None⟩ = b' at hp ⊢
  have hagree : ∀ s, s / 8 ≠ 0 → b'.pieceAt s = b.pieceAt s := by
    intro s hs
    rw [hp, if_neg (by omega), if_neg (by omega), if_neg (by omega), if_neg (by omega)]
  refine isSquareAttacked_agree 0 6 (by decide) Color.Black hagree ?_ ?_ ?_
  · simp [Board.attackRay, Board.onBoard, makeSquare, BOARD_SIZE, hp, hk, hr, h5,
      Piece.isNone, Piece.empty]
  · simp [Board.attackRay, Board.onBoard, makeSquare, BOARD_SIZE, hp, hk, hr, h5,
      Piece.isNone, Piece.empty]
  · intro df hdf _
    rcases hdf with rfl | rfl <;>
      simp [makeSquare, BOARD_SIZE, hp, hk, hr, h5, Piece.empty]

theorem whiteQueenside_pieceAt (b : Board) (s : Nat) :
    (b.makeMove ⟨4, 2, MoveFlag.Castling, PieceType.None⟩).pieceAt s =
      if s = 0 then Piece.empty else if s = 3 then b.pieceAt 0
        else if s = 4 then Piece.empty else if s = 2 then b.pieceAt 4
        else b.pieceAt s := by
  unfold Board.pieceAt
  rw [Board.makeMove_castling_squares _ _ rfl]
  simp [getFile, getRank, Board.moveRook, Board.removePiece, Board.setPiece, Board.pieceAt,
    makeSquare, BOARD_SIZE]

/-- After White castles queen-side, c1 is attacked by Black exactly when it was before. -/
theorem whiteQueenside_attack_eq (b : Board)
    (hk : b.pieceAt 4 = ⟨PieceType.King, Color.White⟩)
    (hr : b.pieceAt 0 = ⟨PieceType.Rook, Color.White⟩)
    (h3 : (b.pieceAt 3).type = PieceType.None) (h1 : (b.pieceAt 1).type = PieceType.None) :
    (b.makeMove ⟨4, 2, MoveFlag.Castling, PieceType.None⟩).isSquareAttacked 2
      Color.Black = b.isSquareAttacked 2 Color.Black := by
  have hp := whiteQueenside_pieceAt b
  generalize b.makeMove ⟨4, 2, MoveFlag.Castling, PieceType.None⟩ = b' at hp ⊢
  have hagree : ∀ s, s / 8 ≠ 0 → b'.pieceAt s = b.pieceAt s := by
    intro s hs
    rw [hp, if_neg (by omega), if_neg (by omega), if_neg (by omega), if_neg (by omega)]
  refine isSquareAttacked_agree 0 2 (by decide) Color.Black hagree ?_ ?_ ?_
  · simp [Board.attackRay, Board.onBoard, makeSquare, BOARD_SIZE, hp, hk, hr, h3, h1,
      Piece.isNone, Piece.empty]
  · simp [Board.attackRay, Board.onBoard, makeSquare, BOARD_SIZE, hp, hk, hr, h3, h1,
      Piece.isNone, Piece.empty]
  · intro df hdf _
    rcases hdf with rfl | rfl <;>
      simp [makeSquare, BOARD_SIZE, hp, hk, hr, h3, h1, Piece.empty]

theorem blackKingside_pieceAt (b : Board) (s : Nat) :
    (b.makeMove ⟨60, 62, MoveFlag.Castling, PieceType.None⟩).pieceAt s =
      if s = 63 then Piece.empty else if s = 61 then b.pieceAt 63
        else if s = 60 then Piece.empty else if s = 62 then b.pieceAt 60
        else b.pieceAt s := by
  unfold Board.pieceAt
  rw [Board.makeMove_castling_squares _ _ rfl]
  simp [getFile, getRank, Board.moveRook, Board.removePiece, Board.setPiece, Board.pieceAt,
    makeSquare, BOARD_SIZE]

/-- After Black castles king-side, g8 is attacked by White exactly when it was before. -/
theorem blackKingside_attack_eq (b : Board)
    (hk : b.pieceAt 60 = ⟨PieceType.King, Color.Black⟩)
    (hr : b.pieceAt 63 = ⟨PieceType.Rook, Color.Black⟩)
    (h61 : (b.pieceAt 61).type = PieceType.None) :
    (b.makeMove ⟨60, 62, MoveFlag.Castling, PieceType.None⟩).isSquareAttacked 62
      Color.White = b.isSquareAttacked 62 Color.White := by
  have hp := blackKingside_pieceAt b
  generalize b.makeMove ⟨60, 62, MoveFlag.Castling, PieceType.None⟩ = b' at hp ⊢
  have hagree : ∀ s, s / 8 ≠ 7 → b'.pieceAt s = b.pieceAt s := by
    intro s hs
    rw [hp, if_neg (by omega), if_neg (by omega), if_neg (by omega), if_neg (by omega)]
  refine isSquareAttacked_agree 7 6 (by decide) Color.White hagree ?_ ?_ ?_
  · simp [Board.attackRay, Board.onBoard, makeSquare, BOARD_SIZE, hp, hk, hr, h61,
      Piece.isNone, Piece.empty]
  · simp [Board.attackRay, Board.onBoard, makeSquare, BOARD_SIZE, hp, hk, hr, h61,
      Piece.isNone, Piece.empty]
  · intro df hdf _
    rcases hdf with rfl | rfl <;>
      simp [makeSquare, BOARD_SIZE, hp, hk, hr, h61, Piece.empty]

theorem blackQueenside_pieceAt (b : Board) (s : Nat) :
    (b.makeMove ⟨60, 58, MoveFlag.Castling, PieceType.None⟩).pieceAt s =
      if s = 56 then Piece.empty else if s = 59 then b.pieceAt 56
        else if s = 60 then Piece.empty else if s = 58 then b.pieceAt 60
        else b.pieceAt s := by
  unfold Board.pieceAt
  rw [Board.makeMove_castling_squares _ _ rfl]
  simp [getFile, getRank, Board.moveRook, Board.removePiece, Board.setPiece, Board.pieceAt,
    makeSquare, BOARD_SIZE]

/-- After Black castles queen-side, c8 is attacked by White exactly when it was before. -/
theorem blackQueenside_attack_eq (b : Board)
    (hk : b.pieceAt 60 = ⟨PieceType.King, Color.Black⟩)
    (hr : b.pieceAt 56 = ⟨PieceType.Rook, Color.Black⟩)
    (h59 : (b.pieceAt 59).type = PieceType.None) (h57 : (b.pieceAt 57).type = PieceType.None) :
    (b.makeMove ⟨60, 58, MoveFlag.Castling, PieceType.None⟩).isSquareAttacked 58
      Color.White = b.isSquareAttacked 58 Color.White := by
  have hp := blackQueenside_pieceAt b
  generalize b.makeMove ⟨60, 58, MoveFlag.Castling, PieceType.None⟩ = b' at hp ⊢
  have hagree : ∀ s, s / 8 ≠ 7 → b'.pieceAt s = b.pieceAt s := by
    intro s hs
    rw [hp, if_neg (by omega), if_neg (by omega), if_neg (by omega), if_neg (by omega)]
  refine isSquareAttacked_agree 7 2 (by decide) Color.White hagree ?_ ?_ ?_
  · simp [Board.attackRay, Board.onBoard, makeSquare, BOARD_SIZE, hp, hk, hr, h59, h57,
      Piece.isNone, Piece.empty]
  · simp [Board.attackRay, Board.onBoard, makeSquare, BOARD_SIZE, hp, hk, hr, h59, h57,
      Piece.isNone, Piece.empty]
  · intro df hdf _
    rcases hdf with rfl | rfl <;>
      simp [makeSquare, BOARD_SIZE, hp, hk, hr, h59, h57, Piece.empty]

theorem Piece.eq_of_type_color (p : Piece) (t : PieceType) (c : Color) (ht : p.type = t)
    (hc : p.color = c) : p = ⟨t, c⟩ := by
  cases p; simp_all

theorem mem_generateLegalMoves_iff (b : Board) (c : Color) (m : Move) :
    m ∈ generateLegalMoves b c ↔
      (∃ sq, sq < 64 ∧ m ∈ movesFrom b c sq) ∧ (b.makeMove m).isCheck c = false := by
  simp [generateLegalMoves, generatePseudoLegalMoves, MoveValidator.leavesKingInCheck,
    NUM_SQUARES, List.mem_filter, List.mem_flatMap]

set_option maxHeartbeats 1000000 in
theorem white_castling_offered (b : Board) (hking : b.findKing Color.White = 4)
    (hK : b.position.canCastleKingside Color.White = true)
    (hQ : b.position.canCastleQueenside Color.White = true)
    (h0 : b.pieceAt 0 = ⟨PieceType.Rook, Color.White⟩)
    (h7 : b.pieceAt 7 = ⟨PieceType.Rook, Color.White⟩)
    (h1 : (b.pieceAt 1).isNone = true) (h2 : (b.pieceAt 2).isNone = true)
    (h3 : (b.pieceAt 3).isNone = true) (h5 : (b.pieceAt 5).isNone = true)
    (h6 : (b.pieceAt 6).isNone = true) (hcheck : b.isCheck Color.White = false)
    (a5 : b.isSquareAttacked 5 Color.Black = false)
    (a6 : b.isSquareAttacked 6 Color.Black = false)
    (a3 : b.isSquareAttacked 3 Color.Black = false)
    (a2 : b.isSquareAttacked 2 Color.Black = false) :
    (⟨4, 6, MoveFlag.Castling, PieceType.None⟩ : Move) ∈ generateLegalMoves b Color.White ∧
    (⟨4, 2, MoveFlag.Castling, PieceType.None⟩ : Move) ∈ generateLegalMoves b Color.White := by
  obtain ⟨⟨hkt, hkc⟩, hlow⟩ := (findKing_eq_iff b Color.White 4 (by decide)).1 hking
  have h4 : b.pieceAt 4 = ⟨PieceType.King, Color.White⟩ := Piece.eq_of_type_color _ _ _ hkt hkc
  have t1 : (b.pieceAt 1).type = PieceType.None := by simpa [Piece.isNone] using h1
  have t2 : (b.pieceAt 2).type = PieceType.None := by simpa [Piece.isNone] using h2
  have t3 : (b.pieceAt 3).type = PieceType.None := by simpa [Piece.isNone] using h3
  have t5 : (b.pieceAt 5).type = PieceType.None := by simpa [Piece.isNone] using h5
  have t6 : (b.pieceAt 6).type = PieceType.None := by simpa [Piece.isNone] using h6
  have hgen : (⟨4, 6, MoveFlag.Castling, PieceType.None⟩ : Move) ∈ movesFrom b Color.White 4 ∧
      (⟨4, 2, MoveFlag.Castling, PieceType.None⟩ : Move) ∈ movesFrom b Color.White 4 := by
    simp [movesFrom, generateKingMoves, castleKingside, castleQueenside, h4, Piece.isNone, hcheck,
      hK, hQ, getFile, getRank, makeSquare, BOARD_SIZE, oppositeColor, a5, a6, a3, a2, t1, t2,
      t3, t5, t6]
  rw [mem_generateLegalMoves_iff, mem_generateLegalMoves_iff]
  refine ⟨⟨⟨4, by decide, hgen.1⟩, ?_⟩, ⟨⟨4, by decide, hgen.2⟩, ?_⟩⟩
  · have hf : (b.makeMove ⟨4, 6, MoveFlag.Castling, PieceType.None⟩).findKing Color.White = 6 := by
      rw [findKing_eq_iff _ _ _ (by decide)]
      refine ⟨by simp [whiteKingside_pieceAt, h4], fun j hj => ?_⟩
      interval_cases j <;> simp [whiteKingside_pieceAt, h0, h7, t1, t2, t3, Piece.empty]
    have ho : oppositeColor Color.White = Color.Black := rfl
    simp only [Board.isCheck, hf, ho]
    rw [if_neg (by decide), whiteKingside_attack_eq b h4 h7 t5]
    exact a6
  · have hf : (b.makeMove ⟨4, 2, MoveFlag.Castling, PieceType.None⟩).findKing Color.White = 2 := by
      rw [findKing_eq_iff _ _ _ (by decide)]
      refine ⟨by simp [whiteQueenside_pieceAt, h4], fun j hj => ?_⟩
      interval_cases j <;> simp [whiteQueenside_pieceAt, h0, h7, t1, t2, t3, Piece.empty]
    have ho : oppositeColor Color.White = Color.Black := rfl
    simp only [Board.isCheck, hf, ho]
    rw [if_neg (by decide), whiteQueenside_attack_eq b h4 h0 t3 t1]
    exact a2


set_option maxHeartbeats 1000000 in
theorem black_castling_offered (b : Board) (hking : b.findKing Color.Black = 60)
    (hK : b.position.canCastleKingside Color.Black = true)
    (hQ : b.position.canCastleQueenside Color.Black = true)
    (h56 : b.pieceAt 56 = ⟨PieceType.Rook, Color.Black⟩)
    (h63 : b.pieceAt 63 = ⟨PieceType.Rook, Color.Black⟩)
    (h57 : (b.pieceAt 57).isNone = true) (h58 : (b.pieceAt 58).isNone = true)
    (h59 : (b.pieceAt 59).isNone = true) (h61 : (b.pieceAt 61).isNone = true)
    (h62 : (b.pieceAt 62).isNone = true) (hcheck : b.isCheck Color.Black = false)
    (a61 : b.isSquareAttacked 61 Color.White = false)
    (a62 : b.isSquareAttacked 62 Color.White = false)
    (a59 : b.isSquareAttacked 59 Color.White = false)
    (a58 : b.isSquareAttacked 58 Color.White = false) :
    (⟨60, 62, MoveFlag.Castling, PieceType.None⟩ : Move) ∈ generateLegalMoves b Color.Black ∧
    (⟨60, 58, MoveFlag.Castling, PieceType.None⟩ : Move) ∈ generateLegalMoves b Color.Black := by
  obtain ⟨⟨hkt, hkc⟩, hlow⟩ := (findKing_eq_iff b Color.Black 60 (by decide)).1 hking
  have h60 : b.pieceAt 60 = ⟨PieceType.King, Color.Black⟩ :=
    Piece.eq_of_type_color _ _ _ hkt hkc
  have t57 : (b.pieceAt 57).type = PieceType.None := by simpa [Piece.isNone] using h57
  have t58 : (b.pieceAt 58).type = PieceType.None := by simpa [Piece.isNone] using h58
  have t59 : (b.pieceAt 59).type = PieceType.None := by simpa [Piece.isNone] using h59
  have t61 : (b.pieceAt 61).type = PieceType.None := by simpa [Piece.isNone] using h61
  have t62 : (b.pieceAt 62).type = PieceType.None := by simpa [Piece.isNone] using h62
  have hgen : (⟨60, 62, MoveFlag.Castling, PieceType.None⟩ : Move) ∈ movesFrom b Color.Black 60 ∧
      (⟨60, 58, MoveFlag.Castling, PieceType.None⟩ : Move) ∈ movesFrom b Color.Black 60 := by
    simp [movesFrom, generateKingMoves, castleKingside, castleQueenside, h60, Piece.isNone,
      hcheck, hK, hQ, getFile, getRank, makeSquare, BOARD_SIZE, oppositeColor, a61, a62, a59,
      a58, t57, t58, t59, t61, t62]
  have ho : oppositeColor Color.Black = Color.White := rfl
  rw [mem_generateLegalMoves_iff, mem_generateLegalMoves_iff]
  refine ⟨⟨⟨60, by decide, hgen.1⟩, ?_⟩, ⟨⟨60, by decide, hgen.2⟩, ?_⟩⟩
  · have hf : (b.makeMove ⟨60, 62, MoveFlag.Castling, PieceType.None⟩).findKing Color.Black
        = 62 := by
      rw [findKing_eq_iff _ _ _ (by decide)]
      refine ⟨by simp [blackKingside_pieceAt, h60], fun j hj => ?_⟩
      by_cases hj' : j < 60
      · have := hlow j hj'
        rw [blackKingside_pieceAt, if_neg (by omega), if_neg (by omega), if_neg (by omega),
          if_neg (by omega)]
        exact this
      · have : j = 60 ∨ j = 61 := by omega
        rcases this with rfl | rfl <;> simp [blackKingside_pieceAt, h63, Piece.empty]
    simp only [Board.isCheck, hf, ho]
    rw [if_neg (by decide), blackKingside_attack_eq b h60 h63 t61]
    exact a62
  · have hf : (b.makeMove ⟨60, 58, MoveFlag.Castling, PieceType.None⟩).findKing Color.Black
        = 58 := by
      rw [findKing_eq_iff _ _ _ (by decide)]
      refine ⟨by simp [blackQueenside_pieceAt, h60], fun j hj => ?_⟩
      by_cases hj' : j = 56 ∨ j = 57
      · rcases hj' with rfl | rfl <;> simp [blackQueenside_pieceAt, t57, Piece.empty]
      · have := hlow j (by omega)
        rw [blackQueenside_pieceAt, if_neg (by omega), if_neg (by omega), if_neg (by omega),
          if_neg (by omega)]
        exact this
    simp only [Board.isCheck, hf, ho]
    rw [if_neg (by decide), blackQueenside_attack_eq b h60 h56 t59 t57]
    exact a58

/-- C6. If colour `c` (White or Black) has the king `findKing(c)` on its home square
(e1 or e8), both castling rights, its rooks on both corners of that rank, the squares
between king and rooks empty, is not in check, and the f-, g-, d- and c-file squares
of that rank are not attacked by the opponent, then `generateLegalMoves(c)` contains
the castling moves to the g-file and to the c-file. -/
theorem castling_offered (b : Board) (c : Color) (hc : c = Color.White ∨ c = Color.Black)
    (hking : b.findKing c = makeSquare 4 (homeRank c))
    (hK : b.position.canCastleKingside c = true)
    (hQ : b.position.canCastleQueenside c = true)
    (hrookA : b.pieceAt (makeSquare 0 (homeRank c)) = ⟨PieceType.Rook, c⟩)
    (hrookH : b.pieceAt (makeSquare 7 (homeRank c)) = ⟨PieceType.Rook, c⟩)
    (hB : (b.pieceAt (makeSquare 1 (homeRank c))).isNone = true)
    (hC : (b.pieceAt (makeSquare 2 (homeRank c))).isNone = true)
    (hD : (b.pieceAt (makeSquare 3 (homeRank c))).isNone = true)
    (hF : (b.pieceAt (makeSquare 5 (homeRank c))).isNone = true)
    (hG : (b.pieceAt (makeSquare 6 (homeRank c))).isNone = true)
    (hcheck : b.isCheck c = false)
    (aF : b.isSquareAttacked (makeSquare 5 (homeRank c)) (oppositeColor c) = false)
    (aG : b.isSquareAttacked (makeSquare 6 (homeRank c)) (oppositeColor c) = false)
    (aD : b.isSquareAttacked (makeSquare 3 (homeRank c)) (oppositeColor c) = false)
    (aC : b.isSquareAttacked (makeSquare 2 (homeRank c)) (oppositeColor c) = false) :
    (⟨makeSquare 4 (homeRank c), makeSquare 6 (homeRank c), MoveFlag.Castling,
        PieceType.None⟩ : Move) ∈ generateLegalMoves b c ∧
    (⟨makeSquare 4 (homeRank c), makeSquare 2 (homeRank c), MoveFlag.Castling,
        PieceType.None⟩ : Move) ∈ generateLegalMoves b c := by
  rcases hc with rfl | rfl
  · exact white_castling_offered b hking hK hQ hrookA hrookH hB hC hD hF hG hcheck aF aG aD aC
  · exact black_castling_offered b hking hK hQ hrookA hrookH hB hC hD hF hG hcheck aF aG aD aC

/-- Witness of C6: White in `r3k2r/8/8/8/8/8/8/R3K2R w KQkq - 0 1`. -/
theorem castling_offered_witness :
    (⟨makeSquare 4 (homeRank Color.White), makeSquare 6 (homeRank Color.White),
        MoveFlag.Castling, PieceType.None⟩ : Move) ∈ generateLegalMoves castleReady Color.White ∧
    (⟨makeSquare 4 (homeRank Color.White), makeSquare 2 (homeRank Color.White),
        MoveFlag.Castling, PieceType.None⟩ : Move) ∈ generateLegalMoves castleReady Color.White :=
  castling_offered castleReady Color.White (Or.inl rfl) (by decide) (by decide) (by decide)
    (by decide) (by decide) (by decide) (by decide) (by decide) (by decide) (by decide)
    (by decide) (by decide) (by decide) (by decide) (by decide)

/-! ### Exchange format -/

/-! ### Decimal output and `stoi` -/

theorem digitChar_props (d : Nat) (h : d < 10) :
    (digitChar d).isDigit = true ∧ ((digitChar d).toNat : Int) - 48 = d ∧
      isSpace (digitChar d) = false ∧ digitChar d ≠ '-' ∧ digitChar d ≠ '+' := by
  interval_cases d <;> decide

theorem decDigits_ne_nil (fuel n : Nat) : decDigits (fuel + 1) n ≠ [] := by
  unfold decDigits
  split_ifs <;> simp

theorem decDigits_isDigit (fuel n : Nat) : ∀ c ∈ decDigits fuel n, ∃ d, d < 10 ∧ c = digitChar d := by
  induction fuel generalizing n with
  | zero => simp [decDigits]
  | succ k ih =>
    intro c hc
    unfold decDigits at hc
    split_ifs at hc with h
    · simp only [List.mem_singleton] at hc
      exact ⟨n, h, hc⟩
    · simp only [List.mem_append, List.mem_singleton] at hc
      rcases hc with hc | hc
      · exact ih _ c hc
      · exact ⟨n % 10, Nat.mod_lt _ (by norm_num), hc⟩

theorem digitsValue_decDigits (fuel n : Nat) (h : n < 10 ^ fuel) :
    digitsValue (decDigits fuel n) = n := by
  induction fuel generalizing n with
  | zero => simp at h; subst h; simp [decDigits, digitsValue]
  | succ k ih =>
    unfold decDigits
    split_ifs with h10
    · simp [digitsValue, (digitChar_props n h10).2.1]
    · have hlt : n / 10 < 10 ^ k := by
        rw [Nat.div_lt_iff_lt_mul (by norm_num)]
        calc n < 10 ^ (k + 1) := h
          _ = 10 ^ k * 10 := by ring
      have := ih (n / 10) hlt
      unfold digitsValue at this ⊢
      rw [List.foldl_append, this]
      simp only [List.foldl_cons, List.foldl_nil]
      rw [(digitChar_props (n % 10) (Nat.mod_lt _ (by norm_num))).2.1]
      push_cast
      omega

theorem stoi_intToString (v : Int) (h0 : 0 ≤ v) (h1 : v ≤ INT_MAX) :
    stoi (intToString v) = some v := by
  obtain ⟨n, rfl⟩ := Int.eq_ofNat_of_zero_le h0
  have hs : intToString (n : Int) = decDigits (n + 1) n := by
    simp [intToString, natToString]
  rw [hs]
  have hne := decDigits_ne_nil n n
  have hdig := decDigits_isDigit (n + 1) n
  have hpow : n < 10 ^ (n + 1) := by
    have : n + 1 < 10 ^ (n + 1) := Nat.lt_pow_self (by norm_num : 1 < 10) (n + 1)
    omega
  have hval := digitsValue_decDigits (n + 1) n hpow
  generalize decDigits (n + 1) n = s at hne hdig hval
  cases s with
  | nil => exact absurd rfl hne
  | cons c t =>
    obtain ⟨d, hd, rfl⟩ := hdig c (List.mem_cons_self _ _)
    have hp := digitChar_props d hd
    have hall : ∀ x ∈ digitChar d :: t, x.isDigit = true := by
      intro x hx
      obtain ⟨d', hd', rfl⟩ := hdig x hx
      exact (digitChar_props d' hd').1
    have hdrop : (digitChar d :: t).dropWhile isSpace = digitChar d :: t := by
      simp [List.dropWhile, hp.2.2.1]
    have htake : (digitChar d :: t).takeWhile Char.isDigit = digitChar d :: t := by
      rw [List.takeWhile_eq_self_iff]; exact hall
    unfold stoi
    simp only [hdrop]
    have hm : splitSign (digitChar d :: t) = (false, digitChar d :: t) := by
      unfold splitSign
      split
      · next heq => simp only [List.cons.injEq] at heq; exact absurd heq.1 hp.2.2.2.1
      · next heq => simp only [List.cons.injEq] at heq; exact absurd heq.1 hp.2.2.2.2
      · rfl
    simp only [hm, htake, hval, List.isEmpty_cons, Bool.false_eq_true, ↓reduceIte]
    rw [if_pos]
    constructor
    · unfold INT_MIN; omega
    · exact h1

/-! ### Token extraction -/

theorem takeWhile_append_stop {p : Char → Bool} (t : List Char) (x : Char) (rest : List Char)
    (ht : ∀ c ∈ t, p c = true) (hx : p x = false) :
    (t ++ x :: rest).takeWhile p = t ∧ (t ++ x :: rest).dropWhile p = x :: rest := by
  induction t with
  | nil => simp [List.takeWhile, List.dropWhile, hx]
  | cons c t ih =>
    have hc := ht c (List.mem_cons_self _ _)
    have ih' := ih (fun y hy => ht y (List.mem_cons_of_mem _ hy))
    simp [List.takeWhile, List.dropWhile, hc, ih'.1, ih'.2]

theorem dropWhile_isSpace_token (t rest : List Char) (ht : IsToken t) :
    (t ++ rest).dropWhile isSpace = t ++ rest := by
  obtain ⟨hne, hns⟩ := ht
  cases t with
  | nil => exact absurd rfl hne
  | cons c t' => simp [List.dropWhile, hns c (List.mem_cons_self _ _)]

theorem readToken_token (t rest tok : List Char) (ht : IsToken t) :
    IStream.readToken ⟨t ++ ' ' :: rest, false⟩ tok = (⟨' ' :: rest, false⟩, t) := by
  have h1 := dropWhile_isSpace_token t (' ' :: rest) ht
  have h2 := takeWhile_append_stop (p := fun c => !isSpace c) t ' ' rest
    (fun c hc => by simp [ht.2 c hc]) (by decide)
  have h3 : (t ++ ' ' :: rest).isEmpty = false := by
    cases t with
    | nil => exact absurd rfl ht.1
    | cons c t' => rfl
  simp only [IStream.readToken, h1, h2.1, h2.2, h3]
  simp

theorem readToken_space (s tok : List Char) :
    IStream.readToken ⟨' ' :: s, false⟩ tok = IStream.readToken ⟨s, false⟩ tok := by
  have h : (' ' :: s).dropWhile isSpace = s.dropWhile isSpace := by
    simp [List.dropWhile, isSpace]
  simp only [IStream.readToken, h]
  simp

theorem readToken_last (t tok : List Char) (ht : IsToken t) :
    IStream.readToken ⟨t, false⟩ tok = (⟨[], false⟩, t) := by
  have h1 : t.dropWhile isSpace = t := by
    have := dropWhile_isSpace_token t [] ht
    simpa using this
  have h2 : t.takeWhile (fun c => !isSpace c) = t := by
    rw [List.takeWhile_eq_self_iff]; intro c hc; simp [ht.2 c hc]
  have h3 : t.dropWhile (fun c => !isSpace c) = [] := by
    rw [List.dropWhile_eq_nil_iff]; intro c hc; simp [ht.2 c hc]
  have h4 : t.isEmpty = false := by
    cases t with
    | nil => exact absurd rfl ht.1
    | cons c t' => rfl
  simp only [IStream.readToken, h1, h2, h3, h4]
  simp

theorem readToken_space_token (t rest tok : List Char) (ht : IsToken t) :
    IStream.readToken ⟨' ' :: (t ++ ' ' :: rest), false⟩ tok = (⟨' ' :: rest, false⟩, t) := by
  rw [readToken_space, readToken_token _ _ _ ht]

theorem readToken_space_last (t tok : List Char) (ht : IsToken t) :
    IStream.readToken ⟨' ' :: t, false⟩ tok = (⟨[], false⟩, t) := by
  rw [readToken_space, readToken_last _ _ ht]

/-! ### The position part -/

/-- What `Position::setFromFEN` makes of six tokens separated by single spaces. -/
theorem Position.setFromFEN_tokens (p0 : Position) (B S C E H F : List Char)
    (hB : IsToken B) (hS : IsToken S) (hC : IsToken C) (hE : IsToken E) (hH : IsToken H)
    (hF : IsToken F) :
    Position.setFromFEN p0
        (B ++ ' ' :: (S ++ ' ' :: (C ++ ' ' :: (E ++ ' ' :: (H ++ ' ' :: F))))) =
      (stoi H).bind fun h => (stoi F).map fun f =>
        { sideToMove := if S = ['w'] then Color.White else Color.Black,
          enPassantSquare := if E ≠ ['-'] then stringToSquare E else 255,
          whiteCanCastleKingside := C.contains 'K',
          whiteCanCastleQueenside := C.contains 'Q',
          blackCanCastleKingside := C.contains 'k',
          blackCanCastleQueenside := C.contains 'q',
          halfmoveClock := h, fullmoveNumber := f } := by
  simp only [Position.setFromFEN, IStream.ofString, readToken_token _ _ _ hB,
    readToken_space_token _ _ _ hS, readToken_space_token _ _ _ hC,
    readToken_space_token _ _ _ hE, readToken_space_token _ _ _ hH,
    readToken_space_last _ _ hF]
  cases stoi H <;> cases stoi F <;> simp

theorem isToken_intToString (v : Int) (h0 : 0 ≤ v) : IsToken (intToString v) := by
  obtain ⟨n, rfl⟩ := Int.eq_ofNat_of_zero_le h0
  have hs : intToString (n : Int) = decDigits (n + 1) n := by
    simp [intToString, natToString]
  rw [hs]
  refine ⟨decDigits_ne_nil n n, fun c hc => ?_⟩
  obtain ⟨d, hd, rfl⟩ := decDigits_isDigit _ _ c hc
  exact (digitChar_props d hd).2.2.1

theorem squareToString_roundtrip (sq : Nat) (h : sq < 64) :
    IsToken (squareToString sq) ∧ squareToString sq ≠ ['-'] ∧
      stringToSquare (squareToString sq) = sq := by
  unfold IsToken
  interval_cases sq <;> decide

theorem castling_letters (wk wq bk bq : Bool) :
    let castling : List Char :=
      (if wk then ['K'] else []) ++ (if wq then ['Q'] else []) ++
      (if bk then ['k'] else []) ++ (if bq then ['q'] else [])
    let C := if castling.isEmpty then ['-'] else castling
    IsToken C ∧ C.contains 'K' = wk ∧ C.contains 'Q' = wq ∧ C.contains 'k' = bk ∧
      C.contains 'q' = bq := by
  unfold IsToken
  cases wk <;> cases wq <;> cases bk <;> cases bq <;> decide

/-- `Position::setFromFEN` reads back what `Position::toFEN` wrote after a board part. -/
theorem Position.setFromFEN_reads_toFEN (p0 p : Position) (B : List Char) (hB : IsToken B)
    (hside : p.sideToMove = Color.White ∨ p.sideToMove = Color.Black)
    (hep : p.enPassantSquare = 255 ∨ p.enPassantSquare < 64)
    (hh : 0 ≤ p.halfmoveClock ∧ p.halfmoveClock ≤ INT_MAX)
    (hf : 0 ≤ p.fullmoveNumber ∧ p.fullmoveNumber ≤ INT_MAX) :
    Position.setFromFEN p0 (B ++ [' '] ++ p.toFEN) = some p := by
  obtain ⟨hC, c1, c2, c3, c4⟩ := castling_letters p.whiteCanCastleKingside
    p.whiteCanCastleQueenside p.blackCanCastleKingside p.blackCanCastleQueenside
  have hS : IsToken (if p.sideToMove = Color.White then ['w'] else ['b']) := by
    unfold IsToken; split_ifs <;> decide
  have hE : IsToken (if p.enPassantSquare ≠ 255 then squareToString p.enPassantSquare
      else ['-']) := by
    rcases hep with h | h
    · rw [if_neg (by simp [h])]; unfold IsToken; decide
    · have hne : p.enPassantSquare ≠ 255 := by omega
      rw [if_pos hne]; exact (squareToString_roundtrip _ h).1
  have hH := isToken_intToString _ hh.1
  have hF := isToken_intToString _ hf.1
  have hstr : B ++ [' '] ++ p.toFEN = B ++ ' ' ::
      ((if p.sideToMove = Color.White then ['w'] else ['b']) ++ ' ' ::
      ((if ((if p.whiteCanCastleKingside then ['K'] else []) ++
            (if p.whiteCanCastleQueenside then ['Q'] else []) ++
            (if p.blackCanCastleKingside then ['k'] else []) ++
            (if p.blackCanCastleQueenside then ['q'] else [])).isEmpty then ['-']
          else (if p.whiteCanCastleKingside then ['K'] else []) ++
            (if p.whiteCanCastleQueenside then ['Q'] else []) ++
            (if p.blackCanCastleKingside then ['k'] else []) ++
            (if p.blackCanCastleQueenside then ['q'] else [])) ++ ' ' ::
      ((if p.enPassantSquare ≠ 255 then squareToString p.enPassantSquare else ['-']) ++ ' ' ::
      (intToString p.halfmoveClock ++ ' ' :: intToString p.fullmoveNumber)))) := by
    simp only [Position.toFEN, List.append_assoc, List.singleton_append, List.cons_append,
      List.nil_append]
  rw [hstr, Position.setFromFEN_tokens p0 _ _ _ _ _ _ hB hS hC hE hH hF,
    stoi_intToString _ hh.1 hh.2, stoi_intToString _ hf.1 hf.2]
  simp only [Option.some_bind, Option.map_some']
  have e1 : (if (if p.sideToMove = Color.White then ['w'] else ['b']) = ['w'] then Color.White
      else Color.Black) = p.sideToMove := by
    rcases hside with h | h <;> simp [h]
  have e2 : (if (if p.enPassantSquare ≠ 255 then squareToString p.enPassantSquare else ['-'])
      ≠ ['-'] then stringToSquare (if p.enPassantSquare ≠ 255 then
        squareToString p.enPassantSquare else ['-']) else 255) = p.enPassantSquare := by
    rcases hep with h | h
    · simp [h]
    · have := squareToString_roundtrip _ h
      have hne : p.enPassantSquare ≠ 255 := by omega
      simp only [if_pos hne, if_pos this.2.1, this.2.2]
  rw [e1, e2]
  simp only [c1, c2, c3, c4]

/-! ### The board part -/

theorem toChar_not_space (p : Piece) : isSpace p.toChar = false := by
  obtain ⟨t, c⟩ := p
  cases t <;> cases c <;> decide

theorem parseBoardChar_toChar (B : Board) (r f : Int) (p : Piece)
    (ht : p.type ≠ PieceType.None) (hc : p.color = Color.White ∨ p.color = Color.Black) :
    Board.parseBoardChar (B, r, f) p.toChar = (B.setPiece (makeSquare f r) p, r, f + 1) := by
  obtain ⟨t, c⟩ := p
  rcases hc with hc | hc <;> simp only at hc <;> subst hc <;> cases t <;>
    first
    | exact absurd rfl ht
    | rfl

theorem parseBoardChar_count (B : Board) (r f : Int) (e : Nat) (h1 : 1 ≤ e) (h8 : e ≤ 8) :
    (intToString (e : Int)).foldl Board.parseBoardChar (B, r, f) = (B, r, f + e) := by
  interval_cases e <;> rfl

theorem parseBoardChar_slash (B : Board) (r f : Int) :
    Board.parseBoardChar (B, r, f) '/' = (B, r - 1, 0) := rfl

theorem intToString_not_space (v : Int) : ∀ c ∈ intToString v, isSpace c = false := by
  intro c hc
  unfold intToString natToString at hc
  split_ifs at hc
  · rcases List.mem_cons.1 hc with rfl | hc
    · decide
    · obtain ⟨d, hd, rfl⟩ := decDigits_isDigit _ _ c hc
      exact (digitChar_props d hd).2.2.1
  · obtain ⟨d, hd, rfl⟩ := decDigits_isDigit _ _ c hc
    exact (digitChar_props d hd).2.2.1

theorem rankChars_not_space (b : Board) (r : Int) (files : List Int) (e : Int) :
    ∀ c ∈ Board.rankChars b r files e, isSpace c = false := by
  induction files generalizing e with
  | nil =>
    intro c hc
    unfold Board.rankChars at hc
    split_ifs at hc
    · exact intToString_not_space _ c hc
    · simp at hc
  | cons file files ih =>
    intro c hc
    unfold Board.rankChars at hc
    simp only at hc
    split_ifs at hc
    · exact ih _ c hc
    · simp only [List.mem_append, List.mem_singleton] at hc
      rcases hc with (hc | hc) | hc
      · exact intToString_not_space _ c hc
      · rw [hc]; exact toChar_not_space _
      · exact ih _ c hc
    · simp only [List.mem_append, List.mem_singleton, List.not_mem_nil, false_or] at hc
      rcases hc with hc | hc
      · rw [hc]; exact toChar_not_space _
      · exact ih _ c hc

theorem isToken_boardChars (b : Board) : IsToken (Board.boardChars b) := by
  constructor
  · intro h
    have : '/' ∈ Board.boardChars b := by
      simp [Board.boardChars]
    rw [h] at this
    simp at this
  · intro c hc
    simp only [Board.boardChars, List.mem_flatMap, List.mem_append] at hc
    obtain ⟨rank, _, hc | hc⟩ := hc
    · exact rankChars_not_space _ _ _ _ c hc
    · split_ifs at hc
      · simp only [List.mem_singleton] at hc; rw [hc]; decide
      · simp at hc

/-- Parsing the characters written for the files `k..7` of rank `r`, with `e` empty cells
pending, from file position `k - e`: the parser ends at file 8 of the same rank, having
written exactly the occupied cells of `b` on those files. -/
theorem parse_rankChars (b : Board) (hb : b.CellsProper) (r : Nat) (hr : r < 8) :
    ∀ (n k e : Nat) (B : Board), k + n = 8 → e ≤ k →
      ∃ B' : Board,
        (Board.rankChars b (r : Int) ((List.range' k n).map Int.ofNat) (e : Int)).foldl
            Board.parseBoardChar (B, (r : Int), (k : Int) - (e : Int)) = (B', (r : Int), 8) ∧
        B'.position = B.position ∧ B'.history = B.history ∧
        ∀ s, B'.pieceAt s =
          if k ≤ s % 8 ∧ s / 8 = r ∧ (b.pieceAt s).isNone = false then b.pieceAt s
          else B.pieceAt s := by
  intro n
  induction n with
  | zero =>
    intro k e B hk he
    have hk8 : k = 8 := by omega
    subst hk8
    refine ⟨B, ?_, rfl, rfl, fun s => ?_⟩
    · simp only [List.range'_zero, List.map_nil, Board.rankChars]
      by_cases h0 : e = 0
      · subst h0; simp
      · rw [if_pos (by omega), parseBoardChar_count B _ _ e (by omega) he]
        congr 2
        push_cast
        ring
    · rw [if_neg]
      rintro ⟨h1, _⟩
      have := Nat.mod_lt s (by norm_num : 8 > 0)
      omega
  | succ n ih =>
    intro k e B hk he
    have hsq : makeSquare (k : Int) (r : Int) = r * 8 + k := makeSquare_natCast k r (by omega)
    simp only [List.range'_succ, List.map_cons, Board.rankChars, Int.ofNat_eq_coe, hsq]
    by_cases hnone : (b.pieceAt (r * 8 + k)).isNone = true
    · simp only [hnone, if_true]
      obtain ⟨B', h1, h2, h3, h4⟩ := ih (k + 1) (e + 1) B (by omega) (by omega)
      refine ⟨B', ?_, h2, h3, fun s => ?_⟩
      · have e1 : ((e : Int) + 1) = ((e + 1 : Nat) : Int) := by push_cast; rfl
        have e2 : (k : Int) - (e : Int) = ((k + 1 : Nat) : Int) - ((e + 1 : Nat) : Int) := by
          push_cast; ring
        rw [e1, e2]
        exact h1
      · rw [h4 s]
        by_cases hs : s = r * 8 + k
        · subst hs
          rw [if_neg (by omega), if_neg (by simp [hnone])]
        · by_cases hc : k ≤ s % 8 ∧ s / 8 = r ∧ (b.pieceAt s).isNone = false
          · rw [if_pos hc, if_pos ⟨by omega, hc.2⟩]
          · rw [if_neg hc, if_neg]
            rintro ⟨h5, h6⟩
            exact hc ⟨by omega, h6⟩
    · have hproper := hb (r * 8 + k) (by omega)
      have hp : (b.pieceAt (r * 8 + k)).type ≠ PieceType.None ∧
          ((b.pieceAt (r * 8 + k)).color = Color.White ∨
            (b.pieceAt (r * 8 + k)).color = Color.Black) := by
        rcases hproper with h | h
        · rw [h] at hnone; exact absurd rfl hnone
        · exact h
      simp only [hnone, Bool.false_eq_true, if_false, List.foldl_append, List.foldl_cons,
        List.foldl_nil]
      have hflush : (if (e : Int) > 0 then intToString (e : Int) else []).foldl
          Board.parseBoardChar (B, (r : Int), (k : Int) - (e : Int)) = (B, (r : Int), (k : Int)) := by
        by_cases h0 : e = 0
        · subst h0; simp
        · rw [if_pos (by omega), parseBoardChar_count B _ _ e (by omega) (by omega)]
          congr 2
          ring
      rw [hflush, parseBoardChar_toChar _ _ _ _ hp.1 hp.2, hsq]
      obtain ⟨B', h1, h2, h3, h4⟩ :=
        ih (k + 1) 0 (B.setPiece (r * 8 + k) (b.pieceAt (r * 8 + k))) (by omega) (by omega)
      refine ⟨B', ?_, h2, h3, fun s => ?_⟩
      · have e2 : (k : Int) + 1 = ((k + 1 : Nat) : Int) - ((0 : Nat) : Int) := by
          push_cast; ring
        rw [e2]
        exact h1
      · rw [h4 s, Board.pieceAt_setPiece]
        by_cases hs : s = r * 8 + k
        · subst hs
          rw [if_neg (by omega), if_pos rfl, if_pos ⟨by omega, by omega, by simpa using hnone⟩]
        · rw [if_neg hs]
          by_cases hc : k ≤ s % 8 ∧ s / 8 = r ∧ (b.pieceAt s).isNone = false
          · rw [if_pos hc, if_pos ⟨by omega, hc.2⟩]
          · rw [if_neg hc, if_neg]
            rintro ⟨h5, h6⟩
            exact hc ⟨by omega, h6⟩

theorem files_eq_range :
    ([0, 1, 2, 3, 4, 5, 6, 7] : List Int) = (List.range' 0 8).map Int.ofNat := by
  decide

/-- Parsing the characters written for the ranks `m-1, ..., 0` from the start of rank
`m-1`: exactly the occupied cells of `b` on those ranks are written. -/
theorem parse_ranks (b : Board) (hb : b.CellsProper) :
    ∀ (m : Nat) (B : Board), m ≤ 8 →
      ∃ (B' : Board) (r' f' : Int),
        (((List.range m).reverse.map Int.ofNat).flatMap fun rank =>
            Board.rankChars b rank [0, 1, 2, 3, 4, 5, 6, 7] 0 ++
              (if rank > 0 then ['/'] else [])).foldl
          Board.parseBoardChar (B, (m : Int) - 1, 0) = (B', r', f') ∧
        B'.position = B.position ∧ B'.history = B.history ∧
        ∀ s, B'.pieceAt s =
          if s / 8 < m ∧ (b.pieceAt s).isNone = false then b.pieceAt s else B.pieceAt s := by
  intro m
  induction m with
  | zero =>
    intro B _
    exact ⟨B, _, _, rfl, rfl, rfl, fun s => by simp⟩
  | succ m ih =>
    intro B hm
    obtain ⟨B1, h1, h2, h3, h4⟩ := parse_rankChars b hb m (by omega) 8 0 0 B rfl (le_refl 0)
    simp only [List.range_succ, List.reverse_append, List.reverse_cons, List.reverse_nil,
      List.nil_append, List.singleton_append, List.map_cons, List.flatMap_cons,
      List.foldl_append, files_eq_range, Int.ofNat_eq_coe]
    have hstart : (((m + 1 : Nat) : Int) - 1) = (m : Int) := by push_cast; ring
    have h1' : (Board.rankChars b (m : Int) ((List.range' 0 8).map Int.ofNat) 0).foldl
        Board.parseBoardChar (B, (m : Int), 0) = (B1, (m : Int), 8) := by
      simpa using h1
    rw [hstart, h1']
    have hcells : ∀ (B2 : Board), (∀ s, B2.pieceAt s =
          if s / 8 < m ∧ (b.pieceAt s).isNone = false then b.pieceAt s else B1.pieceAt s) →
        ∀ s, B2.pieceAt s =
          if s / 8 < m + 1 ∧ (b.pieceAt s).isNone = false then b.pieceAt s else B.pieceAt s := by
      intro B2 hB2 s
      rw [hB2 s, h4 s]
      by_cases hn : (b.pieceAt s).isNone = false
      · by_cases hlt : s / 8 < m
        · rw [if_pos ⟨hlt, hn⟩, if_pos ⟨by omega, hn⟩]
        · by_cases heq : s / 8 = m
          · rw [if_neg (by tauto), if_pos ⟨by omega, heq, hn⟩, if_pos ⟨by omega, hn⟩]
          · rw [if_neg (by tauto), if_neg (by tauto), if_neg]
            rintro ⟨h5, _⟩; omega
      · rw [if_neg (by tauto), if_neg (by tauto), if_neg (by tauto)]
    by_cases hm0 : m = 0
    · subst hm0
      refine ⟨B1, ((0 : Nat) : Int), 8, ?_, h2, h3, hcells B1 (fun s => by simp)⟩
      simp
    · have hpos : ((m : Int) > 0) := by omega
      simp only [hpos, if_true, List.foldl_cons, List.foldl_nil, parseBoardChar_slash]
      obtain ⟨B2, r', f', g1, g2, g3, g4⟩ := ih B1 (by omega)
      exact ⟨B2, r', f', g1, g2.trans h2, g3.trans h3, hcells B2 g4⟩

theorem ranks_eq_range :
    ([7, 6, 5, 4, 3, 2, 1, 0] : List Int) = (List.range 8).reverse.map Int.ofNat := by
  decide

/-- Parsing the board part written by `toFEN` on a cleared board gives back the cells. -/
theorem parse_boardChars (b : Board) (hb : b.CellsProper) (B : Board) :
    ∃ (B' : Board) (r' f' : Int),
      (Board.boardChars b).foldl Board.parseBoardChar (B.clearSquares, 7, 0) = (B', r', f') ∧
      B'.position = B.position ∧ B'.history = B.history ∧
      ∀ s, s < 64 → B'.pieceAt s = b.pieceAt s := by
  obtain ⟨B', r', f', h1, h2, h3, h4⟩ := parse_ranks b hb 8 B.clearSquares (le_refl 8)
  refine ⟨B', r', f', ?_, h2, h3, fun s hs => ?_⟩
  · unfold Board.boardChars
    rw [ranks_eq_range]
    simpa using h1
  · rw [h4 s]
    by_cases hn : (b.pieceAt s).isNone = false
    · rw [if_pos ⟨by omega, hn⟩]
    · rw [if_neg (by tauto)]
      rcases hb s hs with h | h
      · rw [h]; rfl
      · exfalso; apply hn; simp [Piece.isNone, h.1]

/-! ### `toFEN` reads the cells `0..63` and the position only -/

theorem rankChars_congr {b b' : Board} (r : Int) (files : List Int)
    (h : ∀ file ∈ files, b'.pieceAt (makeSquare file r) = b.pieceAt (makeSquare file r)) :
    ∀ e, Board.rankChars b' r files e = Board.rankChars b r files e := by
  induction files with
  | nil => intro e; rfl
  | cons file files ih =>
    intro e
    have ih' := ih (fun f hf => h f (List.mem_cons_of_mem _ hf))
    simp only [Board.rankChars, h file (List.mem_cons_self _ _), ih']

theorem boardChars_congr {b b' : Board} (h : ∀ s, s < 64 → b'.pieceAt s = b.pieceAt s) :
    Board.boardChars b' = Board.boardChars b := by
  unfold Board.boardChars
  have key : ∀ rank ∈ ([7, 6, 5, 4, 3, 2, 1, 0] : List Int),
      ∀ file ∈ ([0, 1, 2, 3, 4, 5, 6, 7] : List Int),
        b'.pieceAt (makeSquare file rank) = b.pieceAt (makeSquare file rank) := by
    intro rank hr file hf
    simp only [List.mem_cons, List.mem_singleton, List.not_mem_nil, or_false] at hr hf
    rcases hr with rfl | rfl | rfl | rfl | rfl | rfl | rfl | rfl <;>
      rcases hf with rfl | rfl | rfl | rfl | rfl | rfl | rfl | rfl <;>
      exact h _ (by decide)
  apply List.flatMap_congr
  intro rank hr
  rw [rankChars_congr rank _ (key rank hr)]

/-! ### Round trip -/

/-- C1. For every board whose cells `0..63` are `Piece()` or proper pieces, whose side
to move is White or Black, whose en-passant target is 255 or below 64 and whose
counters are non-negative `int` values: `setFromFEN(toFEN(b))`, called on any board,
succeeds and yields a board with the same 64 cells and the same `Position`, and so the
same `toFEN()` string. -/
theorem setFromFEN_toFEN (b0 b : Board) (h : b.Representable) :
    ∃ b' : Board, Board.setFromFEN b0 b.toFEN = some b' ∧
      (∀ sq, sq < 64 → b'.pieceAt sq = b.pieceAt sq) ∧ b'.position = b.position ∧
      b'.toFEN = b.toFEN := by
  obtain ⟨hcells, hside, hep, hh, hf⟩ := h
  obtain ⟨B', r', f', h1, h2, _, h4⟩ := parse_boardChars b hcells b0
  have htok := isToken_boardChars b
  have hfen : b.toFEN = Board.boardChars b ++ ' ' :: b.position.toFEN := by
    simp [Board.toFEN]
  have hpos := Position.setFromFEN_reads_toFEN B'.position b.position (Board.boardChars b) htok
    hside hep hh hf
  have hfen' : Board.boardChars b ++ [' '] ++ b.position.toFEN = b.toFEN := by
    simp [Board.toFEN]
  rw [hfen'] at hpos
  refine ⟨{ B' with position := b.position }, ?_, h4, rfl, ?_⟩
  · simp only [Board.setFromFEN, IStream.ofString]
    rw [hfen, readToken_token _ _ _ htok]
    simp only [h1]
    rw [← hfen, hpos]
    rfl
  · have hc : Board.boardChars { B' with position := b.position } = Board.boardChars b :=
      @boardChars_congr b { B' with position := b.position } h4
    simp only [Board.toFEN, hc]

/-- Witness of C1: the starting position, read into an empty board. -/
theorem setFromFEN_toFEN_witness :
    startBoard.Representable ∧
    ∃ b' : Board, Board.setFromFEN Board.empty startBoard.toFEN = some b' ∧
      (∀ sq, sq < 64 → b'.pieceAt sq = startBoard.pieceAt sq) ∧
      b'.position = startBoard.position ∧ b'.toFEN = startBoard.toFEN :=
  ⟨by decide, setFromFEN_toFEN Board.empty startBoard (by decide)⟩

open AI.Engine

/-! ### The king search and the check test -/

theorem findKing_none_iff (b : Board) (c : Color) :
    b.findKing c = 255 ↔
      ∀ sq, sq < 64 → ¬((b.pieceAt sq).type = PieceType.King ∧ (b.pieceAt sq).color = c) := by
  unfold Board.findKing NUM_SQUARES
  cases h : (List.range 64).find? (fun sq =>
      decide ((b.pieceAt sq).type = PieceType.King) && decide ((b.pieceAt sq).color = c)) with
  | none =>
    rw [List.find?_range_eq_none] at h
    simp only [Option.getD_none, true_iff]
    intro sq hsq hk
    have hf := h sq hsq
    simp [hk.1, hk.2] at hf
  | some k =>
    have hmem := List.mem_of_find?_eq_some h
    have hp := List.find?_some h
    rw [List.mem_range] at hmem
    simp only [Bool.and_eq_true, decide_eq_true_eq] at hp
    simp only [Option.getD_some]
    constructor
    · intro h255; omega
    · intro hall; exact absurd hp (hall k hmem)

theorem findKing_lt_or_none (b : Board) (c : Color) :
    b.findKing c = 255 ∨ (b.findKing c < 64 ∧
      (b.pieceAt (b.findKing c)).type = PieceType.King ∧
      (b.pieceAt (b.findKing c)).color = c) := by
  unfold Board.findKing NUM_SQUARES
  cases h : (List.range 64).find? (fun sq =>
      decide ((b.pieceAt sq).type = PieceType.King) && decide ((b.pieceAt sq).color = c)) with
  | none => left; rfl
  | some k =>
    have hmem := List.mem_of_find?_eq_some h
    have hp := List.find?_some h
    rw [List.mem_range] at hmem
    simp only [Bool.and_eq_true, decide_eq_true_eq] at hp
    right
    exact ⟨hmem, hp⟩

/-! ### The attack test reads cells `0..63` only -/

theorem pieceAt_onBoard_eq {b b' : Board} (h : ∀ s, s < 64 → b'.pieceAt s = b.pieceAt s)
    (f r : Int) (hon : Board.onBoard f r = true) :
    b'.pieceAt (makeSquare f r) = b.pieceAt (makeSquare f r) := by
  apply h
  have h1 := (makeSquare_onBoard f r hon).1
  simp only [Board.onBoard, Bool.and_eq_true, decide_eq_true_eq] at hon
  omega

theorem attackRay_cells {b b' : Board} (h : ∀ s, s < 64 → b'.pieceAt s = b.pieceAt s)
    (c : Color) (t1 t2 : PieceType) (df dr : Int) :
    ∀ (fuel : Nat) (f r : Int),
      Board.attackRay b' c t1 t2 df dr fuel f r = Board.attackRay b c t1 t2 df dr fuel f r := by
  intro fuel
  induction fuel with
  | zero => intros; rfl
  | succ n ih =>
    intro f r
    unfold Board.attackRay
    by_cases hon : Board.onBoard f r = true
    · simp only [hon, if_true, pieceAt_onBoard_eq h f r hon, ih]
    · simp [hon]

theorem attackLeap_cells {b b' : Board} (h : ∀ s, s < 64 → b'.pieceAt s = b.pieceAt s)
    (c : Color) (t : PieceType) (offsets : List (Int × Int)) (f r : Int) :
    b'.attackLeap c t offsets f r = b.attackLeap c t offsets f r :=
  attackLeap_agree c t f r offsets (fun mv _ hon => by rw [pieceAt_onBoard_eq h _ _ hon])

theorem attackPawn_cells {b b' : Board} (h : ∀ s, s < 64 → b'.pieceAt s = b.pieceAt s)
    (c : Color) (f r : Int) (hf0 : 0 ≤ f) (hf8 : f < 8) :
    b'.attackPawn c f r = b.attackPawn c f r := by
  unfold Board.attackPawn
  simp only
  generalize r - (if c = Color.White then (1 : Int) else -1) = pr
  by_cases hr : 0 ≤ pr ∧ pr < 8
  · rw [if_pos hr, if_pos hr]
    congr 1
    · by_cases hf : f > 0
      · rw [pieceAt_onBoard_eq h (f - 1) pr
          (by simp only [Board.onBoard, Bool.and_eq_true, decide_eq_true_eq]; omega)]
      · simp [hf]
    · by_cases hf : f < 7
      · rw [pieceAt_onBoard_eq h (f + 1) pr
          (by simp only [Board.onBoard, Bool.and_eq_true, decide_eq_true_eq]; omega)]
      · simp [hf]
  · rw [if_neg hr, if_neg hr]

theorem isSquareAttacked_cells {b b' : Board} (h : ∀ s, s < 64 → b'.pieceAt s = b.pieceAt s)
    (sq : Nat) (c : Color) : b'.isSquareAttacked sq c = b.isSquareAttacked sq c := by
  unfold Board.isSquareAttacked
  simp only [attackRay_cells h, attackLeap_cells h]
  rw [attackPawn_cells h c (getFile sq) (getRank sq) (by unfold getFile; omega)
    (by unfold getFile; omega)]

theorem find_eq_of_eq_on {α : Type} (p q : α → Bool) :
    ∀ l : List α, (∀ x ∈ l, p x = q x) → l.find? p = l.find? q := by
  intro l
  induction l with
  | nil => intro _; rfl
  | cons x xs ih =>
    intro hall
    simp only [List.find?_cons, hall x (List.mem_cons_self x xs),
      ih (fun y hy => hall y (List.mem_cons_of_mem x hy))]

theorem findKing_cells {b b' : Board} (h : ∀ s, s < 64 → b'.pieceAt s = b.pieceAt s)
    (c : Color) : b'.findKing c = b.findKing c := by
  unfold Board.findKing NUM_SQUARES
  congr 1
  apply find_eq_of_eq_on
  intro s hs
  rw [h s (List.mem_range.mp hs)]

theorem isCheck_cells {b b' : Board} (h : ∀ s, s < 64 → b'.pieceAt s = b.pieceAt s)
    (c : Color) : b'.isCheck c = b.isCheck c := by
  unfold Board.isCheck
  simp only [findKing_cells h, isSquareAttacked_cells h]

/-- C11. `findKing(c)` is 255 exactly when no cell `0..63` holds a king of colour `c`,
and is otherwise a square below 64 that holds one; `isCheck(c)` is false when
`findKing(c)` is 255 and is `isSquareAttacked(findKing(c), oppositeColor(c))`
otherwise; and `isCheck(c)` is decided by the cells `0..63` alone: two boards that
agree on these cells give the same answer. -/
theorem findKing_isCheck_contract (b : Board) (c : Color) :
    (b.findKing c = 255 ↔
      ∀ sq, sq < 64 → ¬((b.pieceAt sq).type = PieceType.King ∧ (b.pieceAt sq).color = c)) ∧
    (b.findKing c ≠ 255 → b.findKing c < 64 ∧
      (b.pieceAt (b.findKing c)).type = PieceType.King ∧
      (b.pieceAt (b.findKing c)).color = c) ∧
    (b.findKing c = 255 → b.isCheck c = false) ∧
    (b.findKing c ≠ 255 →
      b.isCheck c = b.isSquareAttacked (b.findKing c) (oppositeColor c)) ∧
    (∀ b' : Board, (∀ s, s < 64 → b'.pieceAt s = b.pieceAt s) → b'.isCheck c = b.isCheck c) := by
  refine ⟨findKing_none_iff b c, ?_, ?_, ?_, fun b' h => isCheck_cells h c⟩
  · intro hne
    rcases findKing_lt_or_none b c with h | h
    · exact absurd h hne
    · exact h
  · intro h; simp [Board.isCheck, h]
  · intro h; simp [Board.isCheck, h]

/-! ### `unmakeMove` without history -/

/-- C12. With an empty undo stack `unmakeMove(m)` returns the board as it was: every
cell, the whole position and the (empty) undo stack. -/
theorem unmakeMove_empty_history (b : Board) (m : Move) (h : b.history = []) :
    b.unmakeMove m = b ∧ (∀ sq, (b.unmakeMove m).pieceAt sq = b.pieceAt sq) ∧
      (b.unmakeMove m).position = b.position ∧ (b.unmakeMove m).history = [] := by
  have e : b.unmakeMove m = b := by
    unfold Board.unmakeMove
    rw [h]
  rw [e]
  exact ⟨rfl, fun _ => rfl, rfl, h⟩

/-- Witness of C12: the starting position, whose undo stack is empty, and e2-e4. -/
theorem unmakeMove_empty_history_witness :
    startBoard.history = [] ∧ startBoard.unmakeMove e2e4 = startBoard ∧
      (∀ sq, (startBoard.unmakeMove e2e4).pieceAt sq = startBoard.pieceAt sq) ∧
      (startBoard.unmakeMove e2e4).position = startBoard.position ∧
      (startBoard.unmakeMove e2e4).history = [] :=
  ⟨rfl, unmakeMove_empty_history startBoard e2e4 rfl⟩

/-! ### The search without a legal move -/

/-- C13. When `generateLegalMoves(c)` is empty, `findBestMove(c, maxDepth)` returns
the default move (origin equal to destination, `isValid()` false) with score 0,
depth 0 and 0 nodes, and the engine's board is the board it had. -/
theorem findBestMove_no_legal_moves (e : Engine) (c : Color) (maxDepth : Int)
    (h : generateLegalMoves e.board c = []) :
    Engine.findBestMove e c maxDepth =
        some (⟨Move.default, 0, 0, 0⟩, { e with maxDepth := maxDepth, shouldStop := false }) ∧
      (Engine.findBestMove e c maxDepth).map (fun r => r.2.board) = some e.board ∧
      Move.default.from_ = Move.default.to_ ∧ Move.default.isValid = false := by
  have hr : Engine.findBestMove e c maxDepth =
      some (⟨Move.default, 0, 0, 0⟩, { e with maxDepth := maxDepth, shouldStop := false }) := by
    unfold Engine.findBestMove
    simp only [h, List.isEmpty_nil, if_true]
  refine ⟨hr, ?_, rfl, rfl⟩
  rw [hr]
  rfl

set_option maxRecDepth 1000000 in
/-- Witness of C13: Black to move in the checkmate `queenMate`, searched to depth 5. -/
theorem findBestMove_no_legal_moves_witness :
    generateLegalMoves (Engine.create queenMate).board Color.Black = [] ∧
    (Engine.findBestMove (Engine.create queenMate) Color.Black 5 =
        some (⟨Move.default, 0, 0, 0⟩,
          { Engine.create queenMate with maxDepth := 5, shouldStop := false }) ∧
      (Engine.findBestMove (Engine.create queenMate) Color.Black 5).map (fun r => r.2.board) =
        some (Engine.create queenMate).board ∧
      Move.default.from_ = Move.default.to_ ∧ Move.default.isValid = false) :=
  ⟨by decide, findBestMove_no_legal_moves (Engine.create queenMate) Color.Black 5 (by decide)⟩

/-! ### `alphaBeta` with the full window against plain negamax -/

theorem wrap32_ge (v : Int) : INT_MIN ≤ wrap32 v := by
  unfold wrap32 INT_MIN; omega

theorem neg32_INT_MIN : neg32 INT_MIN = INT_MIN := by decide

theorem neg32_INT_MAX : neg32 INT_MAX = INT_MIN + 1 := by decide

/-- With the window `(INT_MIN + 1, INT_MIN)` and Black to move, `quiescence` returns
`beta` at the stand-pat test. -/
theorem quiescence_closed_window (board : Board) (nodes : Int) :
    quiescence false (INT_MIN + 1) INT_MIN Color.Black board nodes 0 =
      (INT_MIN, board, nodes + 1) := by
  have h : neg32 (Evaluator.evaluate board) ≥ INT_MIN := wrap32_ge _
  simp only [quiescence, MAX_QUIESCENCE_DEPTH, quiescenceFrom, Bool.false_eq_true, if_false,
    if_true, h]

theorem alphaBeta_zero_closed_window (board : Board) (nodes : Int) :
    alphaBeta false 0 (INT_MIN + 1) INT_MIN Color.Black board nodes =
      (INT_MIN, board, nodes + 1 + 1) := by
  simp only [alphaBeta, Bool.false_eq_true, if_false, quiescence_closed_window]

theorem alphaBetaLoop_depth_one (moves : List Move) :
    ∀ (board : Board) (nodes : Int),
      (alphaBetaLoop (alphaBeta false 0) false INT_MAX Color.White moves INT_MIN INT_MIN
        board nodes).1 = INT_MIN := by
  induction moves with
  | nil => intro board nodes; rfl
  | cons m ms ih =>
    intro board nodes
    have ho : oppositeColor Color.White = Color.Black := rfl
    have hlt : ¬ (INT_MIN > INT_MIN) := by decide
    have hge : ¬ (INT_MIN ≥ INT_MAX) := by decide
    simp only [alphaBetaLoop, Bool.false_eq_true, if_false, neg32_INT_MAX, neg32_INT_MIN, ho,
      alphaBeta_zero_closed_window, hlt, hge, ih]

theorem alphaBeta_depth_one_white (board : Board) (nodes : Int)
    (h : generateLegalMoves board Color.White ≠ []) :
    (alphaBeta false 1 INT_MIN INT_MAX Color.White board nodes).1 = INT_MIN := by
  have hne : (generateLegalMoves board Color.White).isEmpty = false := by
    cases hm : generateLegalMoves board Color.White with
    | nil => exact absurd hm h
    | cons _ _ => rfl
  rw [alphaBeta]
  simp only [Bool.false_eq_true, if_false, hne]
  exact alphaBetaLoop_depth_one _ _ _

set_option maxRecDepth 1000000 in
/-- C14 (failing). With the full window `alphaBeta` hands its successors the window
`(-INT_MAX, -INT_MIN)`, and `-INT_MIN` is `INT_MIN` in `int` arithmetic: at depth 1
with White to move every successor is cut at the stand-pat test and `alphaBeta`
returns `INT_MIN` on every board with a legal move for White. On the board with the
two kings plain negamax to depth 1 gives 80. -/
theorem alphaBeta_depth_one_not_negamax :
    (∀ (board : Board) (nodes : Int), generateLegalMoves board Color.White ≠ [] →
      (alphaBeta false 1 INT_MIN INT_MAX Color.White board nodes).1 = INT_MIN) ∧
    generateLegalMoves kingsOnly Color.White ≠ [] ∧
    (alphaBeta false 1 INT_MIN INT_MAX Color.White kingsOnly 0).1 = INT_MIN ∧
    negamax 1 Color.White kingsOnly = 80 := by
  have hne : generateLegalMoves kingsOnly Color.White ≠ [] := by decide
  exact ⟨alphaBeta_depth_one_white, hne, alphaBeta_depth_one_white kingsOnly 0 hne, by decide⟩

/-! ### Iterative deepening -/

/-- A search to depth 1 runs the sequential loop: it returns a result of depth 1 and
leaves `maxDepth_` at 1. -/
theorem findBestMove_depth_one (e : Engine) (c : Color) :
    ∃ res e1, findBestMove e c 1 = some (res, e1) ∧ e1.maxDepth = 1 ∧
      (generateLegalMoves e.board c ≠ [] → res.depth = 1) := by
  unfold findBestMove
  by_cases hm : (generateLegalMoves e.board c).isEmpty = true
  · simp only [hm, if_true]
    refine ⟨_, _, rfl, rfl, ?_⟩
    intro hne
    cases hl : generateLegalMoves e.board c with
    | nil => exact absurd hl hne
    | cons _ _ => rw [hl] at hm; simp at hm
  · simp only [hm, Bool.false_eq_true, if_false]
    have h3 : decide ((1 : Int) ≥ 3) = false := by decide
    simp only [h3, Bool.and_false, Bool.false_eq_true, if_false, Option.map_some']
    exact ⟨_, _, rfl, rfl, fun _ => rfl⟩

/-- C15 (failing). Under the claim's conditions — a legal move for `c`, a configured
depth `D >= 1`, every clock reading at least 100 ms before the deadline (and not
before the start, with `timeMs` an `int`) — `findBestMoveWithTimeLimit` returns after
the search to depth 1, whatever `D` is: the result is that of `findBestMove(c, 1)`,
its depth is 1 and `getDifficulty()` is 1 afterwards. Two iterations of fuel are
enough. -/
theorem findBestMoveWithTimeLimit_depth_one (fuel : Nat) (hfuel : 2 ≤ fuel)
    (now : Nat → Int) (ticksPerMs : Int) (hticks : 0 < ticksPerMs) (e : Engine) (c : Color)
    (D : Int) (hD : 1 ≤ D) (timeMs : Int) (hms : timeMs ≤ INT_MAX)
    (hlegal : generateLegalMoves e.board c ≠ [])
    (hclock : ∀ k, now 0 ≤ now k ∧ now k + 100 * ticksPerMs ≤ now 0 + timeMs * ticksPerMs) :
    ∃ res e1,
      findBestMove { e.setDifficulty D with shouldStop := false } c 1 = some (res, e1) ∧
      findBestMoveWithTimeLimit fuel now ticksPerMs (e.setDifficulty D) c timeMs =
        some (some res, { e1 with shouldStop := false }) ∧
      res.depth = 1 ∧ getDifficulty { e1 with shouldStop := false } = 1 := by
  obtain ⟨res, e1, hfind, hdepth, hres⟩ :=
    findBestMove_depth_one { e.setDifficulty D with shouldStop := false } c
  refine ⟨res, e1, hfind, ?_, hres hlegal, hdepth⟩
  obtain ⟨n, rfl⟩ : ∃ n, fuel = n + 2 := ⟨fuel - 2, by omega⟩
  have h1 := hclock 1
  have h2 := hclock (1 + 1)
  have hlt1 : ¬ (now 1 ≥ now 0 + timeMs * ticksPerMs) := by
    have : 0 < 100 * ticksPerMs := by positivity
    omega
  have hlt2 : ¬ (now (1 + 1) ≥ now 0 + timeMs * ticksPerMs) := by
    have : 0 < 100 * ticksPerMs := by positivity
    omega
  have hrem : ¬ (wrap32 ((now 0 + timeMs * ticksPerMs - now 1).tdiv ticksPerMs) < 100) := by
    have hpos : 0 ≤ now 0 + timeMs * ticksPerMs - now 1 := by
      have : 0 < 100 * ticksPerMs := by positivity
      omega
    rw [Int.tdiv_eq_ediv hpos (le_of_lt hticks)]
    have hlo : 100 ≤ (now 0 + timeMs * ticksPerMs - now 1) / ticksPerMs := by
      rw [Int.le_ediv_iff_mul_le hticks]; omega
    have hhi : (now 0 + timeMs * ticksPerMs - now 1) / ticksPerMs ≤ timeMs := by
      apply Int.ediv_le_of_le_mul hticks; omega
    unfold INT_MAX at hms
    unfold wrap32
    omega
  have hD' : (1 : Int) ≤ (Engine.setDifficulty e D).maxDepth := hD
  unfold findBestMoveWithTimeLimit
  have hnot : ¬ ((1 : Int) + 1 ≤ e1.maxDepth) := by rw [hdepth]; decide
  simp only [timeLimitLoop, hD', hlt1, hlt2, hrem, if_true, if_false, hfind,
    Option.some_bind, hnot, Option.map_some']

set_option maxRecDepth 1000000 in
/-- Witness of C15: the two kings, White to move, depth 5 configured, 1500 ms allowed,
a clock in nanoseconds that stands still. -/
theorem findBestMoveWithTimeLimit_depth_one_witness :
    ∃ res e1,
      findBestMove { (Engine.create kingsOnly).setDifficulty 5 with shouldStop := false }
        Color.White 1 = some (res, e1) ∧
      findBestMoveWithTimeLimit 2 stillClock 1000000 ((Engine.create kingsOnly).setDifficulty 5)
        Color.White 1500 = some (some res, { e1 with shouldStop := false }) ∧
      res.depth = 1 ∧ getDifficulty { e1 with shouldStop := false } = 1 :=
  findBestMoveWithTimeLimit_depth_one 2 (le_refl 2) stillClock 1000000 (by decide)
    (Engine.create kingsOnly) Color.White 5 (by decide) 1500 (by decide) (by decide)
    (fun _ => by unfold stillClock; decide)

/-! ### The reduction at the root -/

theorem rootReduce_cases (l : List (Move × Int)) :
    ∀ best : Move × Int,
      (rootReduce l best = best ∧ ∀ p ∈ l, p.2 ≤ best.2) ∨
      ∃ i, l[i]? = some (rootReduce l best) ∧ best.2 < (rootReduce l best).2 ∧
        (∀ p ∈ l, p.2 ≤ (rootReduce l best).2) ∧
        ∀ (j : Nat) (p : Move × Int), j < i → l[j]? = some p → p.2 < (rootReduce l best).2 := by
  induction l with
  | nil => intro best; left; exact ⟨rfl, fun p hp => absurd hp (List.not_mem_nil p)⟩
  | cons x rest ih =>
    intro best
    obtain ⟨m, s⟩ := x
    by_cases hs : s > best.2
    · have e : rootReduce ((m, s) :: rest) best = rootReduce rest (m, s) := by
        simp only [rootReduce, hs, if_true]
      rw [e]
      right
      rcases ih (m, s) with ⟨hr, hall⟩ | ⟨i, hi, hlt, hall, hbefore⟩
      · refine ⟨0, by rw [hr]; simp, by rw [hr]; exact hs, ?_,
          fun j p hj _ => absurd hj (Nat.not_lt_zero j)⟩
        intro p hp
        rw [hr]
        rcases List.mem_cons.mp hp with rfl | hp
        · exact le_refl _
        · exact hall p hp
      · refine ⟨i + 1, by simpa using hi, lt_trans hs hlt, ?_, ?_⟩
        · intro p hp
          rcases List.mem_cons.mp hp with rfl | hp
          · exact le_of_lt hlt
          · exact hall p hp
        · intro j p hj hp
          cases j with
          | zero =>
            simp only [List.getElem?_cons_zero, Option.some.injEq] at hp
            rw [← hp]; exact hlt
          | succ j =>
            simp only [List.getElem?_cons_succ] at hp
            exact hbefore j p (by omega) hp
    · have e : rootReduce ((m, s) :: rest) best = rootReduce rest best := by
        simp only [rootReduce, hs, if_false]
      rw [e]
      have hs' : s ≤ best.2 := not_lt.mp hs
      rcases ih best with ⟨hr, hall⟩ | ⟨i, hi, hlt, hall, hbefore⟩
      · left
        refine ⟨hr, ?_⟩
        intro p hp
        rcases List.mem_cons.mp hp with rfl | hp
        · exact hs'
        · exact hall p hp
      · right
        refine ⟨i + 1, by simpa using hi, hlt, ?_, ?_⟩
        · intro p hp
          rcases List.mem_cons.mp hp with rfl | hp
          · exact le_of_lt (lt_of_le_of_lt hs' hlt)
          · exact hall p hp
        · intro j p hj hp
          cases j with
          | zero =>
            simp only [List.getElem?_cons_zero, Option.some.injEq] at hp
            rw [← hp]; exact lt_of_le_of_lt hs' hlt
          | succ j =>
            simp only [List.getElem?_cons_succ] at hp
            exact hbefore j p (by omega) hp

/-- For a non-empty list of root moves with their scores (values of an `int`),
the reduction of `findBestMove`, started as the code starts it with the first move
and `INT_MIN`, ends with the move and score at some index `i` of the list such that
no score of the list is larger and every score before `i` is smaller: the first move
with the maximum score. -/
theorem rootReduce_first_maximum (results : List (Move × Int)) (hne : results ≠ [])
    (hint : ∀ p ∈ results, INT_MIN ≤ p.2) :
    ∃ i, results[i]? =
        some (rootReduce results ((results.map Prod.fst).headD Move.default, INT_MIN)) ∧
      (∀ p ∈ results,
        p.2 ≤ (rootReduce results ((results.map Prod.fst).headD Move.default, INT_MIN)).2) ∧
      ∀ (j : Nat) (p : Move × Int), j < i → results[j]? = some p →
        p.2 < (rootReduce results ((results.map Prod.fst).headD Move.default, INT_MIN)).2 := by
  rcases rootReduce_cases results ((results.map Prod.fst).headD Move.default, INT_MIN) with
    ⟨hr, hall⟩ | ⟨i, hi, _, hall, hbefore⟩
  · rw [hr]
    cases results with
    | nil => exact absurd rfl hne
    | cons x rest =>
      refine ⟨0, ?_, hall, fun j p hj _ => absurd hj (Nat.not_lt_zero j)⟩
      have h1 : x.2 ≤ INT_MIN := hall x (List.mem_cons_self x rest)
      have h2 : INT_MIN ≤ x.2 := hint x (List.mem_cons_self x rest)
      have h3 : x.2 = INT_MIN := le_antisymm h1 h2
      simp only [List.getElem?_cons_zero, List.map_cons, List.headD_cons, ← h3]
  · exact ⟨i, hi, hall, hbefore⟩

/-- One iteration of the sequential root loop, in terms of `sequentialStep`. -/
theorem sequentialLoop_cons (maxDepth : Int) (color : Color) (m : Move) (ms : List Move)
    (st : RootState) :
    sequentialLoop false maxDepth color (m :: ms) st =
      sequentialLoop false maxDepth color ms
        (if (sequentialStep maxDepth color m st.board st.recentPositions).1 > st.bestScore then
          { board := (sequentialStep maxDepth color m st.board st.recentPositions).2.1,
            recentPositions := (sequentialStep maxDepth color m st.board st.recentPositions).2.2.1,
            bestMove := m,
            bestScore := (sequentialStep maxDepth color m st.board st.recentPositions).1,
            nodesSearched := st.nodesSearched +
              (sequentialStep maxDepth color m st.board st.recentPositions).2.2.2 }
        else
          { board := (sequentialStep maxDepth color m st.board st.recentPositions).2.1,
            recentPositions := (sequentialStep maxDepth color m st.board st.recentPositions).2.2.1,
            bestMove := st.bestMove,
            bestScore := st.bestScore,
            nodesSearched := st.nodesSearched +
              (sequentialStep maxDepth color m st.board st.recentPositions).2.2.2 }) := by
  rw [sequentialLoop]
  simp only [Bool.false_eq_true, if_false, sequentialStep]
  split_ifs <;> rfl

/-- The sequential root loop ends with the reduction of its moves and scores. -/
theorem sequentialLoop_rootReduce (maxDepth : Int) (color : Color) (moves : List Move) :
    ∀ st : RootState,
      ((sequentialLoop false maxDepth color moves st).bestMove,
        (sequentialLoop false maxDepth color moves st).bestScore) =
      rootReduce (sequentialResults maxDepth color moves st.board st.recentPositions)
        (st.bestMove, st.bestScore) := by
  induction moves with
  | nil => intro st; rfl
  | cons m ms ih =>
    intro st
    rw [sequentialLoop_cons, ih, sequentialResults, rootReduce]
    by_cases h : (sequentialStep maxDepth color m st.board st.recentPositions).1 > st.bestScore
    · simp only [h, if_true]
    · simp only [h, if_false]

/-- Of the scores 5, 7, 7 the reduction keeps the second move, the first with the
maximum. -/
theorem rootReduce_keeps_first_of_equal :
    (scoredMoves ≠ [] ∧ ∀ p ∈ scoredMoves, INT_MIN ≤ p.2) ∧
    rootReduce scoredMoves ((scoredMoves.map Prod.fst).headD Move.default, INT_MIN) =
      (takesEnPassant, 7) ∧
    ∃ i, scoredMoves[i]? =
        some (rootReduce scoredMoves ((scoredMoves.map Prod.fst).headD Move.default, INT_MIN)) ∧
      (∀ p ∈ scoredMoves,
        p.2 ≤ (rootReduce scoredMoves
          ((scoredMoves.map Prod.fst).headD Move.default, INT_MIN)).2) ∧
      ∀ (j : Nat) (p : Move × Int), j < i → scoredMoves[j]? = some p →
        p.2 < (rootReduce scoredMoves
          ((scoredMoves.map Prod.fst).headD Move.default, INT_MIN)).2 :=
  ⟨⟨by decide, by decide⟩, by decide,
    rootReduce_first_maximum scoredMoves (by decide) (by decide)⟩

set_option maxRecDepth 1000000 in
/-- C17 (failing). `isCheckmate` and `isStalemate` are false on every board; so they
are in the checkmate `queenMate` (no legal move, in check) and in the stalemate
`queenStalemate` (no legal move, not in check). -/
theorem isCheckmate_isStalemate_always_false :
    (∀ (b : Board) (c : Color), b.isCheckmate c = false ∧ b.isStalemate c = false) ∧
    (generateLegalMoves queenMate Color.Black = [] ∧ queenMate.isCheck Color.Black = true ∧
      queenMate.isCheckmate Color.Black = false) ∧
    (generateLegalMoves queenStalemate Color.Black = [] ∧
      queenStalemate.isCheck Color.Black = false ∧
      queenStalemate.isStalemate Color.Black = false) :=
  ⟨fun _ _ => ⟨rfl, rfl⟩, by decide, by decide⟩

theorem isLegal_iff (b : Board) (m : Move) (c : Color) :
    MoveValidator.isLegal b m c = true ↔
      m.from_ < 64 ∧ m.to_ < 64 ∧ (b.pieceAt m.from_).isNone = false ∧
        (b.pieceAt m.from_).color = c ∧ (b.makeMove m).isCheck c = false := by
  unfold MoveValidator.isLegal MoveValidator.leavesKingInCheck NUM_SQUARES
  by_cases h1 : m.from_ ≥ 64 ∨ m.to_ ≥ 64
  · rw [if_pos h1]
    constructor
    · intro h; exact absurd h (by decide)
    · intro h; omega
  · rw [if_neg h1]
    simp only
    by_cases h2 : (b.pieceAt m.from_).isNone = true ∨ (b.pieceAt m.from_).color ≠ c
    · rw [if_pos h2]
      constructor
      · intro h; exact absurd h (by decide)
      · rintro ⟨_, _, h3, h4, _⟩
        rcases h2 with h2 | h2
        · rw [h3] at h2; exact absurd h2 (by decide)
        · exact absurd h4 h2
    · rw [if_neg h2]
      simp only [not_or, Bool.not_eq_true, ne_eq, not_not] at h2
      simp only [Bool.not_eq_true']
      constructor
      · intro h; exact ⟨by omega, by omega, h2.1, h2.2, h⟩
      · intro h; exact h.2.2.2.2

set_option maxRecDepth 1000000 in
/-- C18 (failing). At the starting position `isLegal` accepts e2-e5 for White, a move
`generateLegalMoves(White)` does not return. In general `isLegal(m, c)` is true
exactly when origin and destination are below 64, the origin holds a piece of colour
`c`, and `c` is not in check after the move is made; in particular it is false when
the origin or destination is 64 or more or the origin holds no piece of colour `c`. -/
theorem isLegal_accepts_ungenerated_move :
    (MoveValidator.isLegal startBoard pawnLeap Color.White = true ∧
      pawnLeap ∉ generateLegalMoves startBoard Color.White) ∧
    (∀ (b : Board) (m : Move) (c : Color), MoveValidator.isLegal b m c = true ↔
      m.from_ < 64 ∧ m.to_ < 64 ∧ (b.pieceAt m.from_).isNone = false ∧
        (b.pieceAt m.from_).color = c ∧ (b.makeMove m).isCheck c = false) ∧
    (∀ (b : Board) (m : Move) (c : Color),
      m.from_ ≥ 64 ∨ m.to_ ≥ 64 ∨ (b.pieceAt m.from_).isNone = true ∨
        (b.pieceAt m.from_).color ≠ c → MoveValidator.isLegal b m c = false) := by
  refine ⟨⟨by decide, ?_⟩, isLegal_iff, ?_⟩
  · rw [startBoard_legal_moves]; decide
  · intro b m c h
    cases hl : MoveValidator.isLegal b m c with
    | false => rfl
    | true =>
      obtain ⟨h1, h2, h3, h4, _⟩ := (isLegal_iff b m c).mp hl
      rcases h with h | h | h | h
      · omega
      · omega
      · rw [h3] at h; exact absurd h (by decide)
      · exact absurd h4 h

theorem parseBoardChar_no_piece (st : Board × Int × Int) (c : Char)
    (h : Board.toLower c ∉ ['p', 'n', 'b', 'r', 'q', 'k']) :
    (Board.parseBoardChar st c).1 = st.1 := by
  obtain ⟨b, rank, file⟩ := st
  simp only [List.mem_cons, List.mem_singleton, List.not_mem_nil, or_false, not_or] at h
  obtain ⟨hp, hn, hb, hr, hq, hk⟩ := h
  unfold Board.parseBoardChar
  simp only [hp, hn, hb, hr, hq, hk, if_false]
  split_ifs <;> first | rfl | contradiction

set_option maxRecDepth 1000000 in
/-- C19 (failing). `setFromFEN` throws (`std::stoi`) on a string whose halfmove field
is not a number, and on a string with nine pawns in a rank it writes cell 64. A
character that is not a piece letter leaves the cells as they are. -/
theorem setFromFEN_throws_and_writes_cell_64 :
    Board.setFromFEN Board.empty fenBadClock = none ∧
    (Board.setFromFEN Board.empty fenNinePawns).map (fun b => b.squares 64) =
      some ⟨PieceType.Pawn, Color.Black⟩ ∧
    (∀ (st : Board × Int × Int) (c : Char),
      Board.toLower c ∉ ['p', 'n', 'b', 'r', 'q', 'k'] →
      (Board.parseBoardChar st c).1 = st.1) := by
  refine ⟨Option.isNone_iff_eq_none.mp (by decide), by decide, parseBoardChar_no_piece⟩

/-! ### Square notation -/

/-- C20. For a square below 64, `stringToSquare(squareToString(sq))` is `sq`. For
every string, `stringToSquare` is 255 unless the string is a file letter `a..h`
followed by a rank digit `1..8`; for such a string it is `file + 8 * rank` and
`squareToString` of it is the string. -/
theorem stringToSquare_squareToString :
    (∀ sq, sq < 64 → stringToSquare (squareToString sq) = sq) ∧
    (∀ s : List Char, stringToSquare s = 255 ∨
      ∃ f r : Char, s = [f, r] ∧ 'a'.toNat ≤ f.toNat ∧ f.toNat ≤ 'h'.toNat ∧
        '1'.toNat ≤ r.toNat ∧ r.toNat ≤ '8'.toNat) ∧
    (∀ f r : Char, 'a'.toNat ≤ f.toNat → f.toNat ≤ 'h'.toNat →
      '1'.toNat ≤ r.toNat → r.toNat ≤ '8'.toNat →
      stringToSquare [f, r] = (f.toNat - 'a'.toNat) + 8 * (r.toNat - '1'.toNat) ∧
      stringToSquare [f, r] < 64 ∧
      squareToString (stringToSquare [f, r]) = [f, r]) := by
  have ha : 'a'.toNat = 97 := rfl
  have hh : 'h'.toNat = 104 := rfl
  have h1 : '1'.toNat = 49 := rfl
  have h8 : '8'.toNat = 56 := rfl
  rw [ha, hh, h1, h8]
  refine ⟨fun sq h => (squareToString_roundtrip sq h).2.2, ?_, ?_⟩
  · intro s
    match s with
    | [] => left; rfl
    | [_] => left; rfl
    | _ :: _ :: _ :: _ => left; rfl
    | [f, r] =>
      by_cases h : (f.toNat : Int) - 97 < 0 ∨ (f.toNat : Int) - 97 ≥ 8 ∨
          (r.toNat : Int) - 49 < 0 ∨ (r.toNat : Int) - 49 ≥ 8
      · left
        simp only [stringToSquare, if_pos h]
      · right
        exact ⟨f, r, rfl, by omega, by omega, by omega, by omega⟩
  · intro f r hf1 hf2 hr1 hr2
    have hn : ¬((f.toNat : Int) - 97 < 0 ∨ (f.toNat : Int) - 97 ≥ 8 ∨
        (r.toNat : Int) - 49 < 0 ∨ (r.toNat : Int) - 49 ≥ 8) := by omega
    have e : stringToSquare [f, r] = (r.toNat - 49) * 8 + (f.toNat - 97) := by
      simp only [stringToSquare, if_neg hn]
      have e1 : (f.toNat : Int) - 97 = ((f.toNat - 97 : Nat) : Int) := by omega
      have e2 : (r.toNat : Int) - 49 = ((r.toNat - 49 : Nat) : Int) := by omega
      rw [e1, e2, makeSquare_natCast _ _ (by omega)]
    refine ⟨by omega, by omega, ?_⟩
    rw [e]
    unfold squareToString getFile getRank
    have e3 : (((((r.toNat - 49) * 8 + (f.toNat - 97)) % 8 : Nat) : Int)).toNat
        = f.toNat - 97 := by
      rw [Int.toNat_ofNat]; omega
    have e4 : (((((r.toNat - 49) * 8 + (f.toNat - 97)) / 8 : Nat) : Int)).toNat
        = r.toNat - 49 := by
      rw [Int.toNat_ofNat]; omega
    rw [e3, e4]
    have e5 : 97 + (f.toNat - 97) = f.toNat := by omega
    have e6 : 49 + (r.toNat - 49) = r.toNat := by omega
    rw [e5, e6, Char.ofNat_toNat, Char.ofNat_toNat]

/-! ### The moves the generators append -/

theorem makeSquare_valid (f r : Int) (h : isSquareValid f r = true) :
    makeSquare f r < 64 ∧ getFile (makeSquare f r) = f ∧ getRank (makeSquare f r) = r := by
  simp only [isSquareValid, Bool.and_eq_true, decide_eq_true_eq] at h
  obtain ⟨⟨⟨h1, h2⟩, h3⟩, h4⟩ := h
  obtain ⟨fn, rfl⟩ := Int.eq_ofNat_of_zero_le h1
  obtain ⟨rn, rfl⟩ := Int.eq_ofNat_of_zero_le h3
  rw [makeSquare_natCast fn rn (by omega)]
  unfold getFile getRank
  refine ⟨by omega, ?_, ?_⟩
  · congr 1; omega
  · congr 1; omega

theorem isSquareValid_iff (f r : Int) :
    isSquareValid f r = true ↔ 0 ≤ f ∧ f < 8 ∧ 0 ≤ r ∧ r < 8 := by
  simp only [isSquareValid, Bool.and_eq_true, decide_eq_true_eq, ge_iff_le]
  tauto

theorem getFile_range (sq : Nat) : 0 ≤ getFile sq ∧ getFile sq < 8 := by
  unfold getFile; omega

theorem getRank_range (sq : Nat) (h : sq < 64) : 0 ≤ getRank sq ∧ getRank sq < 8 := by
  unfold getRank; omega

/-- A square on the board whose file or rank differs from that of `sq` is not `sq`. -/
theorem makeSquare_ne (f r : Int) (sq : Nat) (h : isSquareValid f r = true)
    (hne : f ≠ getFile sq ∨ r ≠ getRank sq) : makeSquare f r ≠ sq := by
  intro heq
  obtain ⟨_, h2, h3⟩ := makeSquare_valid f r h
  rw [heq] at h2 h3
  rcases hne with hne | hne
  · exact hne h2.symm
  · exact hne h3.symm

/-- The moves of `addMoveIfValid`: a quiet move onto an empty cell or a capture of a
piece of another colour. -/
theorem mem_addMoveIfValid (b : Board) (src dst : Nat) (c : Color) (m : Move)
    (h : m ∈ addMoveIfValid b src dst c) :
    m.from_ = src ∧ m.to_ = dst ∧
      ((m.flag = MoveFlag.Normal ∧ (b.pieceAt dst).isNone = true) ∨
        (m.flag = MoveFlag.Capture ∧ (b.pieceAt dst).isNone = false ∧
          (b.pieceAt dst).color ≠ c)) := by
  unfold addMoveIfValid at h
  simp only at h
  split_ifs at h with h1 h2
  · rw [List.mem_singleton] at h; subst h
    exact ⟨rfl, rfl, Or.inl ⟨rfl, h1⟩⟩
  · rw [List.mem_singleton] at h; subst h
    exact ⟨rfl, rfl, Or.inr ⟨rfl, by simpa using h1, h2⟩⟩
  · exact absurd h (List.not_mem_nil m)

/-- The moves of one slider ray: the destination is `k` steps along the ray, on the
board, the cells before it on the ray are empty, and the move is a quiet move onto an
empty cell or a capture of a piece of another colour. -/
theorem mem_slideRay (b : Board) (src : Nat) (c : Color) (df dr : Int) :
    ∀ (fuel : Nat) (f r : Int) (m : Move), m ∈ slideRay b src c df dr fuel f r →
      m.from_ = src ∧ ∃ k : Nat,
        m.to_ = makeSquare (f + k * df) (r + k * dr) ∧
        isSquareValid (f + k * df) (r + k * dr) = true ∧
        (∀ j : Nat, j < k →
          (b.pieceAt (makeSquare (f + j * df) (r + j * dr))).isNone = true) ∧
        ((m.flag = MoveFlag.Normal ∧ (b.pieceAt m.to_).isNone = true) ∨
          (m.flag = MoveFlag.Capture ∧ (b.pieceAt m.to_).isNone = false ∧
            (b.pieceAt m.to_).color ≠ c)) := by
  intro fuel
  induction fuel with
  | zero => intro f r m h; exact absurd h (List.not_mem_nil m)
  | succ n ih =>
    intro f r m h
    unfold slideRay at h
    simp only at h
    split_ifs at h with hv h1 h2
    · rcases List.mem_cons.mp h with h | h
      · subst h
        refine ⟨rfl, 0, by simp, by simpa using hv, fun j hj => absurd hj (Nat.not_lt_zero j),
          Or.inl ⟨rfl, h1⟩⟩
      · obtain ⟨hfrom, k, hto, hval, hbetween, hkind⟩ := ih _ _ m h
        refine ⟨hfrom, k + 1, ?_, ?_, ?_, hkind⟩
        · rw [hto]; congr 1 <;> push_cast <;> ring
        · rw [← hval]; congr 1 <;> push_cast <;> ring
        · intro j hj
          cases j with
          | zero => simpa using h1
          | succ j =>
            have := hbetween j (by omega)
            rw [← this]
            congr 3 <;> push_cast <;> ring
    · rw [List.mem_singleton] at h; subst h
      exact ⟨rfl, 0, by simp, by simpa using hv, fun j hj => absurd hj (Nat.not_lt_zero j),
        Or.inr ⟨rfl, by simpa using h1, h2⟩⟩
    · exact absurd h (List.not_mem_nil m)
    · exact absurd h (List.not_mem_nil m)

/-- The moves of the bishop, rook and queen generators. -/
theorem mem_slideMoves (b : Board) (src : Nat) (c : Color) (dirs : List (Int × Int))
    (hdirs : ∀ d ∈ dirs, (d.1 = 1 ∨ d.1 = -1 ∨ d.1 = 0) ∧ (d.2 = 1 ∨ d.2 = -1 ∨ d.2 = 0) ∧
      (d.1 ≠ 0 ∨ d.2 ≠ 0))
    (m : Move) (h : m ∈ slideMoves b src c dirs) :
    m.from_ = src ∧ m.to_ < 64 ∧ m.to_ ≠ src ∧
      ((m.flag = MoveFlag.Normal ∧ (b.pieceAt m.to_).isNone = true) ∨
        (m.flag = MoveFlag.Capture ∧ (b.pieceAt m.to_).isNone = false ∧
          (b.pieceAt m.to_).color ≠ c)) := by
  unfold slideMoves at h
  simp only [List.mem_flatMap] at h
  obtain ⟨dir, hdir, hm⟩ := h
  obtain ⟨hfrom, k, hto, hval, _, hkind⟩ := mem_slideRay b src c dir.1 dir.2 8 _ _ m hm
  obtain ⟨h1, h2, h3⟩ := hdirs dir hdir
  refine ⟨hfrom, ?_, ?_, hkind⟩
  · rw [hto]; exact (makeSquare_valid _ _ hval).1
  · rw [hto]
    apply makeSquare_ne _ _ _ hval
    rcases h1 with h1 | h1 | h1 <;> rcases h2 with h2 | h2 | h2 <;> rw [h1, h2] at h3 ⊢ <;>
      simp only [mul_one, mul_neg, mul_zero, add_zero, ne_eq, not_true_eq_false, or_self] at h3 ⊢ <;>
      omega

theorem diagDirs_steps : ∀ d ∈ Board.diagDirs, (d.1 = 1 ∨ d.1 = -1 ∨ d.1 = 0) ∧
    (d.2 = 1 ∨ d.2 = -1 ∨ d.2 = 0) ∧ (d.1 ≠ 0 ∨ d.2 ≠ 0) := by decide

theorem straightDirs_steps : ∀ d ∈ Board.straightDirs, (d.1 = 1 ∨ d.1 = -1 ∨ d.1 = 0) ∧
    (d.2 = 1 ∨ d.2 = -1 ∨ d.2 = 0) ∧ (d.1 ≠ 0 ∨ d.2 ≠ 0) := by decide

/-- The moves of the leaper loops (knight, king steps). -/
theorem mem_leaps (b : Board) (src : Nat) (c : Color) (offsets : List (Int × Int))
    (hoff : ∀ d ∈ offsets, d.1 ≠ 0 ∨ d.2 ≠ 0) (m : Move)
    (h : m ∈ offsets.flatMap fun mv =>
      if isSquareValid (getFile src + mv.1) (getRank src + mv.2) then
        addMoveIfValid b src (makeSquare (getFile src + mv.1) (getRank src + mv.2)) c
      else []) :
    m.from_ = src ∧ m.to_ < 64 ∧ m.to_ ≠ src ∧
      ((m.flag = MoveFlag.Normal ∧ (b.pieceAt m.to_).isNone = true) ∨
        (m.flag = MoveFlag.Capture ∧ (b.pieceAt m.to_).isNone = false ∧
          (b.pieceAt m.to_).color ≠ c)) := by
  simp only [List.mem_flatMap] at h
  obtain ⟨mv, hmv, hm⟩ := h
  split_ifs at hm with hval
  · obtain ⟨hfrom, hto, hkind⟩ := mem_addMoveIfValid b src _ c m hm
    rw [← hto] at hkind
    refine ⟨hfrom, ?_, ?_, hkind⟩
    · rw [hto]; exact (makeSquare_valid _ _ hval).1
    · rw [hto]
      apply makeSquare_ne _ _ _ hval
      rcases hoff mv hmv with h0 | h0
      · left; intro heq; apply h0; omega
      · right; intro heq; apply h0; omega
  · exact absurd hm (List.not_mem_nil m)

theorem knightMoves_steps : ∀ d ∈ Board.knightMoves, d.1 ≠ 0 ∨ d.2 ≠ 0 := by decide

theorem kingMoves_steps : ∀ d ∈ Board.kingMoves, d.1 ≠ 0 ∨ d.2 ≠ 0 := by decide

theorem mem_promotionMoves (src toSq : Nat) (m : Move) (h : m ∈ promotionMoves src toSq) :
    m.from_ = src ∧ m.to_ = toSq ∧ m.flag = MoveFlag.Promotion := by
  simp only [promotionMoves, List.mem_cons, List.mem_singleton, List.not_mem_nil,
    or_false] at h
  rcases h with h | h | h | h <;> subst h <;> exact ⟨rfl, rfl, rfl⟩

/-- Direction, start rank and promotion rank of the pawns of a colour. -/
theorem pawn_constants (c : Color) :
    ((if c = Color.White then (1 : Int) else -1) = 1 ∧
      (if c = Color.White then (1 : Int) else 6) = 1 ∧
      (if c = Color.White then (7 : Int) else 0) = 7) ∨
    ((if c = Color.White then (1 : Int) else -1) = -1 ∧
      (if c = Color.White then (1 : Int) else 6) = 6 ∧
      (if c = Color.White then (7 : Int) else 0) = 0) := by
  split_ifs <;> simp

/-- The moves of the forward block of `generatePawnMoves`: onto an empty cell of the
board, with flag `Normal`, `DoublePawnPush` or `Promotion`. -/
theorem mem_pawnPushes (b : Board) (src : Nat) (c : Color) (hsrc : src < 64) (m : Move)
    (h : m ∈ pawnPushes b src c) :
    m.from_ = src ∧ m.to_ < 64 ∧ m.to_ ≠ src ∧ (b.pieceAt m.to_).isNone = true ∧
      (m.flag = MoveFlag.Normal ∨ m.flag = MoveFlag.DoublePawnPush ∨
        m.flag = MoveFlag.Promotion) := by
  obtain ⟨hf0, hf8⟩ := getFile_range src
  obtain ⟨hr0, hr8⟩ := getRank_range src hsrc
  unfold pawnPushes at h
  simp only at h
  have hc := pawn_constants c
  generalize (if c = Color.White then (1 : Int) else -1) = dir at h hc
  generalize (if c = Color.White then (1 : Int) else 6) = startRank at h hc
  generalize (if c = Color.White then (7 : Int) else 0) = promRank at h hc
  by_cases hnr : getRank src + dir ≥ 0 ∧ getRank src + dir < 8
  · rw [if_pos hnr] at h
    have hv1 : isSquareValid (getFile src) (getRank src + dir) = true := by
      rw [isSquareValid_iff]; omega
    by_cases hnone : (b.pieceAt (makeSquare (getFile src) (getRank src + dir))).isNone = true
    · rw [if_pos hnone] at h
      rcases List.mem_append.mp h with h | h
      · have hto : m.from_ = src ∧ m.to_ = makeSquare (getFile src) (getRank src + dir) ∧
            (m.flag = MoveFlag.Normal ∨ m.flag = MoveFlag.Promotion) := by
          split_ifs at h
          · obtain ⟨e1, e2, e3⟩ := mem_promotionMoves _ _ m h
            exact ⟨e1, e2, Or.inr e3⟩
          · rw [List.mem_singleton] at h; subst h
            exact ⟨rfl, rfl, Or.inl rfl⟩
        obtain ⟨e1, e2, e3⟩ := hto
        rw [e2]
        refine ⟨e1, (makeSquare_valid _ _ hv1).1,
          makeSquare_ne _ _ _ hv1 (Or.inr (by omega)), hnone, ?_⟩
        rcases e3 with e3 | e3
        · exact Or.inl e3
        · exact Or.inr (Or.inr e3)
      · by_cases hstart : getRank src = startRank
        · rw [if_pos hstart] at h
          have hv2 : isSquareValid (getFile src) (getRank src + 2 * dir) = true := by
            rw [isSquareValid_iff]; omega
          split_ifs at h with hdouble
          · rw [List.mem_singleton] at h; subst h
            exact ⟨rfl, (makeSquare_valid _ _ hv2).1,
              makeSquare_ne _ _ _ hv2 (Or.inr (by omega)), hdouble, Or.inr (Or.inl rfl)⟩
          · exact absurd h (List.not_mem_nil m)
        · rw [if_neg hstart] at h
          exact absurd h (List.not_mem_nil m)
    · rw [if_neg hnone] at h
      exact absurd h (List.not_mem_nil m)
  · rw [if_neg hnr] at h
    exact absurd h (List.not_mem_nil m)

/-- The moves of one iteration of the capture loop of `generatePawnMoves`: onto a cell
of the board on the next rank and an adjacent file; a capture or promotion onto a
piece of another colour, or an en-passant move onto the en-passant target. -/
theorem mem_pawnCapturesDir (b : Board) (src : Nat) (c : Color) (hsrc : src < 64) (df : Int)
    (hdf : df = 1 ∨ df = -1) (m : Move) (h : m ∈ pawnCapturesDir b src c df) :
    m.from_ = src ∧ m.to_ < 64 ∧ getFile m.to_ ≠ getFile src ∧ getRank m.to_ ≠ getRank src ∧
      getRank m.to_ = getRank src + (if c = Color.White then 1 else -1) ∧
      (((m.flag = MoveFlag.Capture ∨ m.flag = MoveFlag.Promotion) ∧
          (b.pieceAt m.to_).isNone = false ∧ (b.pieceAt m.to_).color ≠ c) ∨
        (m.flag = MoveFlag.EnPassant ∧ m.to_ = b.position.enPassantSquare)) := by
  obtain ⟨hf0, hf8⟩ := getFile_range src
  obtain ⟨hr0, hr8⟩ := getRank_range src hsrc
  unfold pawnCapturesDir at h
  simp only at h
  have hc := pawn_constants c
  generalize (if c = Color.White then (1 : Int) else -1) = dir at h hc ⊢
  generalize (if c = Color.White then (7 : Int) else 0) = promRank at h hc
  by_cases hv : getFile src + df ≥ 0 ∧ getFile src + df < 8 ∧
      getRank src + dir ≥ 0 ∧ getRank src + dir < 8
  · rw [if_pos hv] at h
    have hv1 : isSquareValid (getFile src + df) (getRank src + dir) = true := by
      rw [isSquareValid_iff]; omega
    obtain ⟨v1, v2, v3⟩ := makeSquare_valid _ _ hv1
    have hkey : m.from_ = src ∧ m.to_ = makeSquare (getFile src + df) (getRank src + dir) ∧
        (((m.flag = MoveFlag.Capture ∨ m.flag = MoveFlag.Promotion) ∧
          (b.pieceAt (makeSquare (getFile src + df) (getRank src + dir))).isNone = false ∧
          (b.pieceAt (makeSquare (getFile src + df) (getRank src + dir))).color ≠ c) ∨
        (m.flag = MoveFlag.EnPassant ∧
          makeSquare (getFile src + df) (getRank src + dir) = b.position.enPassantSquare)) := by
      rcases List.mem_append.mp h with h | h
      · split_ifs at h with ht hp
        · obtain ⟨e1, e2, e3⟩ := mem_promotionMoves _ _ m h
          exact ⟨e1, e2, Or.inl ⟨Or.inr e3, by simpa using ht.1, ht.2⟩⟩
        · rw [List.mem_singleton] at h; subst h
          exact ⟨rfl, rfl, Or.inl ⟨Or.inl rfl, by simpa using ht.1, ht.2⟩⟩
        · exact absurd h (List.not_mem_nil m)
      · split_ifs at h with he
        · rw [List.mem_singleton] at h; subst h
          exact ⟨rfl, rfl, Or.inr ⟨rfl, he⟩⟩
        · exact absurd h (List.not_mem_nil m)
    obtain ⟨e1, e2, e3⟩ := hkey
    rw [e2]
    exact ⟨e1, v1, by rw [v2]; omega, by rw [v3]; omega, v3, e3⟩
  · rw [if_neg hv] at h
    exact absurd h (List.not_mem_nil m)

/-- The move of the king-side castling block. -/
theorem mem_castleKingside (b : Board) (src : Nat) (c : Color) (m : Move)
    (h : m ∈ castleKingside b src c) :
    m = ⟨src, makeSquare (getFile src + 2) (getRank src), MoveFlag.Castling, PieceType.None⟩ ∧
    b.position.canCastleKingside c = true ∧
    (b.pieceAt (makeSquare (getFile src + 1) (getRank src))).isNone = true ∧
    (b.pieceAt (makeSquare (getFile src + 2) (getRank src))).isNone = true ∧
    b.isSquareAttacked (makeSquare (getFile src + 1) (getRank src)) (oppositeColor c) = false ∧
    b.isSquareAttacked (makeSquare (getFile src + 2) (getRank src)) (oppositeColor c) = false := by
  unfold castleKingside at h
  simp only at h
  split_ifs at h with h1 h2
  · rw [List.mem_singleton] at h
    simp only [Bool.and_eq_true, Bool.not_eq_true'] at h2
    exact ⟨h, h1, h2.1.1.1, h2.1.1.2, h2.1.2, h2.2⟩
  · exact absurd h (List.not_mem_nil m)
  · exact absurd h (List.not_mem_nil m)

/-- The move of the queen-side castling block. -/
theorem mem_castleQueenside (b : Board) (src : Nat) (c : Color) (m : Move)
    (h : m ∈ castleQueenside b src c) :
    m = ⟨src, makeSquare (getFile src - 2) (getRank src), MoveFlag.Castling, PieceType.None⟩ ∧
    b.position.canCastleQueenside c = true ∧
    (b.pieceAt (makeSquare (getFile src - 1) (getRank src))).isNone = true ∧
    (b.pieceAt (makeSquare (getFile src - 2) (getRank src))).isNone = true ∧
    (b.pieceAt (makeSquare (getFile src - 3) (getRank src))).isNone = true ∧
    b.isSquareAttacked (makeSquare (getFile src - 1) (getRank src)) (oppositeColor c) = false ∧
    b.isSquareAttacked (makeSquare (getFile src - 2) (getRank src)) (oppositeColor c) = false := by
  unfold castleQueenside at h
  simp only at h
  split_ifs at h with h1 h2
  · rw [List.mem_singleton] at h
    simp only [Bool.and_eq_true, Bool.not_eq_true'] at h2
    exact ⟨h, h1, h2.1.1.1.1, h2.1.1.1.2, h2.1.1.2, h2.1.2, h2.2⟩
  · exact absurd h (List.not_mem_nil m)
  · exact absurd h (List.not_mem_nil m)

/-- The square `d` files along the rank of `sq`, as `makeSquare` computes it. -/
theorem makeSquare_along_rank (sq : Nat) (d : Int) :
    (makeSquare (getFile sq + d) (getRank sq) : Int) = ((sq : Int) + d) % 256 := by
  unfold makeSquare getFile getRank BOARD_SIZE
  rw [Int.toNat_of_nonneg (Int.emod_nonneg _ (by decide))]
  congr 1
  omega

theorem castling_destination_ne (sq : Nat) (d : Int) (hd : d = 2 ∨ d = -2) :
    makeSquare (getFile sq + d) (getRank sq) ≠ sq := by
  intro heq
  have h := makeSquare_along_rank sq d
  rw [heq] at h
  omega

/-- The moves appended for one square: the origin holds a piece of the colour, the
destination is another cell, and flag and destination agree as the generators set
them. -/
theorem movesFrom_shape (b : Board) (c : Color) (sq : Nat) (hsq : sq < 64) (m : Move)
    (h : m ∈ movesFrom b c sq) :
    m.from_ = sq ∧ (b.pieceAt sq).isNone = false ∧ (b.pieceAt sq).color = c ∧ m.to_ ≠ sq ∧
    ((m.flag = MoveFlag.Normal ∧ m.to_ < 64 ∧ (b.pieceAt m.to_).isNone = true) ∨
     (m.flag = MoveFlag.Capture ∧ m.to_ < 64 ∧ (b.pieceAt m.to_).isNone = false ∧
        (b.pieceAt m.to_).color ≠ c) ∨
     (m.flag = MoveFlag.DoublePawnPush ∧ m.to_ < 64 ∧
        (b.pieceAt sq).type = PieceType.Pawn ∧ (b.pieceAt m.to_).isNone = true) ∨
     (m.flag = MoveFlag.Promotion ∧ m.to_ < 64 ∧ (b.pieceAt sq).type = PieceType.Pawn ∧
        ((b.pieceAt m.to_).isNone = true ∨ (b.pieceAt m.to_).color ≠ c)) ∨
     (m.flag = MoveFlag.EnPassant ∧ m.to_ < 64 ∧ (b.pieceAt sq).type = PieceType.Pawn ∧
        m.to_ = b.position.enPassantSquare ∧ getFile m.to_ ≠ getFile sq ∧
        getRank m.to_ ≠ getRank sq) ∨
     (m.flag = MoveFlag.Castling ∧ (b.pieceAt sq).type = PieceType.King ∧
        b.isCheck c = false ∧ (m ∈ castleKingside b sq c ∨ m ∈ castleQueenside b sq c))) := by
  unfold movesFrom at h
  simp only at h
  by_cases hp : (b.pieceAt sq).isNone = true ∨ (b.pieceAt sq).color ≠ c
  · rw [if_pos hp] at h
    exact absurd h (List.not_mem_nil m)
  rw [if_neg hp] at h
  have hnone : (b.pieceAt sq).isNone = false := by
    cases hx : (b.pieceAt sq).isNone
    · rfl
    · exact absurd (Or.inl hx) hp
  have hcol : (b.pieceAt sq).color = c := by
    by_contra hx
    exact hp (Or.inr hx)
  have quiet : (m.from_ = sq ∧ m.to_ < 64 ∧ m.to_ ≠ sq ∧
      ((m.flag = MoveFlag.Normal ∧ (b.pieceAt m.to_).isNone = true) ∨
        (m.flag = MoveFlag.Capture ∧ (b.pieceAt m.to_).isNone = false ∧
          (b.pieceAt m.to_).color ≠ c))) →
      m.from_ = sq ∧ (b.pieceAt sq).isNone = false ∧ (b.pieceAt sq).color = c ∧ m.to_ ≠ sq ∧
      ((m.flag = MoveFlag.Normal ∧ m.to_ < 64 ∧ (b.pieceAt m.to_).isNone = true) ∨
       (m.flag = MoveFlag.Capture ∧ m.to_ < 64 ∧ (b.pieceAt m.to_).isNone = false ∧
          (b.pieceAt m.to_).color ≠ c) ∨
       (m.flag = MoveFlag.DoublePawnPush ∧ m.to_ < 64 ∧
          (b.pieceAt sq).type = PieceType.Pawn ∧ (b.pieceAt m.to_).isNone = true) ∨
       (m.flag = MoveFlag.Promotion ∧ m.to_ < 64 ∧ (b.pieceAt sq).type = PieceType.Pawn ∧
          ((b.pieceAt m.to_).isNone = true ∨ (b.pieceAt m.to_).color ≠ c)) ∨
       (m.flag = MoveFlag.EnPassant ∧ m.to_ < 64 ∧ (b.pieceAt sq).type = PieceType.Pawn ∧
          m.to_ = b.position.enPassantSquare ∧ getFile m.to_ ≠ getFile sq ∧
          getRank m.to_ ≠ getRank sq) ∨
       (m.flag = MoveFlag.Castling ∧ (b.pieceAt sq).type = PieceType.King ∧
          b.isCheck c = false ∧
          (m ∈ castleKingside b sq c ∨ m ∈ castleQueenside b sq c))) := by
    rintro ⟨e1, e2, e3, e4 | e4⟩
    · exact ⟨e1, hnone, hcol, e3, Or.inl ⟨e4.1, e2, e4.2⟩⟩
    · exact ⟨e1, hnone, hcol, e3, Or.inr (Or.inl ⟨e4.1, e2, e4.2⟩)⟩
  split at h
  next ht =>
    -- pawn
    unfold generatePawnMoves at h
    rcases List.mem_append.mp h with h | h
    · obtain ⟨e1, e2, e3, e4, e5⟩ := mem_pawnPushes b sq c hsq m h
      refine ⟨e1, hnone, hcol, e3, ?_⟩
      rcases e5 with e5 | e5 | e5
      · exact Or.inl ⟨e5, e2, e4⟩
      · exact Or.inr (Or.inr (Or.inl ⟨e5, e2, ht, e4⟩))
      · exact Or.inr (Or.inr (Or.inr (Or.inl ⟨e5, e2, ht, Or.inl e4⟩)))
    · simp only [List.mem_flatMap, List.mem_cons, List.mem_singleton, List.not_mem_nil,
        or_false] at h
      obtain ⟨df, hdf, hm⟩ := h
      obtain ⟨e1, e2, e3, e4, _, e5⟩ :=
        mem_pawnCapturesDir b sq c hsq df (by rcases hdf with h | h <;> simp [h]) m hm
      have hne : m.to_ ≠ sq := by
        intro heq; rw [heq] at e3; exact e3 rfl
      refine ⟨e1, hnone, hcol, hne, ?_⟩
      rcases e5 with ⟨e5 | e5, e6, e7⟩ | ⟨e5, e6⟩
      · exact Or.inr (Or.inl ⟨e5, e2, e6, e7⟩)
      · exact Or.inr (Or.inr (Or.inr (Or.inl ⟨e5, e2, ht, Or.inr e7⟩)))
      · exact Or.inr (Or.inr (Or.inr (Or.inr (Or.inl ⟨e5, e2, ht, e6, e3, e4⟩))))
  next ht =>
    exact quiet (mem_leaps b sq c Board.knightMoves knightMoves_steps m h)
  next ht =>
    exact quiet (mem_slideMoves b sq c Board.diagDirs diagDirs_steps m h)
  next ht =>
    exact quiet (mem_slideMoves b sq c Board.straightDirs straightDirs_steps m h)
  next ht =>
    unfold generateQueenMoves at h
    rcases List.mem_append.mp h with h | h
    · exact quiet (mem_slideMoves b sq c Board.diagDirs diagDirs_steps m h)
    · exact quiet (mem_slideMoves b sq c Board.straightDirs straightDirs_steps m h)
  next ht =>
    unfold generateKingMoves at h
    rcases List.mem_append.mp h with h | h
    · exact quiet (mem_leaps b sq c Board.kingMoves kingMoves_steps m h)
    · split_ifs at h with hchk
      · have hchk' : b.isCheck c = false := by simpa using hchk
        have hside : m ∈ castleKingside b sq c ∨ m ∈ castleQueenside b sq c :=
          List.mem_append.mp h
        have hm : m.flag = MoveFlag.Castling ∧ m.from_ = sq ∧ m.to_ ≠ sq := by
          rcases hside with hs | hs
          · have e := (mem_castleKingside b sq c m hs).1
            rw [e]
            exact ⟨rfl, rfl, castling_destination_ne sq 2 (Or.inl rfl)⟩
          · have e := (mem_castleQueenside b sq c m hs).1
            rw [e]
            exact ⟨rfl, rfl, castling_destination_ne sq (-2) (Or.inr rfl)⟩
        exact ⟨hm.2.1, hnone, hcol, hm.2.2,
          Or.inr (Or.inr (Or.inr (Or.inr (Or.inr ⟨hm.1, ht, hchk', hside⟩))))⟩
      · exact absurd h (List.not_mem_nil m)
  next ht =>
    exact absurd h (List.not_mem_nil m)

/-! ### Side to move, fullmove number and castling rights after `makeMove` -/

namespace Board

theorem updateHalfmoveClock_fullmoveNumber (b : Board) (p : Piece) (m : Move) :
    (b.updateHalfmoveClock p m).position.fullmoveNumber = b.position.fullmoveNumber := by
  simp only [updateHalfmoveClock]
  split_ifs <;> rfl

theorem updateEnPassant_fullmoveNumber (b : Board) (p : Piece) (m : Move) :
    (b.updateEnPassant p m).position.fullmoveNumber = b.position.fullmoveNumber := by
  simp only [updateEnPassant, Position.setEnPassantSquare]
  split_ifs <;> rfl

theorem updateCastlingRights_fullmoveNumber (pos : Position) (p : Piece) (m : Move) :
    (updateCastlingRights pos p m).fullmoveNumber = pos.fullmoveNumber := by
  simp only [updateCastlingRights, Position.setCastlingRights]
  split_ifs <;> rfl

/-- The fullmove number after `makeMove`, read off the code. -/
theorem makeMove_fullmoveNumber (b : Board) (m : Move) :
    (b.makeMove m).position.fullmoveNumber =
      if oppositeColor b.position.sideToMove = Color.White then
        wrap32 (b.position.fullmoveNumber + 1)
      else b.position.fullmoveNumber := by
  have hs : (((((((b.pushUndo m).updateHalfmoveClock (b.pieceAt m.from_) m).setPiece m.to_
      (b.pieceAt m.from_)).removePiece m.from_).castleRook m).promotePawn m
      (b.pieceAt m.from_)).removeEnPassantPawn m).position.sideToMove = b.position.sideToMove := by
    simp only [removeEnPassantPawn_position, promotePawn_position, castleRook_position,
      removePiece_position, setPiece_position, updateHalfmoveClock_sideToMove, pushUndo_position]
  have hf : (((((((b.pushUndo m).updateHalfmoveClock (b.pieceAt m.from_) m).setPiece m.to_
      (b.pieceAt m.from_)).removePiece m.from_).castleRook m).promotePawn m
      (b.pieceAt m.from_)).removeEnPassantPawn m).position.fullmoveNumber =
        b.position.fullmoveNumber := by
    simp only [removeEnPassantPawn_position, promotePawn_position, castleRook_position,
      removePiece_position, setPiece_position, updateHalfmoveClock_fullmoveNumber,
      pushUndo_position]
  have hp : (b.pushUndo m).pieceAt m.from_ = b.pieceAt m.from_ := rfl
  simp only [makeMove, hp, switchSide, updateCastling, Position.setSideToMove,
    updateCastlingRights_sideToMove, updateEnPassant_sideToMove, hs]
  split_ifs
  · simp only [updateCastlingRights_fullmoveNumber, updateEnPassant_fullmoveNumber, hf]
  · simp only [updateCastlingRights_fullmoveNumber, updateEnPassant_fullmoveNumber, hf]

end Board

/-- C22 (counterexample). With Black to move and the fullmove number at 2147483647 the
knight move g8-f6 leaves the fullmove number at -2147483648: `fullmoveNumber()++` on an
`int` does not add 1 there. -/
theorem fullmoveNumber_increment_overflows :
    fullmoveAtMax.position.sideToMove = Color.Black ∧
    fullmoveAtMax.position.fullmoveNumber = 2147483647 ∧
    (fullmoveAtMax.makeMove knightReply).position.fullmoveNumber = -2147483648 ∧
    (fullmoveAtMax.makeMove knightReply).position.fullmoveNumber ≠
      fullmoveAtMax.position.fullmoveNumber + 1 := by
  decide

/-- C22 (amended). With side to move `s` White or Black, after `makeMove(m)` the side
to move is the other colour; the fullmove number is unchanged when `s` was White and
incremented as an `int` (`fullmoveNumber()++`) when `s` was Black, which adds 1 when the
number is an `int` below 2147483647; and the undo stack is one entry longer. -/
theorem makeMove_side_fullmove_history (b : Board) (m : Move)
    (hs : b.position.sideToMove = Color.White ∨ b.position.sideToMove = Color.Black) :
    ((b.position.sideToMove = Color.White →
        (b.makeMove m).position.sideToMove = Color.Black ∧
        (b.makeMove m).position.fullmoveNumber = b.position.fullmoveNumber) ∧
      (b.position.sideToMove = Color.Black →
        (b.makeMove m).position.sideToMove = Color.White ∧
        (b.makeMove m).position.fullmoveNumber = wrap32 (b.position.fullmoveNumber + 1) ∧
        (INT_MIN ≤ b.position.fullmoveNumber ∧ b.position.fullmoveNumber < INT_MAX →
          (b.makeMove m).position.fullmoveNumber = b.position.fullmoveNumber + 1))) ∧
    (b.makeMove m).position.sideToMove = oppositeColor b.position.sideToMove ∧
    (b.makeMove m).position.sideToMove ≠ b.position.sideToMove ∧
    (b.makeMove m).history.length = b.history.length + 1 := by
  rw [Board.makeMove_sideToMove, Board.makeMove_fullmoveNumber, Board.makeMove_history]
  rcases hs with h | h
  · rw [h]; simp [oppositeColor]
  · rw [h]
    have e : oppositeColor Color.Black = Color.White := rfl
    rw [e, if_pos rfl]
    refine ⟨⟨fun hw => absurd hw (by decide), fun _ => ⟨rfl, rfl, fun hf => ?_⟩⟩, rfl,
      by decide, List.length_cons _ _⟩
    exact wrap32_of_int _ (by omega) (by omega)

/-- Witness of C22: e2-e4 at the starting position, White to move. -/
theorem makeMove_side_fullmove_history_witness :
    (startBoard.position.sideToMove = Color.White ∨
      startBoard.position.sideToMove = Color.Black) ∧
    (((startBoard.position.sideToMove = Color.White →
        (startBoard.makeMove e2e4).position.sideToMove = Color.Black ∧
        (startBoard.makeMove e2e4).position.fullmoveNumber =
          startBoard.position.fullmoveNumber) ∧
      (startBoard.position.sideToMove = Color.Black →
        (startBoard.makeMove e2e4).position.sideToMove = Color.White ∧
        (startBoard.makeMove e2e4).position.fullmoveNumber =
          wrap32 (startBoard.position.fullmoveNumber + 1) ∧
        (INT_MIN ≤ startBoard.position.fullmoveNumber ∧
            startBoard.position.fullmoveNumber < INT_MAX →
          (startBoard.makeMove e2e4).position.fullmoveNumber =
            startBoard.position.fullmoveNumber + 1))) ∧
    (startBoard.makeMove e2e4).position.sideToMove =
      oppositeColor startBoard.position.sideToMove ∧
    (startBoard.makeMove e2e4).position.sideToMove ≠ startBoard.position.sideToMove ∧
    (startBoard.makeMove e2e4).history.length = startBoard.history.length + 1) :=
  ⟨Or.inl rfl, makeMove_side_fullmove_history startBoard e2e4 (Or.inl rfl)⟩

namespace Board

/-- The rights after the castling-rights block, from the rights before. -/
theorem updateCastlingRights_rights (pos : Position) (p : Piece) (m : Move) :
    (updateCastlingRights pos p m).rights =
      (if p.type = PieceType.King then
        (if p.color = Color.White then (false, false, pos.rights.2.2)
          else (pos.rights.1, pos.rights.2.1, false, false))
      else if p.type = PieceType.Rook then
        (if m.from_ = 0 then (pos.rights.1, false, pos.rights.2.2)
          else if m.from_ = 7 then (false, pos.rights.2)
          else if m.from_ = 56 then (pos.rights.1, pos.rights.2.1, pos.rights.2.2.1, false)
          else if m.from_ = 63 then (pos.rights.1, pos.rights.2.1, false, pos.rights.2.2.2)
          else pos.rights)
      else pos.rights) := by
  have e0 : makeSquare 0 0 = 0 := by decide
  have e7 : makeSquare 7 0 = 7 := by decide
  have e56 : makeSquare 0 7 = 56 := by decide
  have e63 : makeSquare 7 7 = 63 := by decide
  obtain ⟨side, ep, wk, wq, bk, bq, hm, fm⟩ := pos
  by_cases hk : p.type = PieceType.King
  · have hr : ¬ (PieceType.King = PieceType.Rook) := by decide
    simp only [updateCastlingRights, hk, hr, if_true, if_false, Position.setCastlingRights,
      Position.rights]
    split_ifs <;> rfl
  · simp only [updateCastlingRights, hk, if_false, Position.setCastlingRights,
      Position.rights, Position.canCastleKingside, Position.canCastleQueenside, e0, e7, e56, e63,
      if_true]
    split_ifs <;> first | rfl | contradiction

theorem updateHalfmoveClock_rights (b : Board) (p : Piece) (m : Move) :
    (b.updateHalfmoveClock p m).position.rights = b.position.rights := by
  simp only [updateHalfmoveClock]
  split_ifs <;> rfl

theorem updateEnPassant_rights (b : Board) (p : Piece) (m : Move) :
    (b.updateEnPassant p m).position.rights = b.position.rights := by
  simp only [updateEnPassant, Position.setEnPassantSquare]
  split_ifs <;> rfl

theorem switchSide_rights (b : Board) : b.switchSide.position.rights = b.position.rights := by
  simp only [switchSide, Position.setSideToMove]
  split_ifs <;> rfl

/-- The rights after `makeMove`: the castling-rights block applied to the rights
before. -/
theorem makeMove_rights (b : Board) (m : Move) :
    (b.makeMove m).position.rights =
      (updateCastlingRights b.position (b.pieceAt m.from_) m).rights := by
  have hp : (b.pushUndo m).pieceAt m.from_ = b.pieceAt m.from_ := rfl
  simp only [makeMove, hp, switchSide_rights, updateCastling]
  rw [updateCastlingRights_rights, updateCastlingRights_rights]
  simp only [updateEnPassant_rights, removeEnPassantPawn_position, promotePawn_position,
    castleRook_position, removePiece_position, setPiece_position, updateHalfmoveClock_rights,
    pushUndo_position]

end Board

/-- C23 (counterexample). A king of colour `None` on d4 of the starting position steps
to d5: `setCastlingRights(Color::None, false, false)` takes its `else` branch and both
rights of Black, which were true, are false afterwards, while no Black king moved. -/
theorem colourless_king_clears_black_rights :
    colourlessKing.pieceAt colourlessKingStep.from_ = ⟨PieceType.King, Color.None⟩ ∧
    colourlessKing.position.blackCanCastleKingside = true ∧
    colourlessKing.position.blackCanCastleQueenside = true ∧
    (colourlessKing.makeMove colourlessKingStep).position.blackCanCastleKingside = false ∧
    (colourlessKing.makeMove colourlessKingStep).position.blackCanCastleQueenside = false ∧
    (colourlessKing.makeMove colourlessKingStep).position.whiteCanCastleKingside = true ∧
    (colourlessKing.makeMove colourlessKingStep).position.whiteCanCastleQueenside = true := by
  decide

/-- C23 (amended). After `makeMove(m)`, with `p` the piece on the origin: a White king
leaves both White rights false and the Black rights as they were; a king of any other
colour (Black, or the colour `None`) leaves both Black rights false and the White rights
as they were; a rook leaving a1, h1, a8, h8 leaves White queen-side, White king-side,
Black queen-side, Black king-side false and every other right as it was; a rook from
another square or any other piece leaves all four rights as they were. No right goes
from false to true. -/
theorem makeMove_castling_rights (b : Board) (m : Move) :
    ((b.pieceAt m.from_).type = PieceType.King → (b.pieceAt m.from_).color = Color.White →
      (b.makeMove m).position.whiteCanCastleKingside = false ∧
      (b.makeMove m).position.whiteCanCastleQueenside = false ∧
      (b.makeMove m).position.blackCanCastleKingside = b.position.blackCanCastleKingside ∧
      (b.makeMove m).position.blackCanCastleQueenside = b.position.blackCanCastleQueenside) ∧
    ((b.pieceAt m.from_).type = PieceType.King → (b.pieceAt m.from_).color ≠ Color.White →
      (b.makeMove m).position.blackCanCastleKingside = false ∧
      (b.makeMove m).position.blackCanCastleQueenside = false ∧
      (b.makeMove m).position.whiteCanCastleKingside = b.position.whiteCanCastleKingside ∧
      (b.makeMove m).position.whiteCanCastleQueenside = b.position.whiteCanCastleQueenside) ∧
    ((b.pieceAt m.from_).type = PieceType.Rook →
      (b.makeMove m).position.whiteCanCastleQueenside =
        (if m.from_ = 0 then false else b.position.whiteCanCastleQueenside) ∧
      (b.makeMove m).position.whiteCanCastleKingside =
        (if m.from_ = 7 then false else b.position.whiteCanCastleKingside) ∧
      (b.makeMove m).position.blackCanCastleQueenside =
        (if m.from_ = 56 then false else b.position.blackCanCastleQueenside) ∧
      (b.makeMove m).position.blackCanCastleKingside =
        (if m.from_ = 63 then false else b.position.blackCanCastleKingside)) ∧
    ((b.pieceAt m.from_).type ≠ PieceType.King → (b.pieceAt m.from_).type ≠ PieceType.Rook →
      (b.makeMove m).position.whiteCanCastleKingside = b.position.whiteCanCastleKingside ∧
      (b.makeMove m).position.whiteCanCastleQueenside = b.position.whiteCanCastleQueenside ∧
      (b.makeMove m).position.blackCanCastleKingside = b.position.blackCanCastleKingside ∧
      (b.makeMove m).position.blackCanCastleQueenside = b.position.blackCanCastleQueenside) ∧
    (((b.makeMove m).position.whiteCanCastleKingside = true →
        b.position.whiteCanCastleKingside = true) ∧
      ((b.makeMove m).position.whiteCanCastleQueenside = true →
        b.position.whiteCanCastleQueenside = true) ∧
      ((b.makeMove m).position.blackCanCastleKingside = true →
        b.position.blackCanCastleKingside = true) ∧
      ((b.makeMove m).position.blackCanCastleQueenside = true →
        b.position.blackCanCastleQueenside = true)) := by
  have hr := Board.makeMove_rights b m
  rw [Board.updateCastlingRights_rights] at hr
  simp only [Position.rights] at hr
  refine ⟨?_, ?_, ?_, ?_, ?_⟩
  · intro hk hc
    simp only [hk, hc, if_true, Prod.mk.injEq] at hr
    exact hr
  · intro hk hc
    simp only [hk, hc, if_true, if_false, Prod.mk.injEq] at hr
    exact ⟨hr.2.2.1, hr.2.2.2, hr.1, hr.2.1⟩
  · intro hrk
    have hk : ¬ (PieceType.Rook = PieceType.King) := by decide
    simp only [hrk, hk, if_true, if_false] at hr
    split_ifs at hr with h0 h7 h56 h63 <;> simp only [Prod.mk.injEq] at hr <;>
      obtain ⟨r1, r2, r3, r4⟩ := hr <;> simp_all
  · intro hk hrk
    simp only [hk, hrk, if_false, Prod.mk.injEq] at hr
    exact hr
  · split_ifs at hr <;> simp only [Prod.mk.injEq] at hr <;>
      obtain ⟨r1, r2, r3, r4⟩ := hr <;> rw [r1, r2, r3, r4] <;> simp

/-! ### Terminal scores -/

/-- C28. With the stop flag clear and depth at least 1, on a board without legal moves
for `c`, `alphaBeta` returns `INT_MIN + 1` when `c` is in check and 0 otherwise,
whatever the window, and returns the board it was given. -/
theorem alphaBeta_terminal (d : Nat) (hd : 1 ≤ d) (alpha beta : Int) (c : Color)
    (board : Board) (nodes : Int) (h : generateLegalMoves board c = []) :
    (board.isCheck c = true →
      (alphaBeta false d alpha beta c board nodes).1 = INT_MIN + 1) ∧
    (board.isCheck c = false → (alphaBeta false d alpha beta c board nodes).1 = 0) ∧
    (alphaBeta false d alpha beta c board nodes).2.1 = board := by
  obtain ⟨n, rfl⟩ : ∃ n, d = n + 1 := ⟨d - 1, by omega⟩
  rw [alphaBeta]
  simp only [Bool.false_eq_true, if_false, h, List.isEmpty_nil, if_true]
  cases hc : board.isCheck c <;> simp

set_option maxRecDepth 1000000 in
/-- Witness of C28: Black in the checkmate `queenMate`, depth 3. -/
theorem alphaBeta_terminal_witness :
    generateLegalMoves queenMate Color.Black = [] ∧
    ((queenMate.isCheck Color.Black = true →
      (alphaBeta false 3 (-50) 50 Color.Black queenMate 0).1 = INT_MIN + 1) ∧
    (queenMate.isCheck Color.Black = false →
      (alphaBeta false 3 (-50) 50 Color.Black queenMate 0).1 = 0) ∧
    (alphaBeta false 3 (-50) 50 Color.Black queenMate 0).2.1 = queenMate) :=
  ⟨by decide, alphaBeta_terminal 3 (by decide) (-50) 50 Color.Black queenMate 0 (by decide)⟩

/-! ### Quiescence stays inside its window -/

/-- The capture loop of `quiescence` returns a value between the running `alpha` and
`beta`, whatever the nested calls return. -/
theorem quiescenceLoop_bounds (recurse : Int → Int → Color → Board → Int → Int × Board × Int)
    (beta : Int) (color : Color) (captures : List Move) :
    ∀ (alpha : Int) (board : Board) (nodes : Int), alpha ≤ beta →
      alpha ≤ (quiescenceLoop recurse false beta color captures alpha board nodes).1 ∧
      (quiescenceLoop recurse false beta color captures alpha board nodes).1 ≤ beta := by
  induction captures with
  | nil => intro alpha board nodes h; exact ⟨le_refl _, h⟩
  | cons m ms ih =>
    intro alpha board nodes h
    simp only [quiescenceLoop, Bool.false_eq_true, if_false]
    split_ifs with h1 h2
    · exact ⟨h, le_refl _⟩
    · have := ih (neg32 (recurse (neg32 beta) (neg32 alpha) (oppositeColor color)
        (board.makeMove m) nodes).1) ((recurse (neg32 beta) (neg32 alpha) (oppositeColor color)
        (board.makeMove m) nodes).2.1.unmakeMove m) (recurse (neg32 beta) (neg32 alpha)
        (oppositeColor color) (board.makeMove m) nodes).2.2 (le_of_lt (not_le.mp h1))
      exact ⟨le_trans (le_of_lt h2) this.1, this.2⟩
    · exact ih alpha _ _ h

/-- C29. With the stop flag clear and `alpha < beta`: at quiescence depth `q < 3` the
value `r` returned satisfies `alpha <= r <= beta`, and `r = beta` when the static
evaluation from the mover's side (`evaluate()`, negated for Black) is at least `beta`;
at `q >= 3` the value returned is that static evaluation. -/
theorem quiescence_fail_hard (alpha beta : Int) (c : Color) (board : Board) (nodes : Int)
    (q : Nat) (hab : alpha < beta) :
    (q < 3 →
      alpha ≤ (quiescence false alpha beta c board nodes q).1 ∧
      (quiescence false alpha beta c board nodes q).1 ≤ beta ∧
      ((if c = Color.Black then neg32 (Evaluator.evaluate board)
          else Evaluator.evaluate board) ≥ beta →
        (quiescence false alpha beta c board nodes q).1 = beta)) ∧
    (3 ≤ q →
      (quiescence false alpha beta c board nodes q).1 =
        (if c = Color.Black then neg32 (Evaluator.evaluate board)
          else Evaluator.evaluate board)) := by
  generalize hsp : (if c = Color.Black then neg32 (Evaluator.evaluate board)
    else Evaluator.evaluate board) = sp
  constructor
  · intro hq
    obtain ⟨n, hn⟩ : ∃ n, MAX_QUIESCENCE_DEPTH - q = n + 1 :=
      ⟨MAX_QUIESCENCE_DEPTH - q - 1, by unfold MAX_QUIESCENCE_DEPTH; omega⟩
    unfold quiescence
    rw [hn, quiescenceFrom]
    simp only [Bool.false_eq_true, if_false, hsp]
    by_cases hs : sp ≥ beta
    · simp only [hs, if_true]
      exact ⟨le_of_lt hab, le_refl _, fun _ => trivial⟩
    · simp only [hs, if_false]
      have halpha : (if alpha < sp then sp else alpha) ≤ beta := by
        split_ifs <;> omega
      have hb := quiescenceLoop_bounds (quiescenceFrom false n) beta c
        (orderMoves board (generateCaptures board c) c) _ board (nodes + 1) halpha
      refine ⟨le_trans ?_ hb.1, hb.2, fun h => absurd h (fun h => h.elim)⟩
      split_ifs <;> omega
  · intro hq
    have hn : MAX_QUIESCENCE_DEPTH - q = 0 := by unfold MAX_QUIESCENCE_DEPTH; omega
    unfold quiescence
    rw [hn, quiescenceFrom]
    simp only [Bool.false_eq_true, if_false, hsp]

set_option maxRecDepth 1000000 in
/-- Witness of C29: the two kings, White to move, window `(-50, 50)`, depth 2. -/
theorem quiescence_fail_hard_witness :
    ((-50 : Int) < 50) ∧
    ((2 < 3 →
      (-50 : Int) ≤ (quiescence false (-50) 50 Color.White kingsOnly 0 2).1 ∧
      (quiescence false (-50) 50 Color.White kingsOnly 0 2).1 ≤ 50 ∧
      ((if Color.White = Color.Black then neg32 (Evaluator.evaluate kingsOnly)
          else Evaluator.evaluate kingsOnly) ≥ 50 →
        (quiescence false (-50) 50 Color.White kingsOnly 0 2).1 = 50)) ∧
    (3 ≤ 2 →
      (quiescence false (-50) 50 Color.White kingsOnly 0 2).1 =
        (if Color.White = Color.Black then neg32 (Evaluator.evaluate kingsOnly)
          else Evaluator.evaluate kingsOnly))) :=
  ⟨by decide, quiescence_fail_hard (-50) 50 Color.White kingsOnly 0 2 (by decide)⟩

/-! ### Move ordering -/

/-- The insertion of `orderMoves` is the ordered insertion for the relation "scores at
least as high". -/
theorem insertByScore_eq_orderedInsert (score : Move → Int) (m : Move) (l : List Move) :
    insertByScore score m l = List.orderedInsert (fun a b => score a ≥ score b) m l := by
  induction l with
  | nil => rfl
  | cons x xs ih => simp only [insertByScore, List.orderedInsert, ih]

theorem orderMoves_eq_insertionSort (board : Board) (moves : List Move) (color : Color) :
    orderMoves board moves color =
      List.insertionSort (fun a b => scoreMoveForOrdering board a color ≥
        scoreMoveForOrdering board b color) moves := by
  unfold orderMoves
  induction moves with
  | nil => rfl
  | cons x xs ih =>
    simp only [List.foldr_cons, List.insertionSort, ih, insertByScore_eq_orderedInsert]

/-- C30. `orderMoves` returns a permutation of the moves it is given in which the
score of `scoreMoveForOrdering` never increases from front to back, and that score is
`victim * 10 - attacker` for the flags `Capture` and `EnPassant` (0 otherwise), plus
8000 for the flag `Promotion`, plus `10 * (14 - (|file(to) - 3| + |rank(to) - 3|))`. -/
theorem orderMoves_sorts (board : Board) (color : Color) (moves : List Move) :
    (orderMoves board moves color).Perm moves ∧
    (orderMoves board moves color).Pairwise
      (fun a b => scoreMoveForOrdering board a color ≥ scoreMoveForOrdering board b color) ∧
    ∀ m : Move, scoreMoveForOrdering board m color =
      (if m.flag = MoveFlag.Capture ∨ m.flag = MoveFlag.EnPassant then
        (board.pieceAt m.to_).value * 10 - (board.pieceAt m.from_).value else 0) +
      (if m.flag = MoveFlag.Promotion then 8000 else 0) +
      10 * (14 - (|getFile m.to_ - 3| + |getRank m.to_ - 3|)) := by
  refine ⟨?_, ?_, ?_⟩
  · rw [orderMoves_eq_insertionSort]
    exact List.perm_insertionSort _ _
  · rw [orderMoves_eq_insertionSort]
    haveI : IsTotal Move (fun a b => scoreMoveForOrdering board a color ≥
        scoreMoveForOrdering board b color) := ⟨fun a b => le_total _ _⟩
    haveI : IsTrans Move (fun a b => scoreMoveForOrdering board a color ≥
        scoreMoveForOrdering board b color) := ⟨fun a b c h1 h2 => le_trans h2 h1⟩
    exact List.sorted_insertionSort _ _
  · intro m
    have habs : ∀ x : Int, (if x > 3 then x - 3 else 3 - x) = |x - 3| := by
      intro x
      split_ifs with h
      · rw [abs_of_nonneg (by omega)]
      · rw [abs_of_nonpos (by omega)]; omega
    simp only [scoreMoveForOrdering, Move.isCapture, Move.isPromotion, habs, Bool.or_eq_true,
      decide_eq_true_eq]
    split_ifs <;> ring

/-! ### `makeMove` followed by `unmakeMove` -/

namespace Board

/-- With a non-empty undo stack `unmakeMove` pops it and restores the snapshot. -/
theorem unmakeMove_position_history (b : Board) (m : Move) (undo : UndoInfo)
    (rest : List UndoInfo) (h : b.history = undo :: rest) :
    (b.unmakeMove m).position = b.position.setState undo.state ∧
      (b.unmakeMove m).history = rest := by
  unfold unmakeMove
  simp only [h]
  constructor
  · simp only [restoreEnPassantPawn_position, unpromotePawn_position, uncastleRook_position,
      setPiece_position]
  · unfold restoreEnPassantPawn unpromotePawn uncastleRook
    split_ifs <;> rfl

/-- The cells after `unmakeMove` with a non-empty undo stack, as the relocation blocks
applied to the cells before. -/
theorem unmakeMove_pieceAt (b : Board) (m : Move) (undo : UndoInfo)
    (rest : List UndoInfo) (h : b.history = undo :: rest) (s : Nat) :
    (b.unmakeMove m).pieceAt s =
      (((((b.setPiece m.from_ (b.pieceAt m.to_)).setPiece m.to_ undo.capturedPiece).uncastleRook
        m).unpromotePawn m (b.pieceAt m.to_)).restoreEnPassantPawn m (b.pieceAt m.to_)).pieceAt
        s := by
  unfold unmakeMove
  simp only [h]
  unfold restoreEnPassantPawn unpromotePawn uncastleRook
  split_ifs <;> rfl

/-- The cells after `makeMove` of a move that is neither castling, promotion nor en
passant. -/
theorem makeMove_plain_pieceAt (b : Board) (m : Move) (h1 : m.isCastling = false)
    (h2 : m.isPromotion = false) (h3 : m.isEnPassant = false) (s : Nat) :
    (b.makeMove m).pieceAt s =
      if s = m.from_ then Piece.empty
      else if s = m.to_ then b.pieceAt m.from_
      else b.pieceAt s := by
  simp only [pieceAt, makeMove_squares, removeEnPassantPawn, promotePawn, castleRook, h1, h2, h3,
    removePiece, setPiece]
  simp

/-- The cells after `makeMove` of a promotion. -/
theorem makeMove_promotion_pieceAt (b : Board) (m : Move) (hflag : m.flag = MoveFlag.Promotion)
    (s : Nat) :
    (b.makeMove m).pieceAt s =
      if s = m.to_ then ⟨m.promotion, (b.pieceAt m.from_).color⟩
      else if s = m.from_ then Piece.empty
      else b.pieceAt s := by
  have h1 : m.isCastling = false := by simp [Move.isCastling, hflag]
  have h2 : m.isPromotion = true := by simp [Move.isPromotion, hflag]
  have h3 : m.isEnPassant = false := by simp [Move.isEnPassant, hflag]
  simp only [pieceAt, makeMove_squares, removeEnPassantPawn, promotePawn, castleRook, h1, h2, h3,
    removePiece, setPiece]
  simp only [Bool.false_eq_true, if_false, if_true]
  split_ifs <;> rfl

/-- Round trip of a move that is neither castling, promotion nor en passant and
changes square. -/
theorem roundtrip_plain (b : Board) (m : Move) (h1 : m.isCastling = false)
    (h2 : m.isPromotion = false) (h3 : m.isEnPassant = false) (hne : m.to_ ≠ m.from_)
    (s : Nat) : ((b.makeMove m).unmakeMove m).pieceAt s = b.pieceAt s := by
  rw [unmakeMove_pieceAt _ m _ _ (makeMove_history b m)]
  simp only [restoreEnPassantPawn, unpromotePawn, uncastleRook, h1, h2, h3, Bool.false_eq_true,
    if_false, pieceAt_setPiece, makeMove_plain_pieceAt b m h1 h2 h3]
  by_cases hs : s = m.to_
  · simp only [hs, if_true]
  · by_cases hf : s = m.from_
    · simp only [hf, hne, Ne.symm hne, if_true, if_false]
    · simp only [hs, hf, if_false]

/-- Round trip of a promotion of a pawn that changes square. -/
theorem roundtrip_promotion (b : Board) (m : Move) (hflag : m.flag = MoveFlag.Promotion)
    (hne : m.to_ ≠ m.from_) (hp : (b.pieceAt m.from_).type = PieceType.Pawn) (s : Nat) :
    ((b.makeMove m).unmakeMove m).pieceAt s = b.pieceAt s := by
  have h1 : m.isCastling = false := by simp [Move.isCastling, hflag]
  have h2 : m.isPromotion = true := by simp [Move.isPromotion, hflag]
  have h3 : m.isEnPassant = false := by simp [Move.isEnPassant, hflag]
  rw [unmakeMove_pieceAt _ m _ _ (makeMove_history b m)]
  simp only [restoreEnPassantPawn, unpromotePawn, uncastleRook, h1, h2, h3, Bool.false_eq_true,
    if_false, if_true, pieceAt_setPiece, makeMove_promotion_pieceAt b m hflag]
  by_cases hf : s = m.from_
  · simp only [hf, if_true]
    exact (Piece.eq_of_type_color _ _ _ hp rfl).symm
  · by_cases hs : s = m.to_
    · simp only [hs, hne, Ne.symm hne, if_true, if_false]
    · simp only [hs, hf, if_false]

/-- Round trip of an en-passant move onto an empty cell on another rank and file,
when the cell on the destination's file and the origin's rank holds a pawn of the
colour opposite to the moving piece. -/
theorem roundtrip_enPassant (b : Board) (m : Move) (hflag : m.flag = MoveFlag.EnPassant)
    (hfrom : m.from_ < 64) (hfile : getFile m.to_ ≠ getFile m.from_)
    (hrank : getRank m.to_ ≠ getRank m.from_) (hto : b.pieceAt m.to_ = Piece.empty)
    (hcap : b.pieceAt (makeSquare (getFile m.to_) (getRank m.from_)) =
      ⟨PieceType.Pawn, oppositeColor (b.pieceAt m.from_).color⟩) (s : Nat) :
    ((b.makeMove m).unmakeMove m).pieceAt s = b.pieceAt s := by
  have h1 : m.isCastling = false := by simp [Move.isCastling, hflag]
  have h2 : m.isPromotion = false := by simp [Move.isPromotion, hflag]
  have h3 : m.isEnPassant = true := by simp [Move.isEnPassant, hflag]
  have hc := makeSquare_file_rank m.to_ m.from_ hfrom
  have hne : m.to_ ≠ m.from_ := by
    intro h; rw [h] at hfile; exact hfile rfl
  have hcf : makeSquare (getFile m.to_) (getRank m.from_) ≠ m.from_ := by
    rw [hc]; intro h; apply hfile; unfold getFile; congr 1; omega
  have hct : makeSquare (getFile m.to_) (getRank m.from_) ≠ m.to_ := by
    rw [hc]; intro h; apply hrank; unfold getRank; congr 1; omega
  rw [unmakeMove_pieceAt _ m _ _ (makeMove_history b m)]
  simp only [restoreEnPassantPawn, unpromotePawn, uncastleRook, h1, h2, h3, Bool.false_eq_true,
    if_false, if_true, pieceAt_setPiece, pieceAt_removePiece,
    Board.makeMove_enPassant_pieceAt b m hflag]
  generalize makeSquare (getFile m.to_) (getRank m.from_) = cap at hcap hcf hct ⊢
  have hct' : m.to_ ≠ cap := Ne.symm hct
  have hcf' : m.from_ ≠ cap := Ne.symm hcf
  by_cases hs : s = m.to_
  · simp only [hs, if_true, hto]
  · by_cases hcs : s = cap
    · simp only [hs, hcs, hct, hct', hne, if_true, if_false, hcap]
    · by_cases hf : s = m.from_
      · simp only [hf, hne, hcf', hct', Ne.symm hne, if_true, if_false]
      · simp only [hs, hcs, hf, if_false]

/-- The square of file `k` on the rank of `sq`. -/
theorem makeSquare_on_rank (k sq : Nat) (hk : k < 8) (hsq : sq < 64) :
    makeSquare (k : Int) (getRank sq) = sq / 8 * 8 + k := by
  unfold getRank
  exact makeSquare_natCast k (sq / 8) (by omega)

/-- The cells after a castling `makeMove`. -/
theorem makeMove_castling_pieceAt (b : Board) (m : Move) (hflag : m.flag = MoveFlag.Castling)
    (s : Nat) :
    (b.makeMove m).pieceAt s =
      (if getFile m.to_ = 6 then
        ((b.setPiece m.to_ (b.pieceAt m.from_)).removePiece m.from_).moveRook 7 5 (getRank m.from_)
      else
        ((b.setPiece m.to_ (b.pieceAt m.from_)).removePiece m.from_).moveRook 0 3
          (getRank m.from_)).pieceAt s := by
  simp only [pieceAt, Board.makeMove_castling_squares b m hflag]

/-- Round trip of king-side castling from the e-file when the cell next to the king
holds the empty piece. -/
theorem roundtrip_castle_kingside (b : Board) (m : Move) (hflag : m.flag = MoveFlag.Castling)
    (hfrom : m.from_ < 64) (hfile : m.from_ % 8 = 4) (hto : m.to_ = m.from_ + 2)
    (hempty : b.pieceAt (m.from_ + 1) = Piece.empty) (s : Nat) :
    ((b.makeMove m).unmakeMove m).pieceAt s = b.pieceAt s := by
  have h1 : m.isCastling = true := by simp [Move.isCastling, hflag]
  have h2 : m.isPromotion = false := by simp [Move.isPromotion, hflag]
  have h3 : m.isEnPassant = false := by simp [Move.isEnPassant, hflag]
  have hf6 : getFile m.to_ = 6 := by
    rw [hto]; unfold getFile
    have : (m.from_ + 2) % 8 = 6 := by omega
    rw [this]; rfl
  have e7 : makeSquare 7 (getRank m.from_) = m.from_ + 3 := by
    have := makeSquare_on_rank 7 m.from_ (by decide) hfrom
    simp only [Nat.cast_ofNat] at this
    omega
  have e5 : makeSquare 5 (getRank m.from_) = m.from_ + 1 := by
    have := makeSquare_on_rank 5 m.from_ (by decide) hfrom
    simp only [Nat.cast_ofNat] at this
    omega
  rw [unmakeMove_pieceAt _ m _ _ (makeMove_history b m)]
  simp only [restoreEnPassantPawn, unpromotePawn, uncastleRook, h1, h2, h3, hf6,
    Bool.false_eq_true, if_false, if_true, moveRook, e5, e7, pieceAt_setPiece,
    pieceAt_removePiece, makeMove_castling_pieceAt b m hflag]
  simp only [hto]
  by_cases s1 : s = m.from_ + 1
  · simp [s1, hempty]
  · by_cases s3 : s = m.from_ + 3
    · simp [s3]
    · by_cases s2 : s = m.from_ + 2
      · simp [s2]
      · by_cases s0 : s = m.from_
        · simp [s0]
        · simp [s1, s2, s3, s0]

/-- Round trip of queen-side castling from the e-file when the cell next to the king
holds the empty piece. -/
theorem roundtrip_castle_queenside (b : Board) (m : Move) (hflag : m.flag = MoveFlag.Castling)
    (hfrom : m.from_ < 64) (hfile : m.from_ % 8 = 4) (hto : m.to_ + 2 = m.from_)
    (hempty : b.pieceAt (m.to_ + 1) = Piece.empty) (s : Nat) :
    ((b.makeMove m).unmakeMove m).pieceAt s = b.pieceAt s := by
  have h1 : m.isCastling = true := by simp [Move.isCastling, hflag]
  have h2 : m.isPromotion = false := by simp [Move.isPromotion, hflag]
  have h3 : m.isEnPassant = false := by simp [Move.isEnPassant, hflag]
  have hf6 : getFile m.to_ ≠ 6 := by
    unfold getFile
    have : m.to_ % 8 = 2 := by omega
    rw [this]; decide
  have e0 : makeSquare 0 (getRank m.from_) + 2 = m.to_ := by
    have := makeSquare_on_rank 0 m.from_ (by decide) hfrom
    simp only [Nat.cast_zero] at this
    omega
  have e3 : makeSquare 3 (getRank m.from_) = m.to_ + 1 := by
    have := makeSquare_on_rank 3 m.from_ (by decide) hfrom
    simp only [Nat.cast_ofNat] at this
    omega
  rw [unmakeMove_pieceAt _ m _ _ (makeMove_history b m)]
  simp only [restoreEnPassantPawn, unpromotePawn, uncastleRook, h1, h2, h3, hf6,
    Bool.false_eq_true, if_false, if_true, moveRook, e3, pieceAt_setPiece,
    pieceAt_removePiece, makeMove_castling_pieceAt b m hflag]
  generalize makeSquare 0 (getRank m.from_) = a at e0 ⊢
  simp only [← hto]
  by_cases s1 : s = m.to_ + 1
  · simp [s1, hempty]
  · by_cases s3 : s = a
    · simp [s3]; split_ifs <;> first | rfl | omega
    · by_cases s2 : s = m.to_
      · simp [s2]; split_ifs <;> first | rfl | omega
      · by_cases s0 : s = m.to_ + 2
        · simp [s0]; split_ifs <;> first | rfl | omega
        · simp [s1, s2, s3, s0]

end Board

set_option maxRecDepth 1000000 in
/-- C21 (counterexample). In `4k3/8/8/8/8/8/8/RK6 w K - 0 1` the generator offers White
the castling move b1-d1 (not an en-passant move); `makeMove` puts the rook of a1 on
d1 over the king, and after `unmakeMove` b1 holds the rook and a1 is empty: the cells
are not restored. And with `Piece(None, White)` on f1, castling e1-g1 and undoing it
leaves `Piece()` on f1. -/
theorem makeMove_unmakeMove_castling_not_restored :
    (castleFromB1 ∈ generateLegalMoves kingOffHome Color.White ∧
      castleFromB1.flag ≠ MoveFlag.EnPassant ∧
      kingOffHome.pieceAt 1 = ⟨PieceType.King, Color.White⟩ ∧
      ((kingOffHome.makeMove castleFromB1).unmakeMove castleFromB1).pieceAt 1 =
        ⟨PieceType.Rook, Color.White⟩ ∧
      ((kingOffHome.makeMove castleFromB1).unmakeMove castleFromB1).pieceAt 1 ≠
        kingOffHome.pieceAt 1) ∧
    (castleShort ∈ generateLegalMoves tintedF1 Color.White ∧
      castleShort.flag ≠ MoveFlag.EnPassant ∧
      ((tintedF1.makeMove castleShort).unmakeMove castleShort).pieceAt 5 ≠
        tintedF1.pieceAt 5) := by
  decide

/-- C21 (amended). On a board whose empty cells hold the empty piece `Piece()`, for a
move `m` of `generateLegalMoves(c)` such that, when `m` is en passant, its
destination is empty and the cell on the destination's file and the origin's rank
holds a pawn of the opposite colour, and, when `m` is castling, its origin is on the
e-file: `makeMove(m)` followed by `unmakeMove(m)` restores the 64 cells, the
en-passant target, the four castling rights, the halfmove clock, the fullmove number
and the undo stack. -/
theorem makeMove_unmakeMove_restores (b : Board) (c : Color) (m : Move)
    (hempty : ∀ sq, sq < 64 → (b.pieceAt sq).isNone = true → b.pieceAt sq = Piece.empty)
    (hm : m ∈ generateLegalMoves b c)
    (hep : m.flag = MoveFlag.EnPassant → (b.pieceAt m.to_).isNone = true ∧
      b.pieceAt (makeSquare (getFile m.to_) (getRank m.from_)) =
        ⟨PieceType.Pawn, oppositeColor c⟩)
    (hcastle : m.flag = MoveFlag.Castling → getFile m.from_ = 4) :
    (∀ sq, sq < 64 → ((b.makeMove m).unmakeMove m).pieceAt sq = b.pieceAt sq) ∧
    ((b.makeMove m).unmakeMove m).position.enPassantSquare = b.position.enPassantSquare ∧
    ((b.makeMove m).unmakeMove m).position.whiteCanCastleKingside =
      b.position.whiteCanCastleKingside ∧
    ((b.makeMove m).unmakeMove m).position.whiteCanCastleQueenside =
      b.position.whiteCanCastleQueenside ∧
    ((b.makeMove m).unmakeMove m).position.blackCanCastleKingside =
      b.position.blackCanCastleKingside ∧
    ((b.makeMove m).unmakeMove m).position.blackCanCastleQueenside =
      b.position.blackCanCastleQueenside ∧
    ((b.makeMove m).unmakeMove m).position.halfmoveClock = b.position.halfmoveClock ∧
    ((b.makeMove m).unmakeMove m).position.fullmoveNumber = b.position.fullmoveNumber ∧
    ((b.makeMove m).unmakeMove m).history = b.history ∧
    ((b.makeMove m).unmakeMove m).history.length = b.history.length := by
  obtain ⟨hpos, hhist⟩ :=
    Board.unmakeMove_position_history (b.makeMove m) m _ _ (Board.makeMove_history b m)
  refine ⟨?_, ?_, ?_, ?_, ?_, ?_, ?_, ?_, hhist, by rw [hhist]⟩
  · obtain ⟨⟨sq, hsq, hmem⟩, _⟩ := (mem_generateLegalMoves_iff b c m).mp hm
    obtain ⟨hfrom, _, hcol, hne, hshape⟩ := movesFrom_shape b c sq hsq m hmem
    subst hfrom
    intro s _
    have plain : ∀ f : MoveFlag, m.flag = f → f ≠ MoveFlag.Castling → f ≠ MoveFlag.Promotion →
        f ≠ MoveFlag.EnPassant →
        ((b.makeMove m).unmakeMove m).pieceAt s = b.pieceAt s := by
      intro f hf n1 n2 n3
      apply Board.roundtrip_plain b m _ _ _ hne
      · simp only [Move.isCastling, hf, decide_eq_false_iff_not]; exact n1
      · simp only [Move.isPromotion, hf, decide_eq_false_iff_not]; exact n2
      · simp only [Move.isEnPassant, hf, decide_eq_false_iff_not]; exact n3
    rcases hshape with h | h | h | h | h | h
    · exact plain _ h.1 (by decide) (by decide) (by decide)
    · exact plain _ h.1 (by decide) (by decide) (by decide)
    · exact plain _ h.1 (by decide) (by decide) (by decide)
    · exact Board.roundtrip_promotion b m h.1 hne h.2.2.1 s
    · obtain ⟨hflag, hto, _, _, hfile, hrank⟩ := h
      obtain ⟨hnone, hcap⟩ := hep hflag
      rw [← hcol] at hcap
      exact Board.roundtrip_enPassant b m hflag hsq hfile hrank (hempty _ hto hnone) hcap s
    · obtain ⟨hflag, _, _, hside⟩ := h
      have hfile := hcastle hflag
      have hfile' : m.from_ % 8 = 4 := by
        unfold getFile at hfile; omega
      rcases hside with hs | hs
      · obtain ⟨e, _, h2, _, _, _⟩ := mem_castleKingside b m.from_ c m hs
        have e1 := makeSquare_along_rank m.from_ 1
        have e2 := makeSquare_along_rank m.from_ 2
        have hto : m.to_ = m.from_ + 2 := by
          have : m.to_ = makeSquare (getFile m.from_ + 2) (getRank m.from_) := by
            rw [e]
          omega
        have hf1 : makeSquare (getFile m.from_ + 1) (getRank m.from_) = m.from_ + 1 := by
          omega
        rw [hf1] at h2
        exact Board.roundtrip_castle_kingside b m hflag hsq hfile' hto
          (hempty _ (by omega) h2) s
      · obtain ⟨e, _, h2, _, _, _, _⟩ := mem_castleQueenside b m.from_ c m hs
        have e1 := makeSquare_along_rank m.from_ (-1)
        have e2 := makeSquare_along_rank m.from_ (-2)
        have hto : m.to_ + 2 = m.from_ := by
          have : m.to_ = makeSquare (getFile m.from_ - 2) (getRank m.from_) := by
            rw [e]
          simp only [sub_eq_add_neg] at this
          omega
        have hd1 : makeSquare (getFile m.from_ - 1) (getRank m.from_) = m.to_ + 1 := by
          simp only [sub_eq_add_neg]
          omega
        rw [hd1] at h2
        exact Board.roundtrip_castle_queenside b m hflag hsq hfile' hto
          (hempty _ (by omega) h2) s
  all_goals rw [hpos]; rfl

set_option maxRecDepth 1000000 in
/-- Witness of C21 (amended): e2-e4 at the starting position. -/
theorem makeMove_unmakeMove_restores_witness :
    (∀ sq, sq < 64 → (startBoard.pieceAt sq).isNone = true →
      startBoard.pieceAt sq = Piece.empty) ∧
    e2e4 ∈ generateLegalMoves startBoard Color.White ∧
    (∀ sq, sq < 64 → ((startBoard.makeMove e2e4).unmakeMove e2e4).pieceAt sq =
      startBoard.pieceAt sq) ∧
    ((startBoard.makeMove e2e4).unmakeMove e2e4).position.enPassantSquare =
      startBoard.position.enPassantSquare ∧
    ((startBoard.makeMove e2e4).unmakeMove e2e4).history = startBoard.history :=
  have h := makeMove_unmakeMove_restores startBoard Color.White e2e4 (by decide) (by decide)
    (fun hf => absurd hf (by decide)) (fun hf => absurd hf (by decide))
  ⟨by decide, by decide, h.1, h.2.1, h.2.2.2.2.2.2.2.2.1⟩

/-! ### Castling moves of the generator -/

/-- C25. When every king of colour `c` (White or Black) on the board stands on the
home square, a castling move of `generateLegalMoves(c)` starts there, `c` is not in
check, and either it goes to the g-file with the king-side right set, the f- and
g-file squares of the rank empty and not attacked by the opponent, or it goes to the
c-file with the queen-side right set, the d-, c- and b-file squares empty and the d-
and c-file squares not attacked by the opponent. -/
theorem castling_only_when_permitted (b : Board) (c : Color)
    (hc : c = Color.White ∨ c = Color.Black)
    (hking : ∀ sq, sq < 64 → (b.pieceAt sq).type = PieceType.King → (b.pieceAt sq).color = c →
      sq = makeSquare 4 (homeRank c))
    (m : Move) (hm : m ∈ generateLegalMoves b c) (hflag : m.flag = MoveFlag.Castling) :
    m.from_ = makeSquare 4 (homeRank c) ∧ b.isCheck c = false ∧
    ((m.to_ = makeSquare 6 (homeRank c) ∧ b.position.canCastleKingside c = true ∧
        (b.pieceAt (makeSquare 5 (homeRank c))).isNone = true ∧
        (b.pieceAt (makeSquare 6 (homeRank c))).isNone = true ∧
        b.isSquareAttacked (makeSquare 5 (homeRank c)) (oppositeColor c) = false ∧
        b.isSquareAttacked (makeSquare 6 (homeRank c)) (oppositeColor c) = false) ∨
      (m.to_ = makeSquare 2 (homeRank c) ∧ b.position.canCastleQueenside c = true ∧
        (b.pieceAt (makeSquare 3 (homeRank c))).isNone = true ∧
        (b.pieceAt (makeSquare 2 (homeRank c))).isNone = true ∧
        (b.pieceAt (makeSquare 1 (homeRank c))).isNone = true ∧
        b.isSquareAttacked (makeSquare 3 (homeRank c)) (oppositeColor c) = false ∧
        b.isSquareAttacked (makeSquare 2 (homeRank c)) (oppositeColor c) = false)) := by
  obtain ⟨⟨sq, hsq, hmem⟩, _⟩ := (mem_generateLegalMoves_iff b c m).mp hm
  obtain ⟨hfrom, _, hcol, _, hshape⟩ := movesFrom_shape b c sq hsq m hmem
  have hcastle : (b.pieceAt sq).type = PieceType.King ∧ b.isCheck c = false ∧
      (m ∈ castleKingside b sq c ∨ m ∈ castleQueenside b sq c) := by
    rcases hshape with h | h | h | h | h | h
    · rw [hflag] at h; exact absurd h.1 (by decide)
    · rw [hflag] at h; exact absurd h.1 (by decide)
    · rw [hflag] at h; exact absurd h.1 (by decide)
    · rw [hflag] at h; exact absurd h.1 (by decide)
    · rw [hflag] at h; exact absurd h.1 (by decide)
    · exact h.2
  obtain ⟨hk, hchk, hside⟩ := hcastle
  have hhome := hking sq hsq hk hcol
  refine ⟨by rw [hfrom, hhome], hchk, ?_⟩
  rcases hside with hs | hs
  · left
    obtain ⟨e, h1, h2, h3, h4, h5⟩ := mem_castleKingside b sq c m hs
    rw [hhome] at e h2 h3 h4 h5
    rcases hc with rfl | rfl
    · exact ⟨by rw [e]; rfl, h1, h2, h3, h4, h5⟩
    · exact ⟨by rw [e]; rfl, h1, h2, h3, h4, h5⟩
  · right
    obtain ⟨e, h1, h2, h3, h4, h5, h6⟩ := mem_castleQueenside b sq c m hs
    rw [hhome] at e h2 h3 h4 h5 h6
    rcases hc with rfl | rfl
    · exact ⟨by rw [e]; rfl, h1, h2, h3, h4, h5, h6⟩
    · exact ⟨by rw [e]; rfl, h1, h2, h3, h4, h5, h6⟩

set_option maxRecDepth 1000000 in
/-- Witness of C25: White castling king-side in `castleReady`. -/
theorem castling_only_when_permitted_witness :
    (⟨4, 6, MoveFlag.Castling, PieceType.None⟩ : Move) ∈
      generateLegalMoves castleReady Color.White ∧
    ((⟨4, 6, MoveFlag.Castling, PieceType.None⟩ : Move).from_ =
        makeSquare 4 (homeRank Color.White) ∧
      castleReady.isCheck Color.White = false ∧
    (((⟨4, 6, MoveFlag.Castling, PieceType.None⟩ : Move).to_ =
          makeSquare 6 (homeRank Color.White) ∧
        castleReady.position.canCastleKingside Color.White = true ∧
        (castleReady.pieceAt (makeSquare 5 (homeRank Color.White))).isNone = true ∧
        (castleReady.pieceAt (makeSquare 6 (homeRank Color.White))).isNone = true ∧
        castleReady.isSquareAttacked (makeSquare 5 (homeRank Color.White))
          (oppositeColor Color.White) = false ∧
        castleReady.isSquareAttacked (makeSquare 6 (homeRank Color.White))
          (oppositeColor Color.White) = false) ∨
      ((⟨4, 6, MoveFlag.Castling, PieceType.None⟩ : Move).to_ =
          makeSquare 2 (homeRank Color.White) ∧
        castleReady.position.canCastleQueenside Color.White = true ∧
        (castleReady.pieceAt (makeSquare 3 (homeRank Color.White))).isNone = true ∧
        (castleReady.pieceAt (makeSquare 2 (homeRank Color.White))).isNone = true ∧
        (castleReady.pieceAt (makeSquare 1 (homeRank Color.White))).isNone = true ∧
        castleReady.isSquareAttacked (makeSquare 3 (homeRank Color.White))
          (oppositeColor Color.White) = false ∧
        castleReady.isSquareAttacked (makeSquare 2 (homeRank Color.White))
          (oppositeColor Color.White) = false))) :=
  ⟨by decide, castling_only_when_permitted castleReady Color.White (Or.inl rfl) (by decide)
    ⟨4, 6, MoveFlag.Castling, PieceType.None⟩ (by decide) rfl⟩

/-! ### En-passant moves of the generator -/

set_option maxRecDepth 1000000 in
/-- C26 (failing). After 1. e2-e4 from the starting position the en-passant target is
e3. `generateLegalMoves(White)` then contains d2-e3 with the flag `EnPassant`: its
destination is the target, but the cell it removes, e2 (destination's file, origin's
rank), is empty and holds no black pawn. -/
theorem enPassant_generated_for_pushing_side :
    e2e4.flag = MoveFlag.DoublePawnPush ∧ afterE4.position.enPassantSquare = 20 ∧
    ownEnPassant ∈ generateLegalMoves afterE4 Color.White ∧
    ownEnPassant.to_ = afterE4.position.enPassantSquare ∧
    makeSquare (getFile ownEnPassant.to_) (getRank ownEnPassant.from_) = 12 ∧
    afterE4.pieceAt 12 = Piece.empty ∧
    afterE4.pieceAt (makeSquare (getFile ownEnPassant.to_) (getRank ownEnPassant.from_)) ≠
      ⟨PieceType.Pawn, Color.Black⟩ := by
  refine ⟨rfl, by decide, ?_, by decide, by decide, by decide, by decide⟩
  rw [mem_generateLegalMoves_iff]
  exact ⟨⟨11, by decide, by decide⟩, by decide⟩

/-! ### Flags of generated moves -/

set_option maxRecDepth 1000000 in
/-- C27 (counterexample). In `rookEnPrise` with a rook of colour `None` on h1 the move
b7xh1 of Black is generated with flag `Capture`: `addMoveIfValid` tests
`target.color() != color`, and the destination holds a piece that is not of the
opposite colour. -/
theorem capture_of_colourless_piece :
    (colourlessRook.position.enPassantSquare = 255 ∨
      (colourlessRook.pieceAt colourlessRook.position.enPassantSquare).isNone = true) ∧
    bishopTakesRook ∈ generateLegalMoves colourlessRook Color.Black ∧
    bishopTakesRook.flag = MoveFlag.Capture ∧
    colourlessRook.pieceAt bishopTakesRook.to_ = ⟨PieceType.Rook, Color.None⟩ ∧
    (colourlessRook.pieceAt bishopTakesRook.to_).color ≠ oppositeColor Color.Black := by
  decide

/-- C27 (amended). On a board whose pieces are White or Black and whose en-passant
target is 255 or an empty cell, every move of `generateLegalMoves(c)` starts on a piece
of colour `c`, changes square, and does not end on a piece of colour `c`; with flag
`Capture` it ends on a piece of the opposite colour; with flag `Normal`,
`DoublePawnPush`, `Castling` or `EnPassant` it ends on an empty cell. -/
theorem generated_flags_agree (b : Board) (c : Color) (m : Move)
    (hcolour : ∀ sq, sq < 64 → (b.pieceAt sq).isNone = false →
      (b.pieceAt sq).color = Color.White ∨ (b.pieceAt sq).color = Color.Black)
    (hep : b.position.enPassantSquare = 255 ∨
      (b.pieceAt b.position.enPassantSquare).isNone = true)
    (hm : m ∈ generateLegalMoves b c) :
    ((b.pieceAt m.from_).isNone = false ∧ (b.pieceAt m.from_).color = c) ∧
    m.from_ ≠ m.to_ ∧
    ((b.pieceAt m.to_).isNone = true ∨ (b.pieceAt m.to_).color ≠ c) ∧
    (m.flag = MoveFlag.Capture →
      (b.pieceAt m.to_).isNone = false ∧ (b.pieceAt m.to_).color = oppositeColor c) ∧
    (m.flag = MoveFlag.Normal ∨ m.flag = MoveFlag.DoublePawnPush ∨
      m.flag = MoveFlag.Castling ∨ m.flag = MoveFlag.EnPassant →
      (b.pieceAt m.to_).isNone = true) := by
  obtain ⟨⟨sq, hsq, hmem⟩, _⟩ := (mem_generateLegalMoves_iff b c m).mp hm
  obtain ⟨hfrom, hnone, hcol, hne, hshape⟩ := movesFrom_shape b c sq hsq m hmem
  rw [hfrom]
  have hc : c = Color.White ∨ c = Color.Black := by
    rw [← hcol]; exact hcolour sq hsq hnone
  have hopp : ∀ x : Color, x ≠ c → (x = Color.White ∨ x = Color.Black) →
      x = oppositeColor c := by
    intro x hx h2
    rcases hc with rfl | rfl <;> rcases h2 with rfl | rfl <;>
      first | rfl | exact absurd rfl hx
  refine ⟨⟨hnone, hcol⟩, Ne.symm hne, ?_, ?_, ?_⟩
  · rcases hshape with h | h | h | h | h | h
    · exact Or.inl h.2.2
    · exact Or.inr h.2.2.2
    · exact Or.inl h.2.2.2
    · exact h.2.2.2
    · left
      obtain ⟨_, hlt, _, heq, _, _⟩ := h
      rcases hep with hep | hep
      · rw [heq, hep] at hlt; exact absurd hlt (by decide)
      · rw [heq]; exact hep
    · left
      rcases h.2.2.2 with hs | hs
      · obtain ⟨e, _, _, h3, _, _⟩ := mem_castleKingside b sq c m hs
        rw [e]; exact h3
      · obtain ⟨e, _, _, h3, _, _, _⟩ := mem_castleQueenside b sq c m hs
        rw [e]; exact h3
  · intro hflag
    rcases hshape with h | h | h | h | h | h
    · rw [hflag] at h; exact absurd h.1 (by decide)
    · exact ⟨h.2.2.1, hopp _ h.2.2.2 (hcolour _ h.2.1 h.2.2.1)⟩
    · rw [hflag] at h; exact absurd h.1 (by decide)
    · rw [hflag] at h; exact absurd h.1 (by decide)
    · rw [hflag] at h; exact absurd h.1 (by decide)
    · rw [hflag] at h; exact absurd h.1 (by decide)
  · intro hflag
    rcases hshape with h | h | h | h | h | h
    · exact h.2.2
    · rw [h.1] at hflag; exact absurd hflag (by decide)
    · exact h.2.2.2
    · rw [h.1] at hflag; exact absurd hflag (by decide)
    · obtain ⟨_, hlt, _, heq, _, _⟩ := h
      rcases hep with hep | hep
      · rw [heq, hep] at hlt; exact absurd hlt (by decide)
      · rw [heq]; exact hep
    · rcases h.2.2.2 with hs | hs
      · obtain ⟨e, _, _, h3, _, _⟩ := mem_castleKingside b sq c m hs
        rw [e]; exact h3
      · obtain ⟨e, _, _, h3, _, _, _⟩ := mem_castleQueenside b sq c m hs
        rw [e]; exact h3

set_option maxRecDepth 1000000 in
/-- Witness of C27: the capture b7xh1 of Black in `rookEnPrise`. -/
theorem generated_flags_agree_witness :
    (∀ sq, sq < 64 → (rookEnPrise.pieceAt sq).isNone = false →
      (rookEnPrise.pieceAt sq).color = Color.White ∨
        (rookEnPrise.pieceAt sq).color = Color.Black) ∧
    (rookEnPrise.position.enPassantSquare = 255 ∨
      (rookEnPrise.pieceAt rookEnPrise.position.enPassantSquare).isNone = true) ∧
    bishopTakesRook ∈ generateLegalMoves rookEnPrise Color.Black ∧
    (((rookEnPrise.pieceAt bishopTakesRook.from_).isNone = false ∧
      (rookEnPrise.pieceAt bishopTakesRook.from_).color = Color.Black) ∧
    bishopTakesRook.from_ ≠ bishopTakesRook.to_ ∧
    ((rookEnPrise.pieceAt bishopTakesRook.to_).isNone = true ∨
      (rookEnPrise.pieceAt bishopTakesRook.to_).color ≠ Color.Black) ∧
    (bishopTakesRook.flag = MoveFlag.Capture →
      (rookEnPrise.pieceAt bishopTakesRook.to_).isNone = false ∧
      (rookEnPrise.pieceAt bishopTakesRook.to_).color = oppositeColor Color.Black) ∧
    (bishopTakesRook.flag = MoveFlag.Normal ∨ bishopTakesRook.flag = MoveFlag.DoublePawnPush ∨
      bishopTakesRook.flag = MoveFlag.Castling ∨ bishopTakesRook.flag = MoveFlag.EnPassant →
      (rookEnPrise.pieceAt bishopTakesRook.to_).isNone = true)) :=
  ⟨by decide, Or.inl rfl, by decide,
    generated_flags_agree rookEnPrise Color.Black bishopTakesRook (by decide) (Or.inl rfl)
      (by decide)⟩

/-! ### The attack test against the definition of attack -/

theorem makeSquare_file_rank_self (src : Nat) (h : src < 64) :
    makeSquare (getFile src) (getRank src) = src := by
  rw [makeSquare_file_rank src src h]; omega

theorem onBoard_eq_isSquareValid (f r : Int) : Board.onBoard f r = isSquareValid f r := rfl

theorem onBoard_iff (f r : Int) :
    Board.onBoard f r = true ↔ 0 ≤ f ∧ f < 8 ∧ 0 ≤ r ∧ r < 8 := by
  rw [onBoard_eq_isSquareValid, isSquareValid_iff]

/-- A cell on the board, as the square of its coordinates. -/
theorem exists_square (f r : Int) (h : Board.onBoard f r = true) :
    makeSquare f r < 64 ∧ getFile (makeSquare f r) = f ∧ getRank (makeSquare f r) = r :=
  makeSquare_valid f r (by rw [← onBoard_eq_isSquareValid]; exact h)

/-- One ray of the attack test: it answers true exactly when, some `k` steps along
the ray, it meets a piece of the colour and of one of the two kinds, with every cell
before it on the board and empty. -/
theorem attackRay_iff (b : Board) (c : Color) (t1 t2 : PieceType) (df dr : Int) :
    ∀ (fuel : Nat) (f r : Int),
      Board.attackRay b c t1 t2 df dr fuel f r = true ↔
        ∃ k : Nat, k < fuel ∧
          (∀ j : Nat, j ≤ k → Board.onBoard (f + j * df) (r + j * dr) = true) ∧
          (∀ j : Nat, j < k →
            (b.pieceAt (makeSquare (f + j * df) (r + j * dr))).isNone = true) ∧
          (b.pieceAt (makeSquare (f + k * df) (r + k * dr))).isNone = false ∧
          (b.pieceAt (makeSquare (f + k * df) (r + k * dr))).color = c ∧
          ((b.pieceAt (makeSquare (f + k * df) (r + k * dr))).type = t1 ∨
            (b.pieceAt (makeSquare (f + k * df) (r + k * dr))).type = t2) := by
  intro fuel
  induction fuel with
  | zero =>
    intro f r
    simp [Board.attackRay]
  | succ n ih =>
    intro f r
    unfold Board.attackRay
    by_cases hon : Board.onBoard f r = true
    · rw [if_pos hon]
      simp only
      by_cases hnone : (b.pieceAt (makeSquare f r)).isNone = true
      · simp only [hnone, Bool.not_true, Bool.false_eq_true, if_false]
        rw [ih]
        constructor
        · rintro ⟨k, hk, h1, h2, h3, h4, h5⟩
          refine ⟨k + 1, by omega, ?_, ?_, ?_, ?_, ?_⟩
          · intro j hj
            cases j with
            | zero => simpa using hon
            | succ j =>
              have := h1 j (by omega)
              rw [← this]; congr 1 <;> push_cast <;> ring
          · intro j hj
            cases j with
            | zero => simpa using hnone
            | succ j =>
              have := h2 j (by omega)
              rw [← this]; congr 3 <;> push_cast <;> ring
          · rw [← h3]; congr 3 <;> push_cast <;> ring
          · rw [← h4]; congr 3 <;> push_cast <;> ring
          · have e : makeSquare (f + ((k + 1 : Nat) : Int) * df) (r + ((k + 1 : Nat) : Int) * dr) =
                makeSquare (f + df + k * df) (r + dr + k * dr) := by
              congr 1 <;> push_cast <;> ring
            rw [e]; exact h5
        · rintro ⟨k, hk, h1, h2, h3, h4, h5⟩
          cases k with
          | zero =>
            simp only [Nat.cast_zero, zero_mul, add_zero] at h3
            rw [hnone] at h3; exact absurd h3 (by decide)
          | succ k =>
            have e : ∀ j : Nat, makeSquare (f + df + j * df) (r + dr + j * dr) =
                makeSquare (f + ((j + 1 : Nat) : Int) * df) (r + ((j + 1 : Nat) : Int) * dr) := by
              intro j; congr 1 <;> push_cast <;> ring
            refine ⟨k, by omega, ?_, ?_, ?_, ?_, ?_⟩
            · intro j hj
              have := h1 (j + 1) (by omega)
              rw [← this]; congr 1 <;> push_cast <;> ring
            · intro j hj
              rw [e]; exact h2 (j + 1) (by omega)
            · rw [e]; exact h3
            · rw [e]; exact h4
            · rw [e]; exact h5
      · have hnone' : (b.pieceAt (makeSquare f r)).isNone = false := by
          simpa using hnone
        simp only [hnone', Bool.not_false, if_true, Bool.and_eq_true, Bool.or_eq_true,
          decide_eq_true_eq]
        constructor
        · rintro ⟨h4, h5⟩
          refine ⟨0, by omega, ?_, ?_, ?_, ?_, ?_⟩
          · intro j hj
            have : j = 0 := by omega
            subst this; simpa using hon
          · intro j hj; exact absurd hj (Nat.not_lt_zero j)
          · simpa using hnone'
          · simpa using h4
          · simpa using h5
        · rintro ⟨k, hk, h1, h2, h3, h4, h5⟩
          cases k with
          | zero => simpa using And.intro h4 h5
          | succ k =>
            have := h2 0 (by omega)
            simp only [Nat.cast_zero, zero_mul, add_zero] at this
            rw [hnone'] at this; exact absurd this (by decide)
    · rw [if_neg hon]
      constructor
      · intro h; exact absurd h (by decide)
      · rintro ⟨k, hk, h1, _⟩
        have := h1 0 (by omega)
        simp only [Nat.cast_zero, zero_mul, add_zero] at this
        exact absurd this hon

/-- The pawn block of the attack test. -/
theorem attackPawn_iff (b : Board) (c : Color) (sq : Nat) :
    b.attackPawn c (getFile sq) (getRank sq) = true ↔
      ∃ src, src < 64 ∧ (b.pieceAt src).color = c ∧ (b.pieceAt src).type = PieceType.Pawn ∧
        getRank src = getRank sq - (if c = Color.White then 1 else -1) ∧
        (getFile src = getFile sq - 1 ∨ getFile src = getFile sq + 1) := by
  obtain ⟨hf0, hf8⟩ := getFile_range sq
  unfold Board.attackPawn
  simp only
  generalize (if c = Color.White then (1 : Int) else -1) = dir
  by_cases hr : 0 ≤ getRank sq - dir ∧ getRank sq - dir < 8
  · rw [if_pos hr]
    simp only [Bool.or_eq_true, Bool.and_eq_true, decide_eq_true_eq]
    constructor
    · rintro (⟨h1, h2, h3⟩ | ⟨h1, h2, h3⟩)
      · obtain ⟨v1, v2, v3⟩ := exists_square (getFile sq - 1) (getRank sq - dir)
          (by rw [onBoard_iff]; omega)
        exact ⟨_, v1, h3, h2, v3, Or.inl v2⟩
      · obtain ⟨v1, v2, v3⟩ := exists_square (getFile sq + 1) (getRank sq - dir)
          (by rw [onBoard_iff]; omega)
        exact ⟨_, v1, h3, h2, v3, Or.inr v2⟩
    · rintro ⟨src, hsrc, hcol, htype, hrank, hfile⟩
      have hself := makeSquare_file_rank_self src hsrc
      obtain ⟨g0, g8⟩ := getFile_range src
      rcases hfile with hfile | hfile
      · left
        rw [← hfile, ← hrank, hself]
        exact ⟨by omega, htype, hcol⟩
      · right
        rw [← hfile, ← hrank, hself]
        exact ⟨by omega, htype, hcol⟩
  · rw [if_neg hr]
    constructor
    · intro h; exact absurd h (by decide)
    · rintro ⟨src, hsrc, _, _, hrank, _⟩
      obtain ⟨g0, g8⟩ := getRank_range src hsrc
      exact absurd (by omega) hr

/-- A leaper loop of the attack test. -/
theorem attackLeap_iff (b : Board) (c : Color) (t : PieceType) (offsets : List (Int × Int))
    (sq : Nat) :
    b.attackLeap c t offsets (getFile sq) (getRank sq) = true ↔
      ∃ src, src < 64 ∧ (b.pieceAt src).color = c ∧ (b.pieceAt src).type = t ∧
        (getFile src - getFile sq, getRank src - getRank sq) ∈ offsets := by
  unfold Board.attackLeap
  simp only [List.any_eq_true, Bool.and_eq_true, decide_eq_true_eq]
  constructor
  · rintro ⟨mv, hmv, hon, htype, hcol⟩
    obtain ⟨v1, v2, v3⟩ := exists_square _ _ hon
    refine ⟨_, v1, hcol, htype, ?_⟩
    rw [v2, v3]
    have : (getFile sq + mv.1 - getFile sq, getRank sq + mv.2 - getRank sq) = mv := by
      ext <;> simp
    rw [this]; exact hmv
  · rintro ⟨src, hsrc, hcol, htype, hmem⟩
    have hself := makeSquare_file_rank_self src hsrc
    obtain ⟨g0, g8⟩ := getFile_range src
    obtain ⟨r0, r8⟩ := getRank_range src hsrc
    refine ⟨_, hmem, ?_⟩
    simp only [add_sub_cancel, hself]
    exact ⟨by rw [onBoard_iff]; omega, htype, hcol⟩

theorem mem_knightMoves_iff (df dr : Int) :
    (df, dr) ∈ Board.knightMoves ↔ (|df| = 1 ∧ |dr| = 2) ∨ (|df| = 2 ∧ |dr| = 1) := by
  simp only [Board.knightMoves, List.mem_cons, Prod.mk.injEq, List.mem_singleton,
    List.not_mem_nil, or_false]
  constructor
  · intro h
    rcases h with h | h | h | h | h | h | h | h <;> obtain ⟨rfl, rfl⟩ := h <;> decide
  · intro h
    rcases h with ⟨h1, h2⟩ | ⟨h1, h2⟩
    · rcases (abs_eq (by decide)).mp h1 with rfl | rfl <;>
        rcases (abs_eq (by decide)).mp h2 with rfl | rfl <;> decide
    · rcases (abs_eq (by decide)).mp h1 with rfl | rfl <;>
        rcases (abs_eq (by decide)).mp h2 with rfl | rfl <;> decide

theorem mem_kingMoves_iff (df dr : Int) :
    (df, dr) ∈ Board.kingMoves ↔ |df| ≤ 1 ∧ |dr| ≤ 1 ∧ (df ≠ 0 ∨ dr ≠ 0) := by
  simp only [Board.kingMoves, List.mem_cons, Prod.mk.injEq, List.mem_singleton,
    List.not_mem_nil, or_false]
  constructor
  · intro h
    rcases h with h | h | h | h | h | h | h | h <;> obtain ⟨rfl, rfl⟩ := h <;> decide
  · rintro ⟨h1, h2, h3⟩
    rw [abs_le] at h1 h2
    have hf : df = -1 ∨ df = 0 ∨ df = 1 := by omega
    have hr : dr = -1 ∨ dr = 0 ∨ dr = 1 := by omega
    rcases hf with rfl | rfl | rfl <;> rcases hr with rfl | rfl | rfl <;> simp at h3 ⊢

theorem diagDirs_isStep (d : Int × Int) (h : d ∈ Board.diagDirs) : Board.IsStep d := by
  simp only [Board.diagDirs, List.mem_cons, List.mem_singleton, List.not_mem_nil, or_false] at h
  rcases h with rfl | rfl | rfl | rfl <;> simp [Board.IsStep]

theorem straightDirs_isStep (d : Int × Int) (h : d ∈ Board.straightDirs) : Board.IsStep d := by
  simp only [Board.straightDirs, List.mem_cons, List.mem_singleton, List.not_mem_nil,
    or_false] at h
  rcases h with rfl | rfl | rfl | rfl <;> simp [Board.IsStep]

/-- A sliding loop of the attack test started one step from `sq`: it answers true
exactly when a piece of the colour and of one of the two kinds stands on that line
with every cell between it and `sq` empty. -/
theorem attackRay_iff_clearLine (b : Board) (c : Color) (t1 t2 : PieceType)
    (h1 : t1 ≠ PieceType.None) (h2 : t2 ≠ PieceType.None) (sq : Nat) (hsq : sq < 64)
    (d : Int × Int) (hd : Board.IsStep d) :
    Board.attackRay b c t1 t2 d.1 d.2 8 (getFile sq + d.1) (getRank sq + d.2) = true ↔
      ∃ src, src < 64 ∧ (b.pieceAt src).color = c ∧
        ((b.pieceAt src).type = t1 ∨ (b.pieceAt src).type = t2) ∧
        b.ClearLine src sq d.1 d.2 := by
  obtain ⟨df, dr⟩ := d
  obtain ⟨hdf, hdr, hne⟩ := hd
  simp only at hdf hdr hne ⊢
  obtain ⟨f0, f8⟩ := getFile_range sq
  obtain ⟨r0, r8⟩ := getRank_range sq hsq
  rw [attackRay_iff]
  constructor
  · rintro ⟨k, hk, hon, hbetween, _, hcol, htype⟩
    have hlast := (onBoard_iff _ _).mp (hon k (le_refl k))
    obtain ⟨v1, v2, v3⟩ := exists_square _ _ (hon k (le_refl k))
    refine ⟨_, v1, hcol, htype, k + 1, ?_, by omega, ?_, ?_, ?_⟩
    · rcases hdf with rfl | rfl | rfl <;> rcases hdr with rfl | rfl | rfl <;>
        simp only [mul_neg, mul_one, mul_zero, add_zero, ne_eq, not_true_eq_false,
          or_self] at hlast hne <;> omega
    · rw [v2]; push_cast; ring
    · rw [v3]; push_cast; ring
    · intro j hj hj1
      obtain ⟨i, rfl⟩ : ∃ i, j = i + 1 := ⟨j - 1, by omega⟩
      have := hbetween i (by omega)
      rw [← this]; congr 3 <;> push_cast <;> ring
  · rintro ⟨src, hsrc, hcol, htype, k, hk8, hk1, hfile, hrank, hbetween⟩
    obtain ⟨i, rfl⟩ : ∃ i, k = i + 1 := ⟨k - 1, by omega⟩
    have hself := makeSquare_file_rank_self src hsrc
    obtain ⟨g0, g8⟩ := getFile_range src
    obtain ⟨q0, q8⟩ := getRank_range src hsrc
    have e : makeSquare (getFile sq + df + i * df) (getRank sq + dr + i * dr) = src := by
      rw [← hself, hfile, hrank]; congr 1 <;> push_cast <;> ring
    refine ⟨i, by omega, ?_, ?_, ?_, ?_, ?_⟩
    · intro j hj
      rw [onBoard_iff]
      push_cast at hfile hrank
      rcases hdf with rfl | rfl | rfl <;> rcases hdr with rfl | rfl | rfl <;>
        simp only [mul_neg, mul_one, mul_zero, add_zero, ne_eq, not_true_eq_false,
          or_self] at hfile hrank hne ⊢ <;> omega
    · intro j hj
      have := hbetween (j + 1) (by omega) (by omega)
      rw [← this]; congr 3 <;> push_cast <;> ring
    · rw [e]
      unfold Piece.isNone
      rcases htype with ht | ht <;> rw [ht] <;> simp [h1, h2]
    · rw [e]; exact hcol
    · rw [e]; exact htype

/-- C24. Attack detection matches its definition: for every board, square `sq < 64`
and colour `c`, `Board::isSquareAttacked(sq, c)` is true iff some cell `0..63` holds a
piece of colour `c` that is a pawn one rank behind `sq` (in the direction of advance
of `c`) on an adjacent file, or a knight a knight-leap away, or a bishop or queen on
a diagonal of `sq` with every cell strictly between empty, or a rook or queen on the
file or rank of `sq` with every cell strictly between empty, or a king on an adjacent
cell. -/
theorem isSquareAttacked_iff_attackedBy (b : Board) (sq : Nat) (c : Color) (hsq : sq < 64) :
    b.isSquareAttacked sq c = true ↔ b.AttackedBy sq c := by
  have hB : PieceType.Bishop ≠ PieceType.None := by decide
  have hQ : PieceType.Queen ≠ PieceType.None := by decide
  have hR : PieceType.Rook ≠ PieceType.None := by decide
  unfold Board.isSquareAttacked Board.AttackedBy Board.Attacks
  simp only [Bool.or_eq_true, List.any_eq_true]
  rw [attackPawn_iff, attackLeap_iff, attackLeap_iff]
  constructor
  · rintro ((((h | h) | h) | h) | h)
    · obtain ⟨src, h1, h2, h3, h4, h5⟩ := h
      exact ⟨src, h1, h2, Or.inl ⟨h3, h4, h5⟩⟩
    · obtain ⟨src, h1, h2, h3, h4⟩ := h
      exact ⟨src, h1, h2, Or.inr (Or.inl ⟨h3, (mem_knightMoves_iff _ _).mp h4⟩)⟩
    · obtain ⟨d, hd, hray⟩ := h
      obtain ⟨src, h1, h2, h3, h4⟩ :=
        (attackRay_iff_clearLine b c _ _ hB hQ sq hsq d (diagDirs_isStep d hd)).mp hray
      exact ⟨src, h1, h2, Or.inr (Or.inr (Or.inl ⟨h3, d, hd, h4⟩))⟩
    · obtain ⟨d, hd, hray⟩ := h
      obtain ⟨src, h1, h2, h3, h4⟩ :=
        (attackRay_iff_clearLine b c _ _ hR hQ sq hsq d (straightDirs_isStep d hd)).mp hray
      exact ⟨src, h1, h2, Or.inr (Or.inr (Or.inr (Or.inl ⟨h3, d, hd, h4⟩)))⟩
    · obtain ⟨src, h1, h2, h3, h4⟩ := h
      obtain ⟨k1, k2, k3⟩ := (mem_kingMoves_iff _ _).mp h4
      refine ⟨src, h1, h2, Or.inr (Or.inr (Or.inr (Or.inr ⟨h3, k1, k2, ?_⟩)))⟩
      rcases k3 with k3 | k3
      · left; intro e; apply k3; omega
      · right; intro e; apply k3; omega
  · rintro ⟨src, h1, h2, h | h | h | h | h⟩
    · exact Or.inl (Or.inl (Or.inl (Or.inl ⟨src, h1, h2, h.1, h.2.1, h.2.2⟩)))
    · exact Or.inl (Or.inl (Or.inl (Or.inr
        ⟨src, h1, h2, h.1, (mem_knightMoves_iff _ _).mpr h.2⟩)))
    · obtain ⟨h3, d, hd, h4⟩ := h
      exact Or.inl (Or.inl (Or.inr ⟨d, hd,
        (attackRay_iff_clearLine b c _ _ hB hQ sq hsq d (diagDirs_isStep d hd)).mpr
          ⟨src, h1, h2, h3, h4⟩⟩))
    · obtain ⟨h3, d, hd, h4⟩ := h
      exact Or.inl (Or.inr ⟨d, hd,
        (attackRay_iff_clearLine b c _ _ hR hQ sq hsq d (straightDirs_isStep d hd)).mpr
          ⟨src, h1, h2, h3, h4⟩⟩)
    · obtain ⟨h3, k1, k2, k3⟩ := h
      refine Or.inr ⟨src, h1, h2, h3, (mem_kingMoves_iff _ _).mpr ⟨k1, k2, ?_⟩⟩
      rcases k3 with k3 | k3
      · left; intro e; apply k3; omega
      · right; intro e; apply k3; omega

set_option maxRecDepth 1000000 in
theorem isSquareAttacked_iff_attackedBy_witness :
    7 < 64 ∧ (rookEnPrise.isSquareAttacked 7 Color.Black = true ↔
      rookEnPrise.AttackedBy 7 Color.Black) ∧
    rookEnPrise.isSquareAttacked 7 Color.Black = true ∧
    rookEnPrise.isSquareAttacked 6 Color.Black = false :=
  ⟨by decide, isSquareAttacked_iff_attackedBy rookEnPrise 7 Color.Black (by decide),
    by decide, by decide⟩

/-! ### The starting position in the exchange format -/

set_option maxRecDepth 1000000 in
/-- C40. On the board produced by `setupInitialPosition()` on a fresh board, `toFEN()`
is `rnbqkbnr/pppppppp/8/8/8/8/PPPPPPPP/RNBQKBNR w KQkq - 0 1`, and `setFromFEN` of that
string on an empty board succeeds with the same 64 cells and the same `Position` as
`setupInitialPosition()`. -/
theorem initial_position_toFEN_setFromFEN :
    (Board.setupInitialPosition Board.empty).toFEN = initialFEN ∧
    (Board.setFromFEN Board.empty initialFEN).isSome = true ∧
    (Board.setFromFEN Board.empty initialFEN).map
        (fun b => (List.range 64).map b.pieceAt) =
      some ((List.range 64).map (Board.setupInitialPosition Board.empty).pieceAt) ∧
    (Board.setFromFEN Board.empty initialFEN).map (fun b => b.position) =
      some (Board.setupInitialPosition Board.empty).position := by
  refine ⟨by decide, by decide, by decide, by decide⟩

/-! ### The captures handed to quiescence -/

set_option maxRecDepth 1000000 in
/-- C39 (counterexample). In `r3k3/1P6/8/8/8/8/8/4K3 w - - 0 1` the legal move b7xa8=Q
lands on the black rook, but its flag is `Promotion`, and `generateCaptures(White)`
does not contain it. -/
theorem capturing_promotion_not_in_captures :
    takesAndPromotes ∈ generateLegalMoves promotionCapture Color.White ∧
    promotionCapture.pieceAt takesAndPromotes.to_ = ⟨PieceType.Rook, Color.Black⟩ ∧
    takesAndPromotes ∉ generateCaptures promotionCapture Color.White := by
  decide

/-- C39 (amended). For every board and colour `c`: every move of
`generateLegalMoves(c)` whose flag is not `Promotion` and whose destination holds a
piece of the opposite colour, or which is an en-passant capture, is in
`generateCaptures(c)`; and `generateCaptures(c)` is the sub-list of
`generateLegalMoves(c)` of the moves with flag `Capture` or `EnPassant`, in the same
order. -/
theorem generateCaptures_sublist (b : Board) (c : Color) :
    (∀ m ∈ generateLegalMoves b c,
      ((m.flag ≠ MoveFlag.Promotion ∧ (b.pieceAt m.to_).isNone = false ∧
          (b.pieceAt m.to_).color = oppositeColor c) ∨ m.flag = MoveFlag.EnPassant) →
      m ∈ generateCaptures b c) ∧
    generateCaptures b c = (generateLegalMoves b c).filter
      (fun x => decide (x.flag = MoveFlag.Capture ∨ x.flag = MoveFlag.EnPassant)) ∧
    (generateCaptures b c).Sublist (generateLegalMoves b c) := by
  have hfilter : generateCaptures b c = (generateLegalMoves b c).filter
      (fun x => decide (x.flag = MoveFlag.Capture ∨ x.flag = MoveFlag.EnPassant)) := by
    unfold generateCaptures
    congr 1
    funext x
    simp [Move.isCapture]
  refine ⟨?_, hfilter, ?_⟩
  · intro m hm hcap
    rw [hfilter, List.mem_filter]
    refine ⟨hm, ?_⟩
    rw [decide_eq_true_eq]
    rcases hcap with ⟨hprom, hnone, _⟩ | hep
    · obtain ⟨⟨sq, hsq, hmem⟩, _⟩ := (mem_generateLegalMoves_iff b c m).mp hm
      obtain ⟨_, _, _, _, hshape⟩ := movesFrom_shape b c sq hsq m hmem
      rcases hshape with h | h | h | h | h | h
      · rw [h.2.2] at hnone; exact absurd hnone (by decide)
      · exact Or.inl h.1
      · rw [h.2.2.2] at hnone; exact absurd hnone (by decide)
      · exact absurd h.1 hprom
      · exact Or.inr h.1
      · rcases h.2.2.2 with hs | hs
        · obtain ⟨e, _, _, h3, _, _⟩ := mem_castleKingside b sq c m hs
          rw [e] at hnone; rw [h3] at hnone; exact absurd hnone (by decide)
        · obtain ⟨e, _, _, h3, _, _, _⟩ := mem_castleQueenside b sq c m hs
          rw [e] at hnone; rw [h3] at hnone; exact absurd hnone (by decide)
    · exact Or.inr hep
  · unfold generateCaptures
    exact List.filter_sublist _

set_option maxRecDepth 1000000 in
/-- Witness of C39: in `rookEnPrise` the capture b7xh1 of Black is a legal move and is
in `generateCaptures(Black)`, which is the list of the legal moves with flag `Capture`
or `EnPassant`. -/
theorem generateCaptures_sublist_witness :
    bishopTakesRook ∈ generateLegalMoves rookEnPrise Color.Black ∧
    bishopTakesRook ∈ generateCaptures rookEnPrise Color.Black ∧
    generateCaptures rookEnPrise Color.Black =
      (generateLegalMoves rookEnPrise Color.Black).filter
        (fun x => decide (x.flag = MoveFlag.Capture ∨ x.flag = MoveFlag.EnPassant)) ∧
    (generateCaptures rookEnPrise Color.Black).Sublist
      (generateLegalMoves rookEnPrise Color.Black) :=
  ⟨by decide,
    (generateCaptures_sublist rookEnPrise Color.Black).1 bishopTakesRook (by decide)
      (Or.inl (by decide)),
    (generateCaptures_sublist rookEnPrise Color.Black).2⟩

/-! ### Captures in the move ordering -/

set_option maxRecDepth 1000000 in
/-- C31 (failing). In `4k3/8/8/8/8/8/4p3/4K3 w - - 0 1` the legal capture Ke1xe2 scores
`100 * 10 - 20000 + 110 = -18890` and the quiet move Ke1-d2 scores 120: the capture
scores lower, and `orderMoves` puts it behind both quiet moves. -/
theorem king_capture_ordered_last :
    kingTakes ∈ generateLegalMoves kingTakesPawn Color.White ∧
    kingSteps ∈ generateLegalMoves kingTakesPawn Color.White ∧
    kingTakes.flag = MoveFlag.Capture ∧ kingSteps.flag = MoveFlag.Normal ∧
    scoreMoveForOrdering kingTakesPawn kingTakes Color.White = -18890 ∧
    scoreMoveForOrdering kingTakesPawn kingSteps Color.White = 120 ∧
    orderMoves kingTakesPawn (generateLegalMoves kingTakesPawn Color.White) Color.White =
      [kingSteps, ⟨4, 13, MoveFlag.Normal, PieceType.None⟩, kingTakes] := by
  decide

/-! ### The window of recent positions -/

/-- One call of `checkPositionRepetition`: 500 when the board-only part occurs at
least twice among the entries, and the entries are kept; otherwise 0, and the part is
appended, the oldest entry leaving when there are more than 10. -/
theorem checkPositionRepetition_cases (recent : List (List Char)) (fen : List Char) :
    (2 ≤ recent.count (boardPart fen) ∧ checkPositionRepetition recent fen = (500, recent)) ∨
    (recent.count (boardPart fen) < 2 ∧
      checkPositionRepetition recent fen =
        (0, if (recent ++ [boardPart fen]).length > 10 then (recent ++ [boardPart fen]).drop 1
          else recent ++ [boardPart fen])) := by
  unfold checkPositionRepetition boardPart
  simp only [List.count, ge_iff_le]
  have e : List.countP (fun pos => decide (pos = List.takeWhile (fun c => decide (c ≠ ' ')) fen))
      recent = List.countP (fun x => x == List.takeWhile (fun c => decide (c ≠ ' ')) fen)
      recent := by
    congr 1
    funext x
    generalize List.takeWhile (fun c => decide (c ≠ ' ')) fen = T
    by_cases hx : x = T <;> simp [hx]
  rw [e]
  by_cases h : 2 ≤ List.countP (fun x => x == List.takeWhile (fun c => decide (c ≠ ' ')) fen)
      recent
  · left; exact ⟨h, by rw [if_pos h]⟩
  · right; exact ⟨Nat.lt_of_not_le h, by rw [if_neg h]⟩

theorem lastEntries_append_of_le (recent acc : List (List Char)) (part : List Char) :
    lastEntries 10
        ((if (recent ++ [part]).length > 10 then (recent ++ [part]).drop 1
          else recent ++ [part]) ++ acc) =
      lastEntries 10 (recent ++ [part] ++ acc) ∧
    ((recent.length ≤ 10) →
      (if (recent ++ [part]).length > 10 then (recent ++ [part]).drop 1
        else recent ++ [part]).length ≤ 10) := by
  constructor
  · by_cases h : (recent ++ [part]).length > 10
    · rw [if_pos h]
      unfold lastEntries
      cases recent with
      | nil => simp at h
      | cons a t =>
        have hl : ((a :: t ++ [part]).drop 1 ++ acc) = (a :: t ++ [part] ++ acc).drop 1 := rfl
        rw [hl, List.drop_drop]
        congr 1
        simp only [List.length_drop, List.length_append, List.length_singleton,
          List.length_cons] at h ⊢
        omega
    · rw [if_neg h]
  · intro hle
    by_cases h : (recent ++ [part]).length > 10
    · rw [if_pos h]
      simp only [List.length_drop, List.length_append, List.length_singleton] at h ⊢
      omega
    · rw [if_neg h]
      omega

theorem recordedParts_cons_zero (fen : List Char) (fens : List (List Char)) (ps : List Int) :
    recordedParts (fen :: fens) (0 :: ps) = boardPart fen :: recordedParts fens ps := by
  simp [recordedParts]

theorem recordedParts_cons_penalty (fen : List Char) (fens : List (List Char)) (ps : List Int) :
    recordedParts (fen :: fens) (500 :: ps) = recordedParts fens ps := by
  simp [recordedParts]

theorem recordedParts_length (fens : List (List Char)) :
    ∀ ps : List Int, ps.length = fens.length → (recordedParts fens ps).length = ps.count 0 := by
  induction fens with
  | nil =>
    intro ps h
    cases ps with
    | nil => rfl
    | cons p ps => simp at h
  | cons f fs ih =>
    intro ps h
    cases ps with
    | nil => simp at h
    | cons p ps =>
      have hrec := ih ps (by simpa using h)
      unfold recordedParts at hrec ⊢
      rw [List.length_map] at hrec ⊢
      simp only [List.zip_cons_cons, List.filter_cons, List.count_cons]
      by_cases hp : p = 0
      · simp [hp, hrec]
      · have hp2 : ¬ (0 = p) := fun e => hp e.symm
        simp [hp, hp2, hrec]

/-- The window after a sequence of calls, from any window of at most 10 entries. -/
theorem repetitionCalls_window (fens : List (List Char)) :
    ∀ recent : List (List Char), recent.length ≤ 10 →
      (repetitionCalls recent fens).1.length = fens.length ∧
      (repetitionCalls recent fens).2 =
        lastEntries 10 (recent ++ recordedParts fens (repetitionCalls recent fens).1) := by
  induction fens with
  | nil =>
    intro recent hle
    refine ⟨rfl, ?_⟩
    have e : recordedParts [] (repetitionCalls recent []).1 = [] := rfl
    rw [e, List.append_nil]
    unfold lastEntries
    rw [Nat.sub_eq_zero_of_le hle, List.drop_zero]
    rfl
  | cons fen rest ih =>
    intro recent hle
    rw [repetitionCalls]
    rcases checkPositionRepetition_cases recent fen with ⟨_, h⟩ | ⟨_, h⟩
    · rw [h]
      obtain ⟨h1, h2⟩ := ih recent hle
      refine ⟨?_, ?_⟩
      · show (500 :: (repetitionCalls recent rest).1).length = (fen :: rest).length
        rw [List.length_cons, List.length_cons, h1]
      · show (repetitionCalls recent rest).2 = lastEntries 10
          (recent ++ recordedParts (fen :: rest) (500 :: (repetitionCalls recent rest).1))
        rw [recordedParts_cons_penalty, h2]
    · rw [h]
      generalize hR : (if (recent ++ [boardPart fen]).length > 10 then
        (recent ++ [boardPart fen]).drop 1 else recent ++ [boardPart fen]) = R
      obtain ⟨hlast, hlen⟩ := lastEntries_append_of_le recent
        (recordedParts rest (repetitionCalls R rest).1) (boardPart fen)
      rw [hR] at hlast hlen
      obtain ⟨h1, h2⟩ := ih R (hlen hle)
      refine ⟨?_, ?_⟩
      · show (0 :: (repetitionCalls R rest).1).length = (fen :: rest).length
        rw [List.length_cons, List.length_cons, h1]
      · show (repetitionCalls R rest).2 = lastEntries 10
          (recent ++ recordedParts (fen :: rest) (0 :: (repetitionCalls R rest).1))
        rw [recordedParts_cons_zero, h2, hlast, List.append_assoc]
        rfl

set_option maxRecDepth 1000000 in
/-- C33 (counterexample). Three calls with the starting position, from an empty
window: the third call returns 500 and records nothing, so after 3 calls the window
holds 2 entries, not the parts of the 3 most recent calls. -/
theorem repetition_window_skips_penalised_calls :
    (repetitionCalls [] threeCalls).1 = [0, 0, 500] ∧
    (repetitionCalls [] threeCalls).2 = [boardPart initialFEN, boardPart initialFEN] ∧
    (repetitionCalls [] threeCalls).2.length = 2 ∧ min threeCalls.length 10 = 3 := by
  decide

/-- C33 (amended). Starting from an empty window, after any sequence of calls of
`checkPositionRepetition` the window holds the board-only parts of the most recent
`min(k, 10)` calls that returned 0, in call order, `k` being the number of calls that
returned 0, and never more than 10 entries; and a call returns 500 when its
board-only part occurs at least twice among the entries present before the call, and
0 otherwise. -/
theorem repetition_window (fens : List (List Char)) :
    (repetitionCalls [] fens).2 =
      lastEntries 10 (recordedParts fens (repetitionCalls [] fens).1) ∧
    (repetitionCalls [] fens).2.length =
      min (recordedParts fens (repetitionCalls [] fens).1).length 10 ∧
    (repetitionCalls [] fens).2.length ≤ 10 ∧
    (recordedParts fens (repetitionCalls [] fens).1).length =
      (repetitionCalls [] fens).1.count 0 ∧
    ∀ (recent : List (List Char)) (fen : List Char),
      (checkPositionRepetition recent fen).1 =
        if 2 ≤ recent.count (boardPart fen) then 500 else 0 := by
  obtain ⟨hlen, hwin⟩ := repetitionCalls_window fens [] (by simp)
  rw [List.nil_append] at hwin
  have hl : (repetitionCalls [] fens).2.length =
      min (recordedParts fens (repetitionCalls [] fens).1).length 10 := by
    rw [hwin]
    unfold lastEntries
    rw [List.length_drop]
    omega
  refine ⟨hwin, hl, by rw [hl]; exact min_le_right _ _,
    recordedParts_length fens _ hlen, ?_⟩
  intro recent fen
  rcases checkPositionRepetition_cases recent fen with ⟨hc, h⟩ | ⟨hc, h⟩
  · rw [h, if_pos hc]
  · rw [h, if_neg (Nat.not_le.mpr hc)]

/-! ### The pawn-structure term -/

namespace AI.Evaluator

theorem foldl_add_sum (g : Int → Int) (l : List Int) :
    ∀ s : Int, l.foldl (fun score x => score + g x) s = s + (l.map g).sum := by
  induction l with
  | nil => intro s; simp
  | cons a t ih => intro s; simp only [List.foldl_cons, List.map_cons, List.sum_cons, ih]; ring

/-- The pawn counters of the first loop after the ranks `l` of a file. -/
theorem countLoop (board : Board) (file : Int) (l : List Int) :
    ∀ cnt : Int × Int,
      l.foldl (fun (cnt : Int × Int) rank =>
        if (board.pieceAt (makeSquare file rank)).type = PieceType.Pawn then
          if (board.pieceAt (makeSquare file rank)).isWhite then (cnt.1 + 1, cnt.2)
          else (cnt.1, cnt.2 + 1)
        else cnt) cnt =
      (cnt.1 + (l.countP fun rank =>
          decide ((board.pieceAt (makeSquare file rank)).type = PieceType.Pawn ∧
            (board.pieceAt (makeSquare file rank)).color = Color.White) : Nat),
        cnt.2 + (l.countP fun rank =>
          decide ((board.pieceAt (makeSquare file rank)).type = PieceType.Pawn ∧
            (board.pieceAt (makeSquare file rank)).color ≠ Color.White) : Nat)) := by
  induction l with
  | nil => intro cnt; simp
  | cons a t ih =>
    intro cnt
    rw [List.foldl_cons, ih]
    by_cases hp : (board.pieceAt (makeSquare file a)).type = PieceType.Pawn
    · by_cases hw : (board.pieceAt (makeSquare file a)).color = Color.White
      · simp [hp, hw, Piece.isWhite, List.countP_cons]; ring
      · simp [hp, hw, Piece.isWhite, List.countP_cons]; ring
    · simp [hp, List.countP_cons]

theorem mem_eight (x : Int) : x ∈ eight ↔ 0 ≤ x ∧ x < 8 := by
  simp only [eight, List.mem_cons, List.mem_singleton, List.not_mem_nil, or_false]
  omega

theorem foldl_add_sum_of_mem (f : Int → Int → Int) (g : Int → Int) (l : List Int)
    (h : ∀ x ∈ l, ∀ s, f s x = s + g x) :
    ∀ s : Int, l.foldl f s = s + (l.map g).sum := by
  induction l with
  | nil => intro s; simp
  | cons a t ih =>
    intro s
    rw [List.foldl_cons, h a (List.mem_cons_self a t),
      ih (fun x hx => h x (List.mem_cons_of_mem a hx))]
    simp only [List.map_cons, List.sum_cons]
    ring

/-- A cell holds the pawn of a colour: by its type and colour. -/
theorem pawn_cell_iff (p : Piece) (c : Color) :
    p = ⟨PieceType.Pawn, c⟩ ↔ p.type = PieceType.Pawn ∧ p.color = c := by
  constructor
  · intro h; rw [h]; exact ⟨rfl, rfl⟩
  · rintro ⟨h1, h2⟩; cases p; simp only at h1 h2; rw [h1, h2]

/-- The counters of the first loop are the numbers of White and of Black pawns of the
file, when every pawn is White or Black. -/
theorem countLoop_eight (board : Board)
    (hpawn : ∀ sq, sq < 64 → (board.pieceAt sq).type = PieceType.Pawn →
      (board.pieceAt sq).color = Color.White ∨ (board.pieceAt sq).color = Color.Black)
    (file : Int) (hfile : file ∈ eight) :
    eight.foldl (fun (cnt : Int × Int) rank =>
        if (board.pieceAt (makeSquare file rank)).type = PieceType.Pawn then
          if (board.pieceAt (makeSquare file rank)).isWhite then (cnt.1 + 1, cnt.2)
          else (cnt.1, cnt.2 + 1)
        else cnt) (0, 0) =
      (pawnsOnFile board Color.White file, pawnsOnFile board Color.Black file) := by
  rw [countLoop]
  unfold pawnsOnFile
  simp only [zero_add]
  rw [mem_eight] at hfile
  have hw : (eight.countP fun rank =>
      decide ((board.pieceAt (makeSquare file rank)).type = PieceType.Pawn ∧
        (board.pieceAt (makeSquare file rank)).color = Color.White)) =
      eight.countP fun rank =>
        decide (board.pieceAt (makeSquare file rank) = ⟨PieceType.Pawn, Color.White⟩) := by
    apply List.countP_congr
    intro rank _
    simp only [decide_eq_true_eq]
    exact (pawn_cell_iff _ _).symm
  have hb : (eight.countP fun rank =>
      decide ((board.pieceAt (makeSquare file rank)).type = PieceType.Pawn ∧
        (board.pieceAt (makeSquare file rank)).color ≠ Color.White)) =
      eight.countP fun rank =>
        decide (board.pieceAt (makeSquare file rank) = ⟨PieceType.Pawn, Color.Black⟩) := by
    apply List.countP_congr
    intro rank hrank
    rw [mem_eight] at hrank
    simp only [decide_eq_true_eq]
    rw [pawn_cell_iff]
    have hsq := (makeSquare_valid file rank
      ((isSquareValid_iff file rank).mpr ⟨hfile.1, hfile.2, hrank.1, hrank.2⟩)).1
    constructor
    · rintro ⟨h1, h2⟩
      rcases hpawn _ hsq h1 with h | h
      · exact absurd h h2
      · exact ⟨h1, h⟩
    · rintro ⟨h1, h2⟩
      refine ⟨h1, ?_⟩
      rw [h2]; decide
  rw [hw, hb]

/-- The first loop of `evaluatePawnStructure` is the doubled-pawn term. -/
theorem doubledPawns_eq (board : Board)
    (hpawn : ∀ sq, sq < 64 → (board.pieceAt sq).type = PieceType.Pawn →
      (board.pieceAt sq).color = Color.White ∨ (board.pieceAt sq).color = Color.Black) :
    doubledPawns board = doubledTerm board := by
  unfold doubledPawns doubledTerm
  rw [foldl_add_sum_of_mem _ (fun file =>
    (if pawnsOnFile board Color.White file > 1 then
      -20 * (pawnsOnFile board Color.White file - 1) else 0) +
    (if pawnsOnFile board Color.Black file > 1 then
      20 * (pawnsOnFile board Color.Black file - 1) else 0))]
  · simp
  · intro file hfile s
    simp only
    rw [countLoop_eight board hpawn file hfile]
    simp only
    split_ifs <;> ring

/-- One rank of the second loop of `evaluatePawnStructure`. -/
theorem flagsStep (board : Board) (file rank : Int) (fl : PawnFlags) :
    ([-1, 1] : List Int).foldl (fun (fl : PawnFlags) df =>
        if file + df ≥ 0 ∧ file + df < 8 then
          if (board.pieceAt (makeSquare (file + df) rank)).type = PieceType.Pawn then
            if (board.pieceAt (makeSquare (file + df) rank)).isWhite then
              { fl with hasAdjacentWhite := true }
            else { fl with hasAdjacentBlack := true }
          else fl
        else fl)
      (if (board.pieceAt (makeSquare file rank)).type = PieceType.Pawn then
        if (board.pieceAt (makeSquare file rank)).isWhite then { fl with hasWhitePawn := true }
        else { fl with hasBlackPawn := true }
      else fl) =
    { hasWhitePawn := fl.hasWhitePawn || pawnAt board true file rank,
      hasBlackPawn := fl.hasBlackPawn || pawnAt board false file rank,
      hasAdjacentWhite := fl.hasAdjacentWhite ||
        ((decide (0 ≤ file + -1 ∧ file + -1 < 8) && pawnAt board true (file + -1) rank) ||
          (decide (0 ≤ file + 1 ∧ file + 1 < 8) && pawnAt board true (file + 1) rank)),
      hasAdjacentBlack := fl.hasAdjacentBlack ||
        ((decide (0 ≤ file + -1 ∧ file + -1 < 8) && pawnAt board false (file + -1) rank) ||
          (decide (0 ≤ file + 1 ∧ file + 1 < 8) && pawnAt board false (file + 1) rank)) } := by
  obtain ⟨hw, hb, aw, ab⟩ := fl
  simp only [List.foldl_cons, List.foldl_nil, pawnAt, ge_iff_le]
  generalize (board.pieceAt (makeSquare file rank)).isWhite = w0
  generalize (board.pieceAt (makeSquare (file + -1) rank)).isWhite = w1
  generalize (board.pieceAt (makeSquare (file + 1) rank)).isWhite = w2
  by_cases h0 : (board.pieceAt (makeSquare file rank)).type = PieceType.Pawn <;>
    by_cases v1 : 0 ≤ file + -1 ∧ file + -1 < 8 <;>
    by_cases h1 : (board.pieceAt (makeSquare (file + -1) rank)).type = PieceType.Pawn <;>
    by_cases v2 : 0 ≤ file + 1 ∧ file + 1 < 8 <;>
    by_cases h2 : (board.pieceAt (makeSquare (file + 1) rank)).type = PieceType.Pawn <;>
    cases w0 <;> cases w1 <;> cases w2 <;>
    simp only [h0, v1, h1, v2, h2, if_true, if_false, decide_True, decide_False,
      Bool.true_and, Bool.false_and, Bool.or_false, Bool.or_true, Bool.false_or,
      Bool.false_eq_true, Bool.true_eq_false, eq_self, Bool.not_true,
      Bool.not_false, and_self, and_true, true_and]

/-- The flags of the second loop after the ranks `l` of a file. -/
theorem flagsLoop (board : Board) (file : Int) (l : List Int) :
    ∀ fl : PawnFlags,
      l.foldl (fun (fl : PawnFlags) rank =>
        ([-1, 1] : List Int).foldl (fun (fl : PawnFlags) df =>
            if file + df ≥ 0 ∧ file + df < 8 then
              if (board.pieceAt (makeSquare (file + df) rank)).type = PieceType.Pawn then
                if (board.pieceAt (makeSquare (file + df) rank)).isWhite then
                  { fl with hasAdjacentWhite := true }
                else { fl with hasAdjacentBlack := true }
              else fl
            else fl)
          (if (board.pieceAt (makeSquare file rank)).type = PieceType.Pawn then
            if (board.pieceAt (makeSquare file rank)).isWhite then
              { fl with hasWhitePawn := true }
            else { fl with hasBlackPawn := true }
          else fl)) fl =
      { hasWhitePawn := fl.hasWhitePawn || l.any (pawnAt board true file),
        hasBlackPawn := fl.hasBlackPawn || l.any (pawnAt board false file),
        hasAdjacentWhite := fl.hasAdjacentWhite ||
          ((decide (0 ≤ file + -1 ∧ file + -1 < 8) && l.any (pawnAt board true (file + -1))) ||
            (decide (0 ≤ file + 1 ∧ file + 1 < 8) && l.any (pawnAt board true (file + 1)))),
        hasAdjacentBlack := fl.hasAdjacentBlack ||
          ((decide (0 ≤ file + -1 ∧ file + -1 < 8) && l.any (pawnAt board false (file + -1))) ||
            (decide (0 ≤ file + 1 ∧ file + 1 < 8) &&
              l.any (pawnAt board false (file + 1)))) } := by
  induction l with
  | nil =>
    intro fl
    simp only [List.foldl_nil, List.any_nil, Bool.and_false, Bool.or_false]
  | cons a t ih =>
    intro fl
    rw [List.foldl_cons, flagsStep, ih]
    simp only [List.any_cons]
    generalize decide (0 ≤ file + -1 ∧ file + -1 < 8) = v1
    generalize decide (0 ≤ file + 1 ∧ file + 1 < 8) = v2
    congr 1
    · rw [Bool.or_assoc]
    · rw [Bool.or_assoc]
    · cases v1 <;> cases v2 <;> simp [Bool.or_assoc, Bool.or_comm, Bool.or_left_comm]
    · cases v1 <;> cases v2 <;> simp [Bool.or_assoc, Bool.or_comm, Bool.or_left_comm]

/-- Some rank of the file holds a pawn of the colour: the count is positive. -/
theorem any_pawnAt (board : Board)
    (hpawn : ∀ sq, sq < 64 → (board.pieceAt sq).type = PieceType.Pawn →
      (board.pieceAt sq).color = Color.White ∨ (board.pieceAt sq).color = Color.Black)
    (c : Color) (w : Bool) (hcw : (c = Color.White ∧ w = true) ∨ (c = Color.Black ∧ w = false))
    (file : Int) (hfile : 0 ≤ file ∧ file < 8) :
    eight.any (pawnAt board w file) = decide (pawnsOnFile board c file > 0) := by
  rw [Bool.eq_iff_iff, List.any_eq_true, decide_eq_true_eq]
  unfold pawnsOnFile
  rw [gt_iff_lt, Nat.cast_pos, List.countP_pos_iff]
  have hcell : ∀ rank ∈ eight, (pawnAt board w file rank = true ↔
      board.pieceAt (makeSquare file rank) = ⟨PieceType.Pawn, c⟩) := by
    intro rank hrank
    rw [mem_eight] at hrank
    have hsq := (makeSquare_valid file rank
      ((isSquareValid_iff file rank).mpr ⟨hfile.1, hfile.2, hrank.1, hrank.2⟩)).1
    unfold pawnAt Piece.isWhite
    rw [pawn_cell_iff]
    simp only [Bool.and_eq_true, decide_eq_true_eq]
    rcases hcw with ⟨rfl, rfl⟩ | ⟨rfl, rfl⟩
    · constructor
      · rintro ⟨h1, h2⟩; exact ⟨h1, of_decide_eq_true h2⟩
      · rintro ⟨h1, h2⟩; exact ⟨h1, decide_eq_true h2⟩
    · constructor
      · rintro ⟨h1, h2⟩
        rw [decide_eq_false_iff_not] at h2
        rcases hpawn _ hsq h1 with h | h
        · exact absurd h h2
        · exact ⟨h1, h⟩
      · rintro ⟨h1, h2⟩
        refine ⟨h1, ?_⟩
        rw [decide_eq_false_iff_not, h2]; decide
  constructor
  · rintro ⟨rank, hrank, h⟩
    exact ⟨rank, hrank, by rw [decide_eq_true_eq]; exact (hcell rank hrank).mp h⟩
  · rintro ⟨rank, hrank, h⟩
    rw [decide_eq_true_eq] at h
    exact ⟨rank, hrank, (hcell rank hrank).mpr h⟩

theorem any_pawnAt_guarded (board : Board)
    (hpawn : ∀ sq, sq < 64 → (board.pieceAt sq).type = PieceType.Pawn →
      (board.pieceAt sq).color = Color.White ∨ (board.pieceAt sq).color = Color.Black)
    (c : Color) (w : Bool) (hcw : (c = Color.White ∧ w = true) ∨ (c = Color.Black ∧ w = false))
    (file : Int) :
    (decide (0 ≤ file ∧ file < 8) && eight.any (pawnAt board w file)) =
      (decide (0 ≤ file ∧ file < 8) && decide (pawnsOnFile board c file > 0)) := by
  by_cases h : 0 ≤ file ∧ file < 8
  · rw [any_pawnAt board hpawn c w hcw file h]
  · simp only [h, decide_False, Bool.false_and]

/-- The second loop of `evaluatePawnStructure` adds the isolated-pawn term counted per
file. -/
theorem isolatedPawns_eq (board : Board)
    (hpawn : ∀ sq, sq < 64 → (board.pieceAt sq).type = PieceType.Pawn →
      (board.pieceAt sq).color = Color.White ∨ (board.pieceAt sq).color = Color.Black)
    (score : Int) :
    isolatedPawns board score = score + isolatedPerFile board := by
  unfold isolatedPawns isolatedPerFile
  apply foldl_add_sum_of_mem
  intro file hfile s
  rw [mem_eight] at hfile
  simp only
  rw [flagsLoop]
  simp only [Bool.false_or]
  rw [any_pawnAt board hpawn Color.White true (Or.inl ⟨rfl, rfl⟩) file hfile,
    any_pawnAt board hpawn Color.Black false (Or.inr ⟨rfl, rfl⟩) file hfile,
    any_pawnAt_guarded board hpawn Color.White true (Or.inl ⟨rfl, rfl⟩),
    any_pawnAt_guarded board hpawn Color.White true (Or.inl ⟨rfl, rfl⟩),
    any_pawnAt_guarded board hpawn Color.Black false (Or.inr ⟨rfl, rfl⟩),
    any_pawnAt_guarded board hpawn Color.Black false (Or.inr ⟨rfl, rfl⟩)]
  have hn : ∀ c, pawnNextTo board c file =
      ((decide (0 ≤ file + -1 ∧ file + -1 < 8) && decide (pawnsOnFile board c (file + -1) > 0)) ||
        (decide (0 ≤ file + 1 ∧ file + 1 < 8) && decide (pawnsOnFile board c (file + 1) > 0))) := by
    intro c
    unfold pawnNextTo
    simp only [List.any_cons, List.any_nil, Bool.or_false, Int.sub_eq_add_neg]
  rw [← hn, ← hn]
  by_cases hW : pawnsOnFile board Color.White file > 0 <;>
    by_cases hB : pawnsOnFile board Color.Black file > 0 <;>
    cases hNW : pawnNextTo board Color.White file <;>
    cases hNB : pawnNextTo board Color.Black file <;>
    simp [hW, hB] <;> ring

/-- The method `evaluatePawnStructure` is the doubled-pawn term plus the isolated-pawn
term counted per file. -/
theorem evaluatePawnStructure_eq (board : Board)
    (hpawn : ∀ sq, sq < 64 → (board.pieceAt sq).type = PieceType.Pawn →
      (board.pieceAt sq).color = Color.White ∨ (board.pieceAt sq).color = Color.Black) :
    evaluatePawnStructure board = doubledTerm board + isolatedPerFile board := by
  unfold evaluatePawnStructure
  rw [isolatedPawns_eq board hpawn, doubledPawns_eq board hpawn]

end AI.Evaluator

set_option maxRecDepth 1000000 in
/-- C32 (counterexample). With two White pawns on the a-file and no other pawn
(`4k3/8/8/8/8/P7/P7/4K3 w - - 0 1`) `evaluatePawnStructure` is `-20 - 15 = -35`: the
isolated-pawn penalty is taken once for the file, not once for each of the two pawns,
which would give `-20 - 30 = -50`. -/
theorem isolated_penalty_once_per_file :
    Evaluator.evaluatePawnStructure doubledOnA = -35 ∧
    Evaluator.doubledTerm doubledOnA = -20 ∧
    Evaluator.isolatedPerPawn doubledOnA = -30 ∧
    Evaluator.doubledTerm doubledOnA + Evaluator.isolatedPerPawn doubledOnA = -50 := by
  decide

/-- C32 (amended). On a board whose pawns are White or Black, `evaluatePawnStructure`
is the sum over the files of `-20 * (w - 1)` when the file holds `w > 1` White pawns
and `+20 * (k - 1)` when it holds `k > 1` Black pawns, minus 15 for each file that
holds a White pawn and has no White pawn on an adjacent file, plus 15 for each file
that holds a Black pawn and has no Black pawn on an adjacent file. -/
theorem evaluatePawnStructure_per_file (board : Board)
    (hpawn : ∀ sq, sq < 64 → (board.pieceAt sq).type = PieceType.Pawn →
      (board.pieceAt sq).color = Color.White ∨ (board.pieceAt sq).color = Color.Black) :
    Evaluator.evaluatePawnStructure board =
      Evaluator.doubledTerm board + Evaluator.isolatedPerFile board := by
  unfold Evaluator.evaluatePawnStructure
  rw [Evaluator.isolatedPawns_eq board hpawn, Evaluator.doubledPawns_eq board hpawn]

set_option maxRecDepth 1000000 in
/-- Witness of C32: the position with two White pawns on the a-file. -/
theorem evaluatePawnStructure_per_file_witness :
    (∀ sq, sq < 64 → (doubledOnA.pieceAt sq).type = PieceType.Pawn →
      (doubledOnA.pieceAt sq).color = Color.White ∨
        (doubledOnA.pieceAt sq).color = Color.Black) ∧
    Evaluator.evaluatePawnStructure doubledOnA =
      Evaluator.doubledTerm doubledOnA + Evaluator.isolatedPerFile doubledOnA ∧
    Evaluator.doubledTerm doubledOnA + Evaluator.isolatedPerFile doubledOnA = -35 :=
  ⟨by decide, evaluatePawnStructure_per_file doubledOnA (by decide), by decide⟩

/-! ### Termination of the search -/

theorem quiescenceLoopFuel_eq
    (recurseFuel : Int → Int → Color → Board → Int → Option (Int × Board × Int))
    (recurse : Int → Int → Color → Board → Int → Int × Board × Int)
    (h : ∀ a b c bd n, recurseFuel a b c bd n = some (recurse a b c bd n))
    (stop : Bool) (beta : Int) (color : Color) (captures : List Move) :
    ∀ (alpha : Int) (board : Board) (nodes : Int),
      quiescenceLoopFuel recurseFuel stop beta color captures alpha board nodes =
        some (quiescenceLoop recurse stop beta color captures alpha board nodes) := by
  induction captures with
  | nil => intro alpha board nodes; rfl
  | cons m ms ih =>
    intro alpha board nodes
    rw [quiescenceLoopFuel, quiescenceLoop]
    cases stop with
    | true => simp only [if_true]
    | false =>
      simp only [Bool.false_eq_true, if_false, h, Option.some_bind]
      split_ifs <;> first | rfl | exact ih _ _ _

theorem alphaBetaLoopFuel_eq
    (recurseFuel : Int → Int → Color → Board → Int → Option (Int × Board × Int))
    (recurse : Int → Int → Color → Board → Int → Int × Board × Int)
    (h : ∀ a b c bd n, recurseFuel a b c bd n = some (recurse a b c bd n))
    (stop : Bool) (beta : Int) (color : Color) (moves : List Move) :
    ∀ (alpha maxScore : Int) (board : Board) (nodes : Int),
      alphaBetaLoopFuel recurseFuel stop beta color moves alpha maxScore board nodes =
        some (alphaBetaLoop recurse stop beta color moves alpha maxScore board nodes) := by
  induction moves with
  | nil => intro alpha maxScore board nodes; rfl
  | cons m ms ih =>
    intro alpha maxScore board nodes
    rw [alphaBetaLoopFuel, alphaBetaLoop]
    cases stop with
    | true => simp only [if_true]
    | false =>
      simp only [Bool.false_eq_true, if_false, h, Option.some_bind]
      split_ifs <;> first | rfl | exact ih _ _ _ _

/-- With `remaining` levels left below the cap and at least `remaining + 1` nested
calls allowed, `quiescence` at depth `3 - remaining` returns. -/
theorem quiescenceFuel_eq (stop : Bool) :
    ∀ (remaining fuel : Nat) (depth : Int), remaining + 1 ≤ fuel →
      (depth = 3 - (remaining : Int) ∨ (remaining = 0 ∧ 3 ≤ depth)) →
      ∀ (alpha beta : Int) (color : Color) (board : Board) (nodes : Int),
        quiescenceFuel stop fuel alpha beta color board nodes depth =
          some (quiescenceFrom stop remaining alpha beta color board nodes) := by
  intro remaining
  induction remaining with
  | zero =>
    intro fuel depth hfuel hdepth alpha beta color board nodes
    obtain ⟨f, rfl⟩ : ∃ f, fuel = f + 1 := ⟨fuel - 1, by omega⟩
    have hd : depth ≥ 3 := by
      rcases hdepth with h | h
      · rw [h]; simp
      · exact h.2
    rw [quiescenceFuel, quiescenceFrom]
    cases stop with
    | true => simp only [if_true]
    | false => simp only [Bool.false_eq_true, if_false, hd, if_true]
  | succ r ih =>
    intro fuel depth hfuel hdepth alpha beta color board nodes
    obtain ⟨f, rfl⟩ : ∃ f, fuel = f + 1 := ⟨fuel - 1, by omega⟩
    have hd : depth = 3 - ((r + 1 : Nat) : Int) := by
      rcases hdepth with h | h
      · exact h
      · exact absurd h.1 (by omega)
    have hlt : ¬ (depth ≥ 3) := by rw [hd]; push_cast; omega
    rw [quiescenceFuel, quiescenceFrom]
    cases stop with
    | true => simp only [if_true]
    | false =>
      simp only [Bool.false_eq_true, if_false, hlt]
      generalize (if color = Color.Black then neg32 (Evaluator.evaluate board)
        else Evaluator.evaluate board) = standPat
      by_cases hb : standPat ≥ beta
      · rw [if_pos hb, if_pos hb]
      · rw [if_neg hb, if_neg hb]
        exact quiescenceLoopFuel_eq _ _
          (fun a b c bd n => ih f (depth + 1) (by omega)
            (Or.inl (by rw [hd]; push_cast; ring)) a b c bd n) _ _ _ _ _ _ _

/-- C38. The search terminates: for every board, colour, window and depth `d >= 0`,
`alphaBeta(d, ...)` run as written (depth an `int`, `depth == 0` delegating to
`quiescence` at quiescence depth 0, every other depth recursing with `depth - 1`,
`quiescence` recursing with its depth plus one below the cap of 3) returns as soon as
`d + 5` nested search calls are allowed, the outermost included: the nesting below
the outermost call never exceeds `d + 4`. The value is that of the search function
defined by recursion on the depth. -/
theorem alphaBeta_terminates (stop : Bool) (d fuel : Nat) (hfuel : d + 5 ≤ fuel)
    (alpha beta : Int) (color : Color) (board : Board) (nodes : Int) :
    alphaBetaFuel stop fuel (d : Int) alpha beta color board nodes =
      some (alphaBeta stop d alpha beta color board nodes) := by
  induction d generalizing fuel alpha beta color board nodes with
  | zero =>
    obtain ⟨f, rfl⟩ : ∃ f, fuel = f + 1 := ⟨fuel - 1, by omega⟩
    rw [alphaBetaFuel, alphaBeta]
    cases stop with
    | true => simp only [if_true]
    | false =>
      simp only [Bool.false_eq_true, if_false, Nat.cast_zero, if_true, quiescence,
        MAX_QUIESCENCE_DEPTH]
      exact quiescenceFuel_eq false 3 f 0 (by omega) (Or.inl (by norm_num)) _ _ _ _ _
  | succ n ih =>
    obtain ⟨f, rfl⟩ : ∃ f, fuel = f + 1 := ⟨fuel - 1, by omega⟩
    have hne : ¬ (((n + 1 : Nat) : Int) = 0) := by push_cast; omega
    have hpred : ((n + 1 : Nat) : Int) - 1 = (n : Int) := by push_cast; ring
    rw [alphaBetaFuel, alphaBeta]
    cases stop with
    | true => simp only [if_true]
    | false =>
      simp only [Bool.false_eq_true, if_false, hne, hpred]
      split_ifs
      · rfl
      · rfl
      · exact alphaBetaLoopFuel_eq _ _ (fun a b c bd n => ih f (by omega) a b c bd n)
          _ _ _ _ _ _ _ _

/-- Witness of C38: depth 2 with seven nested calls allowed, in the starting
position. -/
theorem alphaBeta_terminates_witness :
    2 + 5 ≤ 7 ∧
    alphaBetaFuel false 7 ((2 : Nat) : Int) INT_MIN INT_MAX Color.White startBoard 0 =
      some (alphaBeta false 2 INT_MIN INT_MAX Color.White startBoard 0) :=
  ⟨by decide, alphaBeta_terminates false 2 7 (by decide) INT_MIN INT_MAX Color.White
    startBoard 0⟩

/-! ### The root of a search to depth 2 -/

/-- The move loop of `alphaBeta` at depth 1 with the full window and White to move:
every reply is cut at the stand-pat test, the value stays `INT_MIN`, and the board is
the board after each reply was made and taken back. -/
theorem alphaBetaLoop_depth_one_board (moves : List Move) :
    ∀ (board : Board) (nodes : Int),
      (alphaBetaLoop (alphaBeta false 0) false INT_MAX Color.White moves INT_MIN INT_MIN
        board nodes).2.1 = replayMoves moves board := by
  induction moves with
  | nil => intro board nodes; rfl
  | cons m ms ih =>
    intro board nodes
    have ho : oppositeColor Color.White = Color.Black := rfl
    have hlt : ¬ (INT_MIN > INT_MIN) := by decide
    have hge : ¬ (INT_MIN ≥ INT_MAX) := by decide
    simp only [alphaBetaLoop, Bool.false_eq_true, if_false, neg32_INT_MAX, neg32_INT_MIN, ho,
      alphaBeta_zero_closed_window, hlt, hge, ih]
    rfl

/-- The value and the board of `alphaBeta(1, INT_MIN, INT_MAX, White, ...)`. -/
theorem alphaBeta_depth_one_white_cases (board : Board) (nodes : Int) :
    (alphaBeta false 1 INT_MIN INT_MAX Color.White board nodes).1 =
      (if (generateLegalMoves board Color.White).isEmpty then
        (if board.isCheck Color.White then INT_MIN + 1 else 0) else INT_MIN) ∧
    (alphaBeta false 1 INT_MIN INT_MAX Color.White board nodes).2.1 =
      (if (generateLegalMoves board Color.White).isEmpty then board
        else replayMoves (orderMoves board (generateLegalMoves board Color.White) Color.White)
          board) := by
  by_cases hm : (generateLegalMoves board Color.White).isEmpty = true
  · rw [alphaBeta]
    simp only [Bool.false_eq_true, if_false, hm, if_true]
    split_ifs <;> exact ⟨rfl, rfl⟩
  · have hne : generateLegalMoves board Color.White ≠ [] := by
      intro h; rw [h] at hm; exact hm rfl
    refine ⟨?_, ?_⟩
    · rw [alphaBeta_depth_one_white board nodes hne]
      simp only [hm, Bool.false_eq_true, if_false]
    · rw [alphaBeta]
      simp only [Bool.false_eq_true, if_false, hm]
      exact alphaBetaLoop_depth_one_board _ _ _

theorem sequentialStep_black_depth_two (move : Move) (board : Board)
    (recent : List (List Char)) :
    (sequentialStep 2 Color.Black move board recent).1 =
        (blackStepDepthTwo move board recent).1 ∧
      (sequentialStep 2 Color.Black move board recent).2.1 =
        (blackStepDepthTwo move board recent).2.1 ∧
      (sequentialStep 2 Color.Black move board recent).2.2.1 =
        (blackStepDepthTwo move board recent).2.2 := by
  have hd : ((2 : Int) - 1).toNat = 1 := rfl
  have ho : oppositeColor Color.Black = Color.White := rfl
  obtain ⟨h1, h2⟩ := alphaBeta_depth_one_white_cases (board.makeMove move) 0
  unfold sequentialStep blackStepDepthTwo
  simp only [hd, ho]
  rw [h1, h2]
  exact ⟨rfl, rfl, rfl⟩

theorem sequentialResults_black_depth_two (moves : List Move) :
    ∀ (board : Board) (recent : List (List Char)),
      sequentialResults 2 Color.Black moves board recent =
        blackResultsDepthTwo moves board recent := by
  induction moves with
  | nil => intro board recent; rfl
  | cons m ms ih =>
    intro board recent
    obtain ⟨h1, h2, h3⟩ := sequentialStep_black_depth_two m board recent
    rw [sequentialResults, blackResultsDepthTwo]
    simp only [h1, h2, h3, ih]

/-- A search to depth 1 or 2 on a board with a legal move runs the sequential loop:
the best move and score are the reduction of the scored moves. -/
theorem findBestMove_sequential (e : Engine) (c : Color) (maxDepth : Int) (hd : maxDepth < 3)
    (hm : generateLegalMoves e.board c ≠ []) :
    (findBestMove e c maxDepth).map (fun r => (r.1.bestMove, r.1.score)) =
      some (rootReduce
        (sequentialResults maxDepth c (orderMoves e.board (generateLegalMoves e.board c) c)
          e.board e.recentPositions)
        ((orderMoves e.board (generateLegalMoves e.board c) c).headD Move.default, INT_MIN)) := by
  have hne : (generateLegalMoves e.board c).isEmpty = false := by
    cases hl : generateLegalMoves e.board c with
    | nil => exact absurd hl hm
    | cons _ _ => rfl
  have h3 : decide (maxDepth ≥ 3) = false := by
    rw [decide_eq_false_iff_not]; omega
  unfold findBestMove
  simp only [hne, Bool.false_eq_true, if_false, h3, Bool.and_false, Option.map_some']
  rw [sequentialLoop_rootReduce]

set_option maxRecDepth 1000000 in
theorem rookMate_moves :
    generateLegalMoves rookMate Color.Black ≠ [] ∧
    rookMates ∈ generateLegalMoves rookMate Color.Black ∧
    rookChecks ∈ generateLegalMoves rookMate Color.Black ∧
    generateLegalMoves (rookMate.makeMove rookMates) Color.White = [] ∧
    (rookMate.makeMove rookMates).isCheck Color.White = true ∧
    generateLegalMoves (rookMate.makeMove rookChecks) Color.White ≠ [] := by
  decide

set_option maxRecDepth 1000000 in
theorem rookMate_results :
    rootReduce
      (blackResultsDepthTwo
        (orderMoves rookMate (generateLegalMoves rookMate Color.Black) Color.Black) rookMate [])
      ((orderMoves rookMate (generateLegalMoves rookMate Color.Black) Color.Black).headD
        Move.default, INT_MIN) = (rookChecks, INT_MIN + 320) := by
  decide!

set_option maxRecDepth 1000000 in
/-- C34 (failing). In `7r/8/8/8/8/1k6/8/K7 b - - 0 1` White has only the king, Black has
a king, the move Rh8-h1 mates and the repetition history is empty. The mating move
gets `-(INT_MIN + 1) = INT_MAX` from the search and the endgame bonus 320 on top,
which wraps around to `INT_MIN + 319`; the check Rh8-a8, answered by Ka1-b1, gets
`-INT_MIN = INT_MIN` and the same bonus, `INT_MIN + 320`. `findBestMove(Black, 2)`
returns Rh8-a8, after which White is not mated. -/
theorem findBestMove_misses_mate :
    isKingOnlyEndgame rookMate Color.Black = true ∧
    rookMate.findKing Color.Black = 17 ∧
    (Engine.create rookMate).recentPositions = [] ∧
    rookMates ∈ generateLegalMoves rookMate Color.Black ∧
    generateLegalMoves (rookMate.makeMove rookMates) Color.White = [] ∧
    (rookMate.makeMove rookMates).isCheck Color.White = true ∧
    (sequentialStep 2 Color.Black rookMates rookMate []).1 = INT_MIN + 319 ∧
    (sequentialStep 2 Color.Black rookChecks rookMate []).1 = INT_MIN + 320 ∧
    (findBestMove (Engine.create rookMate) Color.Black 2).map
        (fun r => (r.1.bestMove, r.1.score)) = some (rookChecks, INT_MIN + 320) ∧
    generateLegalMoves (rookMate.makeMove rookChecks) Color.White ≠ [] := by
  obtain ⟨hne, hmem, _, hmate, hcheck, hreply⟩ := rookMate_moves
  refine ⟨by decide, by decide, rfl, hmem, hmate, hcheck, ?_, ?_, ?_, hreply⟩
  · rw [(sequentialStep_black_depth_two rookMates rookMate []).1]
    decide!
  · rw [(sequentialStep_black_depth_two rookChecks rookMate []).1]
    decide!
  · rw [findBestMove_sequential (Engine.create rookMate) Color.Black 2 (by decide) hne]
    show some (rootReduce (sequentialResults 2 Color.Black
      (orderMoves rookMate (generateLegalMoves rookMate Color.Black) Color.Black) rookMate [])
      ((orderMoves rookMate (generateLegalMoves rookMate Color.Black) Color.Black).headD
        Move.default, INT_MIN)) = some (rookChecks, INT_MIN + 320)
    rw [sequentialResults_black_depth_two, rookMate_results]

set_option maxRecDepth 1000000 in
/-- C35 (failing). `findBestMove(Black, 2)` in `7r/8/8/8/8/1k6/8/K7 b - - 0 1`: after the
root move Rh8-a8 White has a legal move, `alphaBeta(1, INT_MIN, INT_MAX, White, ...)`
returns `INT_MIN`, and the root negates it: `-INT_MIN` is 2147483648, not an `int`.
After the root move Rh8-h1 the search returns `INT_MIN + 1`, the root score is
`INT_MAX`, the endgame bonus is 320, and `INT_MAX + 320` is outside the range of an
`int`. The first holds after every root move that leaves White a legal move. -/
theorem findBestMove_overflows :
    (∀ (board : Board) (move : Move),
      generateLegalMoves (board.makeMove move) Color.White ≠ [] →
      (alphaBeta false 1 INT_MIN INT_MAX Color.White (board.makeMove move) 0).1 = INT_MIN) ∧
    generateLegalMoves rookMate Color.Black ≠ [] ∧
    rookChecks ∈ generateLegalMoves rookMate Color.Black ∧
    (alphaBeta false 1 INT_MIN INT_MAX Color.White (rookMate.makeMove rookChecks) 0).1 =
      INT_MIN ∧
    -INT_MIN > INT_MAX ∧
    rookMates ∈ generateLegalMoves rookMate Color.Black ∧
    (alphaBeta false 1 INT_MIN INT_MAX Color.White (rookMate.makeMove rookMates) 0).1 =
      INT_MIN + 1 ∧
    neg32 (INT_MIN + 1) = INT_MAX ∧
    evaluateEndgameMate (rookMate.makeMove rookMates) Color.Black = 320 ∧
    INT_MAX + 320 > INT_MAX ∧
    add32 INT_MAX 320 = INT_MIN + 319 := by
  obtain ⟨hne, hmem, hmem2, hmate, hcheck, hreply⟩ := rookMate_moves
  refine ⟨fun board move h => alphaBeta_depth_one_white _ 0 h, hne, hmem2,
    alphaBeta_depth_one_white _ 0 hreply, by decide, hmem, ?_, by decide, by decide,
    by decide, by decide⟩
  rw [(alphaBeta_depth_one_white_cases (rookMate.makeMove rookMates) 0).1, hmate, hcheck]
  rfl

/-! ### Attack detection against move generation -/

/-- The attack test in terms of an attacking cell. -/
theorem isSquareAttacked_iff_exists_attacker (b : Board) (sq : Nat) (c : Color)
    (hsq : sq < 64) :
    b.isSquareAttacked sq c = true ↔ ∃ src, src < 64 ∧ b.Attacks c src sq := by
  have hB : PieceType.Bishop ≠ PieceType.None := by decide
  have hQ : PieceType.Queen ≠ PieceType.None := by decide
  have hR : PieceType.Rook ≠ PieceType.None := by decide
  unfold Board.isSquareAttacked Board.Attacks
  simp only [Bool.or_eq_true, List.any_eq_true]
  rw [attackPawn_iff, attackLeap_iff, attackLeap_iff]
  constructor
  · rintro ((((h | h) | h) | h) | h)
    · obtain ⟨src, h1, h2, h3, h4, h5⟩ := h
      exact ⟨src, h1, h2, Or.inl ⟨h3, h4, h5⟩⟩
    · obtain ⟨src, h1, h2, h3, h4⟩ := h
      exact ⟨src, h1, h2, Or.inr (Or.inl ⟨h3, (mem_knightMoves_iff _ _).mp h4⟩)⟩
    · obtain ⟨d, hd, hray⟩ := h
      obtain ⟨src, h1, h2, h3, h4⟩ :=
        (attackRay_iff_clearLine b c _ _ hB hQ sq hsq d (diagDirs_isStep d hd)).mp hray
      exact ⟨src, h1, h2, Or.inr (Or.inr (Or.inl ⟨h3, d, hd, h4⟩))⟩
    · obtain ⟨d, hd, hray⟩ := h
      obtain ⟨src, h1, h2, h3, h4⟩ :=
        (attackRay_iff_clearLine b c _ _ hR hQ sq hsq d (straightDirs_isStep d hd)).mp hray
      exact ⟨src, h1, h2, Or.inr (Or.inr (Or.inr (Or.inl ⟨h3, d, hd, h4⟩)))⟩
    · obtain ⟨src, h1, h2, h3, h4⟩ := h
      obtain ⟨k1, k2, k3⟩ := (mem_kingMoves_iff _ _).mp h4
      refine ⟨src, h1, h2, Or.inr (Or.inr (Or.inr (Or.inr ⟨h3, k1, k2, ?_⟩)))⟩
      rcases k3 with k3 | k3
      · left; intro e; apply k3; omega
      · right; intro e; apply k3; omega
  · rintro ⟨src, h1, h2, h | h | h | h | h⟩
    · exact Or.inl (Or.inl (Or.inl (Or.inl ⟨src, h1, h2, h.1, h.2.1, h.2.2⟩)))
    · exact Or.inl (Or.inl (Or.inl (Or.inr
        ⟨src, h1, h2, h.1, (mem_knightMoves_iff _ _).mpr h.2⟩)))
    · obtain ⟨h3, d, hd, h4⟩ := h
      exact Or.inl (Or.inl (Or.inr ⟨d, hd,
        (attackRay_iff_clearLine b c _ _ hB hQ sq hsq d (diagDirs_isStep d hd)).mpr
          ⟨src, h1, h2, h3, h4⟩⟩))
    · obtain ⟨h3, d, hd, h4⟩ := h
      exact Or.inl (Or.inr ⟨d, hd,
        (attackRay_iff_clearLine b c _ _ hR hQ sq hsq d (straightDirs_isStep d hd)).mpr
          ⟨src, h1, h2, h3, h4⟩⟩)
    · obtain ⟨h3, k1, k2, k3⟩ := h
      refine Or.inr ⟨src, h1, h2, h3, (mem_kingMoves_iff _ _).mpr ⟨k1, k2, ?_⟩⟩
      rcases k3 with k3 | k3
      · left; intro e; apply k3; omega
      · right; intro e; apply k3; omega

/-- The moves of a leaper loop that end on an occupied square of another colour. -/
theorem leap_to_iff (b : Board) (src sq : Nat) (c : Color) (offsets : List (Int × Int))
    (hsq : sq < 64) (hnone : (b.pieceAt sq).isNone = false) (hcol : (b.pieceAt sq).color ≠ c) :
    (∃ m ∈ offsets.flatMap (fun mv =>
        if isSquareValid (getFile src + mv.1) (getRank src + mv.2) then
          addMoveIfValid b src (makeSquare (getFile src + mv.1) (getRank src + mv.2)) c
        else []), m.to_ = sq) ↔
      (getFile sq - getFile src, getRank sq - getRank src) ∈ offsets := by
  constructor
  · rintro ⟨m, hm, hto⟩
    simp only [List.mem_flatMap] at hm
    obtain ⟨mv, hmv, hm⟩ := hm
    split_ifs at hm with hval
    · obtain ⟨_, hto2, _⟩ := mem_addMoveIfValid b src _ c m hm
      obtain ⟨_, v2, v3⟩ := makeSquare_valid _ _ hval
      rw [← hto2, hto] at v2 v3
      have e : (getFile sq - getFile src, getRank sq - getRank src) = mv := by
        ext
        · simp only; omega
        · simp only; omega
      rw [e]; exact hmv
    · exact absurd hm (List.not_mem_nil m)
  · intro h
    refine ⟨⟨src, sq, MoveFlag.Capture, PieceType.None⟩, ?_, rfl⟩
    simp only [List.mem_flatMap]
    refine ⟨_, h, ?_⟩
    have e1 : getFile src + (getFile sq - getFile src) = getFile sq := by ring
    have e2 : getRank src + (getRank sq - getRank src) = getRank sq := by ring
    obtain ⟨f0, f8⟩ := getFile_range sq
    obtain ⟨r0, r8⟩ := getRank_range sq hsq
    have hval : isSquareValid (getFile sq) (getRank sq) = true :=
      (isSquareValid_iff _ _).mpr ⟨f0, f8, r0, r8⟩
    simp only [e1, e2, hval, if_true, makeSquare_file_rank_self sq hsq]
    unfold addMoveIfValid
    simp only [hnone, Bool.false_eq_true, if_false, hcol, ne_eq, not_false_eq_true, if_true,
      List.mem_singleton]

/-- The destination of a pawn capture. -/
theorem mem_pawnCapturesDir_to (b : Board) (src : Nat) (c : Color) (df : Int) (m : Move)
    (h : m ∈ pawnCapturesDir b src c df) :
    isSquareValid (getFile src + df)
        (getRank src + (if c = Color.White then 1 else -1)) = true ∧
      m.to_ = makeSquare (getFile src + df)
        (getRank src + (if c = Color.White then 1 else -1)) := by
  unfold pawnCapturesDir at h
  simp only at h
  generalize (if c = Color.White then (1 : Int) else -1) = dir at h ⊢
  generalize (if c = Color.White then (7 : Int) else 0) = promRank at h
  by_cases hv : getFile src + df ≥ 0 ∧ getFile src + df < 8 ∧
      getRank src + dir ≥ 0 ∧ getRank src + dir < 8
  · rw [if_pos hv] at h
    refine ⟨(isSquareValid_iff _ _).mpr ⟨hv.1, hv.2.1, hv.2.2.1, hv.2.2.2⟩, ?_⟩
    rcases List.mem_append.mp h with h | h
    · split_ifs at h with h1 h2
      · exact (mem_promotionMoves _ _ m h).2.1
      · rw [List.mem_singleton] at h; rw [h]
      · exact absurd h (List.not_mem_nil m)
    · split_ifs at h with h1
      · rw [List.mem_singleton] at h; rw [h]
      · exact absurd h (List.not_mem_nil m)
  · rw [if_neg hv] at h
    exact absurd h (List.not_mem_nil m)

/-- The pawn moves that end on an occupied square of another colour. -/
theorem pawn_to_iff (b : Board) (src sq : Nat) (c : Color) (hsrc : src < 64) (hsq : sq < 64)
    (hnone : (b.pieceAt sq).isNone = false) (hcol : (b.pieceAt sq).color ≠ c) :
    (∃ m ∈ generatePawnMoves b src c, m.to_ = sq) ↔
      (getRank src = getRank sq - (if c = Color.White then 1 else -1) ∧
        (getFile src = getFile sq - 1 ∨ getFile src = getFile sq + 1)) := by
  obtain ⟨f0, f8⟩ := getFile_range sq
  obtain ⟨r0, r8⟩ := getRank_range sq hsq
  constructor
  · rintro ⟨m, hm, hto⟩
    unfold generatePawnMoves at hm
    rcases List.mem_append.mp hm with hm | hm
    · obtain ⟨_, _, _, e4, _⟩ := mem_pawnPushes b src c hsrc m hm
      rw [hto, hnone] at e4
      exact absurd e4 (by decide)
    · simp only [List.mem_flatMap, List.mem_cons, List.mem_singleton, List.not_mem_nil,
        or_false] at hm
      obtain ⟨df, hdf, hm⟩ := hm
      obtain ⟨hval, hto2⟩ := mem_pawnCapturesDir_to b src c df m hm
      obtain ⟨_, v2, v3⟩ := makeSquare_valid _ _ hval
      rw [← hto2, hto] at v2 v3
      refine ⟨by omega, ?_⟩
      rcases hdf with rfl | rfl
      · right; omega
      · left; omega
  · rintro ⟨hrank, hfile⟩
    have hval : isSquareValid (getFile sq) (getRank sq) = true :=
      (isSquareValid_iff _ _).mpr ⟨f0, f8, r0, r8⟩
    have key : ∀ df : Int, getFile src + df = getFile sq →
        ∃ m ∈ pawnCapturesDir b src c df, m.to_ = sq := by
      intro df hdf
      unfold pawnCapturesDir
      simp only
      generalize (if c = Color.White then (1 : Int) else -1) = dir at hrank ⊢
      generalize (if c = Color.White then (7 : Int) else 0) = promRank
      have er : getRank src + dir = getRank sq := by omega
      rw [hdf, er]
      have hv : getFile sq ≥ 0 ∧ getFile sq < 8 ∧ getRank sq ≥ 0 ∧ getRank sq < 8 :=
        ⟨f0, f8, r0, r8⟩
      rw [if_pos hv, makeSquare_file_rank_self sq hsq]
      have ht : (!(b.pieceAt sq).isNone) = true ∧ (b.pieceAt sq).color ≠ c := by
        rw [hnone]; exact ⟨rfl, hcol⟩
      rw [if_pos ht]
      by_cases hp : getRank sq = promRank
      · rw [if_pos hp]
        exact ⟨⟨src, sq, MoveFlag.Promotion, PieceType.Queen⟩,
          List.mem_append_left _ (List.mem_cons_self _ _), rfl⟩
      · rw [if_neg hp]
        exact ⟨⟨src, sq, MoveFlag.Capture, PieceType.None⟩,
          List.mem_append_left _ (List.mem_singleton.mpr rfl), rfl⟩
    unfold generatePawnMoves
    rcases hfile with hfile | hfile
    · obtain ⟨m, hm, hto⟩ := key 1 (by omega)
      exact ⟨m, List.mem_append_right _ (List.mem_flatMap.mpr ⟨1, by simp, hm⟩), hto⟩
    · obtain ⟨m, hm, hto⟩ := key (-1) (by omega)
      exact ⟨m, List.mem_append_right _ (List.mem_flatMap.mpr ⟨-1, by simp, hm⟩), hto⟩

/-- A ray of a slider generator reaches the first occupied cell of another colour. -/
theorem slideRay_capture_mem (b : Board) (src : Nat) (c : Color) (df dr : Int) :
    ∀ (fuel : Nat) (f r : Int) (k : Nat), k < fuel →
      (∀ j : Nat, j ≤ k → isSquareValid (f + j * df) (r + j * dr) = true) →
      (∀ j : Nat, j < k →
        (b.pieceAt (makeSquare (f + j * df) (r + j * dr))).isNone = true) →
      (b.pieceAt (makeSquare (f + k * df) (r + k * dr))).isNone = false →
      (b.pieceAt (makeSquare (f + k * df) (r + k * dr))).color ≠ c →
      (⟨src, makeSquare (f + k * df) (r + k * dr), MoveFlag.Capture, PieceType.None⟩ : Move) ∈
        slideRay b src c df dr fuel f r := by
  intro fuel
  induction fuel with
  | zero => intro f r k hk; exact absurd hk (Nat.not_lt_zero k)
  | succ n ih =>
    intro f r k hk hval hempty hnone hcol
    unfold slideRay
    have h0 := hval 0 (Nat.zero_le k)
    simp only [Nat.cast_zero, zero_mul, add_zero] at h0
    rw [if_pos h0]
    simp only
    cases k with
    | zero =>
      simp only [Nat.cast_zero, zero_mul, add_zero] at hnone hcol ⊢
      rw [hnone]
      simp only [Bool.false_eq_true, if_false, hcol, ne_eq, not_false_eq_true, if_true,
        List.mem_singleton]
    | succ k =>
      have hfirst := hempty 0 (Nat.succ_pos k)
      simp only [Nat.cast_zero, zero_mul, add_zero] at hfirst
      rw [hfirst]
      simp only [if_true]
      have e : makeSquare (f + ((k + 1 : Nat) : Int) * df) (r + ((k + 1 : Nat) : Int) * dr) =
          makeSquare (f + df + k * df) (r + dr + k * dr) := by
        congr 1 <;> push_cast <;> ring
      rw [e] at hnone hcol ⊢
      refine List.mem_cons_of_mem _ (ih (f + df) (r + dr) k (by omega) ?_ ?_ hnone hcol)
      · intro j hj
        have := hval (j + 1) (by omega)
        rw [← this]; congr 1 <;> push_cast <;> ring
      · intro j hj
        have := hempty (j + 1) (by omega)
        rw [← this]; congr 3 <;> push_cast <;> ring

theorem diagDirs_neg (d : Int × Int) (h : d ∈ Board.diagDirs) :
    (-d.1, -d.2) ∈ Board.diagDirs := by
  simp only [Board.diagDirs, List.mem_cons, List.mem_singleton, List.not_mem_nil,
    or_false] at h
  rcases h with rfl | rfl | rfl | rfl <;> decide

theorem straightDirs_neg (d : Int × Int) (h : d ∈ Board.straightDirs) :
    (-d.1, -d.2) ∈ Board.straightDirs := by
  simp only [Board.straightDirs, List.mem_cons, List.mem_singleton, List.not_mem_nil,
    or_false] at h
  rcases h with rfl | rfl | rfl | rfl <;> decide

/-- The slider moves that end on an occupied square of another colour. -/
theorem slide_to_iff (b : Board) (src sq : Nat) (c : Color) (dirs : List (Int × Int))
    (hdirs : ∀ d ∈ dirs, Board.IsStep d) (hneg : ∀ d ∈ dirs, (-d.1, -d.2) ∈ dirs)
    (hsrc : src < 64) (hsq : sq < 64)
    (hnone : (b.pieceAt sq).isNone = false) (hcol : (b.pieceAt sq).color ≠ c) :
    (∃ m ∈ slideMoves b src c dirs, m.to_ = sq) ↔ ∃ d ∈ dirs, b.ClearLine src sq d.1 d.2 := by
  obtain ⟨f0, f8⟩ := getFile_range sq
  obtain ⟨r0, r8⟩ := getRank_range sq hsq
  obtain ⟨g0, g8⟩ := getFile_range src
  obtain ⟨q0, q8⟩ := getRank_range src hsrc
  constructor
  · rintro ⟨m, hm, hto⟩
    unfold slideMoves at hm
    simp only [List.mem_flatMap] at hm
    obtain ⟨d, hd, hm⟩ := hm
    obtain ⟨_, k, hk, hval, hbetween, _⟩ := mem_slideRay b src c d.1 d.2 8 _ _ m hm
    obtain ⟨_, v2, v3⟩ := makeSquare_valid _ _ hval
    rw [← hk, hto] at v2 v3
    obtain ⟨df, dr⟩ := d
    obtain ⟨hdf, hdr, hne⟩ := hdirs _ hd
    simp only at hdf hdr hne v2 v3 hbetween
    refine ⟨(-df, -dr), hneg _ hd, k + 1, ?_, by omega, ?_, ?_, ?_⟩
    · rcases hdf with rfl | rfl | rfl <;> rcases hdr with rfl | rfl | rfl <;>
        simp only [mul_neg, mul_one, mul_zero, add_zero, ne_eq, not_true_eq_false,
          or_self] at v2 v3 hne <;> omega
    · simp only; rw [v2]; push_cast; ring
    · simp only; rw [v3]; push_cast; ring
    · intro j hj hj1
      have hidx : k - j < k := by omega
      have := hbetween (k - j) hidx
      rw [← this]
      have ecast : ((k - j : Nat) : Int) = (k : Int) - j := by omega
      congr 3
      · simp only; rw [v2, ecast]; ring
      · simp only; rw [v3, ecast]; ring
  · rintro ⟨d, hd, k, hk8, hk1, hfile, hrank, hbetween⟩
    obtain ⟨i, rfl⟩ : ∃ i, k = i + 1 := ⟨k - 1, by omega⟩
    obtain ⟨df, dr⟩ := d
    obtain ⟨hdf, hdr, hne⟩ := hdirs _ hd
    simp only at hdf hdr hne hfile hrank hbetween
    have htarget : makeSquare (getFile src + -df + i * -df) (getRank src + -dr + i * -dr) = sq := by
      rw [← makeSquare_file_rank_self sq hsq, hfile, hrank]
      congr 1 <;> push_cast <;> ring
    have hmem := slideRay_capture_mem b src c (-df) (-dr) 8 (getFile src + -df)
      (getRank src + -dr) i (by omega) ?_ ?_ (by rw [htarget]; exact hnone)
      (by rw [htarget]; exact hcol)
    · rw [htarget] at hmem
      refine ⟨⟨src, sq, MoveFlag.Capture, PieceType.None⟩, ?_, rfl⟩
      unfold slideMoves
      simp only [List.mem_flatMap]
      exact ⟨(-df, -dr), hneg _ hd, hmem⟩
    · intro j hj
      rw [isSquareValid_iff]
      push_cast at hfile hrank
      rcases hdf with rfl | rfl | rfl <;> rcases hdr with rfl | rfl | rfl <;>
        simp only [mul_neg, mul_one, mul_zero, add_zero, neg_neg, neg_zero, ne_eq,
          not_true_eq_false, or_self] at hfile hrank hne ⊢ <;> omega
    · intro j hj
      have := hbetween (i - j) (by omega) (by omega)
      rw [← this]
      have ecast : ((i - j : Nat) : Int) = (i : Int) - j := by omega
      congr 3
      · rw [hfile, ecast]; push_cast; ring
      · rw [hrank, ecast]; push_cast; ring

/-- The generator called for a square, by the type of its piece. -/
theorem movesFrom_of_type (b : Board) (c : Color) (src : Nat)
    (hcol : (b.pieceAt src).color = c) :
    ((b.pieceAt src).type = PieceType.Pawn → movesFrom b c src = generatePawnMoves b src c) ∧
    ((b.pieceAt src).type = PieceType.Knight →
      movesFrom b c src = generateKnightMoves b src c) ∧
    ((b.pieceAt src).type = PieceType.Bishop →
      movesFrom b c src = generateBishopMoves b src c) ∧
    ((b.pieceAt src).type = PieceType.Rook → movesFrom b c src = generateRookMoves b src c) ∧
    ((b.pieceAt src).type = PieceType.Queen →
      movesFrom b c src = generateQueenMoves b src c) ∧
    ((b.pieceAt src).type = PieceType.King → movesFrom b c src = generateKingMoves b src c) ∧
    ((b.pieceAt src).type = PieceType.None → movesFrom b c src = []) := by
  refine ⟨?_, ?_, ?_, ?_, ?_, ?_, ?_⟩ <;> intro ht <;> unfold movesFrom <;>
    simp [Piece.isNone, ht, hcol]

/-- The moves generated from `src` that end on a square occupied by another colour:
there is one exactly when the piece on `src` attacks the square. -/
theorem movesFrom_to_iff (b : Board) (c : Color) (src sq : Nat) (hsrc : src < 64)
    (hsq : sq < 64) (hnone : (b.pieceAt sq).isNone = false)
    (hcol : (b.pieceAt sq).color ≠ c) :
    (∃ m ∈ movesFrom b c src, m.to_ = sq) ↔ b.Attacks c src sq := by
  unfold Board.Attacks
  by_cases hc : (b.pieceAt src).color = c
  swap
  · constructor
    · rintro ⟨m, hm, _⟩
      exact absurd (movesFrom_shape b c src hsrc m hm).2.2.1 hc
    · rintro ⟨h, _⟩; exact absurd h hc
  obtain ⟨hP, hN, hB, hR, hQ, hK, hE⟩ := movesFrom_of_type b c src hc
  have habs : ∀ x y : Int, |x - y| = |y - x| := fun x y => abs_sub_comm x y
  cases ht : (b.pieceAt src).type with
  | None =>
    rw [hE ht]
    simp [hc]
  | Pawn =>
    rw [hP ht, pawn_to_iff b src sq c hsrc hsq hnone hcol]
    simp [hc]
  | Knight =>
    rw [hN ht]
    unfold generateKnightMoves
    simp only
    rw [leap_to_iff b src sq c _ hsq hnone hcol, mem_knightMoves_iff,
      habs (getFile sq) (getFile src), habs (getRank sq) (getRank src)]
    simp [hc]
  | Bishop =>
    rw [hB ht]
    unfold generateBishopMoves
    rw [slide_to_iff b src sq c _ diagDirs_isStep diagDirs_neg hsrc hsq hnone hcol]
    simp [hc]
  | Rook =>
    rw [hR ht]
    unfold generateRookMoves
    rw [slide_to_iff b src sq c _ straightDirs_isStep straightDirs_neg hsrc hsq hnone hcol]
    simp [hc]
  | Queen =>
    rw [hQ ht]
    unfold generateQueenMoves generateBishopMoves generateRookMoves
    have h1 := slide_to_iff b src sq c _ diagDirs_isStep diagDirs_neg hsrc hsq hnone hcol
    have h2 := slide_to_iff b src sq c _ straightDirs_isStep straightDirs_neg hsrc hsq
      hnone hcol
    simp only [List.mem_append, hc, true_and, reduceCtorEq, false_and, false_or, or_false,
      or_true, true_or, ← h1, ← h2]
    constructor
    · rintro ⟨m, hm | hm, hto⟩
      · exact Or.inl ⟨m, hm, hto⟩
      · exact Or.inr ⟨m, hm, hto⟩
    · rintro (⟨m, hm, hto⟩ | ⟨m, hm, hto⟩)
      · exact ⟨m, Or.inl hm, hto⟩
      · exact ⟨m, Or.inr hm, hto⟩
  | King =>
    rw [hK ht]
    unfold generateKingMoves
    simp only
    have hleap := leap_to_iff b src sq c Board.kingMoves hsq hnone hcol
    rw [mem_kingMoves_iff, habs (getFile sq) (getFile src),
      habs (getRank sq) (getRank src)] at hleap
    have hcastle : ∀ m ∈ (if (!b.isCheck c) = true then
        castleKingside b src c ++ castleQueenside b src c else []), m.to_ ≠ sq := by
      intro m hm hto
      split_ifs at hm
      · rcases List.mem_append.mp hm with hs | hs
        · obtain ⟨e, _, _, h3, _, _⟩ := mem_castleKingside b src c m hs
          rw [e] at hto; simp only at hto
          rw [hto, hnone] at h3; exact absurd h3 (by decide)
        · obtain ⟨e, _, _, h3, _, _, _⟩ := mem_castleQueenside b src c m hs
          rw [e] at hto; simp only at hto
          rw [hto, hnone] at h3; exact absurd h3 (by decide)
      · exact absurd hm (List.not_mem_nil m)
    simp only [hc, true_and, reduceCtorEq, false_and, false_or, or_false]
    constructor
    · rintro ⟨m, hm, hto⟩
      rcases List.mem_append.mp hm with hm | hm
      · obtain ⟨k1, k2, k3⟩ := hleap.mp ⟨m, hm, hto⟩
        refine ⟨k1, k2, ?_⟩
        rcases k3 with k3 | k3
        · left; intro e; apply k3; omega
        · right; intro e; apply k3; omega
      · exact absurd hto (hcastle m hm)
    · rintro ⟨k1, k2, k3⟩
      have k3b : getFile sq - getFile src ≠ 0 ∨ getRank sq - getRank src ≠ 0 := by
        rcases k3 with k3 | k3
        · left; intro e; apply k3; omega
        · right; intro e; apply k3; omega
      obtain ⟨m, hm, hto⟩ := hleap.mpr ⟨k1, k2, k3b⟩
      exact ⟨m, List.mem_append_left _ hm, hto⟩

/-- C36. Attack detection agrees with move generation: for every board, colour `c`
(White or Black) and square `sq < 64` holding a piece of the opposite colour,
`isSquareAttacked(sq, c)` is true iff the pseudo-legal move list generated for `c`
contains a move whose destination is `sq`. -/
theorem isSquareAttacked_iff_pseudoLegal_move (b : Board) (c : Color) (sq : Nat)
    (hc : c = Color.White ∨ c = Color.Black) (hsq : sq < 64)
    (hnone : (b.pieceAt sq).isNone = false)
    (hcol : (b.pieceAt sq).color = oppositeColor c) :
    b.isSquareAttacked sq c = true ↔ ∃ m ∈ generatePseudoLegalMoves b c, m.to_ = sq := by
  have hne : (b.pieceAt sq).color ≠ c := by
    rw [hcol]; rcases hc with rfl | rfl <;> decide
  rw [isSquareAttacked_iff_exists_attacker b sq c hsq]
  unfold generatePseudoLegalMoves
  simp only [List.mem_flatMap, List.mem_range, NUM_SQUARES]
  constructor
  · rintro ⟨src, hsrc, hatt⟩
    obtain ⟨m, hm, hto⟩ := (movesFrom_to_iff b c src sq hsrc hsq hnone hne).mpr hatt
    exact ⟨m, ⟨src, hsrc, hm⟩, hto⟩
  · rintro ⟨m, ⟨src, hsrc, hm⟩, hto⟩
    exact ⟨src, hsrc, (movesFrom_to_iff b c src sq hsrc hsq hnone hne).mp ⟨m, hm, hto⟩⟩

set_option maxRecDepth 1000000 in
/-- Witness of C36: the rook on h1 in `rookEnPrise`, attacked by the black bishop. -/
theorem isSquareAttacked_iff_pseudoLegal_move_witness :
    (rookEnPrise.pieceAt 7).isNone = false ∧
    (rookEnPrise.pieceAt 7).color = oppositeColor Color.Black ∧
    (rookEnPrise.isSquareAttacked 7 Color.Black = true ↔
      ∃ m ∈ generatePseudoLegalMoves rookEnPrise Color.Black, m.to_ = 7) ∧
    rookEnPrise.isSquareAttacked 7 Color.Black = true ∧
    bishopTakesRook ∈ generatePseudoLegalMoves rookEnPrise Color.Black :=
  ⟨by decide, by decide,
    isSquareAttacked_iff_pseudoLegal_move rookEnPrise Color.Black 7 (Or.inr rfl) (by decide)
      (by decide) (by decide),
    by decide, by decide⟩

/-! ### The mirror image of a board -/

theorem Color.swap_swap (c : Color) : c.swap.swap = c := by cases c <;> rfl

theorem Color.swap_eq_iff (x c : Color) : x.swap = c.swap ↔ x = c := by
  cases x <;> cases c <;> decide

theorem Color.swap_oppositeColor (c : Color) (hc : c = Color.White ∨ c = Color.Black) :
    oppositeColor c.swap = (oppositeColor c).swap ∧ c.swap = oppositeColor c ∧
      (c.swap = Color.White ∨ c.swap = Color.Black) := by
  rcases hc with rfl | rfl <;> decide

theorem Piece.swapColor_type (p : Piece) : p.swapColor.type = p.type := rfl

theorem Piece.swapColor_color (p : Piece) : p.swapColor.color = p.color.swap := rfl

theorem Piece.swapColor_isNone (p : Piece) : p.swapColor.isNone = p.isNone := rfl

theorem Piece.swapColor_value (p : Piece) : p.swapColor.value = p.value := by
  unfold Piece.value; rfl

theorem Piece.swapColor_swapColor (p : Piece) : p.swapColor.swapColor = p := by
  cases p; simp [Piece.swapColor, Color.swap_swap]

theorem isSquareValid_mirror (f r : Int) :
    isSquareValid f (7 - r) = isSquareValid f r := by
  rw [Bool.eq_iff_iff, isSquareValid_iff, isSquareValid_iff]
  omega

/-- The mirrored square in coordinates. -/
theorem mirrorSquare_makeSquare (f r : Int) (h : isSquareValid f r = true) :
    mirrorSquare (makeSquare f r) = makeSquare f (7 - r) := by
  obtain ⟨_, h2, h3⟩ := makeSquare_valid f r h
  unfold mirrorSquare
  rw [h2, h3]

theorem mirrorSquare_props (sq : Nat) (h : sq < 64) :
    isSquareValid (getFile sq) (getRank sq) = true ∧
    mirrorSquare sq < 64 ∧ getFile (mirrorSquare sq) = getFile sq ∧
    getRank (mirrorSquare sq) = 7 - getRank sq ∧ mirrorSquare (mirrorSquare sq) = sq := by
  obtain ⟨f0, f8⟩ := getFile_range sq
  obtain ⟨r0, r8⟩ := getRank_range sq h
  have hv : isSquareValid (getFile sq) (getRank sq) = true :=
    (isSquareValid_iff _ _).mpr ⟨f0, f8, r0, r8⟩
  have hv2 : isSquareValid (getFile sq) (7 - getRank sq) = true := by
    rw [isSquareValid_mirror]; exact hv
  obtain ⟨v1, v2, v3⟩ := makeSquare_valid _ _ hv2
  refine ⟨hv, v1, v2, v3, ?_⟩
  have : mirrorSquare (makeSquare (getFile sq) (7 - getRank sq)) =
      makeSquare (getFile sq) (7 - (7 - getRank sq)) := mirrorSquare_makeSquare _ _ hv2
  have e : (7 : Int) - (7 - getRank sq) = getRank sq := by ring
  rw [e, makeSquare_file_rank_self sq h] at this
  exact this

/-- Squares of the board are equal when their coordinates are. -/
theorem makeSquare_inj (f1 r1 f2 r2 : Int) (h1 : isSquareValid f1 r1 = true)
    (h2 : isSquareValid f2 r2 = true) :
    makeSquare f1 r1 = makeSquare f2 r2 ↔ f1 = f2 ∧ r1 = r2 := by
  constructor
  · intro h
    obtain ⟨_, a2, a3⟩ := makeSquare_valid f1 r1 h1
    obtain ⟨_, b2, b3⟩ := makeSquare_valid f2 r2 h2
    rw [h] at a2 a3
    exact ⟨by rw [← a2, b2], by rw [← a3, b3]⟩
  · rintro ⟨rfl, rfl⟩; rfl

/-- The cells of `Board.mirror`. -/
theorem Board.mirror_mirrorCells (b : Board) : b.mirror.MirrorCells b := by
  intro f r h
  have hv2 : isSquareValid f (7 - r) = true := by rw [isSquareValid_mirror]; exact h
  obtain ⟨v1, _, _⟩ := makeSquare_valid _ _ hv2
  have hm := mirrorSquare_makeSquare f (7 - r) hv2
  have e : (7 : Int) - (7 - r) = r := by ring
  rw [e] at hm
  show (if makeSquare f (7 - r) < 64 then
    (b.pieceAt (mirrorSquare (makeSquare f (7 - r)))).swapColor
      else b.pieceAt (makeSquare f (7 - r))) = _
  rw [if_pos v1, hm]

/-- The position of `Board.mirror`. -/
theorem Board.mirror_mirrorPosition (b : Board) : b.mirror.MirrorPosition b := by
  refine ⟨?_, ?_⟩
  · intro c hc
    rcases hc with rfl | rfl <;> exact ⟨rfl, rfl⟩
  · intro f r h
    have hv2 : isSquareValid f (7 - r) = true := by rw [isSquareValid_mirror]; exact h
    obtain ⟨v1, _, _⟩ := makeSquare_valid _ _ hv2
    obtain ⟨w1, _, _⟩ := makeSquare_valid _ _ h
    show makeSquare f (7 - r) = (if b.position.enPassantSquare < 64 then
      mirrorSquare b.position.enPassantSquare else b.position.enPassantSquare) ↔ _
    by_cases hep : b.position.enPassantSquare < 64
    · rw [if_pos hep]
      obtain ⟨_, _, _, _, hinv⟩ := mirrorSquare_props _ hep
      constructor
      · intro heq
        have := congrArg mirrorSquare heq
        rw [hinv, mirrorSquare_makeSquare _ _ hv2] at this
        have e : (7 : Int) - (7 - r) = r := by ring
        rw [e] at this
        exact this
      · intro heq
        rw [← heq, mirrorSquare_makeSquare _ _ h]
    · rw [if_neg hep]
      constructor
      · intro heq; rw [← heq] at hep; exact absurd v1 hep
      · intro heq; rw [← heq] at hep; exact absurd w1 hep

/-- The mirror relation on cells, by squares. -/
theorem Board.MirrorCells.at_square {a b : Board} (h : a.MirrorCells b) (sq : Nat)
    (hsq : sq < 64) :
    a.pieceAt (mirrorSquare sq) = (b.pieceAt sq).swapColor ∧
      a.pieceAt sq = (b.pieceAt (mirrorSquare sq)).swapColor := by
  obtain ⟨hv, m1, m2, m3, m4⟩ := mirrorSquare_props sq hsq
  constructor
  · have := h _ _ hv
    rw [makeSquare_file_rank_self sq hsq] at this
    exact this
  · obtain ⟨hv2, _, _, _, _⟩ := mirrorSquare_props _ m1
    have := h _ _ hv2
    rw [makeSquare_file_rank_self _ m1] at this
    rw [← this]
    congr 1
    have : mirrorSquare (mirrorSquare sq) =
        makeSquare (getFile (mirrorSquare sq)) (7 - getRank (mirrorSquare sq)) := rfl
    rw [← this, m4]

theorem Board.MirrorCells.symm {a b : Board} (h : a.MirrorCells b) : b.MirrorCells a := by
  intro f r hv
  have hv2 : isSquareValid f (7 - r) = true := by rw [isSquareValid_mirror]; exact hv
  have := h f (7 - r) hv2
  have e : (7 : Int) - (7 - r) = r := by ring
  rw [e] at this
  rw [this, Piece.swapColor_swapColor]

/-! ### Attack detection on the mirror image -/

theorem diagDirs_flip (d : Int × Int) (h : d ∈ Board.diagDirs) :
    (d.1, -d.2) ∈ Board.diagDirs := by
  simp only [Board.diagDirs, List.mem_cons, List.mem_singleton, List.not_mem_nil,
    or_false] at h
  rcases h with rfl | rfl | rfl | rfl <;> decide

theorem straightDirs_flip (d : Int × Int) (h : d ∈ Board.straightDirs) :
    (d.1, -d.2) ∈ Board.straightDirs := by
  simp only [Board.straightDirs, List.mem_cons, List.mem_singleton, List.not_mem_nil,
    or_false] at h
  rcases h with rfl | rfl | rfl | rfl <;> decide

/-- A clear line on the mirror image. -/
theorem clearLine_mirror {a b : Board} (h : a.MirrorCells b) (src sq : Nat) (hsrc : src < 64)
    (hsq : sq < 64) (d1 d2 : Int) (hd : Board.IsStep (d1, d2)) :
    a.ClearLine (mirrorSquare src) (mirrorSquare sq) d1 (-d2) ↔ b.ClearLine src sq d1 d2 := by
  obtain ⟨_, _, s2, s3, _⟩ := mirrorSquare_props src hsrc
  obtain ⟨_, _, q2, q3, _⟩ := mirrorSquare_props sq hsq
  obtain ⟨f0, f8⟩ := getFile_range sq
  obtain ⟨r0, r8⟩ := getRank_range sq hsq
  obtain ⟨g0, g8⟩ := getFile_range src
  obtain ⟨p0, p8⟩ := getRank_range src hsrc
  obtain ⟨hd1, hd2, _⟩ := hd
  simp only at hd1 hd2
  unfold Board.ClearLine
  rw [s2, s3, q2, q3]
  have key : ∀ k : Nat, getFile src = getFile sq + k * d1 → getRank src = getRank sq + k * d2 →
      ∀ j : Nat, j < k →
        a.pieceAt (makeSquare (getFile sq + j * d1) (7 - getRank sq + j * -d2)) =
          (b.pieceAt (makeSquare (getFile sq + j * d1) (getRank sq + j * d2))).swapColor := by
    intro k hf hr j hj
    have hv : isSquareValid (getFile sq + j * d1) (getRank sq + j * d2) = true := by
      rw [isSquareValid_iff]
      rcases hd1 with rfl | rfl | rfl <;> rcases hd2 with rfl | rfl | rfl <;>
        simp only [mul_neg, mul_one, mul_zero, add_zero] at hf hr ⊢ <;> omega
    have := h _ _ hv
    rw [← this]
    congr 2
    ring
  constructor
  · rintro ⟨k, hk8, hk1, hf, hr, hbetween⟩
    have hr2 : getRank src = getRank sq + k * d2 := by linarith
    refine ⟨k, hk8, hk1, hf, hr2, ?_⟩
    intro j hj hj1
    have := hbetween j hj hj1
    rw [key k hf hr2 j hj, Piece.swapColor_isNone] at this
    exact this
  · rintro ⟨k, hk8, hk1, hf, hr, hbetween⟩
    refine ⟨k, hk8, hk1, hf, by rw [hr]; ring, ?_⟩
    intro j hj hj1
    rw [key k hf hr j hj, Piece.swapColor_isNone]
    exact hbetween j hj hj1

/-- The attack relation on the mirror image. -/
theorem attacks_mirror {a b : Board} (h : a.MirrorCells b) (c : Color)
    (hc : c = Color.White ∨ c = Color.Black) (src sq : Nat) (hsrc : src < 64)
    (hsq : sq < 64) :
    a.Attacks c.swap (mirrorSquare src) (mirrorSquare sq) ↔ b.Attacks c src sq := by
  obtain ⟨_, _, s2, s3, _⟩ := mirrorSquare_props src hsrc
  obtain ⟨_, _, q2, q3, _⟩ := mirrorSquare_props sq hsq
  have hp := (h.at_square src hsrc).1
  have hdir : (if c.swap = Color.White then (1 : Int) else -1) =
      -(if c = Color.White then (1 : Int) else -1) := by
    rcases hc with rfl | rfl <;> decide
  have habs : |7 - getRank src - (7 - getRank sq)| = |getRank src - getRank sq| := by
    rw [show (7 : Int) - getRank src - (7 - getRank sq) = -(getRank src - getRank sq) by ring,
      abs_neg]
  have hdiag : (∃ d ∈ Board.diagDirs, a.ClearLine (mirrorSquare src) (mirrorSquare sq) d.1 d.2) ↔
      ∃ d ∈ Board.diagDirs, b.ClearLine src sq d.1 d.2 := by
    constructor
    · rintro ⟨d, hd, hl⟩
      refine ⟨(d.1, -d.2), diagDirs_flip d hd, ?_⟩
      have := (clearLine_mirror h src sq hsrc hsq d.1 (-d.2)
        (diagDirs_isStep _ (diagDirs_flip d hd))).mp
      rw [neg_neg] at this
      exact this hl
    · rintro ⟨d, hd, hl⟩
      exact ⟨(d.1, -d.2), diagDirs_flip d hd,
        (clearLine_mirror h src sq hsrc hsq d.1 d.2 (diagDirs_isStep d hd)).mpr hl⟩
  have hstraight : (∃ d ∈ Board.straightDirs,
        a.ClearLine (mirrorSquare src) (mirrorSquare sq) d.1 d.2) ↔
      ∃ d ∈ Board.straightDirs, b.ClearLine src sq d.1 d.2 := by
    constructor
    · rintro ⟨d, hd, hl⟩
      refine ⟨(d.1, -d.2), straightDirs_flip d hd, ?_⟩
      have := (clearLine_mirror h src sq hsrc hsq d.1 (-d.2)
        (straightDirs_isStep _ (straightDirs_flip d hd))).mp
      rw [neg_neg] at this
      exact this hl
    · rintro ⟨d, hd, hl⟩
      exact ⟨(d.1, -d.2), straightDirs_flip d hd,
        (clearLine_mirror h src sq hsrc hsq d.1 d.2 (straightDirs_isStep d hd)).mpr hl⟩
  unfold Board.Attacks
  rw [hp, Piece.swapColor_type, Piece.swapColor_color, Color.swap_eq_iff, s2, s3, q2, q3, hdir,
    habs, hdiag, hstraight]
  have e1 : (7 - getRank src = 7 - getRank sq - -(if c = Color.White then (1 : Int) else -1)) ↔
      (getRank src = getRank sq - (if c = Color.White then (1 : Int) else -1)) := by
    constructor <;> intro hx <;> linarith
  have e2 : (7 - getRank src ≠ 7 - getRank sq) ↔ (getRank src ≠ getRank sq) := by
    constructor <;> intro hx hy <;> apply hx <;> linarith
  rw [e1, e2]

/-- The attack test on the mirror image. -/
theorem isSquareAttacked_mirror {a b : Board} (h : a.MirrorCells b) (c : Color)
    (hc : c = Color.White ∨ c = Color.Black) (sq : Nat) (hsq : sq < 64) :
    a.isSquareAttacked (mirrorSquare sq) c.swap = b.isSquareAttacked sq c := by
  obtain ⟨_, q1, _, _, _⟩ := mirrorSquare_props sq hsq
  rw [Bool.eq_iff_iff, isSquareAttacked_iff_exists_attacker a _ _ q1,
    isSquareAttacked_iff_exists_attacker b _ _ hsq]
  constructor
  · rintro ⟨src, hsrc, hatt⟩
    obtain ⟨_, m1, _, _, m4⟩ := mirrorSquare_props src hsrc
    refine ⟨mirrorSquare src, m1, ?_⟩
    rw [← attacks_mirror h c hc (mirrorSquare src) sq m1 hsq, m4]
    exact hatt
  · rintro ⟨src, hsrc, hatt⟩
    obtain ⟨_, m1, _, _, _⟩ := mirrorSquare_props src hsrc
    exact ⟨mirrorSquare src, m1, (attacks_mirror h c hc src sq hsrc hsq).mpr hatt⟩

/-- The king of a colour on the mirror image, when the colour has at most one. -/
theorem findKing_mirror {a b : Board} (h : a.MirrorCells b) (c : Color)
    (hone : b.OneKing c) :
    a.findKing c.swap =
      if b.findKing c = 255 then 255 else mirrorSquare (b.findKing c) := by
  have hcell : ∀ s, s < 64 →
      (((a.pieceAt s).type = PieceType.King ∧ (a.pieceAt s).color = c.swap) ↔
        ((b.pieceAt (mirrorSquare s)).type = PieceType.King ∧
          (b.pieceAt (mirrorSquare s)).color = c)) := by
    intro s hs
    rw [(h.at_square s hs).2, Piece.swapColor_type, Piece.swapColor_color, Color.swap_eq_iff]
  rcases findKing_lt_or_none b c with hb | ⟨hb1, hb2, hb3⟩
  · rw [if_pos hb, findKing_none_iff]
    intro s hs hk
    obtain ⟨_, m1, _, _, _⟩ := mirrorSquare_props s hs
    exact (findKing_none_iff b c).mp hb _ m1 ((hcell s hs).mp hk)
  · have hne : b.findKing c ≠ 255 := by omega
    rw [if_neg hne]
    obtain ⟨_, k1, _, _, k4⟩ := mirrorSquare_props _ hb1
    rcases findKing_lt_or_none a c.swap with ha | ⟨ha1, ha2, ha3⟩
    · exfalso
      refine (findKing_none_iff a c.swap).mp ha _ k1 ((hcell _ k1).mpr ?_)
      rw [k4]; exact ⟨hb2, hb3⟩
    · obtain ⟨_, m1, _, _, m4⟩ := mirrorSquare_props _ ha1
      have hk := (hcell _ ha1).mp ⟨ha2, ha3⟩
      have := hone _ _ m1 hb1 hk ⟨hb2, hb3⟩
      rw [← this, m4]

/-- The check test on the mirror image. -/
theorem isCheck_mirror {a b : Board} (h : a.MirrorCells b) (c : Color)
    (hc : c = Color.White ∨ c = Color.Black) (hone : b.OneKing c) :
    a.isCheck c.swap = b.isCheck c := by
  obtain ⟨ho, _, _⟩ := Color.swap_oppositeColor c hc
  have hoc : oppositeColor c = Color.White ∨ oppositeColor c = Color.Black := by
    rcases hc with rfl | rfl <;> decide
  unfold Board.isCheck
  simp only
  rw [findKing_mirror h c hone]
  rcases findKing_lt_or_none b c with hb | ⟨hb1, _, _⟩
  · simp only [hb, if_true]
  · have hne : b.findKing c ≠ 255 := by omega
    obtain ⟨_, k1, _, _, _⟩ := mirrorSquare_props _ hb1
    have hne2 : mirrorSquare (b.findKing c) ≠ 255 := by omega
    simp only [hne, if_false, hne2]
    rw [ho]
    exact isSquareAttacked_mirror h _ hoc _ hb1

/-! ### Move generation on the mirror image -/

theorem Move.mirror_mk (src : Nat) (f r : Int) (hv : isSquareValid f r = true)
    (flag : MoveFlag) (p : PieceType) :
    Move.mirror ⟨src, makeSquare f r, flag, p⟩ =
      ⟨mirrorSquare src, makeSquare f (7 - r), flag, p⟩ := by
  unfold Move.mirror
  simp only [mirrorSquare_makeSquare f r hv]

theorem color_ne_swap (x c : Color) : x.swap ≠ c.swap ↔ x ≠ c := by
  rw [ne_eq, ne_eq, Color.swap_eq_iff]

theorem addMoveIfValid_mirror {a b : Board} (h : a.MirrorCells b) (c : Color) (src : Nat)
    (f r : Int) (hv : isSquareValid f r = true) :
    addMoveIfValid a (mirrorSquare src) (makeSquare f (7 - r)) c.swap =
      (addMoveIfValid b src (makeSquare f r) c).map Move.mirror := by
  unfold addMoveIfValid
  simp only
  rw [h f r hv, Piece.swapColor_isNone, Piece.swapColor_color]
  by_cases h1 : (b.pieceAt (makeSquare f r)).isNone = true
  · simp only [h1, if_true, List.map_cons, List.map_nil, Move.mirror_mk src f r hv]
  · simp only [h1, Bool.false_eq_true, if_false]
    by_cases h2 : (b.pieceAt (makeSquare f r)).color ≠ c
    · rw [if_pos h2, if_pos ((color_ne_swap _ _).mpr h2)]
      simp only [List.map_cons, List.map_nil, Move.mirror_mk src f r hv]
    · rw [if_neg h2, if_neg (fun hx => h2 ((color_ne_swap _ _).mp hx))]
      rfl

/-- The moves of a leaper loop on the mirror image. -/
theorem leaps_mirror {a b : Board} (h : a.MirrorCells b) (c : Color) (src : Nat)
    (hsrc : src < 64) (offsets : List (Int × Int)) :
    (offsets.flatMap fun mv =>
      if isSquareValid (getFile (mirrorSquare src) + mv.1) (getRank (mirrorSquare src) + mv.2)
      then addMoveIfValid a (mirrorSquare src)
        (makeSquare (getFile (mirrorSquare src) + mv.1) (getRank (mirrorSquare src) + mv.2))
        c.swap
      else []) =
    (((offsets.map flipRank).flatMap fun mv =>
      if isSquareValid (getFile src + mv.1) (getRank src + mv.2) then
        addMoveIfValid b src (makeSquare (getFile src + mv.1) (getRank src + mv.2)) c
      else []).map Move.mirror) := by
  obtain ⟨_, _, s2, s3, _⟩ := mirrorSquare_props src hsrc
  rw [List.flatMap_map, List.map_flatMap, s2, s3]
  apply List.flatMap_congr
  intro mv _
  have e : (7 : Int) - getRank src + mv.2 = 7 - (getRank src + -mv.2) := by ring
  simp only [flipRank]
  rw [e, isSquareValid_mirror]
  by_cases hv : isSquareValid (getFile src + mv.1) (getRank src + -mv.2) = true
  · rw [if_pos hv, if_pos hv]
    exact addMoveIfValid_mirror h c src _ _ hv
  · rw [if_neg hv, if_neg hv]
    rfl

/-- One ray of a slider on the mirror image. -/
theorem slideRay_mirror {a b : Board} (h : a.MirrorCells b) (c : Color) (src : Nat)
    (df dr : Int) :
    ∀ (fuel : Nat) (f r : Int),
      slideRay a (mirrorSquare src) c.swap df (-dr) fuel f (7 - r) =
        (slideRay b src c df dr fuel f r).map Move.mirror := by
  intro fuel
  induction fuel with
  | zero => intro f r; rfl
  | succ n ih =>
    intro f r
    unfold slideRay
    rw [isSquareValid_mirror]
    by_cases hv : isSquareValid f r = true
    · rw [if_pos hv, if_pos hv]
      simp only
      rw [h f r hv, Piece.swapColor_isNone, Piece.swapColor_color]
      have e : (7 : Int) - r + -dr = 7 - (r + dr) := by ring
      by_cases h1 : (b.pieceAt (makeSquare f r)).isNone = true
      · simp only [h1, if_true, List.map_cons, Move.mirror_mk src f r hv]
        rw [e, ih]
      · simp only [h1, Bool.false_eq_true, if_false]
        by_cases h2 : (b.pieceAt (makeSquare f r)).color ≠ c
        · rw [if_pos h2, if_pos ((color_ne_swap _ _).mpr h2)]
          simp only [List.map_cons, List.map_nil, Move.mirror_mk src f r hv]
        · rw [if_neg h2, if_neg (fun hx => h2 ((color_ne_swap _ _).mp hx))]
          rfl
    · rw [if_neg hv, if_neg hv]
      rfl

/-- The slider moves on the mirror image. -/
theorem slideMoves_mirror {a b : Board} (h : a.MirrorCells b) (c : Color) (src : Nat)
    (hsrc : src < 64) (dirs : List (Int × Int)) :
    slideMoves a (mirrorSquare src) c.swap dirs =
      (slideMoves b src c (dirs.map flipRank)).map Move.mirror := by
  obtain ⟨_, _, s2, s3, _⟩ := mirrorSquare_props src hsrc
  unfold slideMoves
  simp only
  rw [List.flatMap_map, List.map_flatMap, s2, s3]
  apply List.flatMap_congr
  intro d _
  have e : (7 : Int) - getRank src + d.2 = 7 - (getRank src + -d.2) := by ring
  simp only [flipRank]
  rw [e, ← slideRay_mirror h c src d.1 (-d.2), neg_neg]

theorem knightMoves_flip : (Board.knightMoves.map flipRank).Perm Board.knightMoves := by
  decide

theorem kingMoves_flip : (Board.kingMoves.map flipRank).Perm Board.kingMoves := by
  decide

theorem diagDirs_flip_perm : (Board.diagDirs.map flipRank).Perm Board.diagDirs := by
  decide

theorem straightDirs_flip_perm : (Board.straightDirs.map flipRank).Perm Board.straightDirs := by
  decide

theorem promotionMoves_mirror (src : Nat) (f r : Int) (hv : isSquareValid f r = true) :
    promotionMoves (mirrorSquare src) (makeSquare f (7 - r)) =
      (promotionMoves src (makeSquare f r)).map Move.mirror := by
  unfold promotionMoves
  simp only [List.map_cons, List.map_nil, Move.mirror_mk src f r hv]

/-- Direction, start rank and promotion rank of the pawns of the other colour. -/
theorem pawn_constants_swap (c : Color) (hc : c = Color.White ∨ c = Color.Black) :
    (if c.swap = Color.White then (1 : Int) else -1) =
        -(if c = Color.White then (1 : Int) else -1) ∧
      (if c.swap = Color.White then (1 : Int) else 6) =
        7 - (if c = Color.White then (1 : Int) else 6) ∧
      (if c.swap = Color.White then (7 : Int) else 0) =
        7 - (if c = Color.White then (7 : Int) else 0) := by
  rcases hc with rfl | rfl <;> decide

/-- The pawn pushes on the mirror image. -/
theorem pawnPushes_mirror {a b : Board} (h : a.MirrorCells b) (c : Color)
    (hc : c = Color.White ∨ c = Color.Black) (src : Nat) (hsrc : src < 64) :
    pawnPushes a (mirrorSquare src) c.swap = (pawnPushes b src c).map Move.mirror := by
  obtain ⟨_, _, s2, s3, _⟩ := mirrorSquare_props src hsrc
  obtain ⟨f0, f8⟩ := getFile_range src
  obtain ⟨r0, r8⟩ := getRank_range src hsrc
  obtain ⟨k1, k2, k3⟩ := pawn_constants_swap c hc
  have hcst := pawn_constants c
  unfold pawnPushes
  simp only
  rw [s2, s3, k1, k2, k3]
  generalize (if c = Color.White then (1 : Int) else -1) = dir at hcst ⊢
  generalize (if c = Color.White then (1 : Int) else 6) = startRank at hcst ⊢
  generalize (if c = Color.White then (7 : Int) else 0) = promRank at hcst ⊢
  have e1 : (7 : Int) - getRank src + -dir = 7 - (getRank src + dir) := by ring
  have e2 : (7 : Int) - getRank src + 2 * -dir = 7 - (getRank src + 2 * dir) := by ring
  rw [e1, e2]
  by_cases hn : getRank src + dir ≥ 0 ∧ getRank src + dir < 8
  · have hn2 : 7 - (getRank src + dir) ≥ 0 ∧ 7 - (getRank src + dir) < 8 := by omega
    have hv : isSquareValid (getFile src) (getRank src + dir) = true :=
      (isSquareValid_iff _ _).mpr ⟨f0, f8, hn.1, hn.2⟩
    rw [if_pos hn, if_pos hn2, h _ _ hv, Piece.swapColor_isNone]
    by_cases hnone : (b.pieceAt (makeSquare (getFile src) (getRank src + dir))).isNone = true
    · rw [if_pos hnone, if_pos hnone, List.map_append]
      congr 1
      · by_cases hp : getRank src + dir = promRank
        · have hp2 : 7 - (getRank src + dir) = 7 - promRank := by omega
          rw [if_pos hp, if_pos hp2]
          exact promotionMoves_mirror src _ _ hv
        · have hp2 : ¬ (7 - (getRank src + dir) = 7 - promRank) := by omega
          rw [if_neg hp, if_neg hp2]
          simp only [List.map_cons, List.map_nil, Move.mirror_mk src _ _ hv]
      · by_cases hs : getRank src = startRank
        · have hs2 : 7 - getRank src = 7 - startRank := by omega
          have hv2 : isSquareValid (getFile src) (getRank src + 2 * dir) = true := by
            rw [isSquareValid_iff]
            rcases hcst with ⟨h1, h2, _⟩ | ⟨h1, h2, _⟩ <;> omega
          rw [if_pos hs, if_pos hs2, h _ _ hv2, Piece.swapColor_isNone]
          by_cases hd : (b.pieceAt (makeSquare (getFile src)
              (getRank src + 2 * dir))).isNone = true
          · rw [if_pos hd, if_pos hd]
            simp only [List.map_cons, List.map_nil, Move.mirror_mk src _ _ hv2]
          · rw [if_neg hd, if_neg hd]
            rfl
        · have hs2 : ¬ (7 - getRank src = 7 - startRank) := by omega
          rw [if_neg hs, if_neg hs2]
          rfl
    · rw [if_neg hnone, if_neg hnone]
      rfl
  · have hn2 : ¬ (7 - (getRank src + dir) ≥ 0 ∧ 7 - (getRank src + dir) < 8) := by omega
    rw [if_neg hn, if_neg hn2]
    rfl

/-- The pawn captures on the mirror image. -/
theorem pawnCapturesDir_mirror {a b : Board} (h : a.MirrorCells b) (hp : a.MirrorPosition b)
    (c : Color) (hc : c = Color.White ∨ c = Color.Black) (src : Nat) (hsrc : src < 64)
    (df : Int) :
    pawnCapturesDir a (mirrorSquare src) c.swap df =
      (pawnCapturesDir b src c df).map Move.mirror := by
  obtain ⟨_, _, s2, s3, _⟩ := mirrorSquare_props src hsrc
  obtain ⟨k1, _, k3⟩ := pawn_constants_swap c hc
  unfold pawnCapturesDir
  simp only
  rw [s2, s3, k1, k3]
  generalize (if c = Color.White then (1 : Int) else -1) = dir
  generalize (if c = Color.White then (7 : Int) else 0) = promRank
  have e1 : (7 : Int) - getRank src + -dir = 7 - (getRank src + dir) := by ring
  rw [e1]
  by_cases hn : getFile src + df ≥ 0 ∧ getFile src + df < 8 ∧
      getRank src + dir ≥ 0 ∧ getRank src + dir < 8
  · have hn2 : getFile src + df ≥ 0 ∧ getFile src + df < 8 ∧
        7 - (getRank src + dir) ≥ 0 ∧ 7 - (getRank src + dir) < 8 := by omega
    have hv : isSquareValid (getFile src + df) (getRank src + dir) = true :=
      (isSquareValid_iff _ _).mpr ⟨hn.1, hn.2.1, hn.2.2.1, hn.2.2.2⟩
    rw [if_pos hn, if_pos hn2, h _ _ hv, Piece.swapColor_isNone, Piece.swapColor_color,
      List.map_append]
    congr 1
    · by_cases ht : (!(b.pieceAt (makeSquare (getFile src + df) (getRank src + dir))).isNone) =
          true ∧ (b.pieceAt (makeSquare (getFile src + df) (getRank src + dir))).color ≠ c
      · rw [if_pos ht, if_pos ⟨ht.1, (color_ne_swap _ _).mpr ht.2⟩]
        by_cases hpr : getRank src + dir = promRank
        · have hp2 : 7 - (getRank src + dir) = 7 - promRank := by omega
          rw [if_pos hpr, if_pos hp2]
          exact promotionMoves_mirror src _ _ hv
        · have hp2 : ¬ (7 - (getRank src + dir) = 7 - promRank) := by omega
          rw [if_neg hpr, if_neg hp2]
          simp only [List.map_cons, List.map_nil, Move.mirror_mk src _ _ hv]
      · rw [if_neg ht, if_neg (fun hx => ht ⟨hx.1, (color_ne_swap _ _).mp hx.2⟩)]
        rfl
    · by_cases hep : makeSquare (getFile src + df) (getRank src + dir) =
          b.position.enPassantSquare
      · rw [if_pos hep, if_pos ((hp.2 _ _ hv).mpr hep)]
        simp only [List.map_cons, List.map_nil, Move.mirror_mk src _ _ hv]
      · rw [if_neg hep, if_neg (fun hx => hep ((hp.2 _ _ hv).mp hx))]
        rfl
  · have hn2 : ¬ (getFile src + df ≥ 0 ∧ getFile src + df < 8 ∧
        7 - (getRank src + dir) ≥ 0 ∧ 7 - (getRank src + dir) < 8) := by omega
    rw [if_neg hn, if_neg hn2]
    rfl

/-- The moves of a pawn on the mirror image. -/
theorem generatePawnMoves_mirror {a b : Board} (h : a.MirrorCells b)
    (hp : a.MirrorPosition b) (c : Color) (hc : c = Color.White ∨ c = Color.Black)
    (src : Nat) (hsrc : src < 64) :
    generatePawnMoves a (mirrorSquare src) c.swap =
      (generatePawnMoves b src c).map Move.mirror := by
  unfold generatePawnMoves
  rw [List.map_append, pawnPushes_mirror h c hc src hsrc, List.map_flatMap]
  congr 1
  apply List.flatMap_congr
  intro df _
  exact pawnCapturesDir_mirror h hp c hc src hsrc df

theorem isSquareAttacked_mirror_coords {a b : Board} (h : a.MirrorCells b) (c : Color)
    (hc : c = Color.White ∨ c = Color.Black) (f r : Int) (hv : isSquareValid f r = true) :
    a.isSquareAttacked (makeSquare f (7 - r)) (oppositeColor c.swap) =
      b.isSquareAttacked (makeSquare f r) (oppositeColor c) := by
  obtain ⟨ho, _, _⟩ := Color.swap_oppositeColor c hc
  have hoc : oppositeColor c = Color.White ∨ oppositeColor c = Color.Black := by
    rcases hc with rfl | rfl <;> decide
  rw [ho, ← mirrorSquare_makeSquare f r hv]
  exact isSquareAttacked_mirror h _ hoc _ (makeSquare_valid f r hv).1

/-- King-side castling on the mirror image, for a king on the e-file. -/
theorem castleKingside_mirror {a b : Board} (h : a.MirrorCells b) (hp : a.MirrorPosition b)
    (c : Color) (hc : c = Color.White ∨ c = Color.Black) (src : Nat) (hsrc : src < 64)
    (hfile : b.position.canCastleKingside c = true → getFile src = 4) :
    castleKingside a (mirrorSquare src) c.swap =
      (castleKingside b src c).map Move.mirror := by
  obtain ⟨_, _, s2, s3, _⟩ := mirrorSquare_props src hsrc
  obtain ⟨r0, r8⟩ := getRank_range src hsrc
  unfold castleKingside
  simp only
  rw [s2, s3, (hp.1 c hc).1]
  by_cases hr : b.position.canCastleKingside c = true
  · have hf := hfile hr
    have v1 : isSquareValid (getFile src + 1) (getRank src) = true := by
      rw [isSquareValid_iff]; omega
    have v2 : isSquareValid (getFile src + 2) (getRank src) = true := by
      rw [isSquareValid_iff]; omega
    rw [if_pos hr, if_pos hr, h _ _ v1, h _ _ v2, Piece.swapColor_isNone,
      Piece.swapColor_isNone, isSquareAttacked_mirror_coords h c hc _ _ v1,
      isSquareAttacked_mirror_coords h c hc _ _ v2]
    split_ifs
    · simp only [List.map_cons, List.map_nil, Move.mirror_mk src _ _ v2]
    · rfl
  · rw [if_neg hr, if_neg hr]
    rfl

/-- Queen-side castling on the mirror image, for a king on the e-file. -/
theorem castleQueenside_mirror {a b : Board} (h : a.MirrorCells b) (hp : a.MirrorPosition b)
    (c : Color) (hc : c = Color.White ∨ c = Color.Black) (src : Nat) (hsrc : src < 64)
    (hfile : b.position.canCastleQueenside c = true → getFile src = 4) :
    castleQueenside a (mirrorSquare src) c.swap =
      (castleQueenside b src c).map Move.mirror := by
  obtain ⟨_, _, s2, s3, _⟩ := mirrorSquare_props src hsrc
  obtain ⟨r0, r8⟩ := getRank_range src hsrc
  unfold castleQueenside
  simp only
  rw [s2, s3, (hp.1 c hc).2]
  by_cases hr : b.position.canCastleQueenside c = true
  · have hf := hfile hr
    have v1 : isSquareValid (getFile src - 1) (getRank src) = true := by
      rw [isSquareValid_iff]; omega
    have v2 : isSquareValid (getFile src - 2) (getRank src) = true := by
      rw [isSquareValid_iff]; omega
    have v3 : isSquareValid (getFile src - 3) (getRank src) = true := by
      rw [isSquareValid_iff]; omega
    rw [if_pos hr, if_pos hr, h _ _ v1, h _ _ v2, h _ _ v3, Piece.swapColor_isNone,
      Piece.swapColor_isNone, Piece.swapColor_isNone,
      isSquareAttacked_mirror_coords h c hc _ _ v1,
      isSquareAttacked_mirror_coords h c hc _ _ v2]
    split_ifs
    · simp only [List.map_cons, List.map_nil, Move.mirror_mk src _ _ v2]
    · rfl
  · rw [if_neg hr, if_neg hr]
    rfl

/-- The moves of a king on the mirror image. -/
theorem generateKingMoves_mirror {a b : Board} (h : a.MirrorCells b)
    (hp : a.MirrorPosition b) (c : Color) (hc : c = Color.White ∨ c = Color.Black)
    (src : Nat) (hsrc : src < 64) (hone : b.OneKing c)
    (hfile : (b.position.canCastleKingside c = true ∨
      b.position.canCastleQueenside c = true) → getFile src = 4) :
    (generateKingMoves a (mirrorSquare src) c.swap).Perm
      ((generateKingMoves b src c).map Move.mirror) := by
  unfold generateKingMoves
  simp only
  rw [List.map_append, leaps_mirror h c src hsrc, isCheck_mirror h c hc hone]
  apply List.Perm.append
  · exact List.Perm.map _ (List.Perm.flatMap_right _ kingMoves_flip)
  · rw [castleKingside_mirror h hp c hc src hsrc (fun hr => hfile (Or.inl hr)),
      castleQueenside_mirror h hp c hc src hsrc (fun hr => hfile (Or.inr hr))]
    split_ifs
    · rw [List.map_append]
    · exact List.Perm.refl _

/-- The moves generated for a square, on the mirror image. -/
theorem movesFrom_mirror {a b : Board} (h : a.MirrorCells b) (hp : a.MirrorPosition b)
    (c : Color) (hc : c = Color.White ∨ c = Color.Black) (src : Nat) (hsrc : src < 64)
    (hone : b.OneKing c) (hE : b.CastlingFromFileE) :
    (movesFrom a c.swap (mirrorSquare src)).Perm ((movesFrom b c src).map Move.mirror) := by
  have hcell := (h.at_square src hsrc).1
  by_cases hcol : (b.pieceAt src).color = c
  swap
  · have e1 : movesFrom b c src = [] := by
      unfold movesFrom
      simp only [hcol, ne_eq, not_false_eq_true, or_true, if_true]
    have e2 : movesFrom a c.swap (mirrorSquare src) = [] := by
      unfold movesFrom
      have : (a.pieceAt (mirrorSquare src)).color ≠ c.swap := by
        rw [hcell, Piece.swapColor_color]; exact (color_ne_swap _ _).mpr hcol
      simp only [this, ne_eq, not_false_eq_true, or_true, if_true]
    rw [e1, e2]
    exact List.Perm.refl _
  have hcol2 : (a.pieceAt (mirrorSquare src)).color = c.swap := by
    rw [hcell, Piece.swapColor_color, hcol]
  have htype : (a.pieceAt (mirrorSquare src)).type = (b.pieceAt src).type := by
    rw [hcell, Piece.swapColor_type]
  obtain ⟨bP, bN, bB, bR, bQ, bK, bE⟩ := movesFrom_of_type b c src hcol
  obtain ⟨aP, aN, aB, aR, aQ, aK, aE⟩ := movesFrom_of_type a c.swap (mirrorSquare src) hcol2
  cases ht : (b.pieceAt src).type with
  | None =>
    rw [bE ht, aE (htype.trans ht)]
    exact List.Perm.refl _
  | Pawn =>
    rw [bP ht, aP (htype.trans ht), generatePawnMoves_mirror h hp c hc src hsrc]
  | Knight =>
    rw [bN ht, aN (htype.trans ht)]
    unfold generateKnightMoves
    simp only
    rw [leaps_mirror h c src hsrc]
    exact List.Perm.map _ (List.Perm.flatMap_right _ knightMoves_flip)
  | Bishop =>
    rw [bB ht, aB (htype.trans ht)]
    unfold generateBishopMoves
    rw [slideMoves_mirror h c src hsrc]
    unfold slideMoves
    exact List.Perm.map _ (List.Perm.flatMap_right _ diagDirs_flip_perm)
  | Rook =>
    rw [bR ht, aR (htype.trans ht)]
    unfold generateRookMoves
    rw [slideMoves_mirror h c src hsrc]
    unfold slideMoves
    exact List.Perm.map _ (List.Perm.flatMap_right _ straightDirs_flip_perm)
  | Queen =>
    rw [bQ ht, aQ (htype.trans ht)]
    unfold generateQueenMoves generateBishopMoves generateRookMoves
    rw [slideMoves_mirror h c src hsrc, slideMoves_mirror h c src hsrc, List.map_append]
    unfold slideMoves
    exact List.Perm.append
      (List.Perm.map _ (List.Perm.flatMap_right _ diagDirs_flip_perm))
      (List.Perm.map _ (List.Perm.flatMap_right _ straightDirs_flip_perm))
  | King =>
    rw [bK ht, aK (htype.trans ht)]
    exact generateKingMoves_mirror h hp c hc src hsrc hone
      (fun hr => hE c hr src hsrc ht hcol)

theorem range_mirror_perm : ((List.range 64).map mirrorSquare).Perm (List.range 64) := by
  decide

/-- The pseudo-legal moves on the mirror image. -/
theorem generatePseudoLegalMoves_mirror {a b : Board} (h : a.MirrorCells b)
    (hp : a.MirrorPosition b) (c : Color) (hc : c = Color.White ∨ c = Color.Black)
    (hone : b.OneKing c) (hE : b.CastlingFromFileE) :
    (generatePseudoLegalMoves a c.swap).Perm
      ((generatePseudoLegalMoves b c).map Move.mirror) := by
  unfold generatePseudoLegalMoves NUM_SQUARES
  rw [List.map_flatMap]
  refine (List.Perm.flatMap_right (movesFrom a c.swap) range_mirror_perm.symm).trans ?_
  rw [List.flatMap_map]
  apply List.Perm.flatMap_left
  intro sq hsq
  exact movesFrom_mirror h hp c hc sq (List.mem_range.mp hsq) hone hE

/-! ### Making a move on the mirror image -/

theorem Piece.swapColor_empty : Piece.empty.swapColor = Piece.empty := rfl

theorem Board.MirrorCells.congr_mirror {a a2 b b2 : Board} (h : a2.MirrorCells b2)
    (ha : a.squares = a2.squares) (hb : b.squares = b2.squares) : a.MirrorCells b := by
  intro f r hv
  have := h f r hv
  simp only [Board.pieceAt] at this ⊢
  rw [ha, hb]
  exact this

theorem Board.MirrorCells.setPiece_mirror {a b : Board} (h : a.MirrorCells b) (sq : Nat)
    (hsq : sq < 64) (p : Piece) :
    (a.setPiece (mirrorSquare sq) p.swapColor).MirrorCells (b.setPiece sq p) := by
  intro f r hv
  obtain ⟨hvs, _, _, _, _⟩ := mirrorSquare_props sq hsq
  have hv2 : isSquareValid f (7 - r) = true := by rw [isSquareValid_mirror]; exact hv
  have hvs2 : isSquareValid (getFile sq) (7 - getRank sq) = true := by
    rw [isSquareValid_mirror]; exact hvs
  rw [pieceAt_setPiece, pieceAt_setPiece]
  have e1 : (makeSquare f (7 - r) = mirrorSquare sq) ↔ (makeSquare f r = sq) := by
    unfold mirrorSquare
    rw [makeSquare_inj _ _ _ _ hv2 hvs2]
    constructor
    · rintro ⟨h1, h2⟩
      have : makeSquare f r = makeSquare (getFile sq) (getRank sq) := by
        rw [makeSquare_inj _ _ _ _ hv hvs]; exact ⟨h1, by omega⟩
      rw [this, makeSquare_file_rank_self sq hsq]
    · intro heq
      obtain ⟨_, v2, v3⟩ := makeSquare_valid f r hv
      rw [heq] at v2 v3
      exact ⟨v2.symm, by omega⟩
  by_cases hx : makeSquare f r = sq
  · rw [if_pos hx, if_pos (e1.mpr hx)]
  · rw [if_neg hx, if_neg (fun hy => hx (e1.mp hy))]
    exact h f r hv

theorem Board.MirrorCells.removePiece_mirror {a b : Board} (h : a.MirrorCells b) (sq : Nat)
    (hsq : sq < 64) :
    (a.removePiece (mirrorSquare sq)).MirrorCells (b.removePiece sq) := by
  have := h.setPiece_mirror sq hsq Piece.empty
  rw [Piece.swapColor_empty] at this
  exact this

theorem Board.MirrorCells.moveRook_mirror {a b : Board} (h : a.MirrorCells b) (x y r : Int)
    (hx : isSquareValid x r = true) (hy : isSquareValid y r = true) :
    (a.moveRook x y (7 - r)).MirrorCells (b.moveRook x y r) := by
  unfold Board.moveRook
  simp only
  rw [← mirrorSquare_makeSquare x r hx, ← mirrorSquare_makeSquare y r hy]
  apply Board.MirrorCells.removePiece_mirror _ _ (makeSquare_valid x r hx).1
  rw [(h.at_square _ (makeSquare_valid x r hx).1).1]
  exact h.setPiece_mirror _ (makeSquare_valid y r hy).1 _

/-- The cells after a move and after the mirrored move on the mirror image. -/
theorem Board.MirrorCells.makeMove_mirror {a b : Board} (h : a.MirrorCells b) (m : Move)
    (hfrom : m.from_ < 64) (hto : m.to_ < 64) :
    (a.makeMove m.mirror).MirrorCells (b.makeMove m) := by
  obtain ⟨_, _, f2, f3, _⟩ := mirrorSquare_props m.from_ hfrom
  obtain ⟨_, _, t2, t3, _⟩ := mirrorSquare_props m.to_ hto
  obtain ⟨r0, r8⟩ := getRank_range m.from_ hfrom
  obtain ⟨g0, g8⟩ := getFile_range m.to_
  refine Board.MirrorCells.congr_mirror ?_ (Board.makeMove_squares a m.mirror)
    (Board.makeMove_squares b m)
  have hfromP : a.pieceAt m.mirror.from_ = (b.pieceAt m.from_).swapColor :=
    (h.at_square m.from_ hfrom).1
  rw [hfromP]
  have h1 : (a.setPiece m.mirror.to_ (b.pieceAt m.from_).swapColor).MirrorCells
      (b.setPiece m.to_ (b.pieceAt m.from_)) := h.setPiece_mirror m.to_ hto _
  have h2 := h1.removePiece_mirror m.from_ hfrom
  have h3 : (((a.setPiece m.mirror.to_ (b.pieceAt m.from_).swapColor).removePiece
        m.mirror.from_).castleRook m.mirror).MirrorCells
      (((b.setPiece m.to_ (b.pieceAt m.from_)).removePiece m.from_).castleRook m) := by
    unfold Board.castleRook
    have hc : m.mirror.isCastling = m.isCastling := rfl
    rw [hc]
    by_cases hcas : m.isCastling = true
    · simp only [hcas, if_true]
      have e1 : getRank m.mirror.from_ = 7 - getRank m.from_ := f3
      have e2 : getFile m.mirror.to_ = getFile m.to_ := t2
      rw [e1, e2]
      have v7 : isSquareValid 7 (getRank m.from_) = true := by rw [isSquareValid_iff]; omega
      have v5 : isSquareValid 5 (getRank m.from_) = true := by rw [isSquareValid_iff]; omega
      have v0 : isSquareValid 0 (getRank m.from_) = true := by rw [isSquareValid_iff]; omega
      have v3 : isSquareValid 3 (getRank m.from_) = true := by rw [isSquareValid_iff]; omega
      split_ifs
      · exact h2.moveRook_mirror 7 5 _ v7 v5
      · exact h2.moveRook_mirror 0 3 _ v0 v3
    · simp only [hcas, Bool.false_eq_true, if_false]
      exact h2
  have h4 : ((((a.setPiece m.mirror.to_ (b.pieceAt m.from_).swapColor).removePiece
        m.mirror.from_).castleRook m.mirror).promotePawn m.mirror
          (b.pieceAt m.from_).swapColor).MirrorCells
      ((((b.setPiece m.to_ (b.pieceAt m.from_)).removePiece m.from_).castleRook m).promotePawn m
        (b.pieceAt m.from_)) := by
    unfold Board.promotePawn
    have hc : m.mirror.isPromotion = m.isPromotion := rfl
    rw [hc]
    split_ifs
    · exact h3.setPiece_mirror m.to_ hto ⟨m.promotion, (b.pieceAt m.from_).color⟩
    · exact h3
  unfold Board.removeEnPassantPawn
  have hc : m.mirror.isEnPassant = m.isEnPassant := rfl
  rw [hc]
  split_ifs
  · simp only
    have e1 : getRank m.mirror.from_ = 7 - getRank m.from_ := f3
    have e2 : getFile m.mirror.to_ = getFile m.to_ := t2
    have hv : isSquareValid (getFile m.to_) (getRank m.from_) = true := by
      rw [isSquareValid_iff]; omega
    rw [e1, e2, ← mirrorSquare_makeSquare _ _ hv]
    exact h4.removePiece_mirror _ (makeSquare_valid _ _ hv).1
  · exact h4

/-! ### At most one king after a move -/

theorem Board.OneKing.congr_one {b b2 : Board} (c : Color) (h : b2.OneKing c)
    (hb : b.squares = b2.squares) : b.OneKing c := by
  intro s1 s2 h1 h2 k1 k2
  simp only [Board.pieceAt, hb] at k1 k2
  exact h s1 s2 h1 h2 k1 k2

theorem Board.OneKing.setPiece_one {b : Board} (c : Color) (h : b.OneKing c) (sq : Nat)
    (p : Piece) (hp : ¬(p.type = PieceType.King ∧ p.color = c)) :
    (b.setPiece sq p).OneKing c := by
  intro s1 s2 h1 h2 k1 k2
  rw [pieceAt_setPiece] at k1 k2
  by_cases e1 : s1 = sq
  · rw [if_pos e1] at k1; exact absurd k1 hp
  · by_cases e2 : s2 = sq
    · rw [if_pos e2] at k2; exact absurd k2 hp
    · rw [if_neg e1] at k1; rw [if_neg e2] at k2
      exact h s1 s2 h1 h2 k1 k2

theorem Board.OneKing.removePiece_one {b : Board} (c : Color) (h : b.OneKing c) (sq : Nat) :
    (b.removePiece sq).OneKing c :=
  h.setPiece_one c sq Piece.empty (fun hx => absurd hx.1 (by decide))

/-- A piece carried from `src` to `dst` leaves at most one king. -/
theorem Board.OneKing.relocate {b : Board} (c : Color) (h : b.OneKing c) (src dst : Nat)
    (hsrc : src < 64) :
    ((b.setPiece dst (b.pieceAt src)).removePiece src).OneKing c := by
  intro s1 s2 h1 h2 k1 k2
  rw [pieceAt_removePiece, pieceAt_setPiece] at k1 k2
  by_cases e1 : s1 = src
  · rw [if_pos e1] at k1; exact absurd k1.1 (by decide)
  by_cases e2 : s2 = src
  · rw [if_pos e2] at k2; exact absurd k2.1 (by decide)
  rw [if_neg e1] at k1
  rw [if_neg e2] at k2
  by_cases d1 : s1 = dst
  · by_cases d2 : s2 = dst
    · rw [d1, d2]
    · rw [if_pos d1] at k1
      rw [if_neg d2] at k2
      exact absurd (h src s2 hsrc h2 k1 k2).symm e2
  · by_cases d2 : s2 = dst
    · rw [if_neg d1] at k1
      rw [if_pos d2] at k2
      exact absurd (h s1 src h1 hsrc k1 k2) e1
    · rw [if_neg d1] at k1
      rw [if_neg d2] at k2
      exact h s1 s2 h1 h2 k1 k2

/-- After a move from a square of the board that does not promote to a king, a colour
with at most one king still has at most one. -/
theorem Board.OneKing.makeMove_one {b : Board} (c : Color) (h : b.OneKing c) (m : Move)
    (hfrom : m.from_ < 64) (hprom : m.promotion ≠ PieceType.King) :
    (b.makeMove m).OneKing c := by
  obtain ⟨r0, r8⟩ := getRank_range m.from_ hfrom
  refine Board.OneKing.congr_one c ?_ (Board.makeMove_squares b m)
  have h2 := h.relocate c m.from_ m.to_ hfrom
  have h3 : (((b.setPiece m.to_ (b.pieceAt m.from_)).removePiece m.from_).castleRook m).OneKing
      c := by
    unfold Board.castleRook
    split_ifs
    · exact h2.relocate c _ _ (makeSquare_valid 7 _ (by rw [isSquareValid_iff]; omega)).1
    · exact h2.relocate c _ _ (makeSquare_valid 0 _ (by rw [isSquareValid_iff]; omega)).1
    · exact h2
  have h4 : ((((b.setPiece m.to_ (b.pieceAt m.from_)).removePiece m.from_).castleRook
      m).promotePawn m (b.pieceAt m.from_)).OneKing c := by
    unfold Board.promotePawn
    split_ifs
    · exact h3.setPiece_one c _ _ (fun hx => hprom hx.1)
    · exact h3
  unfold Board.removeEnPassantPawn
  split_ifs
  · exact h4.removePiece_one c _
  · exact h4

/-! ### Legal moves on the mirror image -/

theorem slideRay_promotion (b : Board) (src : Nat) (c : Color) (df dr : Int) (fuel : Nat) :
    ∀ (x y : Int) (m : Move), m ∈ slideRay b src c df dr fuel x y →
      m.promotion = PieceType.None := by
  induction fuel with
  | zero => intro x y m h; simp [slideRay] at h
  | succ n ih =>
    intro x y m h
    rw [slideRay] at h
    simp only at h
    split_ifs at h
    · rcases List.mem_cons.mp h with h | h
      · rw [h]
      · exact ih _ _ m h
    · rw [List.mem_singleton] at h; rw [h]
    · exact absurd h (List.not_mem_nil m)
    · exact absurd h (List.not_mem_nil m)

theorem addMoveIfValid_promotion (b : Board) (src dst : Nat) (c : Color) (m : Move)
    (h : m ∈ addMoveIfValid b src dst c) : m.promotion = PieceType.None := by
  unfold addMoveIfValid at h
  simp only at h
  split_ifs at h <;>
    first
    | exact absurd h (List.not_mem_nil m)
    | (rw [List.mem_singleton] at h; rw [h])

theorem promotionMoves_promotion (src dst : Nat) (m : Move)
    (h : m ∈ promotionMoves src dst) : m.promotion ≠ PieceType.King := by
  simp only [promotionMoves, List.mem_cons, List.mem_singleton, List.not_mem_nil,
    or_false] at h
  rcases h with h | h | h | h <;> subst h <;> simp

/-- No generated move promotes to a king. -/
theorem movesFrom_promotion (b : Board) (c : Color) (sq : Nat) (m : Move)
    (h : m ∈ movesFrom b c sq) : m.promotion ≠ PieceType.King := by
  have none_ok : m.promotion = PieceType.None → m.promotion ≠ PieceType.King := by
    intro e; rw [e]; simp
  have leaps : ∀ dirs : List (Int × Int),
      (m ∈ dirs.flatMap fun dir =>
        if isSquareValid (getFile sq + dir.1) (getRank sq + dir.2) then
          addMoveIfValid b sq (makeSquare (getFile sq + dir.1) (getRank sq + dir.2)) c
        else []) → m.promotion ≠ PieceType.King := by
    intro dirs hm
    obtain ⟨d, _, hd⟩ := List.mem_flatMap.mp hm
    split_ifs at hd
    · exact none_ok (addMoveIfValid_promotion b sq _ c m hd)
    · exact absurd hd (List.not_mem_nil m)
  have slides : ∀ dirs : List (Int × Int), m ∈ slideMoves b sq c dirs →
      m.promotion ≠ PieceType.King := by
    intro dirs hm
    unfold slideMoves at hm
    obtain ⟨d, _, hd⟩ := List.mem_flatMap.mp hm
    exact none_ok (slideRay_promotion b sq c _ _ _ _ _ m hd)
  unfold movesFrom at h
  simp only at h
  split_ifs at h
  · exact absurd h (List.not_mem_nil m)
  split at h
  · unfold generatePawnMoves at h
    rcases List.mem_append.mp h with h | h
    · unfold pawnPushes at h
      simp only at h
      split_ifs at h <;>
        simp only [List.mem_append, List.mem_singleton, List.not_mem_nil, or_false,
          false_or, List.append_nil] at h
      all_goals
        first
        | exact absurd h (List.not_mem_nil m)
        | exact promotionMoves_promotion _ _ m h
        | (rw [h]; simp)
        | (rcases h with h | h
           · first | exact promotionMoves_promotion _ _ m h | (rw [h]; simp)
           · first | exact promotionMoves_promotion _ _ m h | (rw [h]; simp))
    · obtain ⟨df, _, hd⟩ := List.mem_flatMap.mp h
      unfold pawnCapturesDir at hd
      simp only at hd
      split_ifs at hd <;>
        simp only [List.mem_append, List.mem_singleton, List.not_mem_nil, or_false,
          false_or, List.append_nil] at hd
      all_goals
        first
        | exact absurd hd (List.not_mem_nil m)
        | exact promotionMoves_promotion _ _ m hd
        | (rw [hd]; simp)
        | (rcases hd with hd | hd
           · first | exact promotionMoves_promotion _ _ m hd | (rw [hd]; simp)
           · first | exact promotionMoves_promotion _ _ m hd | (rw [hd]; simp))
  · exact leaps _ h
  · exact slides _ h
  · exact slides _ h
  · unfold generateQueenMoves at h
    rcases List.mem_append.mp h with h | h
    · exact slides _ h
    · exact slides _ h
  · unfold generateKingMoves at h
    rcases List.mem_append.mp h with h | h
    · exact leaps _ h
    · split_ifs at h
      · rcases List.mem_append.mp h with h | h
        · rw [(mem_castleKingside b sq c m h).1]; simp
        · rw [(mem_castleQueenside b sq c m h).1]; simp
      · exact absurd h (List.not_mem_nil m)
  · exact absurd h (List.not_mem_nil m)

/-- The squares of a generated move lie on the board when castling starts on the
e-file. -/
theorem movesFrom_on_board (b : Board) (hE : b.CastlingFromFileE) (c : Color) (sq : Nat)
    (hsq : sq < 64) (m : Move) (h : m ∈ movesFrom b c sq) : m.from_ < 64 ∧ m.to_ < 64 := by
  obtain ⟨e1, _, hcol, _, hs⟩ := movesFrom_shape b c sq hsq m h
  refine ⟨by rw [e1]; exact hsq, ?_⟩
  obtain ⟨r0, r8⟩ := getRank_range sq hsq
  rcases hs with hs | hs | hs | hs | hs | hs
  · exact hs.2.1
  · exact hs.2.1
  · exact hs.2.1
  · exact hs.2.1
  · exact hs.2.1
  · obtain ⟨_, hk, _, hside⟩ := hs
    rcases hside with hm | hm
    · obtain ⟨e, hr, _⟩ := mem_castleKingside b sq c m hm
      have hf := hE c (Or.inl hr) sq hsq hk hcol
      rw [e]
      exact (makeSquare_valid (getFile sq + 2) (getRank sq)
        (by rw [isSquareValid_iff]; omega)).1
    · obtain ⟨e, hr, _⟩ := mem_castleQueenside b sq c m hm
      have hf := hE c (Or.inr hr) sq hsq hk hcol
      rw [e]
      exact (makeSquare_valid (getFile sq - 2) (getRank sq)
        (by rw [isSquareValid_iff]; omega)).1

/-- The two colours have as many legal moves on the mirror image as the other colour
has on the board. -/
theorem generateLegalMoves_mirror_length {a b : Board} (h : a.MirrorCells b)
    (hp : a.MirrorPosition b) (c : Color) (hc : c = Color.White ∨ c = Color.Black)
    (hone : b.OneKing c) (hE : b.CastlingFromFileE) :
    (generateLegalMoves a c.swap).length = (generateLegalMoves b c).length := by
  unfold generateLegalMoves
  have hperm := (generatePseudoLegalMoves_mirror h hp c hc hone hE).filter
    (fun move => !MoveValidator.leavesKingInCheck a move c.swap)
  rw [hperm.length_eq, List.filter_map, List.length_map]
  congr 1
  apply List.filter_congr
  intro m hm
  unfold generatePseudoLegalMoves NUM_SQUARES at hm
  obtain ⟨sq, hsq, hmem⟩ := List.mem_flatMap.mp hm
  rw [List.mem_range] at hsq
  obtain ⟨hfrom, hto⟩ := movesFrom_on_board b hE c sq hsq m hmem
  have hprom := movesFrom_promotion b c sq m hmem
  simp only [Function.comp, MoveValidator.leavesKingInCheck]
  rw [isCheck_mirror (h.makeMove_mirror m hfrom hto) c hc (hone.makeMove_one c m hfrom hprom)]

/-! ### The evaluation of the mirror image -/

theorem foldl_add_sum_squares (f : Int → Nat → Int) (g : Nat → Int) (l : List Nat)
    (h : ∀ x ∈ l, ∀ s, f s x = s + g x) :
    ∀ s : Int, l.foldl f s = s + (l.map g).sum := by
  induction l with
  | nil => intro s; simp
  | cons a t ih =>
    intro s
    rw [List.foldl_cons, h a (List.mem_cons_self a t),
      ih (fun x hx => h x (List.mem_cons_of_mem a hx))]
    simp only [List.map_cons, List.sum_cons]
    ring

theorem sum_map_neg_of_mem {α : Type} (l : List α) (f g : α → Int)
    (h : ∀ x ∈ l, f x = -g x) : (l.map f).sum = -(l.map g).sum := by
  induction l with
  | nil => simp
  | cons a t ih =>
    simp only [List.map_cons, List.sum_cons]
    rw [h a (List.mem_cons_self a t), ih (fun x hx => h x (List.mem_cons_of_mem a hx))]
    ring

theorem sum_map_eq_of_mem {α : Type} (l : List α) (f g : α → Int)
    (h : ∀ x ∈ l, f x = g x) : (l.map f).sum = (l.map g).sum := by
  rw [List.map_congr_left h]

/-- A sum over the 64 squares, taken in the order of the mirrored squares. -/
theorem sum_range_mirror (g : Nat → Int) :
    ((List.range 64).map (fun sq => g (mirrorSquare sq))).sum =
      ((List.range 64).map g).sum := by
  have h := (range_mirror_perm.map g).sum_eq
  rw [List.map_map] at h
  exact h

/-- The signed contribution of a cell changes sign with the colour of the piece. -/
theorem signed_swapColor (p : Piece)
    (hp : p = Piece.empty ∨
      (p.type ≠ PieceType.None ∧ (p.color = Color.White ∨ p.color = Color.Black)))
    (v : Int) :
    (if p.swapColor.isNone then 0 else if p.swapColor.isWhite then v else -v) =
      -(if p.isNone then 0 else if p.isWhite then v else -v) := by
  obtain ⟨t, c⟩ := p
  rcases hp with hp | ⟨ht, hc | hc⟩
  · rw [hp]; simp [Piece.empty, Piece.swapColor, Piece.isNone]
  · simp only at ht hc
    subst hc
    simp [Piece.swapColor, Piece.isNone, Piece.isWhite, Color.swap, ht]
  · simp only at ht hc
    subst hc
    simp [Piece.swapColor, Piece.isNone, Piece.isWhite, Color.swap, ht]

namespace AI.Evaluator

theorem evaluateMaterial_eq_sum (b : Board) :
    evaluateMaterial b = ((List.range 64).map fun sq =>
      if (b.pieceAt sq).isNone then 0
      else if (b.pieceAt sq).isWhite then (b.pieceAt sq).value
      else -(b.pieceAt sq).value).sum := by
  unfold evaluateMaterial NUM_SQUARES
  rw [foldl_add_sum_squares _ (fun sq =>
      if (b.pieceAt sq).isNone then 0
      else if (b.pieceAt sq).isWhite then (b.pieceAt sq).value
      else -(b.pieceAt sq).value)]
  · simp
  · intro sq _ s
    simp only
    split_ifs <;> simp

theorem evaluatePosition_eq_sum (b : Board) :
    evaluatePosition b = ((List.range 64).map fun sq =>
      if (b.pieceAt sq).isNone then 0
      else if (b.pieceAt sq).isWhite then getPieceSquareValue b (b.pieceAt sq) sq
      else -getPieceSquareValue b (b.pieceAt sq) sq).sum := by
  unfold evaluatePosition NUM_SQUARES
  rw [foldl_add_sum_squares _ (fun sq =>
      if (b.pieceAt sq).isNone then 0
      else if (b.pieceAt sq).isWhite then getPieceSquareValue b (b.pieceAt sq) sq
      else -getPieceSquareValue b (b.pieceAt sq) sq)]
  · simp
  · intro sq _ s
    simp only
    split_ifs <;> simp

theorem isEndgame_eq_sum (b : Board) :
    isEndgame b = decide (((List.range 64).map fun sq =>
      if !(b.pieceAt sq).isNone ∧ (b.pieceAt sq).type ≠ PieceType.King ∧
          (b.pieceAt sq).type ≠ PieceType.Pawn then (b.pieceAt sq).value else 0).sum < 2600) := by
  unfold isEndgame NUM_SQUARES
  simp only
  rw [foldl_add_sum_squares _ (fun sq =>
      if !(b.pieceAt sq).isNone ∧ (b.pieceAt sq).type ≠ PieceType.King ∧
          (b.pieceAt sq).type ≠ PieceType.Pawn then (b.pieceAt sq).value else 0)]
  · simp
  · intro sq _ s
    split_ifs <;> simp

theorem isEndgame_mirror {a b : Board} (h : a.MirrorCells b) : isEndgame a = isEndgame b := by
  rw [isEndgame_eq_sum, isEndgame_eq_sum]
  congr 2
  rw [← sum_range_mirror]
  apply sum_map_eq_of_mem
  intro sq hsq
  rw [List.mem_range] at hsq
  rw [(h.at_square sq hsq).1]
  simp only [Piece.swapColor_isNone, Piece.swapColor_type, Piece.swapColor_value]

theorem evaluateMaterial_mirror {a b : Board} (h : a.MirrorCells b) (hb : b.CellsProper) :
    evaluateMaterial a = -evaluateMaterial b := by
  rw [evaluateMaterial_eq_sum, evaluateMaterial_eq_sum, ← sum_range_mirror]
  apply sum_map_neg_of_mem
  intro sq hsq
  rw [List.mem_range] at hsq
  rw [(h.at_square sq hsq).1, Piece.swapColor_value]
  exact signed_swapColor _ (hb sq hsq) _

theorem getPieceSquareValue_mirror {a b : Board} (h : a.MirrorCells b) (p : Piece)
    (hc : p.color = Color.White ∨ p.color = Color.Black) (sq : Nat) (hsq : sq < 64) :
    getPieceSquareValue a p.swapColor (mirrorSquare sq) = getPieceSquareValue b p sq := by
  obtain ⟨_, _, m2, m3, _⟩ := mirrorSquare_props sq hsq
  have hidx : (if p.swapColor.isBlack then
        makeSquare (getFile (mirrorSquare sq)) (7 - getRank (mirrorSquare sq))
        else mirrorSquare sq) =
      (if p.isBlack then makeSquare (getFile sq) (7 - getRank sq) else sq) := by
    obtain ⟨t, c⟩ := p
    simp only at hc
    rcases hc with hc | hc
    · subst hc
      have e : (7 : Int) - (7 - getRank sq) = getRank sq := by ring
      simp only [Piece.swapColor, Piece.isBlack, Color.swap, decide_True, if_true]
      rw [m2, m3, e, makeSquare_file_rank_self sq hsq]
      simp
    · subst hc
      simp [Piece.swapColor, Piece.isBlack, Color.swap, mirrorSquare]
  unfold getPieceSquareValue
  simp only
  rw [hidx, isEndgame_mirror h]
  rfl

theorem evaluatePosition_mirror {a b : Board} (h : a.MirrorCells b) (hb : b.CellsProper) :
    evaluatePosition a = -evaluatePosition b := by
  rw [evaluatePosition_eq_sum, evaluatePosition_eq_sum, ← sum_range_mirror]
  apply sum_map_neg_of_mem
  intro sq hsq
  rw [List.mem_range] at hsq
  rw [(h.at_square sq hsq).1]
  rcases hb sq hsq with he | ⟨ht, hc⟩
  · rw [he]; simp [Piece.empty, Piece.swapColor, Piece.isNone]
  · rw [getPieceSquareValue_mirror h _ hc sq hsq]
    exact signed_swapColor _ (Or.inr ⟨ht, hc⟩) _

theorem evaluateMobility_mirror {a b : Board} (h : a.MirrorCells b) (hp : a.MirrorPosition b)
    (hW : b.OneKing Color.White) (hB : b.OneKing Color.Black) (hE : b.CastlingFromFileE) :
    evaluateMobility a = -evaluateMobility b := by
  have h1 : (generateLegalMoves a Color.White).length =
      (generateLegalMoves b Color.Black).length :=
    generateLegalMoves_mirror_length h hp Color.Black (Or.inr rfl) hB hE
  have h2 : (generateLegalMoves a Color.Black).length =
      (generateLegalMoves b Color.White).length :=
    generateLegalMoves_mirror_length h hp Color.White (Or.inl rfl) hW hE
  unfold evaluateMobility
  simp only
  rw [h1, h2]
  ring

end AI.Evaluator

namespace AI.Evaluator

theorem evaluateKingSafety_eq (b : Board) :
    evaluateKingSafety b =
      if b.findKing Color.Black ≠ 255 ∧ !isEndgame b then
        ([-1, 0, 1] : List Int).foldl (shieldStepBlack b (b.findKing Color.Black))
          (if b.findKing Color.White ≠ 255 ∧ !isEndgame b then
            ([-1, 0, 1] : List Int).foldl (shieldStepWhite b (b.findKing Color.White)) 0
          else 0)
      else
        (if b.findKing Color.White ≠ 255 ∧ !isEndgame b then
            ([-1, 0, 1] : List Int).foldl (shieldStepWhite b (b.findKing Color.White)) 0
          else 0) := rfl

end AI.Evaluator

theorem foldl_neg_of_step (f g : Int → Int → Int) (h : ∀ s x, f s x = -g (-s) x) :
    ∀ (l : List Int) (s : Int), l.foldl f s = -l.foldl g (-s) := by
  intro l
  induction l with
  | nil => intro s; simp
  | cons a t ih =>
    intro s
    rw [List.foldl_cons, List.foldl_cons, ih, h, neg_neg]

theorem foldl_shift_of_step (f : Int → Int → Int) (h : ∀ s x, f s x = s + f 0 x) :
    ∀ (l : List Int) (s : Int), l.foldl f s = s + l.foldl f 0 := by
  intro l
  induction l with
  | nil => intro s; simp
  | cons a t ih =>
    intro s
    rw [List.foldl_cons, List.foldl_cons, ih, ih (f 0 a), h s a]
    ring

theorem pawn_swapColor (p : Piece) :
    ((p.swapColor.type = PieceType.Pawn ∧ p.swapColor.isWhite = true) ↔
      (p.type = PieceType.Pawn ∧ p.isBlack = true)) ∧
    ((p.swapColor.type = PieceType.Pawn ∧ p.swapColor.isBlack = true) ↔
      (p.type = PieceType.Pawn ∧ p.isWhite = true)) := by
  obtain ⟨t, c⟩ := p
  cases c <;> simp [Piece.swapColor, Piece.isWhite, Piece.isBlack, Color.swap]

namespace AI.Evaluator

theorem shieldStepWhite_mirror {a b : Board} (h : a.MirrorCells b) (k : Nat) (hk : k < 64)
    (s df : Int) :
    shieldStepWhite a (mirrorSquare k) s df = -shieldStepBlack b k (-s) df := by
  obtain ⟨_, _, m2, m3, _⟩ := mirrorSquare_props k hk
  obtain ⟨r0, r8⟩ := getRank_range k hk
  unfold shieldStepWhite shieldStepBlack
  simp only
  rw [m2, m3]
  by_cases hc : getFile k + df ≥ 0 ∧ getFile k + df < 8 ∧ getRank k > 0
  · have hc2 : getFile k + df ≥ 0 ∧ getFile k + df < 8 ∧ 7 - getRank k < 7 :=
      ⟨hc.1, hc.2.1, by omega⟩
    have hv : isSquareValid (getFile k + df) (getRank k - 1) = true := by
      rw [isSquareValid_iff]; omega
    have e : (7 : Int) - getRank k + 1 = 7 - (getRank k - 1) := by ring
    rw [if_pos hc, if_pos hc2, e, h _ _ hv]
    by_cases hp : (b.pieceAt (makeSquare (getFile k + df) (getRank k - 1))).type =
        PieceType.Pawn ∧ (b.pieceAt (makeSquare (getFile k + df) (getRank k - 1))).isBlack = true
    · rw [if_pos hp, if_pos ((pawn_swapColor _).1.mpr hp)]; ring
    · rw [if_neg hp, if_neg (fun hx => hp ((pawn_swapColor _).1.mp hx))]; ring
  · have hc2 : ¬(getFile k + df ≥ 0 ∧ getFile k + df < 8 ∧ 7 - getRank k < 7) := by
      intro hx; exact hc ⟨hx.1, hx.2.1, by omega⟩
    rw [if_neg hc, if_neg hc2, neg_neg]

theorem shieldStepBlack_mirror {a b : Board} (h : a.MirrorCells b) (k : Nat) (hk : k < 64)
    (s df : Int) :
    shieldStepBlack a (mirrorSquare k) s df = -shieldStepWhite b k (-s) df := by
  obtain ⟨_, _, m2, m3, _⟩ := mirrorSquare_props k hk
  obtain ⟨r0, r8⟩ := getRank_range k hk
  unfold shieldStepWhite shieldStepBlack
  simp only
  rw [m2, m3]
  by_cases hc : getFile k + df ≥ 0 ∧ getFile k + df < 8 ∧ getRank k < 7
  · have hc2 : getFile k + df ≥ 0 ∧ getFile k + df < 8 ∧ 7 - getRank k > 0 :=
      ⟨hc.1, hc.2.1, by omega⟩
    have hv : isSquareValid (getFile k + df) (getRank k + 1) = true := by
      rw [isSquareValid_iff]; omega
    have e : (7 : Int) - getRank k - 1 = 7 - (getRank k + 1) := by ring
    rw [if_pos hc, if_pos hc2, e, h _ _ hv]
    by_cases hp : (b.pieceAt (makeSquare (getFile k + df) (getRank k + 1))).type =
        PieceType.Pawn ∧ (b.pieceAt (makeSquare (getFile k + df) (getRank k + 1))).isWhite = true
    · rw [if_pos hp, if_pos ((pawn_swapColor _).2.mpr hp)]; ring
    · rw [if_neg hp, if_neg (fun hx => hp ((pawn_swapColor _).2.mp hx))]; ring
  · have hc2 : ¬(getFile k + df ≥ 0 ∧ getFile k + df < 8 ∧ 7 - getRank k > 0) := by
      intro hx; exact hc ⟨hx.1, hx.2.1, by omega⟩
    rw [if_neg hc, if_neg hc2, neg_neg]

theorem shieldStepWhite_shift (b : Board) (k : Nat) (s df : Int) :
    shieldStepWhite b k s df = s + shieldStepWhite b k 0 df := by
  unfold shieldStepWhite
  simp only
  split_ifs <;> ring

theorem shieldStepBlack_shift (b : Board) (k : Nat) (s df : Int) :
    shieldStepBlack b k s df = s + shieldStepBlack b k 0 df := by
  unfold shieldStepBlack
  simp only
  split_ifs <;> ring

theorem evaluateKingSafety_mirror {a b : Board} (h : a.MirrorCells b)
    (hW : b.OneKing Color.White) (hB : b.OneKing Color.Black) :
    evaluateKingSafety a = -evaluateKingSafety b := by
  have e1 : a.findKing Color.White =
      if b.findKing Color.Black = 255 then 255 else mirrorSquare (b.findKing Color.Black) :=
    findKing_mirror h Color.Black hB
  have e2 : a.findKing Color.Black =
      if b.findKing Color.White = 255 then 255 else mirrorSquare (b.findKing Color.White) :=
    findKing_mirror h Color.White hW
  have kW := findKing_lt_or_none b Color.White
  have kB := findKing_lt_or_none b Color.Black
  rw [evaluateKingSafety_eq a, evaluateKingSafety_eq b, e1, e2, isEndgame_mirror h]
  generalize b.findKing Color.White = w at kW ⊢
  generalize b.findKing Color.Black = k at kB ⊢
  have mW : w < 64 → mirrorSquare w ≠ 255 := fun hw => by
    have := (mirrorSquare_props w hw).2.1; omega
  have mB : k < 64 → mirrorSquare k ≠ 255 := fun hk => by
    have := (mirrorSquare_props k hk).2.1; omega
  cases heg : isEndgame b
  swap
  · simp
  have sW := foldl_shift_of_step _ (shieldStepWhite_shift b w) [-1, 0, 1]
  have sB := foldl_shift_of_step _ (shieldStepBlack_shift b k) [-1, 0, 1]
  by_cases hw : w = 255
  · by_cases hk : k = 255
    · simp [hw, hk]
    · have hk64 : k < 64 := by rcases kB with kB | kB; exact absurd kB hk; exact kB.1
      have nW := foldl_neg_of_step _ _ (shieldStepWhite_mirror h k hk64) [-1, 0, 1]
      simp only [hw, hk, if_true, if_false, ne_eq, not_true_eq_false, not_false_eq_true,
        false_and, true_and, Bool.not_false, mB hk64]
      rw [nW]
      simp
  · have hw64 : w < 64 := by rcases kW with kW | kW; exact absurd kW hw; exact kW.1
    have nB := foldl_neg_of_step _ _ (shieldStepBlack_mirror h w hw64) [-1, 0, 1]
    by_cases hk : k = 255
    · simp only [hw, hk, if_true, if_false, ne_eq, not_true_eq_false, not_false_eq_true,
        false_and, true_and, Bool.not_false, mW hw64]
      rw [nB]
      simp
    · have hk64 : k < 64 := by rcases kB with kB | kB; exact absurd kB hk; exact kB.1
      have nW := foldl_neg_of_step _ _ (shieldStepWhite_mirror h k hk64) [-1, 0, 1]
      simp only [hw, hk, if_true, if_false, ne_eq, not_true_eq_false, not_false_eq_true,
        false_and, true_and, Bool.not_false, mW hw64, mB hk64]
      rw [nB, nW]
      simp only [neg_neg, neg_zero]
      rw [sW (List.foldl (shieldStepBlack b k) 0 [-1, 0, 1]),
        sB (List.foldl (shieldStepWhite b w) 0 [-1, 0, 1])]
      ring

end AI.Evaluator

namespace AI.Evaluator

theorem eight_flip_perm : (eight.map fun r => 7 - r).Perm eight := by decide

/-- A file of the mirror image holds as many pawns of a colour as the file of the board
holds of the other colour. -/
theorem pawnsOnFile_mirror {a b : Board} (h : a.MirrorCells b) (c : Color) (file : Int)
    (hf : 0 ≤ file ∧ file < 8) :
    pawnsOnFile a c.swap file = pawnsOnFile b c file := by
  unfold pawnsOnFile
  congr 1
  rw [← eight_flip_perm.countP_eq, List.countP_map]
  apply List.countP_congr
  intro rank hrank
  rw [mem_eight] at hrank
  have hv : isSquareValid file rank = true := by rw [isSquareValid_iff]; omega
  simp only [Function.comp, decide_eq_true_eq]
  rw [h file rank hv, pawn_cell_iff, pawn_cell_iff, Piece.swapColor_type, Piece.swapColor_color,
    Color.swap_eq_iff]

theorem pawnNextTo_mirror {a b : Board} (h : a.MirrorCells b) (c : Color) (file : Int) :
    pawnNextTo a c.swap file = pawnNextTo b c file := by
  have guard : ∀ adj : Int,
      (decide (0 ≤ adj ∧ adj < 8) && decide (pawnsOnFile a c.swap adj > 0)) =
        (decide (0 ≤ adj ∧ adj < 8) && decide (pawnsOnFile b c adj > 0)) := by
    intro adj
    by_cases hadj : 0 ≤ adj ∧ adj < 8
    · rw [pawnsOnFile_mirror h c adj hadj]
    · simp only [hadj, decide_False, Bool.false_and]
  unfold pawnNextTo
  simp only [List.any_cons, List.any_nil, Bool.or_false]
  rw [guard, guard]

theorem doubledTerm_mirror {a b : Board} (h : a.MirrorCells b) :
    doubledTerm a = -doubledTerm b := by
  unfold doubledTerm
  apply sum_map_neg_of_mem
  intro file hfile
  rw [mem_eight] at hfile
  have w1 : pawnsOnFile a Color.White file = pawnsOnFile b Color.Black file :=
    pawnsOnFile_mirror h Color.Black file hfile
  have w2 : pawnsOnFile a Color.Black file = pawnsOnFile b Color.White file :=
    pawnsOnFile_mirror h Color.White file hfile
  rw [w1, w2]
  split_ifs <;> ring

theorem isolatedPerFile_mirror {a b : Board} (h : a.MirrorCells b) :
    isolatedPerFile a = -isolatedPerFile b := by
  unfold isolatedPerFile
  apply sum_map_neg_of_mem
  intro file hfile
  rw [mem_eight] at hfile
  have w1 : pawnsOnFile a Color.White file = pawnsOnFile b Color.Black file :=
    pawnsOnFile_mirror h Color.Black file hfile
  have w2 : pawnsOnFile a Color.Black file = pawnsOnFile b Color.White file :=
    pawnsOnFile_mirror h Color.White file hfile
  have n1 : pawnNextTo a Color.White file = pawnNextTo b Color.Black file :=
    pawnNextTo_mirror h Color.Black file
  have n2 : pawnNextTo a Color.Black file = pawnNextTo b Color.White file :=
    pawnNextTo_mirror h Color.White file
  rw [w1, w2, n1, n2]
  split_ifs <;> ring

theorem evaluatePawnStructure_mirror {a b : Board} (h : a.MirrorCells b)
    (hb : b.CellsProper) :
    evaluatePawnStructure a = -evaluatePawnStructure b := by
  have pb : ∀ sq, sq < 64 → (b.pieceAt sq).type = PieceType.Pawn →
      (b.pieceAt sq).color = Color.White ∨ (b.pieceAt sq).color = Color.Black := by
    intro sq hsq ht
    rcases hb sq hsq with he | ⟨_, hc⟩
    · rw [he] at ht; exact absurd ht (by decide)
    · exact hc
  have pa : ∀ sq, sq < 64 → (a.pieceAt sq).type = PieceType.Pawn →
      (a.pieceAt sq).color = Color.White ∨ (a.pieceAt sq).color = Color.Black := by
    intro sq hsq ht
    obtain ⟨_, m1, _, _, _⟩ := mirrorSquare_props sq hsq
    rw [(h.at_square sq hsq).2] at ht ⊢
    rw [Piece.swapColor_type] at ht
    rcases pb _ m1 ht with hc | hc
    · right; rw [Piece.swapColor_color, hc]; rfl
    · left; rw [Piece.swapColor_color, hc]; rfl
  rw [evaluatePawnStructure_eq a pa, evaluatePawnStructure_eq b pb, doubledTerm_mirror h,
    isolatedPerFile_mirror h]
  ring

end AI.Evaluator

/-- C37. Evaluation is colour-antisymmetric. For every well-formed board `b` (the cells
`0..63` hold `Piece()` or a piece of type Pawn..King and colour White or Black, and a
colour that holds a castling right has its king on the e-file) that has at most one
king of each colour, `Evaluator::evaluate()` on the mirror image of `b` (the cell
`(file, rank)` holds the colour-swapped piece of the cell `(file, 7 - rank)`, the
castling rights are exchanged between the colours, the en-passant target is reflected)
is the negation of `evaluate()` on `b`, and each of the five terms (material, position,
mobility, king safety, pawn structure) is negated. -/
theorem evaluate_mirror_negated (b : Board) (hw : b.WellFormed)
    (hk : b.OneKing Color.White ∧ b.OneKing Color.Black) :
    Evaluator.evaluate b.mirror = -Evaluator.evaluate b ∧
    Evaluator.evaluateMaterial b.mirror = -Evaluator.evaluateMaterial b ∧
    Evaluator.evaluatePosition b.mirror = -Evaluator.evaluatePosition b ∧
    Evaluator.evaluateMobility b.mirror = -Evaluator.evaluateMobility b ∧
    Evaluator.evaluateKingSafety b.mirror = -Evaluator.evaluateKingSafety b ∧
    Evaluator.evaluatePawnStructure b.mirror = -Evaluator.evaluatePawnStructure b := by
  have h := Board.mirror_mirrorCells b
  have hp := Board.mirror_mirrorPosition b
  have t1 := Evaluator.evaluateMaterial_mirror h hw.1
  have t2 := Evaluator.evaluatePosition_mirror h hw.1
  have t3 := Evaluator.evaluateMobility_mirror h hp hk.1 hk.2 hw.2
  have t4 := Evaluator.evaluateKingSafety_mirror h hk.1 hk.2
  have t5 := Evaluator.evaluatePawnStructure_mirror h hw.1
  refine ⟨?_, t1, t2, t3, t4, t5⟩
  unfold Evaluator.evaluate
  simp only
  rw [t1, t2, t3, t4, t5]
  ring

set_option maxRecDepth 1000000 in
/-- Witness of C37: the position `4k3/8/8/8/8/P7/P7/4K2R w K - 0 1`, in which White
holds the king-side castling right with the king on e1. -/
theorem evaluate_mirror_negated_witness :
    kingsideRight.WellFormed ∧
    (kingsideRight.OneKing Color.White ∧ kingsideRight.OneKing Color.Black) ∧
    (Evaluator.evaluate kingsideRight.mirror = -Evaluator.evaluate kingsideRight ∧
      Evaluator.evaluateMaterial kingsideRight.mirror =
        -Evaluator.evaluateMaterial kingsideRight ∧
      Evaluator.evaluatePosition kingsideRight.mirror =
        -Evaluator.evaluatePosition kingsideRight ∧
      Evaluator.evaluateMobility kingsideRight.mirror =
        -Evaluator.evaluateMobility kingsideRight ∧
      Evaluator.evaluateKingSafety kingsideRight.mirror =
        -Evaluator.evaluateKingSafety kingsideRight ∧
      Evaluator.evaluatePawnStructure kingsideRight.mirror =
        -Evaluator.evaluatePawnStructure kingsideRight) :=
  have cells : kingsideRight.CellsProper := by unfold Board.CellsProper; decide
  have kings : ∀ sq, sq < 64 → (kingsideRight.pieceAt sq).type = PieceType.King →
      getFile sq = 4 := by decide
  have white : ∀ sq, sq < 64 → ((kingsideRight.pieceAt sq).type = PieceType.King ∧
      (kingsideRight.pieceAt sq).color = Color.White) → sq = 4 := by decide
  have black : ∀ sq, sq < 64 → ((kingsideRight.pieceAt sq).type = PieceType.King ∧
      (kingsideRight.pieceAt sq).color = Color.Black) → sq = 60 := by decide
  have hw : kingsideRight.WellFormed :=
    ⟨cells, fun _ _ sq hsq ht _ => kings sq hsq ht⟩
  have hk : kingsideRight.OneKing Color.White ∧ kingsideRight.OneKing Color.Black :=
    ⟨fun s1 s2 h1 h2 k1 k2 => (white s1 h1 k1).trans (white s2 h2 k2).symm,
      fun s1 s2 h1 h2 k1 k2 => (black s1 h1 k1).trans (black s2 h2 k2).symm⟩
  ⟨hw, hk, evaluate_mirror_negated kingsideRight hw hk⟩

set_option maxRecDepth 1000000 in
/-- The castling condition of `Board.WellFormed` cannot be dropped. In
`4k3/8/8/8/6K1/P7/8/8 w K - 0 1` every cell is proper and each colour has one king, but
White holds the king-side castling right with the king on g4, which is not a
well-formed board. The castling block takes its squares from where the king stands: on the board the
destination `makeSquare(6 + 2, 3)` is the empty cell a5 and the move is generated, on
the mirror image `makeSquare(6 + 2, 4)` is the cell a6, which holds the mirrored pawn,
and it is not. The mobility terms are `(10 - 5) * 10` and `(5 - 9) * 10`, and
`evaluate()` returns 155 on the board and -145 on its mirror image. -/
theorem mobility_off_file_e_not_mirrored :
    strayRight.CellsProper ∧
    strayRight.OneKing Color.White ∧ strayRight.OneKing Color.Black ∧
    Evaluator.evaluateMobility strayRight = 50 ∧
    Evaluator.evaluateMobility strayRight.mirror = -40 ∧
    Evaluator.evaluate strayRight = 155 ∧
    Evaluator.evaluate strayRight.mirror = -145 := by
  have white : ∀ sq, sq < 64 → ((strayRight.pieceAt sq).type = PieceType.King ∧
      (strayRight.pieceAt sq).color = Color.White) → sq = 30 := by decide
  have black : ∀ sq, sq < 64 → ((strayRight.pieceAt sq).type = PieceType.King ∧
      (strayRight.pieceAt sq).color = Color.Black) → sq = 60 := by decide
  refine ⟨by unfold Board.CellsProper; decide,
    fun s1 s2 h1 h2 k1 k2 => (white s1 h1 k1).trans (white s2 h2 k2).symm,
    fun s1 s2 h1 h2 k1 k2 => (black s1 h1 k1).trans (black s2 h2 k2).symm, ?_, ?_, ?_, ?_⟩
  · decide!
  · decide!
  · decide!
  · decide!

end Chess
